import Mathlib

/-!
The secret-tree construction engine of `safe` (vault/tree.go).

A shallow embedding of `src/vault/tree.go`:

* the self-terminating work queue (`workQueue`, `Pop`, `Push`, `Close`);
* the tree node model (`Tree`) with the classifier `getWorkType` and the
  post-processing passes `pruneEmpty`, `pruneKeys`, `sort`;
* the worker operations and `ConstructTree` over an abstract backend.

Conventions.  A Go `string` is a sequence of bytes and is compared byte-wise,
so it is embedded as `List Nat` (one entry per byte) with the lexicographic
order.  Go `uint` fields are `Nat`, Go `int` fields are `Int`; no arithmetic in
this file can reach the 64-bit bounds except the `awake` counter, which would
need 2^63 calls of `Pop`.  A `*Tree` pointing into the tree under construction
is the list of branch indices leading from the starting node to that node.
-/

namespace Safe

/-! ## Definitions -/

/-- A Go string: its bytes. -/
abbrev GoString := List Nat

/-- Go `workOrder`: `insertInto` addresses the node to expand (branch indices
from the starting node), `operation` is the bitmask of backend operations. -/
structure workOrder where
  insertInto : List Nat
  operation : Nat
deriving DecidableEq, Repr

/-- Go `workQueue`.  `items` is the chain of `workQueueNode`s from `head` to
`tail` (`head == nil` exactly when `items = []`); the condition variable `c`
is represented by the outcomes of `Pop`. -/
structure workQueue where
  items : List workOrder
  awake : Int
  closed : Bool
deriving DecidableEq, Repr

/-- What a call of `Pop` does next once it holds the lock: return an order,
return "no more work" (`done = true`), or block in `c.Wait()`. -/
inductive popOutcome where
  | order (o : workOrder)
  | done
  | wait
deriving DecidableEq, Repr

/-- Go `newWorkQueue`. -/
def newWorkQueue (numWorkers : Int) : workQueue :=
  { items := [], awake := numWorkers, closed := false }

/-- The part of `Pop` from the head of its `for` loop on, run under the lock:
on an empty open queue it closes the queue when `awake == 0` and blocks
otherwise; then a closed queue gives "no more work" and an open one hands out
the head order after `awake++`.  A call woken from `c.Wait()` re-enters here. -/
def popLoop (w : workQueue) : popOutcome × workQueue :=
  match w.items, w.closed with
  | [], false =>
    if w.awake = 0 then (popOutcome.done, { w with closed := true })
    else (popOutcome.wait, w)
  | _, true => (popOutcome.done, w)
  | o :: rest, false => (popOutcome.order o, { w with awake := w.awake + 1, items := rest })

/-- Go `workQueue.Pop` up to its return or its first `c.Wait()`: `awake--`,
then the loop. -/
def Pop (w : workQueue) : popOutcome × workQueue :=
  popLoop { w with awake := w.awake - 1 }

/-- Go `workQueue.Push`. -/
def Push (w : workQueue) (o : workOrder) : workQueue :=
  if w.closed then w else { w with items := w.items ++ [o] }

/-- Go `workQueue.Close`. -/
def Close (w : workQueue) : workQueue :=
  if !w.closed then { w with closed := true } else w

/-! ### Runs of the queue under arbitrary callers -/

/-- One call on the queue: a `Push`, a new `Pop`, or a `Pop` blocked in
`c.Wait()` that is woken and re-checks its loop condition. -/
inductive queueCall where
  | push (o : workOrder)
  | pop
  | wake
deriving DecidableEq, Repr

/-- A queue together with the history of a run: how many `Pop` calls are
blocked, every order handed to `Push`, every order `Push` enqueued, and every
order returned by a `Pop`, oldest first. -/
structure queueRun where
  q : workQueue
  blocked : Nat
  pushed : List workOrder
  enqueued : List workOrder
  popped : List workOrder
  refused : Nat
deriving DecidableEq, Repr

/-- Record the outcome of a `Pop` (or of a woken `Pop`) in the history. -/
def queueRun.record (r : queueRun) (blockedBefore : Nat) (res : popOutcome × workQueue) :
    queueRun :=
  match res.1 with
  | popOutcome.order o => { r with q := res.2, blocked := blockedBefore, popped := r.popped ++ [o] }
  | popOutcome.done => { r with q := res.2, blocked := blockedBefore, refused := r.refused + 1 }
  | popOutcome.wait => { r with q := res.2, blocked := blockedBefore + 1 }

/-- One call applied to a run.  `wake` without a blocked `Pop` changes nothing. -/
def queueRun.step (r : queueRun) : queueCall → queueRun
  | queueCall.push o =>
    { r with q := Push r.q o, pushed := r.pushed ++ [o],
             enqueued := if r.q.closed then r.enqueued else r.enqueued ++ [o] }
  | queueCall.pop => r.record r.blocked (Pop r.q)
  | queueCall.wake =>
    match r.blocked with
    | 0 => r
    | n + 1 => r.record n (popLoop r.q)

/-- The run from `newWorkQueue numWorkers` under a sequence of calls. -/
def queueRun.exec (numWorkers : Int) (calls : List queueCall) : queueRun :=
  calls.foldl queueRun.step
    { q := newWorkQueue numWorkers, blocked := 0, pushed := [], enqueued := [], popped := [],
      refused := 0 }

/-! ### Runs of the worker pool on the queue -/

/-- Where a worker stands with respect to the queue: it has not called `Pop`
yet, it holds the order its last `Pop` returned, it is blocked inside `Pop`,
or its `Pop` returned "no more work". -/
inductive workerStatus where
  | starting
  | holding (o : workOrder)
  | waiting
  | finished
deriving DecidableEq, Repr

/-- The queue and the status of each worker. -/
structure pool where
  q : workQueue
  workers : List workerStatus
deriving DecidableEq, Repr

/-- A move of the pool: worker `i` calls `Pop` (it is done with the order it
held, if any), worker `i` is woken inside `Pop`, or worker `i` pushes an order
while it holds one. -/
inductive poolMove where
  | callPop (i : Nat)
  | wake (i : Nat)
  | push (i : Nat) (o : workOrder)
deriving DecidableEq, Repr

/-- The status of a worker after its `Pop` reached the given outcome. -/
def workerStatus.after : popOutcome → workerStatus
  | popOutcome.order o => workerStatus.holding o
  | popOutcome.done => workerStatus.finished
  | popOutcome.wait => workerStatus.waiting

/-- One move of the pool; a move that the worker cannot make in its status
leaves the pool as it is. -/
def pool.step (s : pool) : poolMove → pool
  | poolMove.callPop i =>
    match s.workers.get? i with
    | some workerStatus.starting | some (workerStatus.holding _) =>
      { q := (Pop s.q).2, workers := s.workers.set i (workerStatus.after (Pop s.q).1) }
    | _ => s
  | poolMove.wake i =>
    match s.workers.get? i with
    | some workerStatus.waiting =>
      { q := (popLoop s.q).2, workers := s.workers.set i (workerStatus.after (popLoop s.q).1) }
    | _ => s
  | poolMove.push i o =>
    match s.workers.get? i with
    | some (workerStatus.holding _) => { s with q := Push s.q o }
    | _ => s

/-- The pool as `ConstructTree` starts it: `newWorkQueue(numWorkers)`, the
orders pushed before the workers run, and `numWorkers` workers. -/
def pool.init (numWorkers : Nat) (seed : List workOrder) : pool :=
  { q := seed.foldl Push (newWorkQueue numWorkers),
    workers := List.replicate numWorkers workerStatus.starting }

/-- The pool after a sequence of moves. -/
def pool.run (numWorkers : Nat) (seed : List workOrder) (moves : List poolMove) : pool :=
  moves.foldl pool.step (pool.init numWorkers seed)

/-- A worker counted in `awake`: one that is outside `Pop`. -/
def workerStatus.isAwake : workerStatus → Bool
  | workerStatus.starting => true
  | workerStatus.holding _ => true
  | _ => false

/-- A worker that holds an order it has not finished. -/
def workerStatus.isHolding : workerStatus → Bool
  | workerStatus.holding _ => true
  | _ => false

/-- Successive calls of `Pop`, each run to its first outcome; the outcomes in
call order and the queue left behind. -/
def popMany : Nat → workQueue → List popOutcome × workQueue
  | 0, w => ([], w)
  | n + 1, w => ((Pop w).1 :: (popMany n (Pop w).2).1, (popMany n (Pop w).2).2)

/-- The number of workers counted in `awake`. -/
def awakeCount (ws : List workerStatus) : Nat :=
  ws.countP workerStatus.isAwake

/-- The history of a run accounts for every order: a closed queue is empty,
and the orders enqueued are those returned followed by those still queued. -/
def queueRun.sound (r : queueRun) : Prop :=
  (r.q.closed = true → r.q.items = []) ∧ r.enqueued = r.popped ++ r.q.items

/-- The accounting of the pool: `awake` counts the workers outside `Pop`, and a
closed queue has none. -/
def pool.accounted (s : pool) : Prop :=
  s.q.awake = (awakeCount s.workers : Int) ∧ (s.q.closed = true → s.q.awake = 0)

/-! ### The tree node model -/

/-- Go `Tree`.  The field `Type` is spelled `Typ`. -/
inductive Tree where
  | mk (Name : GoString) (Branches : List Tree) (Typ : Int) (MountVersion : Nat)
      (Value : GoString) (Version : Nat) (Deleted : Bool)
deriving Repr

/-- Field `Name`. -/
def Tree.Name : Tree → GoString
  | Tree.mk n _ _ _ _ _ _ => n

/-- Field `Branches`. -/
def Tree.Branches : Tree → List Tree
  | Tree.mk _ bs _ _ _ _ _ => bs

/-- Field `Type`. -/
def Tree.Typ : Tree → Int
  | Tree.mk _ _ ty _ _ _ _ => ty

/-- Field `MountVersion`. -/
def Tree.MountVersion : Tree → Nat
  | Tree.mk _ _ _ mv _ _ _ => mv

/-- Field `Value`. -/
def Tree.Value : Tree → GoString
  | Tree.mk _ _ _ _ v _ _ => v

/-- Field `Version`. -/
def Tree.Version : Tree → Nat
  | Tree.mk _ _ _ _ _ ver _ => ver

/-- Field `Deleted`. -/
def Tree.Deleted : Tree → Bool
  | Tree.mk _ _ _ _ _ _ d => d

/-- Assignment to the field `Name`. -/
def Tree.setName : Tree → GoString → Tree
  | Tree.mk _ bs ty mv v ver d, n => Tree.mk n bs ty mv v ver d

/-- Assignment to the field `Branches`. -/
def Tree.setBranches : Tree → List Tree → Tree
  | Tree.mk n _ ty mv v ver d, bs => Tree.mk n bs ty mv v ver d

/-- Assignment to the field `Type`. -/
def Tree.setTyp : Tree → Int → Tree
  | Tree.mk n bs _ mv v ver d, ty => Tree.mk n bs ty mv v ver d

/-- Assignment to the field `MountVersion`. -/
def Tree.setMountVersion : Tree → Nat → Tree
  | Tree.mk n bs ty _ v ver d, mv => Tree.mk n bs ty mv v ver d

def TreeTypeRoot : Int := 0
def TreeTypeDir : Int := 1
def TreeTypeSecret : Int := 2
def TreeTypeDirAndSecret : Int := 3
def TreeTypeKey : Int := 4
def TreeTypeVersion : Int := 5

def opTypeNone : Nat := 0
def opTypeList : Nat := 1
def opTypeGet : Nat := 2
def opTypeMounts : Nat := 4
def opTypeVersions : Nat := 8

/-- Go `TreeOpts`. -/
structure TreeOpts where
  FetchKeys : Bool
  AllowDeletedKeys : Bool
  FetchAllVersions : Bool
deriving DecidableEq, Repr

/-- The byte of the path separator `/`. -/
def slash : Nat := 47

/-- The byte of the key separator `:`. -/
def colon : Nat := 58

/-- Go `strings.TrimRight(s, cutset)` for a cutset of ASCII bytes: `s` without
its trailing bytes that occur in `cutset`. -/
def TrimRight (s cutset : GoString) : GoString :=
  (s.reverse.dropWhile (fun b => cutset.contains b)).reverse

/-- Go `Tree.getWorkType`: the operation bitmask, and the receiver as the call
leaves it (the method has a pointer receiver and assigns to `t.Name` in the
`TreeTypeDir` case). -/
def Tree.getWorkType (t : Tree) (opts : TreeOpts) : Nat × Tree :=
  if t.Typ = TreeTypeRoot then (opTypeMounts, t)
  else if t.Typ = TreeTypeDir then
    (opTypeList, t.setName (TrimRight t.Name [slash] ++ [slash]))
  else if t.Typ = TreeTypeDirAndSecret then
    (if opts.FetchKeys || (t.MountVersion == 2 && !opts.AllowDeletedKeys)
      then opTypeList ||| opTypeGet else opTypeList, t)
  else if t.Typ = TreeTypeSecret then
    (if opts.FetchAllVersions then opTypeVersions
      else if opts.FetchKeys || (t.MountVersion == 2 && !opts.AllowDeletedKeys) then opTypeGet
      else opTypeNone, t)
  else if t.Typ = TreeTypeVersion then (opTypeGet, t)
  else (opTypeNone, t)

mutual
/-- Go `Tree.Paths`. -/
def Tree.Paths : Tree → List GoString
  | Tree.mk n [] _ _ _ _ _ => [n]
  | Tree.mk _ (b :: bs) _ _ _ _ _ => b.Paths ++ PathsOfBranches bs
/-- The loop of `Paths` over the branches. -/
def PathsOfBranches : List Tree → List GoString
  | [] => []
  | b :: bs => b.Paths ++ PathsOfBranches bs
end

mutual
/-- Go `Tree.pruneEmpty`. -/
def Tree.pruneEmpty : Tree → Tree
  | Tree.mk n bs ty mv v ver d => Tree.mk n (pruneEmptyBranches ty bs) ty mv v ver d
/-- The loop of `pruneEmpty` over the branches of a node of type `parentType`,
giving `newBranches`. -/
def pruneEmptyBranches (parentType : Int) : List Tree → List Tree
  | [] => []
  | b :: bs =>
    if b.MountVersion = 2 then
      if parentType = TreeTypeRoot ∨ b.pruneEmpty.Typ = TreeTypeKey
          ∨ b.pruneEmpty.Branches.length > 0 then
        b.pruneEmpty :: pruneEmptyBranches parentType bs
      else pruneEmptyBranches parentType bs
    else b :: pruneEmptyBranches parentType bs
end

mutual
/-- Go `Tree.pruneKeys`. -/
def Tree.pruneKeys : Tree → Tree
  | Tree.mk n bs ty mv v ver d => Tree.mk n (pruneKeysBranches bs) ty mv v ver d
/-- The loop of `pruneKeys` over the branches, giving `newBranches`. -/
def pruneKeysBranches : List Tree → List Tree
  | [] => []
  | b :: bs =>
    if b.pruneKeys.Typ ≠ TreeTypeKey then b.pruneKeys :: pruneKeysBranches bs
    else pruneKeysBranches bs
end

/-- Go `a < b` on strings: byte-wise lexicographic order, a proper prefix first. -/
def bytesLess : GoString → GoString → Bool
  | [], [] => false
  | [], _ :: _ => true
  | _ :: _, [] => false
  | a :: as, b :: bs => decide (a < b) || (a == b && bytesLess as bs)

/-- The `less` closure that `Tree.sort` hands to `sort.Slice`, on the two
elements compared. -/
def Tree.less (a b : Tree) : Bool :=
  if a.Name = b.Name then decide (a.Version < b.Version) else bytesLess a.Name b.Name

/-- The inner loop of the insertion sort behind `sort.Slice`: the new element
`x` is swapped leftwards past every element it is `less` than.  The sorted
prefix is given, and returned, last element first. -/
def sink (x : Tree) : List Tree → List Tree
  | [] => [x]
  | e :: es => if x.less e then e :: sink x es else x :: e :: es

/-- Go `sort.Slice(t.Branches, less)`: the standard library's insertion sort
(the algorithm it runs on short slices).  The library promises a permutation
sorted by `less` and no particular order among elements neither of which is
`less` than the other. -/
def sortSlice (l : List Tree) : List Tree :=
  (l.foldl (fun acc x => sink x acc) []).reverse

mutual
/-- Go `Tree.sort`. -/
def Tree.sort : Tree → Tree
  | Tree.mk n bs ty mv v ver d => Tree.mk n (sortSlice (sortBranches bs)) ty mv v ver d
/-- The loop of `sort` over the branches, sorting each in place. -/
def sortBranches : List Tree → List Tree
  | [] => []
  | b :: bs => b.sort :: sortBranches bs
end

/-! ### Properties of trees used in the statements -/

/-- Sibling order of the specification: `a` may stand before `b` when the name
of `a` is byte-wise smaller, or the names are equal and the version of `a` is
not greater. -/
def Tree.keyLe (a b : Tree) : Prop :=
  bytesLess a.Name b.Name = true ∨ (a.Name = b.Name ∧ a.Version ≤ b.Version)

/-- Two nodes carry the same sort key: the same name and the same version. -/
def Tree.sameKey (a b : Tree) : Prop :=
  a.Name = b.Name ∧ a.Version = b.Version

mutual
/-- The branches of the node and of every node below it are in sibling order. -/
def Tree.ordered : Tree → Prop
  | Tree.mk _ bs _ _ _ _ _ => bs.Pairwise Tree.keyLe ∧ orderedBranches bs
/-- Every tree of the list is `ordered`. -/
def orderedBranches : List Tree → Prop
  | [] => True
  | b :: bs => b.ordered ∧ orderedBranches bs
end

mutual
/-- The second tree is the first one with the siblings reordered, at any
depth: the two nodes agree on every field but `Branches`, and the branches of
the second are, in some order, reorderings of the branches of the first. -/
def Tree.shuffled : Tree → Tree → Prop
  | Tree.mk n bs ty mv v ver d, t =>
    n = t.Name ∧ ty = t.Typ ∧ mv = t.MountVersion ∧ v = t.Value ∧ ver = t.Version ∧
      d = t.Deleted ∧ shuffledBranches bs t.Branches
/-- The second list is, in some order, one reordering of each tree of the
first list. -/
def shuffledBranches : List Tree → List Tree → Prop
  | [], cs => cs = []
  | b :: bs, cs => ∃ c rest, cs.Perm (c :: rest) ∧ b.shuffled c ∧ shuffledBranches bs rest
end

mutual
/-- At the node and at every node below it, no two branches carry the same
name and version. -/
def Tree.distinctKeys : Tree → Prop
  | Tree.mk _ bs _ _ _ _ _ =>
    bs.Pairwise (fun a b => ¬ Tree.sameKey a b) ∧ distinctKeysBranches bs
/-- Every tree of the list has `distinctKeys`. -/
def distinctKeysBranches : List Tree → Prop
  | [] => True
  | b :: bs => b.distinctKeys ∧ distinctKeysBranches bs
end

/-! ### The backend and the worker operations -/

/-- Modelled from the spec: the errors of the backend client, whose
declarations are not part of the sources at hand.  `NotFound` is the error that
`IsNotFound` recognises; every other failure carries a code. -/
inductive vaultError where
  | NotFound
  | failure (code : Nat)
deriving DecidableEq, Repr

/-- Modelled from the spec: `IsNotFound(err)`. -/
def IsNotFound : vaultError → Bool
  | vaultError.NotFound => true
  | vaultError.failure _ => false

/-- Modelled from the spec: one entry of the answer of `versions(path)`. -/
structure versionInfo where
  Version : Nat
  Deleted : Bool
  Destroyed : Bool
deriving DecidableEq, Repr

/-- Modelled from the spec: the backend client that `tree.go` calls (`Read`,
`List`, `Mounts`, `MountVersion`, `Versions`, `Undelete`, `client.Delete`), over
a backend store of type `σ`; each call answers and leaves a store.  A secret is
given by its keys in the order of `s.Keys()`, each with its value. -/
structure Vault (σ : Type) where
  Read : GoString → Nat → σ → Except vaultError (List (GoString × GoString)) × σ
  Mounts : GoString → σ → Except vaultError (List GoString) × σ
  MountVersion : GoString → σ → Except vaultError Nat × σ
  Versions : GoString → σ → Except vaultError (List versionInfo) × σ
  Undelete : GoString → Nat → σ → Option vaultError × σ
  Delete : GoString → List Nat → σ → Option vaultError × σ
  List : GoString → σ → Except vaultError (List GoString) × σ

/-- Go `strings.TrimSuffix(s, "/")`. -/
def TrimSuffixSlash (s : GoString) : GoString :=
  match s.reverse with
  | c :: rest => if c = slash then rest.reverse else s
  | [] => s

/-- Go `strings.HasSuffix(s, "/")`. -/
def HasSuffixSlash (s : GoString) : Bool :=
  match s.reverse with
  | c :: _ => c == slash
  | [] => false

/-- Go `treeWorker.workList`. -/
def workList {σ : Type} (v : Vault σ) (t : Tree) (s : σ) :
    Except vaultError (List Tree) × σ :=
  match v.List (TrimSuffixSlash t.Name) s with
  | (Except.error e, s1) =>
    if IsNotFound e then (Except.ok [], s1) else (Except.error e, s1)
  | (Except.ok list, s1) =>
    (Except.ok (list.map (fun l =>
      Tree.mk (TrimRight (TrimSuffixSlash t.Name) [slash] ++ [slash] ++ l) []
        (if HasSuffixSlash l then TreeTypeDir else TreeTypeSecret) 0 [] 0 false)), s1)

/-- Go `treeWorker.workGet`.  The error of the re-delete is not assigned to
`err`, so the test that follows it sees the `nil` left by the read. -/
def workGet {σ : Type} (v : Vault σ) (opts : TreeOpts) (t : Tree) (s : σ) :
    Except vaultError (List Tree) × σ :=
  match v.MountVersion t.Name s with
  | (Except.error e, s1) => (Except.error e, s1)
  | (Except.ok mountVersion, s1) =>
    let toggleDelete := t.Deleted && opts.FetchAllVersions
    let undeleted : Option vaultError × σ :=
      if toggleDelete then v.Undelete t.Name t.Version s1 else (none, s1)
    match undeleted with
    | (some e, s2) => (Except.error e, s2)
    | (none, s2) =>
      match v.Read t.Name t.Version s2 with
      | (Except.error e, s3) =>
        if IsNotFound e && mountVersion == 2 then (Except.ok [], s3) else (Except.error e, s3)
      | (Except.ok secret, s3) =>
        let s4 := if toggleDelete then (v.Delete t.Name [t.Version] s3).2 else s3
        let version := if t.Version = 0 then 1 else t.Version
        (Except.ok (secret.map (fun kv =>
          Tree.mk (t.Name ++ [colon] ++ kv.1) [] TreeTypeKey 0 kv.2 version t.Deleted)), s4)

/-- The name of the legacy mount kind, `generic`. -/
def genericKind : GoString := [103, 101, 110, 101, 114, 105, 99]

/-- The name of the versioned mount kind, `kv`. -/
def kvKind : GoString := [107, 118]

/-- Go `treeWorker.workMounts`. -/
def workMounts {σ : Type} (v : Vault σ) (_t : Tree) (s : σ) :
    Except vaultError (List Tree) × σ :=
  match v.Mounts genericKind s with
  | (Except.error e, s1) => (Except.error e, s1)
  | (Except.ok generics, s1) =>
    match v.Mounts kvKind s1 with
    | (Except.error e, s2) => (Except.error e, s2)
    | (Except.ok kvs, s2) =>
      (Except.ok ((kvs ++ generics).map (fun mount =>
        Tree.mk (mount ++ [slash]) [] TreeTypeDir 0 [] 0 false)), s2)

/-- Go `treeWorker.workVersions`. -/
def workVersions {σ : Type} (v : Vault σ) (t : Tree) (s : σ) :
    Except vaultError (List Tree) × σ :=
  match v.Versions t.Name s with
  | (Except.error e, s1) => (Except.error e, s1)
  | (Except.ok versions, s1) =>
    (Except.ok ((versions.filter (fun i => !i.Destroyed)).map (fun i =>
      Tree.mk t.Name [] TreeTypeVersion 0 [] i.Version i.Deleted)), s1)

/-- The loop of `work` over the operations, in its order Get, List, Mounts,
Versions: an operation runs when its bit is set in `operation`, the first error
stops the loop, and the answers are appended in turn. -/
def collectAnswers {σ : Type} (operation : Nat) (t : Tree) :
    List (Nat × (Tree → σ → Except vaultError (List Tree) × σ)) → σ →
      Except vaultError (List Tree) × σ
  | [], s => (Except.ok [], s)
  | (code, fn) :: rest, s =>
    if operation &&& code = 0 then collectAnswers operation t rest s
    else
      match fn t s with
      | (Except.error e, s1) => (Except.error e, s1)
      | (Except.ok toAppend, s1) =>
        match collectAnswers operation t rest s1 with
        | (Except.error e, s2) => (Except.error e, s2)
        | (Except.ok more, s2) => (Except.ok (toAppend ++ more), s2)

/-- The loop of `work` that stamps every answer with the mount version of its
name; the first error stops it. -/
def stampMountVersions {σ : Type} (v : Vault σ) :
    List Tree → σ → Except vaultError (List Tree) × σ
  | [], s => (Except.ok [], s)
  | a :: rest, s =>
    match v.MountVersion a.Name s with
    | (Except.error e, s1) => (Except.error e, s1)
    | (Except.ok mv, s1) =>
      match stampMountVersions v rest s1 with
      | (Except.error e, s2) => (Except.error e, s2)
      | (Except.ok stamped, s2) => (Except.ok (a.setMountVersion mv :: stamped), s2)

/-- The children that `work` computes for the node of an order: the answers of
the operations of the order, stamped with their mount versions. -/
def expandNode {σ : Type} (v : Vault σ) (opts : TreeOpts) (operation : Nat) (t : Tree) (s : σ) :
    Except vaultError (List Tree) × σ :=
  match collectAnswers operation t
      [(opTypeGet, workGet v opts), (opTypeList, workList v), (opTypeMounts, workMounts v),
       (opTypeVersions, workVersions v)] s with
  | (Except.error e, s1) => (Except.error e, s1)
  | (Except.ok answer, s1) => stampMountVersions v answer s1

/-! ### The workers on the tree and `ConstructTree` -/

/-- The node that a `*Tree` points to: follow the branch indices. -/
def Tree.nodeAt : Tree → List Nat → Option Tree
  | t, [] => some t
  | t, i :: rest =>
    match t.Branches.get? i with
    | some b => b.nodeAt rest
    | none => none

/-- Assignment through a `*Tree`: the tree with the node at the address
replaced by its image under `f`. -/
def Tree.modifyAt (f : Tree → Tree) : Tree → List Nat → Tree
  | t, [] => f t
  | t, i :: rest =>
    match t.Branches.get? i with
    | some b => t.setBranches (t.Branches.set i (Tree.modifyAt f b rest))
    | none => t

/-- Where a worker stands in `work`: about to call `Pop` in the loop, holding
the order that `Pop` returned, blocked in `c.Wait()` inside `Pop`, inside
`handleError` after `Close` and the send of its error and before the last
`Pop`, or returned. -/
inductive workerPhase where
  | ready
  | holding (o : workOrder)
  | waiting
  | erred
  | exited
deriving DecidableEq, Repr

/-- What a worker does to the queue and the completion channel, as recorded in
the log of a run. -/
inductive workerAction where
  | popped (o : workOrder)
  | poppedDone
  | blocked
  | pushed (o : workOrder)
  | closed
  | sent (e : Option vaultError)
deriving DecidableEq, Repr

/-- The state shared by the workers of one `ConstructTree` call: the tree
under construction, the queue, the phase of each worker, the messages sent on
the completion channel (oldest first), the backend store, and the log of the
actions of the workers (worker index and action, oldest first). -/
structure crawl (σ : Type) where
  tree : Tree
  q : workQueue
  workers : List workerPhase
  errors : List (Option vaultError)
  store : σ
  log : List (Nat × workerAction)

/-- The orders that `work` pushes after appending the answer: one per branch
of the node, for the branch at index `i` addressed `addr ++ [i]`, classified by
`getWorkType` on a copy of the branch.  The number is the index of the first
branch of the list. -/
def childOrders (opts : TreeOpts) (addr : List Nat) : Nat → List Tree → List workOrder
  | _, [] => []
  | i, b :: bs =>
    { insertInto := addr ++ [i], operation := (b.getWorkType opts).1 }
      :: childOrders opts addr (i + 1) bs

/-- The bookkeeping of a worker whose `Pop` (or woken `Pop`) reached the given
outcome: with an order it goes on to process it, with "no more work" it sends
`nil` and returns, otherwise it blocks. -/
def crawl.afterPop {σ : Type} (c : crawl σ) (i : Nat) (res : popOutcome × workQueue) : crawl σ :=
  match res.1 with
  | popOutcome.order o =>
    { c with q := res.2, workers := c.workers.set i (workerPhase.holding o),
             log := c.log ++ [(i, workerAction.popped o)] }
  | popOutcome.done =>
    { c with q := res.2, workers := c.workers.set i workerPhase.exited,
             errors := c.errors ++ [none],
             log := c.log ++ [(i, workerAction.poppedDone), (i, workerAction.sent none)] }
  | popOutcome.wait =>
    { c with q := res.2, workers := c.workers.set i workerPhase.waiting,
             log := c.log ++ [(i, workerAction.blocked)] }

/-- The body of the loop of `work` for the order `o` held by worker `i`: the
operations of the order on the node it addresses and the stamping of the
answer; on an error `handleError` up to its send; otherwise the answer is
appended to the branches of the node and one order is pushed per branch. -/
def crawl.process {σ : Type} (v : Vault σ) (opts : TreeOpts) (c : crawl σ) (i : Nat)
    (o : workOrder) : crawl σ :=
  match c.tree.nodeAt o.insertInto with
  | none => c
  | some node =>
    match expandNode v opts o.operation node c.store with
    | (Except.error e, s1) =>
      { c with q := Close c.q, workers := c.workers.set i workerPhase.erred,
               errors := c.errors ++ [some e], store := s1,
               log := c.log ++ [(i, workerAction.closed), (i, workerAction.sent (some e))] }
    | (Except.ok answer, s1) =>
      { c with tree := c.tree.modifyAt (fun n => n.setBranches (n.Branches ++ answer))
                 o.insertInto,
               q := (childOrders opts o.insertInto 0 (node.Branches ++ answer)).foldl Push c.q,
               workers := c.workers.set i workerPhase.ready,
               store := s1,
               log := c.log ++
                 (childOrders opts o.insertInto 0 (node.Branches ++ answer)).map
                   (fun p => (i, workerAction.pushed p)) }

/-- One step of worker `i`, according to its phase. -/
def crawl.step {σ : Type} (v : Vault σ) (opts : TreeOpts) (c : crawl σ) (i : Nat) : crawl σ :=
  match c.workers.get? i with
  | some workerPhase.ready => c.afterPop i (Pop c.q)
  | some workerPhase.waiting => c.afterPop i (popLoop c.q)
  | some (workerPhase.holding o) => crawl.process v opts c i o
  | some workerPhase.erred =>
    { c with q := (Pop c.q).2, workers := c.workers.set i workerPhase.exited,
             log := c.log ++ [(i, workerAction.poppedDone)] }
  | _ => c

/-- The workers run under a schedule: the list of the workers that take a
step, in turn. -/
def crawl.run {σ : Type} (v : Vault σ) (opts : TreeOpts) (c : crawl σ) (schedule : List Nat) :
    crawl σ :=
  schedule.foldl (crawl.step v opts) c

/-- Go `Tree.populateNodeType`: the error, the receiver as the call leaves
it, and the store. -/
def Tree.populateNodeType {σ : Type} (v : Vault σ) (t : Tree) (s : σ) :
    Option vaultError × Tree × σ :=
  if t.Name = [slash] then (none, t.setTyp TreeTypeRoot, s)
  else
    match v.Read t.Name 0 s with
    | (Except.error e, s1) =>
      if !IsNotFound e then (some e, t, s1) else (none, t.setTyp TreeTypeDir, s1)
    | (Except.ok _, s1) =>
      match v.List t.Name s1 with
      | (Except.ok _, s2) => (none, t.setTyp TreeTypeDirAndSecret, s2)
      | (Except.error e, s2) =>
        if !IsNotFound e then (some e, t.setTyp TreeTypeSecret, s2)
        else (none, t.setTyp TreeTypeSecret, s2)

/-- The worker count of `ConstructTree`: `runtime.NumCPU()` clamped to 1..3. -/
def numWorkersOf (numCPU : Int) : Int :=
  if numCPU < 1 then 1 else if numCPU > 3 then 3 else numCPU

/-- The loop of `ConstructTree` over the completion messages: every non-nil
message is assigned to `err`. -/
def drainErrors (err : Option vaultError) (msgs : List (Option vaultError)) :
    Option vaultError :=
  msgs.foldl (fun acc m => if m ≠ none then m else acc) err

/-- The post-processing of `ConstructTree`: `pruneEmpty` unless deleted keys
are allowed, `pruneKeys` unless keys were requested, then `sort`. -/
def postProcess (opts : TreeOpts) (t : Tree) : Tree :=
  let t1 := if !opts.AllowDeletedKeys then t.pruneEmpty else t
  let t2 := if !opts.FetchKeys then t1.pruneKeys else t1
  t2.sort

/-- The state in which `ConstructTree` starts its workers: the queue of
`numWorkers` workers seeded with the order for the starting node. -/
def crawl.start {σ : Type} (opts : TreeOpts) (numWorkers : Int) (root : Tree) (s : σ) : crawl σ :=
  { tree := (root.getWorkType opts).2,
    q := Push (newWorkQueue numWorkers)
      { insertInto := [], operation := (root.getWorkType opts).1 },
    workers := List.replicate numWorkers.toNat workerPhase.ready,
    errors := [], store := s, log := [] }

/-- Go `Vault.ConstructTree`, on a machine with `numCPU` processors and with
the workers scheduled by `schedule`.  `Canonicalize` is the package function of
that name, which is not part of the sources at hand.  The call returns once it
has read one completion message per worker; `none` stands for a schedule under
which it is still waiting for a message.  The result is the tree pointer (`nil`
when the probe fails) and the error. -/
def ConstructTree {σ : Type} (Canonicalize : GoString → GoString) (numCPU : Int) (v : Vault σ)
    (schedule : List Nat) (path : GoString) (opts : TreeOpts) (s : σ) :
    Option (Option Tree × Option vaultError) :=
  let path1 := Canonicalize path
  let path2 := if path1 = [] then [slash] else path1
  match (Tree.mk path2 [] 0 0 [] 0 false).populateNodeType v s with
  | (some e, _, _) => some (none, some e)
  | (none, ret, s1) =>
    let c := crawl.run v opts (crawl.start opts (numWorkersOf numCPU) ret s1) schedule
    if c.errors.length = (numWorkersOf numCPU).toNat then
      some (some (postProcess opts c.tree), drainErrors none c.errors)
    else none

/-! ### Nodes of a tree -/

mutual
/-- No node below the root of the tree has type Key. -/
def Tree.noKeyBelow : Tree → Prop
  | Tree.mk _ bs _ _ _ _ _ => noKeyIn bs
/-- No tree of the list is a Key or has a Key below it. -/
def noKeyIn : List Tree → Prop
  | [] => True
  | b :: bs => (b.Typ ≠ TreeTypeKey ∧ b.noKeyBelow) ∧ noKeyIn bs
end

mutual
/-- The nodes below the root, in pre-order (a node before its branches,
siblings in branch order), each without its branches. -/
def Tree.nodesBelow : Tree → List Tree
  | Tree.mk _ bs _ _ _ _ _ => nodesIn bs
/-- The nodes of the trees of a list, in pre-order. -/
def nodesIn : List Tree → List Tree
  | [] => []
  | b :: bs => (b.setBranches [] :: b.nodesBelow) ++ nodesIn bs
end

mutual
/-- The nodes below the root that are not of type Key and have no node of
type Key between them and the root, in pre-order, each without its branches. -/
def Tree.nodesOutsideKeys : Tree → List Tree
  | Tree.mk _ bs _ _ _ _ _ => nodesOutsideKeysIn bs
/-- The same for the trees of a list, the roots of the trees included. -/
def nodesOutsideKeysIn : List Tree → List Tree
  | [] => []
  | b :: bs =>
    (if b.Typ = TreeTypeKey then [] else b.setBranches [] :: b.nodesOutsideKeys)
      ++ nodesOutsideKeysIn bs
end

/-! ### The expansion a crawl builds -/

mutual
/-- Every node of the tree has exactly the children that `work` computes for
it from the backend: the branches of a node, taken without their own branches,
are the answer of `expandNode` for the operation that `getWorkType` gives the
node.  The backend is one without a store. -/
def Tree.expanded (v : Vault Unit) (opts : TreeOpts) : Tree → Prop
  | Tree.mk n bs ty mv val ver d =>
    expandNode v opts ((Tree.mk n [] ty mv val ver d).getWorkType opts).1
        (Tree.mk n [] ty mv val ver d) ()
      = (Except.ok (bs.map (fun b => b.setBranches [])), ()) ∧ expandedAll v opts bs
/-- Every tree of the list is `expanded`. -/
def expandedAll (v : Vault Unit) (opts : TreeOpts) : List Tree → Prop
  | [] => True
  | b :: bs => b.expanded v opts ∧ expandedAll v opts bs
end

/-- The order a worker holds, if it holds one. -/
def workerPhase.held : workerPhase → List workOrder
  | workerPhase.holding o => [o]
  | _ => []

/-- The orders held by the workers. -/
def heldOrders : List workerPhase → List workOrder
  | [] => []
  | w :: ws => w.held ++ heldOrders ws

/-- The orders of a crawl that are not processed yet: those in the queue and
those held by a worker. -/
def crawl.pending {σ : Type} (c : crawl σ) : List workOrder :=
  c.q.items ++ heldOrders c.workers

/-- A worker counted in `awake`: one that is neither blocked inside `Pop` nor
through with its last `Pop`. -/
def workerPhase.isActive : workerPhase → Bool
  | workerPhase.ready => true
  | workerPhase.holding _ => true
  | workerPhase.erred => true
  | _ => false

/-- A worker that has sent its completion message. -/
def workerPhase.hasSent : workerPhase → Bool
  | workerPhase.erred => true
  | workerPhase.exited => true
  | _ => false

/-- The tree under construction agrees with the expansion `X` as far as it is
built: every node of the tree is a node of `X` at the same address, with the
same fields; it has no branches yet when an order for it is pending and as many
branches as in `X` otherwise; every pending order addresses a node of the tree
and carries the operation of that node; and no two pending orders address the
same node. -/
def treeAgrees (opts : TreeOpts) (X tree : Tree) (pend : List workOrder) : Prop :=
  (∀ a n, tree.nodeAt a = some n →
    ∃ m, X.nodeAt a = some m ∧ n.setBranches [] = m.setBranches [] ∧
      (a ∈ pend.map workOrder.insertInto → n.Branches.length = 0) ∧
      (a ∉ pend.map workOrder.insertInto → n.Branches.length = m.Branches.length)) ∧
  (∀ o ∈ pend, ∃ n, tree.nodeAt o.insertInto = some n ∧
    o.operation = ((n.setBranches []).getWorkType opts).1) ∧
  (pend.map workOrder.insertInto).Nodup

/-- The bookkeeping of a crawl in which no worker has met an error: `awake`
counts the active workers, the messages sent are those of the workers that are
through, all of them `nil`; a worker is through only once the queue is closed,
and the closed queue is empty with no worker active. -/
def crawl.sane {σ : Type} (c : crawl σ) : Prop :=
  c.q.awake = ((c.workers.countP workerPhase.isActive : Nat) : Int) ∧
  c.errors.length = c.workers.countP workerPhase.hasSent ∧
  (∀ e ∈ c.errors, e = none) ∧
  (∀ w ∈ c.workers, w ≠ workerPhase.erred) ∧
  (∀ w ∈ c.workers, w = workerPhase.exited → c.q.closed = true) ∧
  (c.q.closed = true → c.q.awake = 0 ∧ c.q.items = [])

/-! ### Backends of the scenarios -/

/-- The backend of the pruning scenario: a version-2 mount in which the
directory `a/` lists the one entry `b`, and the secret `a/b` is soft-deleted,
so that every read answers `NotFound`. -/
def softDeletedBackend : Vault Unit :=
  { Read := fun _ _ s => (Except.error vaultError.NotFound, s),
    Mounts := fun kind s => if kind = kvKind then (Except.ok [[97]], s) else (Except.ok [], s),
    MountVersion := fun _ s => (Except.ok 2, s),
    Versions := fun _ s => (Except.ok [{ Version := 1, Deleted := true, Destroyed := false }], s),
    Undelete := fun _ _ s => (none, s),
    Delete := fun _ _ s => (none, s),
    List := fun p s =>
      if p = [97] then (Except.ok [[98]], s) else (Except.error vaultError.NotFound, s) }

/-- The backend of a version-2 mount in which the directory `a/` lists the one
entry `b` and the secret `a/b` holds the key `k` with the value `v`; nothing
else can be read. -/
def versionedSecretBackend : Vault Unit :=
  { Read := fun p _ s =>
      if p = [97, 47, 98] then (Except.ok [([107], [118])], s)
      else (Except.error vaultError.NotFound, s),
    Mounts := fun kind s => if kind = kvKind then (Except.ok [[97]], s) else (Except.ok [], s),
    MountVersion := fun _ s => (Except.ok 2, s),
    Versions := fun _ s => (Except.ok [{ Version := 1, Deleted := false, Destroyed := false }], s),
    Undelete := fun _ _ s => (none, s),
    Delete := fun _ _ s => (none, s),
    List := fun p s =>
      if p = [97] then (Except.ok [[98]], s) else (Except.error vaultError.NotFound, s) }

/-- A backend in which the directory `a` lists `b` and `c`, on a version-1
mount, and the reads of `a/b` and `a/c` fail with two different errors. -/
def twoFailuresBackend : Vault Unit :=
  { Read := fun p _ s =>
      if p = [97, 47, 98] then (Except.error (vaultError.failure 1), s)
      else if p = [97, 47, 99] then (Except.error (vaultError.failure 2), s)
      else (Except.error vaultError.NotFound, s),
    Mounts := fun _ s => (Except.ok [], s),
    MountVersion := fun _ s => (Except.ok 1, s),
    Versions := fun _ s => (Except.ok [], s),
    Undelete := fun _ _ s => (none, s),
    Delete := fun _ _ s => (none, s),
    List := fun p s =>
      if p = [97] then (Except.ok [[98], [99]], s) else (Except.error vaultError.NotFound, s) }

/-- A backend whose every read fails with an error other than `NotFound`. -/
def unreadableBackend : Vault Unit :=
  { Read := fun _ _ s => (Except.error (vaultError.failure 5), s),
    Mounts := fun _ s => (Except.ok [], s),
    MountVersion := fun _ s => (Except.ok 1, s),
    Versions := fun _ s => (Except.ok [], s),
    Undelete := fun _ _ s => (none, s),
    Delete := fun _ _ s => (none, s),
    List := fun _ s => (Except.error vaultError.NotFound, s) }

/-- A call on the backend, as a backend that keeps a journal records it. -/
inductive backendCall where
  | MountVersion (path : GoString)
  | Undelete (path : GoString) (version : Nat)
  | Read (path : GoString) (version : Nat)
  | Delete (path : GoString) (versions : List Nat)
deriving DecidableEq, Repr

/-- The store of a backend that holds one version of one secret: whether the
version is soft-deleted, and the journal of the calls received, oldest first. -/
structure versionStore where
  deleted : Bool
  journal : List backendCall
deriving DecidableEq, Repr

/-- A version-2 backend over a `versionStore`.  `Undelete` clears the deleted
flag; `Delete` sets it, unless the backend is made to fail deletes with
`deleteError`; `Read` fails with `readError` when one is given, answers
`NotFound` while the version is deleted and the key `k` with value `v`
otherwise.  Every one of these calls and every `MountVersion` is journalled. -/
def journalBackend (readError deleteError : Option vaultError) : Vault versionStore :=
  { Read := fun p ver s =>
      (match readError with
        | some e => Except.error e
        | none => if s.deleted then Except.error vaultError.NotFound
                  else Except.ok [([107], [118])],
       { s with journal := s.journal ++ [backendCall.Read p ver] }),
    Mounts := fun _ s => (Except.ok [], s),
    MountVersion := fun p s =>
      (Except.ok 2, { s with journal := s.journal ++ [backendCall.MountVersion p] }),
    Versions := fun _ s => (Except.ok [], s),
    Undelete := fun p ver s =>
      (none, { deleted := false, journal := s.journal ++ [backendCall.Undelete p ver] }),
    Delete := fun p vers s =>
      match deleteError with
      | some e => (some e, { s with journal := s.journal ++ [backendCall.Delete p vers] })
      | none => (none, { deleted := true, journal := s.journal ++ [backendCall.Delete p vers] }),
    List := fun _ s => (Except.error vaultError.NotFound, s) }

/-! ### The actions of one worker -/

/-- The actions of worker `i` in a log, oldest first. -/
def traceOf (i : Nat) (log : List (Nat × workerAction)) : List workerAction :=
  (log.filter (fun p => p.1 == i)).map Prod.snd

/-- The message that an action puts on the completion channel, if it is a
send. -/
def workerAction.message : workerAction → Option (Option vaultError)
  | workerAction.sent e => some e
  | _ => none

/-- An action of the loop of `work`: a `Pop` that blocks or returns an order,
or a `Push`; not `Close`, not a send, not a `Pop` that reports "no more work". -/
def workerAction.inLoop : workerAction → Bool
  | workerAction.popped _ => true
  | workerAction.blocked => true
  | workerAction.pushed _ => true
  | _ => false

/-- One step of a worker, seen from outside: the phase it leaves, the actions
it performs in their order, and the phase it reaches.  A `Pop` returns an
order, reports "no more work" (the worker then sends `nil` and returns) or
blocks; the body of the loop pushes the orders of the branches, or, on an
error, runs `handleError`: `Close`, then the send of the error; the last step
of `handleError` is a `Pop`. -/
inductive workerMove : workerPhase → List workerAction → workerPhase → Prop where
  | popOrder (old : workerPhase) (o : workOrder)
      (h : old = workerPhase.ready ∨ old = workerPhase.waiting) :
      workerMove old [workerAction.popped o] (workerPhase.holding o)
  | popDone (old : workerPhase) (h : old = workerPhase.ready ∨ old = workerPhase.waiting) :
      workerMove old [workerAction.poppedDone, workerAction.sent none] workerPhase.exited
  | popWait (old : workerPhase) (h : old = workerPhase.ready ∨ old = workerPhase.waiting) :
      workerMove old [workerAction.blocked] workerPhase.waiting
  | expand (o : workOrder) (orders : List workOrder) :
      workerMove (workerPhase.holding o) (orders.map workerAction.pushed) workerPhase.ready
  | fail (o : workOrder) (e : vaultError) :
      workerMove (workerPhase.holding o) [workerAction.closed, workerAction.sent (some e)]
        workerPhase.erred
  | lastPop : workerMove workerPhase.erred [workerAction.poppedDone] workerPhase.exited

/-- The trace of a worker fits its phase: a worker in the loop has performed
loop actions only, the last of them the `Pop` that gave it the order it holds
or the `Pop` in which it is blocked; a worker inside `handleError` has ended its
loop actions with `Close` and the send of its error; a worker that has returned
has ended its loop actions either with the `Pop` that reported "no more work"
and the send of `nil`, or with `Close`, the send of its error, and one `Pop`. -/
def traceFits : Option workerPhase → List workerAction → Prop
  | none, tr => tr = []
  | some workerPhase.ready, tr => ∀ a ∈ tr, a.inLoop = true
  | some (workerPhase.holding o), tr =>
    ∃ pre, tr = pre ++ [workerAction.popped o] ∧ ∀ a ∈ pre, a.inLoop = true
  | some workerPhase.waiting, tr =>
    ∃ pre, tr = pre ++ [workerAction.blocked] ∧ ∀ a ∈ pre, a.inLoop = true
  | some workerPhase.erred, tr =>
    ∃ pre e, tr = pre ++ [workerAction.closed, workerAction.sent (some e)] ∧
      ∀ a ∈ pre, a.inLoop = true
  | some workerPhase.exited, tr =>
    ∃ pre, (∀ a ∈ pre, a.inLoop = true) ∧
      (tr = pre ++ [workerAction.poppedDone, workerAction.sent none] ∨
       ∃ e, tr = pre ++ [workerAction.closed, workerAction.sent (some e),
         workerAction.poppedDone])

/-! ### The orders of a run -/

/-- The order that a `Pop` recorded in the log returned, if the action is
one. -/
def workerAction.poppedOrder : workerAction → Option workOrder
  | workerAction.popped o => some o
  | _ => none

/-- The order that a `Push` recorded in the log was handed, if the action is
one. -/
def workerAction.pushedOrder : workerAction → Option workOrder
  | workerAction.pushed o => some o
  | _ => none

/-- The orders returned by the `Pop`s of a log, oldest first. -/
def poppedOrders (log : List (Nat × workerAction)) : List workOrder :=
  log.filterMap (fun p => p.2.poppedOrder)

/-- The orders handed to `Push` by the workers of a log, oldest first. -/
def pushedOrders (log : List (Nat × workerAction)) : List workOrder :=
  log.filterMap (fun p => p.2.pushedOrder)

/-- The single-writer discipline of a crawl seeded with the order `seed`: the
orders made (the seed and those handed to `Push`) address pairwise different
nodes, and exactly the nodes of the tree; the orders returned by a `Pop` and
those in the queue address pairwise different nodes and are orders made; the
orders held by the workers are among the orders returned, each once; a node
with an order in the queue or held by a worker has no branches yet; and a
worker is inside `handleError` only when the queue is closed. -/
def crawl.singleWriter {σ : Type} (seed : workOrder) (c : crawl σ) : Prop :=
  ((seed :: pushedOrders c.log).map workOrder.insertInto).Nodup ∧
  (∀ a, a ∈ (seed :: pushedOrders c.log).map workOrder.insertInto ↔
    (c.tree.nodeAt a).isSome = true) ∧
  ((poppedOrders c.log).map workOrder.insertInto ++ c.q.items.map workOrder.insertInto).Nodup ∧
  (∀ o ∈ poppedOrders c.log ++ c.q.items, o ∈ seed :: pushedOrders c.log) ∧
  (∀ o, (heldOrders c.workers).count o ≤ (poppedOrders c.log).count o) ∧
  (∀ o ∈ c.q.items ++ heldOrders c.workers,
    ∃ n, c.tree.nodeAt o.insertInto = some n ∧ n.Branches = []) ∧
  (∀ i, c.workers.get? i = some workerPhase.erred → c.q.closed = true)

/-- The executions of the body of the loop of `work` during a run from the
state `c` under a schedule: for each, the worker and the order that it
processes (the order that its `Pop` returned). -/
def crawl.executions {σ : Type} (v : Vault σ) (opts : TreeOpts) :
    crawl σ → List Nat → List (Nat × workOrder)
  | _, [] => []
  | c, j :: js =>
    (match c.workers.get? j with
      | some (workerPhase.holding o) => [(j, o)]
      | _ => []) ++ crawl.executions v opts (crawl.step v opts c j) js

/-! ### Leaves of a tree -/

mutual
/-- The addresses (branch indices from the root) of the nodes of the tree
that have no branches, the children of a node taken from left to right. -/
def Tree.leafAddresses : Tree → List (List Nat)
  | Tree.mk _ bs _ _ _ _ _ => if bs.isEmpty then [[]] else leafAddressesFrom 0 bs
/-- The leaf addresses of the trees of a list, the first of which is the
branch of index `i` of its parent. -/
def leafAddressesFrom : Nat → List Tree → List (List Nat)
  | _, [] => []
  | i, b :: bs => b.leafAddresses.map (fun a => i :: a) ++ leafAddressesFrom (i + 1) bs
end

/-! ### Basename -/

/-- Go `strings.Split(s, sep)` for a separator of one byte: the pieces of `s`
between the occurrences of the separator; there is always at least one piece. -/
def Split : GoString → Nat → List GoString
  | [], _ => [[]]
  | c :: cs, sep =>
    if c = sep then [] :: Split cs sep
    else
      match Split cs sep with
      | [] => [[c]]
      | h :: t => (c :: h) :: t

/-- The element `splits[len(splits)-1]` of a slice of strings. -/
def lastOf (splits : List GoString) : GoString :=
  splits.getLast?.getD []

/-- Go `Tree.Basename`. -/
def Tree.Basename (t : Tree) : GoString :=
  if t.Typ = TreeTypeRoot then [slash]
  else if t.Typ = TreeTypeDir then lastOf (Split (TrimRight t.Name [slash]) slash) ++ [slash]
  else if t.Typ = TreeTypeSecret ∨ t.Typ = TreeTypeDirAndSecret then
    lastOf (Split (TrimRight t.Name [slash]) slash)
  else if t.Typ = TreeTypeKey then lastOf (Split t.Name colon)
  else []

/-! ### DepthFirstMap -/

/-- The loop of `DepthFirstMap` over the branches: the visitor is applied to
the branch, then the traversal `descend` goes on below the branch as the
visitor left it.  The visitor is a function of the node and of the state it
captures. -/
def depthFirstLoop {σ : Type} (descend : Tree → σ → Option (Tree × σ))
    (fn : Tree → σ → Tree × σ) : List Tree → σ → Option (List Tree × σ)
  | [], s => some ([], s)
  | b :: bs, s =>
    match descend (fn b s).1 (fn b s).2 with
    | none => none
    | some (b2, s2) =>
      match depthFirstLoop descend fn bs s2 with
      | none => none
      | some (bs2, s3) => some (b2 :: bs2, s3)

/-- Go `Tree.DepthFirstMap`, with a bound on the depth of the recursion
(`none` when the bound is reached): the receiver as the call leaves it and the
state of the visitor. -/
def Tree.DepthFirstMap {σ : Type} (fn : Tree → σ → Tree × σ) : Nat → Tree → σ → Option (Tree × σ)
  | 0, _, _ => none
  | fuel + 1, t, s =>
    match depthFirstLoop (Tree.DepthFirstMap fn fuel) fn t.Branches s with
    | none => none
    | some (bs, s1) => some (t.setBranches bs, s1)

mutual
/-- The nodes below the root, each with its subtree, in pre-order: a node
before its descendants, siblings in branch order. -/
def Tree.descendants : Tree → List Tree
  | Tree.mk _ bs _ _ _ _ _ => descendantsOf bs
/-- The trees of a list and the nodes below them, in pre-order. -/
def descendantsOf : List Tree → List Tree
  | [] => []
  | b :: bs => (b :: b.descendants) ++ descendantsOf bs
end

mutual
/-- The number of levels below the root. -/
def Tree.height : Tree → Nat
  | Tree.mk _ bs _ _ _ _ _ => heightOf bs
/-- One more than the greatest height of the trees of a list, 0 for the empty
list. -/
def heightOf : List Tree → Nat
  | [] => 0
  | b :: bs => max (b.height + 1) (heightOf bs)
end

/-- The state of a visitor after it has visited the nodes of a list in
turn. -/
def visits {σ : Type} (fn : Tree → σ → Tree × σ) (nodes : List Tree) (s : σ) : σ :=
  nodes.foldl (fun acc n => (fn n acc).2) s

/-- The visitor that changes nothing and records the name of each node it
visits. -/
def recordNames (n : Tree) (log : List GoString) : Tree × List GoString :=
  (n, log ++ [n.Name])

/-- The visitor that cuts the branches of each node it visits and records
its name. -/
def cutBranches (n : Tree) (log : List GoString) : Tree × List GoString :=
  (n.setBranches [], log ++ [n.Name])

/-- A worker that is waiting inside `Pop` or has been told "no more work". -/
def workerStatus.isParked : workerStatus → Bool
  | workerStatus.waiting => true
  | workerStatus.finished => true
  | _ => false

/-- The backend of the mounts scenario: the mounts `secret` and `cf`, both of
kind `kv` and of version 1; `secret` lists `a/` and `a/b`, `secret/a` lists `c`,
`cf` lists nothing; the secrets `secret/a/b` and `secret/a/c` hold the one key
`k` with the value `v`. -/
def mountsBackend : Vault Unit :=
  { Read := fun p _ s =>
      if p = [115, 101, 99, 114, 101, 116, 47, 97, 47, 98]
          ∨ p = [115, 101, 99, 114, 101, 116, 47, 97, 47, 99] then
        (Except.ok [([107], [118])], s)
      else (Except.error vaultError.NotFound, s),
    Mounts := fun kind s =>
      if kind = kvKind then (Except.ok [[115, 101, 99, 114, 101, 116], [99, 102]], s)
      else (Except.ok [], s),
    MountVersion := fun _ s => (Except.ok 1, s),
    Versions := fun _ s => (Except.error vaultError.NotFound, s),
    Undelete := fun _ _ s => (none, s),
    Delete := fun _ _ s => (none, s),
    List := fun p s =>
      if p = [115, 101, 99, 114, 101, 116] then (Except.ok [[97, 47], [97, 47, 98]], s)
      else if p = [115, 101, 99, 114, 101, 116, 47, 97] then (Except.ok [[99]], s)
      else (Except.error vaultError.NotFound, s) }

/-- The backend of the cancellation scenario: the directory `a` lists `x/`,
`y/` and `z/` on a version-1 mount; the list of `a/x` fails with an error other
than `NotFound`, the other lists and every read answer `NotFound`. -/
def failingListBackend : Vault Unit :=
  { Read := fun _ _ s => (Except.error vaultError.NotFound, s),
    Mounts := fun _ s => (Except.ok [], s),
    MountVersion := fun _ s => (Except.ok 1, s),
    Versions := fun _ s => (Except.error vaultError.NotFound, s),
    Undelete := fun _ _ s => (none, s),
    Delete := fun _ _ s => (none, s),
    List := fun p s =>
      if p = [97] then (Except.ok [[120, 47], [121, 47], [122, 47]], s)
      else if p = [97, 47, 120] then (Except.error (vaultError.failure 7), s)
      else (Except.error vaultError.NotFound, s) }

/-! ### The orders of a run of the worker pool -/

/-- The order that a move of the pool hands to `Push`, if the move is a push
by a worker that holds an order. -/
def poolMove.pushes (s : pool) : poolMove → List workOrder
  | poolMove.push i o =>
    match s.workers.get? i with
    | some (workerStatus.holding _) => [o]
    | _ => []
  | _ => []

/-- The order that the `Pop` of a move of the pool returns, if the move is a
`Pop` (new or woken) that returns one. -/
def poolMove.pops (s : pool) : poolMove → List workOrder
  | poolMove.callPop i =>
    match s.workers.get? i with
    | some workerStatus.starting | some (workerStatus.holding _) =>
      match (Pop s.q).1 with
      | popOutcome.order o => [o]
      | _ => []
    | _ => []
  | poolMove.wake i =>
    match s.workers.get? i with
    | some workerStatus.waiting =>
      match (popLoop s.q).1 with
      | popOutcome.order o => [o]
      | _ => []
    | _ => []
  | _ => []

/-- The orders that the workers hand to `Push` in a run from the pool `s`,
oldest first. -/
def pool.pushedBy (s : pool) : List poolMove → List workOrder
  | [] => []
  | m :: ms => m.pushes s ++ pool.pushedBy (s.step m) ms

/-- The orders that the `Pop`s of a run from the pool `s` return, oldest
first. -/
def pool.poppedBy (s : pool) : List poolMove → List workOrder
  | [] => []
  | m :: ms => m.pops s ++ pool.poppedBy (s.step m) ms

/-! ### Keys are leaves -/

mutual
/-- No node of type Key below the root has branches. -/
def Tree.keysBare : Tree → Prop
  | Tree.mk _ bs _ _ _ _ _ => keysBareIn bs
/-- In the trees of the list, the roots included, no node of type Key has
branches. -/
def keysBareIn : List Tree → Prop
  | [] => True
  | b :: bs => ((b.Typ = TreeTypeKey → b.Branches = []) ∧ b.keysBare) ∧ keysBareIn bs
end

/-- The orders of a crawl follow the classification: no node of type Key of
the tree under construction has branches, and every order not yet processed
(in the queue or held) targets a node of the tree and carries the operation
that `getWorkType` gives that node. -/
def crawl.classified {σ : Type} (opts : TreeOpts) (c : crawl σ) : Prop :=
  (∀ a n, c.tree.nodeAt a = some n → n.Typ = TreeTypeKey → n.Branches = []) ∧
  (∀ o ∈ c.q.items ++ heldOrders c.workers,
    ∃ n, c.tree.nodeAt o.insertInto = some n ∧ o.operation = (n.getWorkType opts).1)

/-! ### Answers without duplicates -/

/-- The answers that the workers compute from the backend never hold two
children with the same name and version. -/
def distinctAnswers {σ : Type} (v : Vault σ) (opts : TreeOpts) : Prop :=
  ∀ (operation : Nat) (node : Tree) (s s1 : σ) (answer : List Tree),
    expandNode v opts operation node s = (Except.ok answer, s1) →
      answer.Pairwise (fun a b => ¬ Tree.sameKey a b)

/-! ## Theorems -/

/-! ### The work queue -/

theorem popLoop_closed (w : workQueue) (h : w.closed = true) :
    popLoop w = (popOutcome.done, w) := by
  rcases w with ⟨items, awake, closed⟩
  cases items <;> simp_all [popLoop]

theorem popLoop_open_cons (w : workQueue) (o : workOrder) (rest : List workOrder)
    (h : w.closed = false) (hi : w.items = o :: rest) :
    popLoop w = (popOutcome.order o, { w with awake := w.awake + 1, items := rest }) := by
  rcases w with ⟨items, awake, closed⟩
  simp_all [popLoop]

theorem popLoop_open_nil (w : workQueue) (h : w.closed = false) (hi : w.items = []) :
    popLoop w = if w.awake = 0 then (popOutcome.done, { w with closed := true })
      else (popOutcome.wait, w) := by
  rcases w with ⟨items, awake, closed⟩
  simp_all [popLoop]

/-- The loop of `Pop` answers "no more work" only on a closed queue or on an
empty one, hands out only the head order, and never leaves a closed queue
with an order it did not already hold. -/
theorem popLoop_cases (w : workQueue) :
    (w.closed = true ∧ popLoop w = (popOutcome.done, w)) ∨
    (w.closed = false ∧ w.items = [] ∧ w.awake = 0 ∧
      popLoop w = (popOutcome.done, { w with closed := true })) ∨
    (w.closed = false ∧ w.items = [] ∧ w.awake ≠ 0 ∧ popLoop w = (popOutcome.wait, w)) ∨
    (∃ o rest, w.closed = false ∧ w.items = o :: rest ∧
      popLoop w = (popOutcome.order o, { w with awake := w.awake + 1, items := rest })) := by
  rcases w with ⟨items, awake, closed⟩
  cases closed
  · cases items with
    | nil =>
      by_cases h0 : awake = 0
      · right; left; simp [popLoop, h0]
      · right; right; left; simp [popLoop, h0]
    | cons o rest => right; right; right; exact ⟨o, rest, by simp [popLoop]⟩
  · left; exact ⟨rfl, popLoop_closed _ rfl⟩

theorem queueRun.sound_record (r : queueRun) (n : Nat) (w : workQueue)
    (hw : w.items = r.q.items ∧ w.closed = r.q.closed) (h : r.sound) :
    (r.record n (popLoop w)).sound := by
  obtain ⟨hc, he⟩ := h
  rcases popLoop_cases w with ⟨h1, h2⟩ | ⟨h1, h2, _, h4⟩ | ⟨h1, h2, _, h4⟩ | ⟨o, rest, h1, h2, h4⟩
  · rw [h2]
    refine ⟨fun _ => ?_, ?_⟩
    · simpa [queueRun.record, hw.1] using hc (hw.2 ▸ h1)
    · simpa [queueRun.record, hw.1] using he
  · rw [h4]
    refine ⟨fun _ => ?_, ?_⟩
    · simpa [queueRun.record] using h2
    · simpa [queueRun.record, hw.1] using he
  · rw [h4]
    refine ⟨fun hcl => ?_, ?_⟩
    · simp [queueRun.record, h1] at hcl
    · simpa [queueRun.record, hw.1] using he
  · rw [h4]
    refine ⟨fun hcl => ?_, ?_⟩
    · simp [queueRun.record, h1] at hcl
    · have : r.q.items = o :: rest := hw.1 ▸ h2
      simp [queueRun.record, he, this]

theorem queueRun.sound_step (r : queueRun) (c : queueCall) (h : r.sound) : (r.step c).sound := by
  cases c with
  | push o =>
    obtain ⟨hc, he⟩ := h
    by_cases hcl : r.q.closed = true
    · simp [queueRun.step, queueRun.sound, Push, hcl, hc hcl, he]
    · simp only [Bool.not_eq_true] at hcl
      simp [queueRun.step, queueRun.sound, Push, hcl, he]
  | pop => exact queueRun.sound_record r r.blocked _ ⟨rfl, rfl⟩ h
  | wake =>
    cases hb : r.blocked with
    | zero => simpa [queueRun.step, hb] using h
    | succ n =>
      have := queueRun.sound_record r n r.q ⟨rfl, rfl⟩ h
      simpa [queueRun.step, hb] using this

theorem queueRun.sound_foldl (calls : List queueCall) (r : queueRun) (h : r.sound) :
    (calls.foldl queueRun.step r).sound := by
  induction calls generalizing r with
  | nil => exact h
  | cons c cs ih => exact ih _ (queueRun.sound_step r c h)

theorem queueRun.sound_exec (numWorkers : Int) (calls : List queueCall) :
    (queueRun.exec numWorkers calls).sound :=
  queueRun.sound_foldl calls _ ⟨fun h => by simp [newWorkQueue] at h, by simp [newWorkQueue]⟩

theorem Pop_closed (w : workQueue) (h : w.closed = true) :
    Pop w = (popOutcome.done, { w with awake := w.awake - 1 }) :=
  popLoop_closed _ h

theorem popLoop_closed_mono (w : workQueue) (h : w.closed = true) :
    (popLoop w).2.closed = true := by
  rw [popLoop_closed w h]; exact h

theorem queueRun.record_closed (r : queueRun) (n : Nat) (res : popOutcome × workQueue) :
    (r.record n res).q = res.2 := by
  unfold queueRun.record
  split <;> rfl

theorem queueRun.step_closed_mono (r : queueRun) (c : queueCall) (h : r.q.closed = true) :
    (r.step c).q.closed = true ∧ (r.step c).popped = r.popped := by
  cases c with
  | push o => simp [queueRun.step, Push, h]
  | pop => simp [queueRun.step, Pop_closed r.q h, queueRun.record, h]
  | wake =>
    cases hb : r.blocked with
    | zero => simp [queueRun.step, hb, h]
    | succ n => simp [queueRun.step, hb, popLoop_closed r.q h, queueRun.record, h]

theorem queueRun.foldl_closed (calls : List queueCall) (r : queueRun) (h : r.q.closed = true) :
    (calls.foldl queueRun.step r).q.closed = true ∧
      (calls.foldl queueRun.step r).popped = r.popped := by
  induction calls generalizing r with
  | nil => exact ⟨h, rfl⟩
  | cons c cs ih =>
    have hs := queueRun.step_closed_mono r c h
    have := ih (r.step c) hs.1
    exact ⟨this.1, this.2.trans hs.2⟩

theorem queueRun.exec_append (numWorkers : Int) (a b : List queueCall) :
    queueRun.exec numWorkers (a ++ b) = b.foldl queueRun.step (queueRun.exec numWorkers a) := by
  simp [queueRun.exec, List.foldl_append]

/-- While the queue of a run is open, no `Push` has been refused. -/
theorem queueRun.open_step (r : queueRun) (c : queueCall)
    (h : r.q.closed = false → r.enqueued = r.pushed) :
    (r.step c).q.closed = false → (r.step c).enqueued = (r.step c).pushed := by
  intro hc
  have hopen : r.q.closed = false := by
    cases hr : r.q.closed with
    | false => rfl
    | true => rw [(queueRun.step_closed_mono r c hr).1] at hc; cases hc
  have he := h hopen
  cases c with
  | push o => simp [queueRun.step, hopen, he]
  | pop =>
    simp only [queueRun.step, queueRun.record]
    split <;> exact he
  | wake =>
    cases hb : r.blocked with
    | zero => simpa [queueRun.step, hb] using he
    | succ n =>
      simp only [queueRun.step, hb, queueRun.record]
      split <;> exact he

theorem queueRun.open_foldl (calls : List queueCall) (r : queueRun)
    (h : r.q.closed = false → r.enqueued = r.pushed) :
    (calls.foldl queueRun.step r).q.closed = false →
      (calls.foldl queueRun.step r).enqueued = (calls.foldl queueRun.step r).pushed := by
  induction calls generalizing r with
  | nil => exact h
  | cons c cs ih => exact ih _ (queueRun.open_step r c h)

theorem Pop_done_items (w : workQueue) (hc : w.closed = true → w.items = [])
    (h : (Pop w).1 = popOutcome.done) : w.items = [] := by
  unfold Pop at h
  rcases popLoop_cases { w with awake := w.awake - 1 } with
    ⟨h1, _⟩ | ⟨_, h2, _, _⟩ | ⟨_, _, _, h4⟩ | ⟨o, rest, _, _, h4⟩
  · exact hc h1
  · exact h2
  · rw [h4] at h; cases h
  · rw [h4] at h; cases h

theorem popLoop_done_items (w : workQueue) (hc : w.closed = true → w.items = [])
    (h : (popLoop w).1 = popOutcome.done) : w.items = [] := by
  rcases popLoop_cases w with ⟨h1, _⟩ | ⟨_, h2, _, _⟩ | ⟨_, _, _, h4⟩ | ⟨o, rest, _, _, h4⟩
  · exact hc h1
  · exact h2
  · rw [h4] at h; cases h
  · rw [h4] at h; cases h

/-! ### The worker pool on the queue -/

theorem countP_set_of_get? {α : Type} (p : α → Bool) (l : List α) (i : Nat) (x y : α)
    (h : l.get? i = some y) :
    (l.set i x).countP p + (if p y then 1 else 0) = l.countP p + (if p x then 1 else 0) := by
  induction l generalizing i with
  | nil => simp at h
  | cons a t ih =>
    cases i with
    | zero =>
      simp only [List.get?_cons_zero, Option.some.injEq] at h
      subst h
      simp only [List.set_cons_zero, List.countP_cons]
      omega
    | succ j =>
      simp only [List.get?_cons_succ] at h
      have := ih j h
      simp only [List.set_cons_succ, List.countP_cons]
      omega

theorem foldl_Push_awake_closed (seed : List workOrder) (w : workQueue) :
    (seed.foldl Push w).awake = w.awake ∧ (seed.foldl Push w).closed = w.closed := by
  induction seed generalizing w with
  | nil => exact ⟨rfl, rfl⟩
  | cons o os ih =>
    have h := ih (Push w o)
    have hp : (Push w o).awake = w.awake ∧ (Push w o).closed = w.closed := by
      unfold Push; split <;> simp_all
    exact ⟨h.1.trans hp.1, h.2.trans hp.2⟩

theorem pool.accounted_init (numWorkers : Nat) (seed : List workOrder) :
    (pool.init numWorkers seed).accounted := by
  have h := foldl_Push_awake_closed seed (newWorkQueue numWorkers)
  refine ⟨?_, fun hc => ?_⟩
  · show (seed.foldl Push (newWorkQueue numWorkers)).awake = _
    rw [h.1]
    simp [newWorkQueue, awakeCount, pool.init, List.countP_replicate, workerStatus.isAwake]
  · have : (seed.foldl Push (newWorkQueue numWorkers)).closed = true := hc
    rw [h.2] at this
    simp [newWorkQueue] at this

theorem pool.accounted_callPop (s : pool) (i : Nat) (y : workerStatus)
    (hy : s.workers.get? i = some y) (hawake : y.isAwake = true) (h : s.accounted) :
    pool.accounted
      { q := (Pop s.q).2, workers := s.workers.set i (workerStatus.after (Pop s.q).1) } := by
  obtain ⟨ha, hc⟩ := h
  have hcount := fun x => countP_set_of_get? workerStatus.isAwake s.workers i x y hy
  simp only [hawake, if_true] at hcount
  unfold pool.accounted awakeCount at *
  unfold Pop
  rcases popLoop_cases { s.q with awake := s.q.awake - 1 } with
    ⟨h1, h2⟩ | ⟨h1, h2, h3, h4⟩ | ⟨h1, h2, h3, h4⟩ | ⟨o, rest, h1, h2, h4⟩
  · have h0 := hc h1
    have := hcount workerStatus.finished
    simp [workerStatus.isAwake] at this
    omega
  · rw [h4]
    have := hcount workerStatus.finished
    simp [workerStatus.isAwake] at this
    simp only [workerStatus.after] at *
    constructor
    · show s.q.awake - 1 = _
      omega
    · intro _; exact h3
  · rw [h4]
    have := hcount workerStatus.waiting
    simp [workerStatus.isAwake] at this
    simp only [workerStatus.after] at *
    constructor
    · show s.q.awake - 1 = _
      omega
    · intro hcl
      have : s.q.closed = true := hcl
      rw [h1] at this; cases this
  · rw [h4]
    have := hcount (workerStatus.holding o)
    simp [workerStatus.isAwake] at this
    simp only [workerStatus.after] at *
    constructor
    · show s.q.awake - 1 + 1 = _
      omega
    · intro hcl
      have : s.q.closed = true := hcl
      rw [h1] at this; cases this

theorem pool.accounted_wake (s : pool) (i : Nat)
    (hy : s.workers.get? i = some workerStatus.waiting) (h : s.accounted) :
    pool.accounted
      { q := (popLoop s.q).2, workers := s.workers.set i (workerStatus.after (popLoop s.q).1) } := by
  obtain ⟨ha, hc⟩ := h
  have hcount := fun x =>
    countP_set_of_get? workerStatus.isAwake s.workers i x workerStatus.waiting hy
  unfold pool.accounted awakeCount at *
  rcases popLoop_cases s.q with
    ⟨h1, h2⟩ | ⟨h1, h2, h3, h4⟩ | ⟨h1, h2, h3, h4⟩ | ⟨o, rest, h1, h2, h4⟩
  · rw [h2]
    have := hcount workerStatus.finished
    simp [workerStatus.isAwake] at this
    simp only [workerStatus.after] at *
    exact ⟨by omega, hc⟩
  · rw [h4]
    have := hcount workerStatus.finished
    simp [workerStatus.isAwake] at this
    simp only [workerStatus.after] at *
    exact ⟨by show s.q.awake = _; omega, fun _ => h3⟩
  · rw [h4]
    have := hcount workerStatus.waiting
    simp [workerStatus.isAwake] at this
    simp only [workerStatus.after] at *
    exact ⟨by omega, hc⟩
  · rw [h4]
    have := hcount (workerStatus.holding o)
    simp [workerStatus.isAwake] at this
    simp only [workerStatus.after] at *
    constructor
    · show s.q.awake + 1 = _
      omega
    · intro hcl
      have : s.q.closed = true := hcl
      rw [h1] at this; cases this

theorem pool.accounted_step (s : pool) (m : poolMove) (h : s.accounted) :
    (s.step m).accounted := by
  cases m with
  | callPop i =>
    simp only [pool.step]
    split
    · next hy => exact pool.accounted_callPop s i _ hy rfl h
    · next o hy => exact pool.accounted_callPop s i _ hy rfl h
    · exact h
  | wake i =>
    simp only [pool.step]
    split
    · next hy => exact pool.accounted_wake s i hy h
    · exact h
  | push i o =>
    simp only [pool.step]
    split
    · have hp : (Push s.q o).awake = s.q.awake ∧ (Push s.q o).closed = s.q.closed := by
        unfold Push; split <;> simp_all
      exact ⟨hp.1.trans h.1, fun hc => hp.1.trans (h.2 (hp.2 ▸ hc))⟩
    · exact h

theorem pool.accounted_run (numWorkers : Nat) (seed : List workOrder) (moves : List poolMove) :
    (pool.run numWorkers seed moves).accounted := by
  unfold pool.run
  generalize hs : pool.init numWorkers seed = s
  have h : s.accounted := hs ▸ pool.accounted_init numWorkers seed
  clear hs
  induction moves generalizing s with
  | nil => exact h
  | cons m ms ih => exact ih _ (pool.accounted_step s m h)

theorem Pop_closes (w : workQueue) (ho : w.closed = false) (hc : (Pop w).2.closed = true) :
    w.awake - 1 = 0 ∧ w.items = [] := by
  unfold Pop at hc
  rcases popLoop_cases { w with awake := w.awake - 1 } with
    ⟨h1, _⟩ | ⟨_, h2, h3, _⟩ | ⟨h1, _, _, h4⟩ | ⟨o, rest, h1, _, h4⟩
  · rw [ho] at h1; cases h1
  · exact ⟨h3, h2⟩
  · rw [h4] at hc; rw [ho] at hc; cases hc
  · rw [h4] at hc; rw [ho] at hc; cases hc

theorem popLoop_closes (w : workQueue) (ho : w.closed = false)
    (hc : (popLoop w).2.closed = true) : w.awake = 0 ∧ w.items = [] := by
  rcases popLoop_cases w with
    ⟨h1, _⟩ | ⟨_, h2, h3, _⟩ | ⟨h1, _, _, h4⟩ | ⟨o, rest, h1, _, h4⟩
  · rw [ho] at h1; cases h1
  · exact ⟨h3, h2⟩
  · rw [h4] at hc; rw [ho] at hc; cases hc
  · rw [h4] at hc; rw [ho] at hc; cases hc

/-- C2.  No premature termination: a `Pop` (new, or woken from its wait) turns
an open queue into a closed one only when `awake`, after the decrement of that
`Pop`, is 0 and the queue is empty; and in every run of `N` workers that push
only while holding a popped order, once the queue is closed no worker holds
an order. -/
theorem no_premature_termination (numWorkers : Nat) (seed : List workOrder)
    (moves : List poolMove) :
    (∀ w : workQueue, w.closed = false → (Pop w).2.closed = true →
        w.awake - 1 = 0 ∧ w.items = []) ∧
    (∀ w : workQueue, w.closed = false → (popLoop w).2.closed = true →
        w.awake = 0 ∧ w.items = []) ∧
    ((pool.run numWorkers seed moves).q.closed = true →
        ∀ st ∈ (pool.run numWorkers seed moves).workers, st.isHolding = false) := by
  refine ⟨Pop_closes, popLoop_closes, fun hc st hst => ?_⟩
  obtain ⟨ha, h0⟩ := pool.accounted_run numWorkers seed moves
  have hz : awakeCount (pool.run numWorkers seed moves).workers = 0 := by
    have := h0 hc
    omega
  unfold awakeCount at hz
  rw [List.countP_eq_zero] at hz
  have := hz st hst
  cases st <;> simp_all [workerStatus.isHolding, workerStatus.isAwake]

/-- Witness of `no_premature_termination`: with three workers and one seeded
order, while A holds the order and B and C wait on the empty queue the queue
stays open; once A is done and calls `Pop`, the queue closes and no worker
holds an order. -/
theorem no_premature_termination_witness :
    (pool.run 3 [⟨[], 1⟩] [poolMove.callPop 0, poolMove.callPop 1, poolMove.callPop 2])
      = { q := { items := [], awake := 1, closed := false },
          workers := [workerStatus.holding ⟨[], 1⟩, workerStatus.waiting, workerStatus.waiting] } ∧
    (pool.run 3 [⟨[], 1⟩] [poolMove.callPop 0, poolMove.callPop 1, poolMove.callPop 2,
        poolMove.callPop 0]).q.closed = true ∧
    ∀ st ∈ (pool.run 3 [⟨[], 1⟩] [poolMove.callPop 0, poolMove.callPop 1, poolMove.callPop 2,
        poolMove.callPop 0]).workers, st.isHolding = false :=
  ⟨by decide, by decide,
   (no_premature_termination 3 [⟨[], 1⟩] [poolMove.callPop 0, poolMove.callPop 1,
      poolMove.callPop 2, poolMove.callPop 0]).2.2 (by decide)⟩

/-! ### First in, first out; the closed queue -/

theorem Push_open (w : workQueue) (o : workOrder) (h : w.closed = false) :
    Push w o = { w with items := w.items ++ [o] } := by
  simp [Push, h]

theorem Pop_open_cons (w : workQueue) (o : workOrder) (rest : List workOrder)
    (h : w.closed = false) (hi : w.items = o :: rest) :
    Pop w = (popOutcome.order o, { w with items := rest }) := by
  rcases w with ⟨items, awake, closed⟩
  simp only at h hi
  subst h hi
  simp [Pop, popLoop]

theorem foldl_Push_open (os : List workOrder) (w : workQueue) (h : w.closed = false) :
    os.foldl Push w = { w with items := w.items ++ os } := by
  induction os generalizing w with
  | nil => simp
  | cons o os ih =>
    rw [List.foldl_cons, Push_open w o h, ih { w with items := w.items ++ [o] } h]
    simp

theorem popMany_open (os : List workOrder) (w : workQueue) (h : w.closed = false)
    (hi : w.items = os) :
    popMany os.length w = (os.map popOutcome.order, { w with items := [] }) := by
  induction os generalizing w with
  | nil =>
    rcases w with ⟨items, awake, closed⟩
    simp only at hi
    subst hi
    rfl
  | cons o os ih =>
    have hp := Pop_open_cons w o os h hi
    have := ih { w with items := os } h rfl
    simp only [List.length_cons, popMany, hp, List.map_cons]
    rw [this]

/-- C3.  First in, first out: on an open queue `Push` appends the order at the
tail; `Pop` on an open queue whose oldest order is `o` returns `o`, removes
exactly that order and leaves `awake` and `closed` as they were; and after the
orders `os` are pushed in turn onto an empty open queue, as many calls of `Pop`
return them in that order and leave the queue as it was before the pushes. -/
theorem queue_fifo (w : workQueue) (o : workOrder) (os : List workOrder)
    (hopen : w.closed = false) :
    Push w o = { w with items := w.items ++ [o] } ∧
    (∀ rest, w.items = o :: rest → Pop w = (popOutcome.order o, { w with items := rest })) ∧
    (w.items = [] → popMany os.length (os.foldl Push w) = (os.map popOutcome.order, w)) := by
  refine ⟨Push_open w o hopen, fun rest hi => Pop_open_cons w o rest hopen hi, fun hi => ?_⟩
  rw [foldl_Push_open os w hopen,
    popMany_open os { w with items := w.items ++ os } hopen (by simp [hi])]
  rcases w with ⟨items, awake, closed⟩
  simp only at hi
  subst hi
  rfl

/-- Witness of `queue_fifo`: three orders pushed onto the empty open queue of
two workers come back in the order of the pushes. -/
theorem queue_fifo_witness :
    (newWorkQueue 2).closed = false ∧
    popMany 3 ([⟨[0], 1⟩, ⟨[1], 2⟩, ⟨[2], 0⟩].foldl Push (newWorkQueue 2))
      = ([popOutcome.order ⟨[0], 1⟩, popOutcome.order ⟨[1], 2⟩, popOutcome.order ⟨[2], 0⟩],
         newWorkQueue 2) :=
  ⟨rfl, (queue_fifo (newWorkQueue 2) ⟨[0], 1⟩ [⟨[0], 1⟩, ⟨[1], 2⟩, ⟨[2], 0⟩] rfl).2.2 rfl⟩

/-- C4.  A closed queue neither accepts nor hands out orders: `Push` and `Close`
leave it unchanged, and `Pop` (new or woken) answers "no more work" without
removing any order, whatever is still enqueued; the only thing a new `Pop`
changes is its own decrement of `awake`. -/
theorem closed_queue_inert (w : workQueue) (o : workOrder) (hclosed : w.closed = true) :
    Push w o = w ∧ Close w = w ∧
    Pop w = (popOutcome.done, { w with awake := w.awake - 1 }) ∧
    (Pop w).2.items = w.items ∧
    popLoop w = (popOutcome.done, w) := by
  refine ⟨by simp [Push, hclosed], by simp [Close, hclosed], Pop_closed w hclosed, ?_,
    popLoop_closed w hclosed⟩
  rw [Pop_closed w hclosed]

/-- Witness of `closed_queue_inert`: a queue closed with an order still
enqueued keeps the order through `Push`, `Close` and `Pop`. -/
theorem closed_queue_inert_witness :
    (Close { items := [⟨[0], 1⟩], awake := 2, closed := false }).closed = true ∧
    Push (Close { items := [⟨[0], 1⟩], awake := 2, closed := false }) ⟨[1], 2⟩
      = { items := [⟨[0], 1⟩], awake := 2, closed := true } ∧
    (Pop (Close { items := [⟨[0], 1⟩], awake := 2, closed := false })).2.items = [⟨[0], 1⟩] :=
  ⟨rfl,
   (closed_queue_inert (Close { items := [⟨[0], 1⟩], awake := 2, closed := false }) ⟨[1], 2⟩
      rfl).1,
   (closed_queue_inert (Close { items := [⟨[0], 1⟩], awake := 2, closed := false }) ⟨[1], 2⟩
      rfl).2.2.2.1⟩

/-! ### The classifier -/

/-- C5.  `getWorkType` computes the classifier table, for every node and every
option set: Root gives Mounts; Directory gives List; Version gives Get;
DirectoryAndSecret gives List and Get when `fetchKeys` or (`mountVersion = 2`
and not `allowDeletedKeys`), else List; Secret gives Versions when
`fetchAllVersions` (whatever `fetchKeys` is), else Get under that same
condition, else no operation. -/
theorem getWorkType_table (t : Tree) (opts : TreeOpts) :
    (t.Typ = TreeTypeRoot → (t.getWorkType opts).1 = opTypeMounts) ∧
    (t.Typ = TreeTypeDir → (t.getWorkType opts).1 = opTypeList) ∧
    (t.Typ = TreeTypeVersion → (t.getWorkType opts).1 = opTypeGet) ∧
    (t.Typ = TreeTypeDirAndSecret →
      (t.getWorkType opts).1 =
        if opts.FetchKeys = true ∨ (t.MountVersion = 2 ∧ opts.AllowDeletedKeys = false)
        then opTypeList ||| opTypeGet else opTypeList) ∧
    (t.Typ = TreeTypeSecret →
      (t.getWorkType opts).1 =
        if opts.FetchAllVersions = true then opTypeVersions
        else if opts.FetchKeys = true ∨ (t.MountVersion = 2 ∧ opts.AllowDeletedKeys = false)
        then opTypeGet else opTypeNone) := by
  rcases opts with ⟨fk, ad, fv⟩
  refine ⟨?_, ?_, ?_, ?_, ?_⟩ <;> intro h <;>
    cases fk <;> cases ad <;> cases fv <;>
    by_cases hmv : t.MountVersion = 2 <;>
    simp [Tree.getWorkType, h, hmv, TreeTypeRoot, TreeTypeDir, TreeTypeSecret,
      TreeTypeDirAndSecret, TreeTypeKey, TreeTypeVersion]

/-- Witness of `getWorkType_table`: a Secret on a version-2 mount is read (Get)
when deleted keys are not allowed, even without `fetchKeys`, and gets Versions
under `fetchAllVersions` even with `fetchKeys`. -/
theorem getWorkType_table_witness :
    ((Tree.mk [97] [] 2 2 [] 0 false).getWorkType ⟨false, false, false⟩).1 = opTypeGet ∧
    ((Tree.mk [97] [] 2 2 [] 0 false).getWorkType ⟨true, false, true⟩).1 = opTypeVersions :=
  ⟨(getWorkType_table (Tree.mk [97] [] 2 2 [] 0 false) ⟨false, false, false⟩).2.2.2.2 rfl,
   (getWorkType_table (Tree.mk [97] [] 2 2 [] 0 false) ⟨true, false, true⟩).2.2.2.2 rfl⟩

/-- C6 as stated fails: classifying the Directory node named `a` leaves it
named `a/`. -/
theorem getWorkType_renames_directory :
    ((Tree.mk [97] [] TreeTypeDir 0 [] 0 false).getWorkType ⟨false, false, false⟩).2.Name
      = [97, 47] ∧
    ((Tree.mk [97] [] TreeTypeDir 0 [] 0 false).getWorkType ⟨false, false, false⟩).2.Name
      ≠ (Tree.mk [97] [] TreeTypeDir 0 [] 0 false).Name := by
  constructor
  · rfl
  · decide

/-- What `getWorkType` leaves of its receiver. -/
theorem Tree.getWorkType_receiver (t : Tree) (opts : TreeOpts) :
    (t.getWorkType opts).2.Branches = t.Branches ∧
    (t.getWorkType opts).2.Typ = t.Typ ∧
    (t.getWorkType opts).2.MountVersion = t.MountVersion ∧
    (t.getWorkType opts).2.Value = t.Value ∧
    (t.getWorkType opts).2.Version = t.Version ∧
    (t.getWorkType opts).2.Deleted = t.Deleted ∧
    (t.Typ ≠ TreeTypeDir → (t.getWorkType opts).2 = t) ∧
    (t.Typ = TreeTypeDir →
      (t.getWorkType opts).2.Name = TrimRight t.Name [slash] ++ [slash]) := by
  rcases t with ⟨n, bs, ty, mv, v, ver, d⟩
  by_cases h0 : ty = 0
  · subst h0
    simp [Tree.getWorkType, Tree.Typ, TreeTypeRoot, TreeTypeDir]
  by_cases h1 : ty = 1
  · subst h1
    simp [Tree.getWorkType, Tree.Typ, Tree.Name, Tree.setName, Tree.Branches, Tree.MountVersion,
      Tree.Value, Tree.Version, Tree.Deleted, TreeTypeRoot, TreeTypeDir]
  by_cases h3 : ty = 3
  · subst h3
    simp [Tree.getWorkType, Tree.Typ, TreeTypeRoot, TreeTypeDir, TreeTypeDirAndSecret]
  by_cases h2 : ty = 2
  · subst h2
    simp [Tree.getWorkType, Tree.Typ, TreeTypeRoot, TreeTypeDir, TreeTypeDirAndSecret,
      TreeTypeSecret]
  by_cases h5 : ty = 5
  · subst h5
    simp [Tree.getWorkType, Tree.Typ, TreeTypeRoot, TreeTypeDir, TreeTypeDirAndSecret,
      TreeTypeSecret, TreeTypeVersion]
  · simp [Tree.getWorkType, Tree.Typ, TreeTypeRoot, TreeTypeDir, TreeTypeDirAndSecret,
      TreeTypeSecret, TreeTypeVersion, h0, h1, h2, h3, h5]

/-- C6 (as amended).  For every node and every option set `getWorkType` leaves
the branches, type, mount version, value, version and deleted flag of the node
unchanged; it leaves the name unchanged too unless the node is a Directory, and
then the name becomes the old name without its trailing slashes, followed by one
slash. -/
theorem getWorkType_frame (t : Tree) (opts : TreeOpts) :
    (t.getWorkType opts).2.Branches = t.Branches ∧
    (t.getWorkType opts).2.Typ = t.Typ ∧
    (t.getWorkType opts).2.MountVersion = t.MountVersion ∧
    (t.getWorkType opts).2.Value = t.Value ∧
    (t.getWorkType opts).2.Version = t.Version ∧
    (t.getWorkType opts).2.Deleted = t.Deleted ∧
    (t.Typ ≠ TreeTypeDir → (t.getWorkType opts).2 = t) ∧
    (t.Typ = TreeTypeDir →
      (t.getWorkType opts).2.Name = TrimRight t.Name [slash] ++ [slash]) :=
  Tree.getWorkType_receiver t opts

/-- Witness of `getWorkType_frame`: a Secret is returned as it was, and the
Directory `a//` is renamed `a/`. -/
theorem getWorkType_frame_witness :
    ((Tree.mk [97] [] TreeTypeSecret 2 [] 0 false).getWorkType ⟨true, false, false⟩).2
      = Tree.mk [97] [] TreeTypeSecret 2 [] 0 false ∧
    ((Tree.mk [97, 47, 47] [] TreeTypeDir 2 [] 0 false).getWorkType ⟨true, false, false⟩).2.Name
      = [97, 47] :=
  ⟨(getWorkType_frame (Tree.mk [97] [] TreeTypeSecret 2 [] 0 false) ⟨true, false, false⟩).2.2.2.2.2.2.1
      (by decide),
   (getWorkType_frame (Tree.mk [97, 47, 47] [] TreeTypeDir 2 [] 0 false)
      ⟨true, false, false⟩).2.2.2.2.2.2.2 rfl⟩

/-! ### Induction over trees and the loops over branches -/

/-- Induction over a tree: a property holds of every tree when it holds of a
node as soon as it holds of all its branches. -/
theorem Tree.induct (P : Tree → Prop)
    (h : ∀ n bs ty mv v ver d, (∀ b ∈ bs, P b) → P (Tree.mk n bs ty mv v ver d)) :
    ∀ t, P t := by
  intro t
  exact @Tree.rec P (fun l => ∀ b ∈ l, P b)
    (fun n bs ty mv v ver d ih => h n bs ty mv v ver d ih)
    (fun b hb => by cases hb)
    (fun hd tl ih1 ih2 b hb => by
      rcases List.mem_cons.mp hb with rfl | hb
      · exact ih1
      · exact ih2 b hb) t

theorem sortBranches_eq_map (bs : List Tree) : sortBranches bs = bs.map Tree.sort := by
  induction bs with
  | nil => rfl
  | cons b bs ih => simp [sortBranches, ih]

theorem orderedBranches_iff (bs : List Tree) : orderedBranches bs ↔ ∀ b ∈ bs, b.ordered := by
  induction bs with
  | nil => simp [orderedBranches]
  | cons b bs ih => simp [orderedBranches, ih]

theorem distinctKeysBranches_iff (bs : List Tree) :
    distinctKeysBranches bs ↔ ∀ b ∈ bs, b.distinctKeys := by
  induction bs with
  | nil => simp [distinctKeysBranches]
  | cons b bs ih => simp [distinctKeysBranches, ih]

theorem shuffledBranches_iff (bs cs : List Tree) :
    shuffledBranches bs cs ↔ ∃ ds, cs.Perm ds ∧ List.Forall₂ Tree.shuffled bs ds := by
  induction bs generalizing cs with
  | nil =>
    simp only [shuffledBranches, List.forall₂_nil_left_iff]
    constructor
    · rintro rfl; exact ⟨[], List.Perm.refl _, rfl⟩
    · rintro ⟨ds, hp, rfl⟩; exact List.Perm.eq_nil hp
  | cons b bs ih =>
    simp only [shuffledBranches]
    constructor
    · rintro ⟨c, rest, hp, hbc, hrest⟩
      obtain ⟨ds, hp2, hf⟩ := (ih rest).mp hrest
      exact ⟨c :: ds, hp.trans (List.Perm.cons c hp2), List.Forall₂.cons hbc hf⟩
    · rintro ⟨ds, hp, hf⟩
      cases hf with
      | cons hbc hf2 =>
        rename_i c ds2
        exact ⟨c, ds2, hp, hbc, (ih ds2).mpr ⟨ds2, List.Perm.refl _, hf2⟩⟩

@[simp] theorem Tree.sort_Name (t : Tree) : t.sort.Name = t.Name := by
  cases t; rfl

@[simp] theorem Tree.sort_Version (t : Tree) : t.sort.Version = t.Version := by
  cases t; rfl

/-! ### The byte-wise order and the sort key -/

theorem bytesLess_irrefl (a : GoString) : bytesLess a a = false := by
  induction a with
  | nil => rfl
  | cons x xs ih => simp [bytesLess, ih]

theorem bytesLess_asymm (a b : GoString) (h : bytesLess a b = true) : bytesLess b a = false := by
  induction a generalizing b with
  | nil => cases b <;> simp_all [bytesLess]
  | cons x xs ih =>
    cases b with
    | nil => simp [bytesLess] at h
    | cons y ys =>
      simp only [bytesLess, Bool.or_eq_true, decide_eq_true_eq, Bool.and_eq_true, beq_iff_eq] at h
      simp only [bytesLess, Bool.or_eq_false_iff, decide_eq_false_iff_not, Bool.and_eq_false_imp,
        beq_iff_eq]
      rcases h with h | ⟨h1, h2⟩
      · exact ⟨by omega, fun hyx => by omega⟩
      · exact ⟨by omega, fun _ => ih ys h2⟩

theorem bytesLess_trans (a b c : GoString) (h1 : bytesLess a b = true)
    (h2 : bytesLess b c = true) : bytesLess a c = true := by
  induction a generalizing b c with
  | nil =>
    cases b with
    | nil => simp [bytesLess] at h1
    | cons y ys =>
      cases c with
      | nil => simp [bytesLess] at h2
      | cons z zs => rfl
  | cons x xs ih =>
    cases b with
    | nil => simp [bytesLess] at h1
    | cons y ys =>
      cases c with
      | nil => simp [bytesLess] at h2
      | cons z zs =>
        simp only [bytesLess, Bool.or_eq_true, decide_eq_true_eq, Bool.and_eq_true,
          beq_iff_eq] at h1 h2 ⊢
        rcases h1 with h1 | ⟨e1, h1⟩ <;> rcases h2 with h2 | ⟨e2, h2⟩
        · left; omega
        · left; omega
        · left; omega
        · right; exact ⟨by omega, ih ys zs h1 h2⟩

theorem bytesLess_total (a b : GoString) (h1 : bytesLess a b = false)
    (h2 : bytesLess b a = false) : a = b := by
  induction a generalizing b with
  | nil => cases b <;> simp_all [bytesLess]
  | cons x xs ih =>
    cases b with
    | nil => simp [bytesLess] at h2
    | cons y ys =>
      simp only [bytesLess, Bool.or_eq_false_iff, decide_eq_false_iff_not, Bool.and_eq_false_imp,
        beq_iff_eq] at h1 h2
      have hxy : x = y := by omega
      subst hxy
      rw [ih ys (h1.2 rfl) (h2.2 rfl)]

theorem Tree.less_iff (a b : Tree) :
    a.less b = true ↔
      bytesLess a.Name b.Name = true ∨ (a.Name = b.Name ∧ a.Version < b.Version) := by
  unfold Tree.less
  by_cases h : a.Name = b.Name
  · simp [h, bytesLess_irrefl]
  · simp [h]

theorem Tree.less_asymm (a b : Tree) (h : a.less b = true) : b.less a = false := by
  rw [Tree.less_iff] at h
  cases hba : b.less a with
  | false => rfl
  | true =>
    rw [Tree.less_iff] at hba
    rcases h with h | ⟨h1, h2⟩ <;> rcases hba with g | ⟨g1, g2⟩
    · rw [bytesLess_asymm _ _ h] at g; cases g
    · rw [g1, bytesLess_irrefl] at h; cases h
    · rw [h1, bytesLess_irrefl] at g; cases g
    · omega

/-- Negative transitivity of the sort key: when `a` is less than `c`, any `b`
is greater than `a` or less than `c`. -/
theorem Tree.less_cut (a b c : Tree) (h : a.less c = true) :
    a.less b = true ∨ b.less c = true := by
  simp only [Tree.less_iff] at h ⊢
  by_cases hab : bytesLess a.Name b.Name = true
  · exact Or.inl (Or.inl hab)
  by_cases hba : bytesLess b.Name a.Name = true
  · right
    rcases h with h | ⟨h1, _⟩
    · exact Or.inl (bytesLess_trans _ _ _ hba h)
    · exact Or.inl (h1 ▸ hba)
  have heq : a.Name = b.Name :=
    bytesLess_total _ _ (by simpa using hab) (by simpa using hba)
  rcases h with h | ⟨h1, h2⟩
  · exact Or.inr (Or.inl (heq ▸ h))
  · by_cases hv : a.Version < b.Version
    · exact Or.inl (Or.inr ⟨heq, hv⟩)
    · exact Or.inr (Or.inr ⟨heq ▸ h1, by omega⟩)

theorem Tree.keyLe_iff (a b : Tree) : a.keyLe b ↔ b.less a = false := by
  unfold Tree.keyLe
  constructor
  · intro h
    cases hba : b.less a with
    | false => rfl
    | true =>
      rw [Tree.less_iff] at hba
      rcases h with h | ⟨h1, h2⟩ <;> rcases hba with g | ⟨g1, g2⟩
      · rw [bytesLess_asymm _ _ h] at g; cases g
      · rw [g1, bytesLess_irrefl] at h; cases h
      · rw [h1, bytesLess_irrefl] at g; cases g
      · omega
  · intro h
    have hn : ¬ (bytesLess b.Name a.Name = true ∨ (b.Name = a.Name ∧ b.Version < a.Version)) := by
      rw [← Tree.less_iff, h]; simp
    by_cases hab : bytesLess a.Name b.Name = true
    · exact Or.inl hab
    · have heq : a.Name = b.Name :=
        bytesLess_total _ _ (by simpa using hab) (by simpa using fun g => hn (Or.inl g))
      refine Or.inr ⟨heq, ?_⟩
      by_contra hv
      exact hn (Or.inr ⟨heq.symm, by omega⟩)

theorem Tree.less_of_keyLe_of_not_sameKey (a b : Tree) (h : a.keyLe b) (hk : ¬ a.sameKey b) :
    a.less b = true := by
  rw [Tree.less_iff]
  rcases h with h | ⟨h1, h2⟩
  · exact Or.inl h
  · refine Or.inr ⟨h1, ?_⟩
    have : a.Version ≠ b.Version := fun e => hk ⟨h1, e⟩
    omega

/-! ### The insertion sort behind `sort.Slice` -/

theorem sink_perm (x : Tree) (acc : List Tree) : (sink x acc).Perm (x :: acc) := by
  induction acc with
  | nil => exact List.Perm.refl _
  | cons e es ih =>
    unfold sink
    split
    · exact (List.Perm.cons e ih).trans (List.Perm.swap x e es)
    · exact List.Perm.refl _

theorem foldl_sink_perm (l acc : List Tree) :
    (l.foldl (fun acc x => sink x acc) acc).Perm (l ++ acc) := by
  induction l generalizing acc with
  | nil => exact List.Perm.refl _
  | cons x xs ih =>
    rw [List.foldl_cons]
    refine (ih (sink x acc)).trans ?_
    refine (List.Perm.append_left xs (sink_perm x acc)).trans ?_
    simp

theorem sortSlice_perm (l : List Tree) : (sortSlice l).Perm l := by
  unfold sortSlice
  exact (List.reverse_perm _).trans (by simpa using foldl_sink_perm l [])

theorem sink_descending (x : Tree) (acc : List Tree)
    (h : acc.Pairwise (fun e1 e2 => e1.less e2 = false)) :
    (sink x acc).Pairwise (fun e1 e2 => e1.less e2 = false) := by
  induction acc with
  | nil => simp [sink]
  | cons e es ih =>
    rw [List.pairwise_cons] at h
    unfold sink
    split
    · next hlt =>
      rw [List.pairwise_cons]
      refine ⟨fun y hy => ?_, ih h.2⟩
      rcases List.mem_cons.mp ((sink_perm x es).subset hy) with rfl | hy
      · exact Tree.less_asymm _ _ hlt
      · exact h.1 y hy
    · next hlt =>
      have hxe : x.less e = false := by simpa using hlt
      rw [List.pairwise_cons]
      refine ⟨fun y hy => ?_, List.pairwise_cons.mpr h⟩
      rcases List.mem_cons.mp hy with rfl | hy
      · exact hxe
      · cases hxy : x.less y with
        | false => rfl
        | true =>
          rcases Tree.less_cut x e y hxy with g | g
          · rw [hxe] at g; cases g
          · rw [h.1 y hy] at g; cases g

theorem foldl_sink_descending (l acc : List Tree)
    (h : acc.Pairwise (fun e1 e2 => e1.less e2 = false)) :
    (l.foldl (fun acc x => sink x acc) acc).Pairwise (fun e1 e2 => e1.less e2 = false) := by
  induction l generalizing acc with
  | nil => exact h
  | cons x xs ih => exact ih _ (sink_descending x acc h)

theorem sortSlice_sorted (l : List Tree) : (sortSlice l).Pairwise Tree.keyLe := by
  unfold sortSlice
  rw [List.pairwise_reverse]
  have := foldl_sink_descending l [] List.Pairwise.nil
  exact this.imp (fun {a b} hab => (Tree.keyLe_iff b a).mpr hab)

/-! ### `sort` on trees -/

theorem Tree.shuffled_sort (t : Tree) : t.shuffled t.sort := by
  induction t using Tree.induct with
  | h n bs ty mv v ver d ih =>
    simp only [Tree.sort, Tree.shuffled, Tree.Name, Tree.Typ, Tree.MountVersion, Tree.Value,
      Tree.Version, Tree.Deleted, Tree.Branches, true_and]
    rw [shuffledBranches_iff, sortBranches_eq_map]
    refine ⟨bs.map Tree.sort, sortSlice_perm _, ?_⟩
    rw [List.forall₂_map_right_iff]
    exact List.forall₂_same.mpr ih

theorem Tree.ordered_sort (t : Tree) : t.sort.ordered := by
  induction t using Tree.induct with
  | h n bs ty mv v ver d ih =>
    simp only [Tree.sort, Tree.ordered]
    refine ⟨sortSlice_sorted _, ?_⟩
    rw [orderedBranches_iff, sortBranches_eq_map]
    intro b hb
    have hb2 := (sortSlice_perm _).subset hb
    obtain ⟨c, hc, rfl⟩ := List.mem_map.mp hb2
    exact ih c hc

theorem keyLe_slash_example (a b : Tree) (ha : a.Name = [120, 47])
    (hb : b.Name = [120, 47, 121]) : a.less b = true ∧ ¬ b.keyLe a := by
  have h1 : a.less b = true := by
    rw [Tree.less_iff, ha, hb]; left; decide
  exact ⟨h1, fun h => by rw [Tree.keyLe_iff, h1] at h; cases h⟩

/-- C7.  For every tree, `sort` yields the same tree with the branches of every
node, at every depth, permuted (`shuffled`) and in sibling order (`ordered`):
by name in byte-wise lexicographic order, equal names by ascending version.  In
particular a branch named `x/y` never stands before a branch named `x/`. -/
theorem sort_sorted_permutation (t : Tree) :
    t.shuffled t.sort ∧ t.sort.ordered ∧ t.sort.Branches.Perm (t.Branches.map Tree.sort) ∧
    t.sort.Branches.Pairwise Tree.keyLe ∧
    (∀ a b : Tree, a.Name = [120, 47] → b.Name = [120, 47, 121] →
      a.less b = true ∧ ¬ List.Sublist [b, a] t.sort.Branches) := by
  have hp : t.sort.Branches.Pairwise Tree.keyLe := by
    cases t; exact sortSlice_sorted _
  refine ⟨Tree.shuffled_sort t, Tree.ordered_sort t, ?_, hp, fun a b ha hb => ?_⟩
  · cases t
    simp only [Tree.sort, Tree.Branches, sortBranches_eq_map]
    exact sortSlice_perm _
  · have hk := keyLe_slash_example a b ha hb
    refine ⟨hk.1, fun hsub => ?_⟩
    have := List.Pairwise.sublist hsub hp
    simp only [List.pairwise_cons, List.mem_singleton, forall_eq] at this
    exact hk.2 this.1

/-- Witness of `sort_sorted_permutation`: the siblings `x/y`, `x/`, `b`
(version 2) and `b` (version 1) come out as `b` (1), `b` (2), `x/`, `x/y`. -/
theorem sort_sorted_permutation_witness :
    (Tree.mk [47] [Tree.mk [120, 47, 121] [] 2 1 [] 0 false, Tree.mk [120, 47] [] 1 1 [] 0 false,
        Tree.mk [98] [] 5 2 [] 2 false, Tree.mk [98] [] 5 2 [] 1 true] 0 0 [] 0 false).sort
      = Tree.mk [47] [Tree.mk [98] [] 5 2 [] 1 true, Tree.mk [98] [] 5 2 [] 2 false,
          Tree.mk [120, 47] [] 1 1 [] 0 false, Tree.mk [120, 47, 121] [] 2 1 [] 0 false]
          0 0 [] 0 false ∧
    (Tree.mk [120, 47] [] 1 1 [] 0 false).less (Tree.mk [120, 47, 121] [] 2 1 [] 0 false) = true :=
  ⟨rfl,
   ((sort_sorted_permutation (Tree.mk [47] [] 0 0 [] 0 false)).2.2.2.2
      (Tree.mk [120, 47] [] 1 1 [] 0 false) (Tree.mk [120, 47, 121] [] 2 1 [] 0 false)
      rfl rfl).1⟩

/-! ### `sort` as a canonical form -/

/-- Two permutations of one another that are both in sibling order are equal
when no two of their elements carry the same name and version. -/
theorem sorted_perm_unique (l₁ l₂ : List Tree) (hp : l₁.Perm l₂)
    (h₁ : l₁.Pairwise Tree.keyLe) (h₂ : l₂.Pairwise Tree.keyLe)
    (hd : l₁.Pairwise (fun a b => ¬ Tree.sameKey a b)) : l₁ = l₂ := by
  have hsymm : ∀ {x y : Tree}, ¬ Tree.sameKey x y → ¬ Tree.sameKey y x :=
    fun h g => h ⟨g.1.symm, g.2.symm⟩
  have hd₂ : l₂.Pairwise (fun a b => ¬ Tree.sameKey a b) :=
    (List.Perm.pairwise_iff hsymm hp).mp hd
  have s₁ : l₁.Pairwise (fun a b => a.less b = true) :=
    (h₁.and hd).imp (fun {a b} h => Tree.less_of_keyLe_of_not_sameKey a b h.1 h.2)
  have s₂ : l₂.Pairwise (fun a b => a.less b = true) :=
    (h₂.and hd₂).imp (fun {a b} h => Tree.less_of_keyLe_of_not_sameKey a b h.1 h.2)
  haveI : IsAntisymm Tree (fun a b => a.less b = true) :=
    ⟨fun a b hab hba => by rw [Tree.less_asymm a b hab] at hba; cases hba⟩
  exact List.eq_of_perm_of_sorted hp s₁ s₂

theorem map_sort_eq_of_forall₂ (bs ds : List Tree) (hf : List.Forall₂ Tree.shuffled bs ds)
    (ih : ∀ b ∈ bs, ∀ t, b.shuffled t → b.distinctKeys → b.sort = t.sort)
    (hd : ∀ b ∈ bs, b.distinctKeys) : bs.map Tree.sort = ds.map Tree.sort := by
  induction hf with
  | nil => rfl
  | @cons b c bs2 ds2 hbc _ ih2 =>
    simp only [List.map_cons]
    rw [ih b (List.mem_cons_self _ _) c hbc (hd b (List.mem_cons_self _ _)),
      ih2 (fun x hx => ih x (List.mem_cons_of_mem _ hx))
        (fun x hx => hd x (List.mem_cons_of_mem _ hx))]

theorem Tree.sort_eq_of_shuffled (t₁ : Tree) :
    ∀ t₂, t₁.shuffled t₂ → t₁.distinctKeys → t₁.sort = t₂.sort := by
  induction t₁ using Tree.induct with
  | h n bs ty mv v ver d ih =>
    intro t₂ hs hk
    rcases t₂ with ⟨n₂, cs, ty₂, mv₂, v₂, ver₂, d₂⟩
    simp only [Tree.shuffled, Tree.Name, Tree.Typ, Tree.MountVersion, Tree.Value, Tree.Version,
      Tree.Deleted, Tree.Branches] at hs
    obtain ⟨rfl, rfl, rfl, rfl, rfl, rfl, hb⟩ := hs
    obtain ⟨ds, hperm, hf⟩ := (shuffledBranches_iff bs cs).mp hb
    simp only [Tree.distinctKeys] at hk
    obtain ⟨hpair, hall⟩ := hk
    rw [distinctKeysBranches_iff] at hall
    have hmap := map_sort_eq_of_forall₂ bs ds hf ih hall
    simp only [Tree.sort, sortBranches_eq_map]
    congr 1
    have hp : (sortSlice (bs.map Tree.sort)).Perm (sortSlice (cs.map Tree.sort)) := by
      refine (sortSlice_perm _).trans ?_
      rw [hmap]
      exact ((List.Perm.map Tree.sort hperm).symm).trans (sortSlice_perm _).symm
    have hd0 : (bs.map Tree.sort).Pairwise (fun a b => ¬ Tree.sameKey a b) := by
      rw [List.pairwise_map]
      exact hpair.imp (fun {a b} h g => h (by simpa [Tree.sameKey] using g))
    have hsymm : ∀ {x y : Tree}, ¬ Tree.sameKey x y → ¬ Tree.sameKey y x :=
      fun h g => h ⟨g.1.symm, g.2.symm⟩
    have hd1 := (List.Perm.pairwise_iff hsymm (sortSlice_perm (bs.map Tree.sort))).mpr hd0
    exact sorted_perm_unique _ _ hp (sortSlice_sorted _) (sortSlice_sorted _) hd1

/-! ### `pruneKeys` -/

@[simp] theorem Tree.pruneKeys_Typ (t : Tree) : t.pruneKeys.Typ = t.Typ := by
  cases t; rfl

theorem pruneKeysBranches_eq (bs : List Tree) :
    pruneKeysBranches bs = (bs.filter (fun b => decide (b.Typ ≠ TreeTypeKey))).map Tree.pruneKeys := by
  induction bs with
  | nil => rfl
  | cons b bs ih =>
    by_cases h : b.Typ = TreeTypeKey
    · simp [pruneKeysBranches, h, ih]
    · simp [pruneKeysBranches, h, ih]

theorem noKeyIn_iff (bs : List Tree) :
    noKeyIn bs ↔ ∀ b ∈ bs, b.Typ ≠ TreeTypeKey ∧ b.noKeyBelow := by
  induction bs with
  | nil => simp [noKeyIn]
  | cons b bs ih => simp [noKeyIn, ih]

theorem Tree.noKeyBelow_pruneKeys (t : Tree) : t.pruneKeys.noKeyBelow := by
  induction t using Tree.induct with
  | h n bs ty mv v ver d ih =>
    simp only [Tree.pruneKeys, Tree.noKeyBelow, pruneKeysBranches_eq, noKeyIn_iff]
    intro b hb
    obtain ⟨c, hc, rfl⟩ := List.mem_map.mp hb
    rw [List.mem_filter] at hc
    exact ⟨by simpa using hc.2, ih c hc.1⟩

theorem Tree.pruneKeys_of_noKeyBelow (t : Tree) (h : t.noKeyBelow) : t.pruneKeys = t := by
  induction t using Tree.induct with
  | h n bs ty mv v ver d ih =>
    simp only [Tree.noKeyBelow, noKeyIn_iff] at h
    simp only [Tree.pruneKeys, pruneKeysBranches_eq]
    congr 1
    have hf : bs.filter (fun b => decide (b.Typ ≠ TreeTypeKey)) = bs :=
      List.filter_eq_self.mpr (fun b hb => by simpa using (h b hb).1)
    rw [hf]
    calc bs.map Tree.pruneKeys = bs.map id :=
          List.map_congr_left (fun b hb => ih b hb (h b hb).2)
      _ = bs := List.map_id bs

theorem nodesIn_eq (bs : List Tree) :
    nodesIn bs = bs.flatMap (fun b => b.setBranches [] :: b.nodesBelow) := by
  induction bs with
  | nil => rfl
  | cons b bs ih => simp [nodesIn, ih]

theorem nodesOutsideKeysIn_eq (bs : List Tree) :
    nodesOutsideKeysIn bs = bs.flatMap (fun b =>
      if b.Typ = TreeTypeKey then [] else b.setBranches [] :: b.nodesOutsideKeys) := by
  induction bs with
  | nil => rfl
  | cons b bs ih => simp [nodesOutsideKeysIn, ih]

theorem Tree.pruneKeys_setBranches_nil (t : Tree) :
    t.pruneKeys.setBranches [] = t.setBranches [] := by
  cases t; rfl

theorem Tree.nodesBelow_pruneKeys (t : Tree) : t.pruneKeys.nodesBelow = t.nodesOutsideKeys := by
  induction t using Tree.induct with
  | h n bs ty mv v ver d ih =>
    simp only [Tree.pruneKeys, Tree.nodesBelow, Tree.nodesOutsideKeys, pruneKeysBranches_eq,
      nodesIn_eq, nodesOutsideKeysIn_eq]
    induction bs with
    | nil => rfl
    | cons b bs ih2 =>
      have ihb := ih b (List.mem_cons_self _ _)
      have ihr := ih2 (fun x hx => ih x (List.mem_cons_of_mem _ hx))
      by_cases hk : b.Typ = TreeTypeKey
      · simp only [List.filter_cons, hk, ne_eq, not_true_eq_false, decide_False,
          List.flatMap_cons, if_true, List.nil_append]
        simpa using ihr
      · simp only [List.filter_cons, hk, ne_eq, not_false_eq_true, decide_True, if_true,
          List.map_cons, List.flatMap_cons, if_false, Tree.pruneKeys_setBranches_nil, ihb]
        rw [ihr]

/-! ### The type of the starting node through `ConstructTree` -/

@[simp] theorem Tree.setBranches_Typ (t : Tree) (bs : List Tree) : (t.setBranches bs).Typ = t.Typ := by
  cases t; rfl

@[simp] theorem Tree.setTyp_Typ (t : Tree) (ty : Int) : (t.setTyp ty).Typ = ty := by
  cases t; rfl

@[simp] theorem Tree.sort_Typ (t : Tree) : t.sort.Typ = t.Typ := by
  cases t; rfl

@[simp] theorem Tree.pruneEmpty_Typ (t : Tree) : t.pruneEmpty.Typ = t.Typ := by
  cases t; rfl

theorem Tree.modifyAt_Typ (f : Tree → Tree) (hf : ∀ n, (f n).Typ = n.Typ) (t : Tree)
    (a : List Nat) : (Tree.modifyAt f t a).Typ = t.Typ := by
  cases a with
  | nil => exact hf t
  | cons i rest =>
    simp only [Tree.modifyAt]
    split <;> simp

theorem crawl.afterPop_tree {σ : Type} (c : crawl σ) (i : Nat) (res : popOutcome × workQueue) :
    (c.afterPop i res).tree = c.tree := by
  unfold crawl.afterPop
  split <;> rfl

theorem crawl.step_Typ {σ : Type} (v : Vault σ) (opts : TreeOpts) (c : crawl σ) (i : Nat) :
    (crawl.step v opts c i).tree.Typ = c.tree.Typ := by
  unfold crawl.step
  split
  · rw [crawl.afterPop_tree]
  · rw [crawl.afterPop_tree]
  · unfold crawl.process
    split
    · rfl
    · split
      · rfl
      · exact Tree.modifyAt_Typ _ (fun n => by simp) _ _
  · rfl
  · rfl

theorem crawl.run_Typ {σ : Type} (v : Vault σ) (opts : TreeOpts) (schedule : List Nat)
    (c : crawl σ) : (crawl.run v opts c schedule).tree.Typ = c.tree.Typ := by
  induction schedule generalizing c with
  | nil => rfl
  | cons i rest ih =>
    have := ih (crawl.step v opts c i)
    simp only [crawl.run, List.foldl_cons] at this ⊢
    rw [this, crawl.step_Typ]

theorem Tree.populateNodeType_Typ {σ : Type} (v : Vault σ) (t ret : Tree) (s s1 : σ)
    (h : t.populateNodeType v s = (none, ret, s1)) : ret.Typ ≠ TreeTypeKey := by
  unfold Tree.populateNodeType at h
  split at h
  · cases h; simp [TreeTypeRoot, TreeTypeKey]
  · split at h
    · split at h
      · cases h
      · cases h; simp [TreeTypeDir, TreeTypeKey]
    · split at h
      · cases h; simp [TreeTypeDirAndSecret, TreeTypeKey]
      · split at h
        · cases h
        · cases h; simp [TreeTypeSecret, TreeTypeKey]

theorem Tree.noKeyBelow_sort (t : Tree) (h : t.noKeyBelow) : t.sort.noKeyBelow := by
  induction t using Tree.induct with
  | h n bs ty mv v ver d ih =>
    simp only [Tree.noKeyBelow, noKeyIn_iff] at h
    simp only [Tree.sort, Tree.noKeyBelow, noKeyIn_iff, sortBranches_eq_map]
    intro b hb
    obtain ⟨c, hc, rfl⟩ := List.mem_map.mp ((sortSlice_perm _).subset hb)
    exact ⟨by simpa using (h c hc).1, ih c hc (h c hc).2⟩

theorem postProcess_noKey (opts : TreeOpts) (t : Tree) (hk : opts.FetchKeys = false) :
    (postProcess opts t).Typ = t.Typ ∧ (postProcess opts t).noKeyBelow := by
  unfold postProcess
  simp only [hk, Bool.not_false, if_true]
  refine ⟨?_, Tree.noKeyBelow_sort _ (Tree.noKeyBelow_pruneKeys _)⟩
  cases opts.AllowDeletedKeys <;> simp

theorem ConstructTree_noKey {σ : Type} (Canonicalize : GoString → GoString) (numCPU : Int)
    (v : Vault σ) (schedule : List Nat) (path : GoString) (opts : TreeOpts) (s : σ)
    (r : Tree) (e : Option vaultError) (hk : opts.FetchKeys = false)
    (h : ConstructTree Canonicalize numCPU v schedule path opts s = some (some r, e)) :
    r.Typ ≠ TreeTypeKey ∧ r.noKeyBelow := by
  unfold ConstructTree at h
  simp only at h
  split at h
  · cases h
  · next ret s1 hp =>
    split at h
    · simp only [Option.some.injEq, Prod.mk.injEq] at h
      obtain ⟨hr, _⟩ := h
      subst hr
      have hpp := postProcess_noKey opts
        (crawl.run v opts (crawl.start opts (numWorkersOf numCPU) ret s1) schedule).tree hk
      refine ⟨?_, hpp.2⟩
      rw [hpp.1, crawl.run_Typ]
      show (ret.getWorkType opts).2.Typ ≠ TreeTypeKey
      rw [(Tree.getWorkType_receiver ret opts).2.1]
      exact Tree.populateNodeType_Typ v _ ret s s1 hp
    · cases h

/-! ### Addresses into the tree -/

@[simp] theorem Tree.setBranches_Branches (t : Tree) (bs : List Tree) :
    (t.setBranches bs).Branches = bs := by
  cases t; rfl

@[simp] theorem Tree.setBranches_setBranches (t : Tree) (bs cs : List Tree) :
    (t.setBranches bs).setBranches cs = t.setBranches cs := by
  cases t; rfl

theorem Tree.setBranches_self (t : Tree) : t.setBranches t.Branches = t := by
  cases t; rfl

theorem Tree.eq_of_label_of_Branches (s t : Tree) (h1 : s.setBranches [] = t.setBranches [])
    (h2 : s.Branches = t.Branches) : s = t := by
  rcases s with ⟨n, bs, ty, mv, v, ver, d⟩
  rcases t with ⟨n2, bs2, ty2, mv2, v2, ver2, d2⟩
  simp only [Tree.setBranches, Tree.mk.injEq, true_and] at h1
  simp only [Tree.Branches] at h2
  obtain ⟨rfl, rfl, rfl, rfl, rfl, rfl⟩ := h1
  rw [h2]

theorem Tree.nodeAt_append (t n : Tree) (a r : List Nat) (h : t.nodeAt a = some n) :
    t.nodeAt (a ++ r) = n.nodeAt r := by
  induction a generalizing t with
  | nil =>
    simp only [Tree.nodeAt, Option.some.injEq] at h
    subst h; rfl
  | cons i rest ih =>
    simp only [Tree.nodeAt, List.cons_append] at h ⊢
    cases hg : t.Branches.get? i with
    | none => rw [hg] at h; cases h
    | some b =>
      rw [hg] at h
      simp only
      exact ih b h

theorem Tree.nodeAt_modifyAt_append (f : Tree → Tree) (t n : Tree) (a r : List Nat)
    (h : t.nodeAt a = some n) : (Tree.modifyAt f t a).nodeAt (a ++ r) = (f n).nodeAt r := by
  induction a generalizing t with
  | nil =>
    simp only [Tree.nodeAt, Option.some.injEq] at h
    subst h; rfl
  | cons i rest ih =>
    simp only [Tree.nodeAt] at h
    cases hg : t.Branches.get? i with
    | none => rw [hg] at h; cases h
    | some b =>
      rw [hg] at h
      simp only [Tree.modifyAt, hg, List.cons_append, Tree.nodeAt, Tree.setBranches_Branches]
      have hlt : i < t.Branches.length := by
        rw [List.get?_eq_some] at hg
        exact hg.1
      rw [List.get?_eq_getElem?, List.getElem?_set_self hlt]
      exact ih b h

/-- A modification at an address leaves the shape (the fields other than the
branches, and the number of branches) of every node that is not at or below
that address. -/
theorem Tree.nodeAt_modifyAt_other (f : Tree → Tree) (t n : Tree) (a b : List Nat)
    (h : t.nodeAt a = some n) (hp : ¬ a <+: b) :
    ((Tree.modifyAt f t a).nodeAt b).map (fun x => (x.setBranches [], x.Branches.length))
      = (t.nodeAt b).map (fun x => (x.setBranches [], x.Branches.length)) := by
  induction a generalizing t b with
  | nil => exact absurd (List.nil_prefix) hp
  | cons i rest ih =>
    simp only [Tree.nodeAt] at h
    cases hg : t.Branches.get? i with
    | none => rw [hg] at h; cases h
    | some c =>
      rw [hg] at h
      simp only [Tree.modifyAt, hg]
      cases b with
      | nil => simp [Tree.nodeAt]
      | cons j bs =>
        simp only [Tree.nodeAt, Tree.setBranches_Branches]
        by_cases hij : j = i
        · subst hij
          have hlt : j < t.Branches.length := by
            rw [List.get?_eq_some] at hg
            exact hg.1
          simp only [List.get?_eq_getElem?] at hg ⊢
          rw [List.getElem?_set_self hlt, hg]
          simp only
          refine ih c bs h (fun hpre => hp ?_)
          exact (List.prefix_cons_inj j).mpr hpre
        · simp only [List.get?_eq_getElem?]
          rw [List.getElem?_set_ne (Ne.symm hij)]

theorem Tree.nodeAt_cons_of_no_branches (n : Tree) (i : Nat) (r : List Nat)
    (h : n.Branches = []) : n.nodeAt (i :: r) = none := by
  simp [Tree.nodeAt, h]

theorem Tree.getWorkType_label (n : Tree) (opts : TreeOpts) :
    ((n.setBranches []).getWorkType opts).1 = (n.getWorkType opts).1 := by
  rcases n with ⟨nm, bs, ty, mv, v, ver, d⟩
  simp only [Tree.getWorkType, Tree.setBranches, Tree.Typ, Tree.MountVersion]
  split_ifs <;> rfl

theorem expandedAll_iff (v : Vault Unit) (opts : TreeOpts) (bs : List Tree) :
    expandedAll v opts bs ↔ ∀ b ∈ bs, b.expanded v opts := by
  induction bs with
  | nil => simp [expandedAll]
  | cons b bs ih => simp [expandedAll, ih]

theorem Tree.expanded_iff (v : Vault Unit) (opts : TreeOpts) (m : Tree) :
    m.expanded v opts ↔
      expandNode v opts ((m.setBranches []).getWorkType opts).1 (m.setBranches []) ()
        = (Except.ok (m.Branches.map (fun b => b.setBranches [])), ()) ∧
      ∀ b ∈ m.Branches, b.expanded v opts := by
  rcases m with ⟨nm, bs, ty, mv, val, ver, d⟩
  simp only [Tree.expanded, expandedAll_iff, Tree.setBranches, Tree.Branches]

theorem Tree.expanded_nodeAt (v : Vault Unit) (opts : TreeOpts) (X m : Tree) (a : List Nat)
    (hX : X.expanded v opts) (h : X.nodeAt a = some m) : m.expanded v opts := by
  induction a generalizing X with
  | nil =>
    simp only [Tree.nodeAt, Option.some.injEq] at h
    subst h; exact hX
  | cons i rest ih =>
    simp only [Tree.nodeAt] at h
    cases hg : X.Branches.get? i with
    | none => rw [hg] at h; cases h
    | some b =>
      rw [hg] at h
      exact ih b (((Tree.expanded_iff v opts X).mp hX).2 b (List.get?_mem hg)) h

theorem childOrders_eq (opts : TreeOpts) (a : List Nat) (k : Nat) (bs : List Tree) :
    childOrders opts a k bs =
      (bs.enumFrom k).map (fun p =>
        ({ insertInto := a ++ [p.1], operation := (p.2.getWorkType opts).1 } : workOrder)) := by
  induction bs generalizing k with
  | nil => rfl
  | cons b bs ih => simp [childOrders, List.enumFrom, ih]

theorem mem_childOrders (opts : TreeOpts) (a : List Nat) (bs : List Tree) (o : workOrder) :
    o ∈ childOrders opts a 0 bs ↔
      ∃ i b, bs.get? i = some b ∧
        o = { insertInto := a ++ [i], operation := (b.getWorkType opts).1 } := by
  rw [childOrders_eq, List.mem_map]
  constructor
  · rintro ⟨⟨i, b⟩, hm, rfl⟩
    rw [List.mk_mem_enumFrom_iff_le_and_getElem?_sub] at hm
    exact ⟨i, b, by simpa [List.get?_eq_getElem?] using hm.2, rfl⟩
  · rintro ⟨i, b, hg, rfl⟩
    refine ⟨(i, b), ?_, rfl⟩
    rw [List.mk_mem_enumFrom_iff_le_and_getElem?_sub]
    simpa [List.get?_eq_getElem?] using hg

theorem childOrders_addresses (opts : TreeOpts) (a : List Nat) (k : Nat) (bs : List Tree) :
    (childOrders opts a k bs).map workOrder.insertInto
      = (List.range' k bs.length).map (fun i => a ++ [i]) := by
  induction bs generalizing k with
  | nil => rfl
  | cons b bs ih => simp [childOrders, List.range', ih]

theorem childOrders_nodup (opts : TreeOpts) (a : List Nat) (k : Nat) (bs : List Tree) :
    ((childOrders opts a k bs).map workOrder.insertInto).Nodup := by
  rw [childOrders_addresses]
  refine List.Nodup.map ?_ (List.nodup_range' k bs.length)
  intro i j h
  simpa using h

/-! ### The tree under construction agrees with the expansion -/

theorem treeAgrees_perm (opts : TreeOpts) (X tree : Tree) (P Q : List workOrder)
    (h : P.Perm Q) (hT : treeAgrees opts X tree P) : treeAgrees opts X tree Q := by
  obtain ⟨h1, h2, h3⟩ := hT
  have hm : ∀ a, a ∈ P.map workOrder.insertInto ↔ a ∈ Q.map workOrder.insertInto :=
    fun a => (h.map workOrder.insertInto).mem_iff
  refine ⟨fun a n hn => ?_, fun o ho => h2 o (h.mem_iff.mpr ho),
    (h.map workOrder.insertInto).nodup_iff.mp h3⟩
  obtain ⟨m, hm1, hm2, hm3, hm4⟩ := h1 a n hn
  exact ⟨m, hm1, hm2, fun hq => hm3 ((hm a).mpr hq), fun hq => hm4 (fun hp => hq ((hm a).mp hp))⟩

theorem mem_childOrders_addresses (opts : TreeOpts) (a x : List Nat) (bs : List Tree) :
    x ∈ (childOrders opts a 0 bs).map workOrder.insertInto ↔ ∃ i, i < bs.length ∧ x = a ++ [i] := by
  rw [childOrders_addresses]
  simp only [List.mem_map, List.mem_range', Nat.zero_add]
  constructor
  · rintro ⟨i, ⟨k, hk, rfl⟩, rfl⟩
    exact ⟨1 * k, by omega, by simp⟩
  · rintro ⟨i, hi, rfl⟩
    exact ⟨i, ⟨i, hi, by simp⟩, rfl⟩

theorem treeAgrees_process (v : Vault Unit) (opts : TreeOpts) (X tree : Tree) (o : workOrder)
    (R : List workOrder) (hX : X.expanded v opts) (hT : treeAgrees opts X tree (o :: R)) :
    ∃ n answer, tree.nodeAt o.insertInto = some n ∧
      expandNode v opts o.operation n () = (Except.ok answer, ()) ∧
      treeAgrees opts X
        (Tree.modifyAt (fun n => n.setBranches (n.Branches ++ answer)) tree o.insertInto)
        (childOrders opts o.insertInto 0 (n.Branches ++ answer) ++ R) := by
  obtain ⟨h1, h2, h3⟩ := hT
  obtain ⟨n, hn, hop⟩ := h2 o (List.mem_cons_self _ _)
  obtain ⟨m, hm, hlab, hpend, _⟩ := h1 o.insertInto n hn
  have hnb : n.Branches = [] := List.length_eq_zero.mp (hpend (by simp))
  have hnn : n = m.setBranches [] := by
    rw [← hlab, ← hnb, Tree.setBranches_self]
  have hme := (Tree.expanded_iff v opts m).mp (Tree.expanded_nodeAt v opts X m _ hX hm)
  simp only [List.map_cons, List.nodup_cons] at h3
  obtain ⟨haR, hRnd⟩ := h3
  -- no pending order addresses a node at or below the node being expanded
  have hF : ∀ o2 ∈ R, ¬ o.insertInto <+: o2.insertInto := by
    intro o2 ho2 hpre
    obtain ⟨n0, hn0, _⟩ := h2 o2 (List.mem_cons_of_mem _ ho2)
    obtain ⟨r, hr⟩ := hpre
    cases r with
    | nil =>
      apply haR
      rw [List.append_nil] at hr
      rw [hr]
      exact List.mem_map_of_mem _ ho2
    | cons i r2 =>
      rw [← hr, Tree.nodeAt_append tree n _ _ hn, Tree.nodeAt_cons_of_no_branches n i r2 hnb] at hn0
      cases hn0
  refine ⟨n, m.Branches.map (fun b => b.setBranches []), hn, ?_, ?_, ?_, ?_⟩
  · rw [hop, hlab, hnn]
    simpa using hme.1
  · -- every node of the new tree is a node of the expansion
    intro b n2 hb
    by_cases hp : o.insertInto <+: b
    · obtain ⟨r, rfl⟩ := hp
      rw [Tree.nodeAt_modifyAt_append _ tree n _ r hn] at hb
      cases r with
      | nil =>
        simp only [Tree.nodeAt, Option.some.injEq] at hb
        subst hb
        refine ⟨m, by simpa using hm, by simpa using hlab, fun hmem => ?_, fun _ => ?_⟩
        · exfalso
          rw [List.map_append, List.mem_append, mem_childOrders_addresses] at hmem
          rcases hmem with ⟨i, _, hi⟩ | hmem
          · have := congrArg List.length hi
            simp at this
          · rw [List.append_nil] at hmem
            exact haR hmem
        · simp [hnb]
      | cons i r2 =>
        simp only [Tree.nodeAt, Tree.setBranches_Branches, hnb, List.nil_append,
          List.get?_eq_getElem?, List.getElem?_map] at hb
        cases hmi : m.Branches[i]? with
        | none => rw [hmi] at hb; cases hb
        | some mi =>
          rw [hmi] at hb
          simp only [Option.map_some'] at hb
          cases r2 with
          | cons j r3 =>
            rw [Tree.nodeAt_cons_of_no_branches _ j r3 (by simp)] at hb
            cases hb
          | nil =>
            simp only [Tree.nodeAt, Option.some.injEq] at hb
            subst hb
            have hX2 : X.nodeAt (o.insertInto ++ [i]) = some mi := by
              rw [Tree.nodeAt_append X m _ _ hm]
              simp [Tree.nodeAt, List.get?_eq_getElem?, hmi]
            refine ⟨mi, hX2, by simp, fun _ => by simp, fun hnot => ?_⟩
            exfalso
            apply hnot
            rw [List.map_append, List.mem_append, mem_childOrders_addresses]
            left
            refine ⟨i, ?_, rfl⟩
            have : i < m.Branches.length := by
              by_contra hge
              rw [List.getElem?_eq_none (by omega)] at hmi
              cases hmi
            simpa [hnb] using this
    · have hs := Tree.nodeAt_modifyAt_other
        (fun n => n.setBranches (n.Branches ++ m.Branches.map (fun b => b.setBranches [])))
        tree n _ b hn hp
      rw [hb] at hs
      cases hb0 : tree.nodeAt b with
      | none => rw [hb0] at hs; cases hs
      | some n0 =>
        rw [hb0] at hs
        simp only [Option.map_some', Option.some.injEq, Prod.mk.injEq] at hs
        obtain ⟨m0, hm0, hl0, hp0, hq0⟩ := h1 b n0 hb0
        have hba : b ≠ o.insertInto := fun e => hp (e ▸ List.prefix_refl _)
        have hmem : b ∈ (childOrders opts o.insertInto 0
            (n.Branches ++ m.Branches.map (fun b => b.setBranches [])) ++ R).map
              workOrder.insertInto ↔ b ∈ (o :: R).map workOrder.insertInto := by
          rw [List.map_append, List.mem_append, mem_childOrders_addresses, List.map_cons,
            List.mem_cons]
          constructor
          · rintro (⟨i, _, hi⟩ | h)
            · exact absurd (hi ▸ List.prefix_append _ _) hp
            · exact Or.inr h
          · rintro (h | h)
            · exact absurd h hba
            · exact Or.inr h
        refine ⟨m0, hm0, hs.1.trans hl0, fun h => ?_, fun h => ?_⟩
        · rw [hs.2]; exact hp0 (hmem.mp h)
        · rw [hs.2]; exact hq0 (fun g => h (hmem.mpr g))
  · -- every pending order addresses a node of the new tree
    intro o2 ho2
    rcases List.mem_append.mp ho2 with hc | hr
    · obtain ⟨i, c, hg, rfl⟩ := (mem_childOrders opts _ _ o2).mp hc
      refine ⟨c, ?_, (Tree.getWorkType_label c opts).symm⟩
      rw [Tree.nodeAt_modifyAt_append _ tree n _ [i] hn]
      simp only [Tree.nodeAt, Tree.setBranches_Branches, hg]
    · obtain ⟨n0, hn0, hop0⟩ := h2 o2 (List.mem_cons_of_mem _ hr)
      have hs := Tree.nodeAt_modifyAt_other
        (fun n => n.setBranches (n.Branches ++ m.Branches.map (fun b => b.setBranches [])))
        tree n _ o2.insertInto hn (hF o2 hr)
      rw [hn0] at hs
      cases hb : (Tree.modifyAt
          (fun n => n.setBranches (n.Branches ++ m.Branches.map (fun b => b.setBranches [])))
          tree o.insertInto).nodeAt o2.insertInto with
      | none => rw [hb] at hs; cases hs
      | some n2 =>
        rw [hb] at hs
        simp only [Option.map_some', Option.some.injEq, Prod.mk.injEq] at hs
        exact ⟨n2, rfl, by rw [hs.1]; exact hop0⟩
  · -- no two pending orders address the same node
    rw [List.map_append, List.nodup_append]
    refine ⟨childOrders_nodup _ _ _ _, hRnd, ?_⟩
    intro x hx hxR
    obtain ⟨i, _, rfl⟩ := (mem_childOrders_addresses _ _ _ _).mp hx
    obtain ⟨o2, ho2, he⟩ := List.mem_map.mp hxR
    exact hF o2 ho2 (he ▸ List.prefix_append _ _)

/-! ### The bookkeeping of a crawl without errors -/

theorem heldOrders_set (ws : List workerPhase) (i : Nat) (w w2 : workerPhase)
    (h : ws.get? i = some w) :
    (heldOrders (ws.set i w2) ++ w.held).Perm (heldOrders ws ++ w2.held) := by
  induction ws generalizing i with
  | nil => simp at h
  | cons a t ih =>
    cases i with
    | zero =>
      simp only [List.get?_cons_zero, Option.some.injEq] at h
      subst h
      simp only [List.set_cons_zero, heldOrders]
      rw [List.perm_iff_count]
      intro x
      simp only [List.count_append]
      omega
    | succ j =>
      simp only [List.get?_cons_succ] at h
      simp only [List.set_cons_succ, heldOrders, List.append_assoc]
      exact List.Perm.append_left _ (ih j h)

theorem heldOrders_replicate_ready (n : Nat) :
    heldOrders (List.replicate n workerPhase.ready) = [] := by
  induction n with
  | zero => rfl
  | succ k ih => simp [List.replicate, heldOrders, workerPhase.held, ih]

theorem heldOrders_eq_nil (ws : List workerPhase) (h : ∀ w ∈ ws, w.held = []) :
    heldOrders ws = [] := by
  induction ws with
  | nil => rfl
  | cons a t ih =>
    simp only [heldOrders, h a (List.mem_cons_self _ _), List.nil_append]
    exact ih (fun w hw => h w (List.mem_cons_of_mem _ hw))

theorem crawl.inv_afterPop (opts : TreeOpts) (X : Tree) (c : crawl Unit) (i : Nat)
    (w : workerPhase) (hg : c.workers.get? i = some w)
    (hw : w = workerPhase.ready ∨ w = workerPhase.waiting)
    (q0 : workQueue) (hi : q0.items = c.q.items) (hcl : q0.closed = c.q.closed)
    (haw : q0.awake = c.q.awake - (if w.isActive = true then 1 else 0))
    (hs : c.sane) (hT : treeAgrees opts X c.tree c.pending) :
    (c.afterPop i (popLoop q0)).sane ∧
      treeAgrees opts X (c.afterPop i (popLoop q0)).tree (c.afterPop i (popLoop q0)).pending := by
  obtain ⟨s1, s2, s3, s4, s5, s6⟩ := hs
  have hwh : w.held = [] := by rcases hw with rfl | rfl <;> rfl
  have hws : w.hasSent = false := by rcases hw with rfl | rfl <;> rfl
  have hA : ∀ x, (((c.workers.set i x).countP workerPhase.isActive : Nat) : Int)
      + (c.q.awake - q0.awake)
        = ((c.workers.countP workerPhase.isActive : Nat) : Int)
          + (if x.isActive = true then 1 else 0) := by
    intro x
    have h0 := countP_set_of_get? workerPhase.isActive c.workers i x w hg
    have e1 : workerPhase.ready.isActive = true := rfl
    have e2 : workerPhase.waiting.isActive = false := rfl
    by_cases hx : x.isActive = true <;> rcases hw with rfl | rfl <;>
      simp only [e1, e2, hx, ↓reduceIte, Bool.false_eq_true] at h0 haw ⊢ <;>
      omega
  have hd : q0.awake = c.q.awake ∨ q0.awake = c.q.awake - 1 := by
    split at haw
    · right; exact haw
    · left; simpa using haw
  have hS : ∀ x, (c.workers.set i x).countP workerPhase.hasSent
      = c.workers.countP workerPhase.hasSent + (if x.hasSent = true then 1 else 0) := by
    intro x
    have := countP_set_of_get? workerPhase.hasSent c.workers i x w hg
    rw [hws] at this
    simpa using this
  have hH : ∀ x, (heldOrders (c.workers.set i x)).Perm (heldOrders c.workers ++ x.held) := by
    intro x
    have := heldOrders_set c.workers i w x hg
    rw [hwh] at this
    simpa using this
  have hmem : ∀ x y, y ∈ c.workers.set i x → y ∈ c.workers ∨ y = x :=
    fun x y h => List.mem_or_eq_of_mem_set h
  rcases popLoop_cases q0 with ⟨h1, h2⟩ | ⟨h1, h2, h3, h4⟩ | ⟨h1, h2, h3, h4⟩ | ⟨o, rest, h1, h2, h4⟩
  · -- the queue is closed already
    have hc := s6 (hcl ▸ h1)
    rw [h2]
    simp only [crawl.afterPop, crawl.sane, crawl.pending]
    have hA1 := hA workerPhase.exited
    have hS1 := hS workerPhase.exited
    have hH1 := hH workerPhase.exited
    simp only [workerPhase.isActive, workerPhase.hasSent, workerPhase.held, if_true,
      Bool.false_eq_true, if_false, List.append_nil] at hA1 hS1 hH1
    refine ⟨⟨by omega, by rw [List.length_append, hS1]; simp; omega, ?_, ?_, ?_, ?_⟩, ?_⟩
    · intro e he
      rcases List.mem_append.mp he with he | he
      · exact s3 e he
      · simpa using he
    · intro y hy
      rcases hmem _ y hy with hy | rfl
      · exact s4 y hy
      · simp
    · intro _ _ _; exact h1
    · intro _; exact ⟨by omega, by rw [hi]; exact hc.2⟩
    · refine treeAgrees_perm opts X c.tree _ _ ?_ hT
      rw [hi]
      exact List.Perm.append_left _ hH1.symm
  · -- this `Pop` closes the queue
    rw [h4]
    simp only [crawl.afterPop, crawl.sane, crawl.pending]
    have hA1 := hA workerPhase.exited
    have hS1 := hS workerPhase.exited
    have hH1 := hH workerPhase.exited
    simp only [workerPhase.isActive, workerPhase.hasSent, workerPhase.held, if_true,
      Bool.false_eq_true, if_false, List.append_nil] at hA1 hS1 hH1
    refine ⟨⟨by omega, by rw [List.length_append, hS1]; simp; omega, ?_, ?_, ?_, ?_⟩, ?_⟩
    · intro e he
      rcases List.mem_append.mp he with he | he
      · exact s3 e he
      · simpa using he
    · intro y hy
      rcases hmem _ y hy with hy | rfl
      · exact s4 y hy
      · simp
    · intro _ _ _; trivial
    · intro _; exact ⟨h3, h2⟩
    · refine treeAgrees_perm opts X c.tree _ _ ?_ hT
      rw [hi]
      exact List.Perm.append_left _ hH1.symm
  · -- the worker blocks
    rw [h4]
    simp only [crawl.afterPop, crawl.sane, crawl.pending]
    have hA1 := hA workerPhase.waiting
    have hS1 := hS workerPhase.waiting
    have hH1 := hH workerPhase.waiting
    simp only [workerPhase.isActive, workerPhase.hasSent, workerPhase.held, if_true,
      Bool.false_eq_true, if_false, List.append_nil] at hA1 hS1 hH1
    refine ⟨⟨by omega, by omega, s3, ?_, ?_, ?_⟩, ?_⟩
    · intro y hy
      rcases hmem _ y hy with hy | rfl
      · exact s4 y hy
      · simp
    · intro y hy he
      rcases hmem _ y hy with hy | rfl
      · rw [hcl]; exact s5 y hy he
      · cases he
    · intro hc
      rw [h1] at hc; cases hc
    · refine treeAgrees_perm opts X c.tree _ _ ?_ hT
      rw [hi]
      exact List.Perm.append_left _ hH1.symm
  · -- the worker gets the head order
    rw [h4]
    simp only [crawl.afterPop, crawl.sane, crawl.pending]
    have hA1 := hA (workerPhase.holding o)
    have hS1 := hS (workerPhase.holding o)
    have hH1 := hH (workerPhase.holding o)
    simp only [workerPhase.isActive, workerPhase.hasSent, workerPhase.held, if_true,
      Bool.false_eq_true, if_false, List.append_nil] at hA1 hS1 hH1
    refine ⟨⟨by omega, by omega, s3, ?_, ?_, ?_⟩, ?_⟩
    · intro y hy
      rcases hmem _ y hy with hy | rfl
      · exact s4 y hy
      · simp
    · intro y hy he
      rcases hmem _ y hy with hy | rfl
      · rw [hcl]; exact s5 y hy he
      · cases he
    · intro hc
      rw [h1] at hc; cases hc
    · refine treeAgrees_perm opts X c.tree _ _ ?_ hT
      show (c.q.items ++ heldOrders c.workers).Perm (rest ++ _)
      rw [← hi, h2, List.perm_iff_count]
      intro x
      have := hH1.count_eq x
      simp only [List.count_append, List.count_cons, List.count_nil] at this ⊢
      omega

theorem crawl.inv_process (v : Vault Unit) (opts : TreeOpts) (X : Tree) (c : crawl Unit)
    (i : Nat) (o : workOrder) (hg : c.workers.get? i = some (workerPhase.holding o))
    (hX : X.expanded v opts) (hs : c.sane) (hT : treeAgrees opts X c.tree c.pending) :
    (crawl.process v opts c i o).sane ∧
      treeAgrees opts X (crawl.process v opts c i o).tree (crawl.process v opts c i o).pending := by
  obtain ⟨s1, s2, s3, s4, s5, s6⟩ := hs
  have hA := countP_set_of_get? workerPhase.isActive c.workers i workerPhase.ready _ hg
  have hS := countP_set_of_get? workerPhase.hasSent c.workers i workerPhase.ready _ hg
  have hH := heldOrders_set c.workers i _ workerPhase.ready hg
  simp only [workerPhase.isActive, workerPhase.hasSent, workerPhase.held, if_true,
    Bool.false_eq_true, if_false, List.append_nil] at hA hS hH
  have hmem : ∀ y, y ∈ c.workers.set i workerPhase.ready → y ∈ c.workers ∨ y = workerPhase.ready :=
    fun y h => List.mem_or_eq_of_mem_set h
  have hopen : c.q.closed = false := by
    cases hc : c.q.closed with
    | false => rfl
    | true =>
      have h0 := (s6 hc).1
      have hpos : 0 < c.workers.countP workerPhase.isActive :=
        List.countP_pos_iff.mpr ⟨_, List.get?_mem hg, rfl⟩
      omega
  have hperm : c.pending.Perm (o :: (c.q.items ++ heldOrders (c.workers.set i workerPhase.ready))) := by
    unfold crawl.pending
    rw [List.perm_iff_count]
    intro x
    have := hH.count_eq x
    simp only [List.count_append, List.count_cons, List.count_nil] at this ⊢
    omega
  obtain ⟨n, answer, hn, he, hT2⟩ :=
    treeAgrees_process v opts X c.tree o _ hX (treeAgrees_perm opts X c.tree _ _ hperm hT)
  have hst : c.store = () := rfl
  unfold crawl.process
  rw [hn]
  simp only [hst, he]
  rw [foldl_Push_open _ c.q hopen]
  simp only [crawl.sane, crawl.pending]
  refine ⟨⟨by omega, by omega, s3, ?_, ?_, ?_⟩, ?_⟩
  · intro y hy
    rcases hmem y hy with hy | rfl
    · exact s4 y hy
    · simp
  · intro y hy he2
    rcases hmem y hy with hy | rfl
    · exact s5 y hy he2
    · cases he2
  · intro hc
    rw [hopen] at hc; cases hc
  · refine treeAgrees_perm opts X _ _ _ ?_ hT2
    rw [List.perm_iff_count]
    intro x
    simp only [List.count_append]
    omega

theorem crawl.inv_step (v : Vault Unit) (opts : TreeOpts) (X : Tree) (c : crawl Unit) (i : Nat)
    (hX : X.expanded v opts) (hs : c.sane) (hT : treeAgrees opts X c.tree c.pending) :
    (crawl.step v opts c i).sane ∧
      treeAgrees opts X (crawl.step v opts c i).tree (crawl.step v opts c i).pending := by
  unfold crawl.step
  split
  · next hg =>
    exact crawl.inv_afterPop opts X c i _ hg (Or.inl rfl) { c.q with awake := c.q.awake - 1 }
      rfl rfl (by simp [workerPhase.isActive]) hs hT
  · next hg =>
    exact crawl.inv_afterPop opts X c i _ hg (Or.inr rfl) c.q rfl rfl
      (by simp [workerPhase.isActive]) hs hT
  · next o hg => exact crawl.inv_process v opts X c i o hg hX hs hT
  · next hg => exact absurd rfl (hs.2.2.2.1 _ (List.get?_mem hg))
  · exact ⟨hs, hT⟩

theorem crawl.inv_run (v : Vault Unit) (opts : TreeOpts) (X : Tree) (schedule : List Nat)
    (c : crawl Unit) (hX : X.expanded v opts) (hs : c.sane)
    (hT : treeAgrees opts X c.tree c.pending) :
    (crawl.run v opts c schedule).sane ∧
      treeAgrees opts X (crawl.run v opts c schedule).tree
        (crawl.run v opts c schedule).pending := by
  induction schedule generalizing c with
  | nil => exact ⟨hs, hT⟩
  | cons i rest ih =>
    have h := crawl.inv_step v opts X c i hX hs hT
    exact ih (crawl.step v opts c i) h.1 h.2

theorem Tree.eq_of_nodeAt (T : Tree) :
    ∀ X : Tree, (∀ a n, T.nodeAt a = some n →
      ∃ m, X.nodeAt a = some m ∧ n.setBranches [] = m.setBranches [] ∧
        n.Branches.length = m.Branches.length) → T = X := by
  induction T using Tree.induct with
  | h nm bs ty mv val ver d ih =>
    intro X h
    obtain ⟨m, hm, hl, hlen⟩ := h [] _ rfl
    simp only [Tree.nodeAt, Option.some.injEq] at hm
    subst hm
    refine Tree.eq_of_label_of_Branches _ _ hl ?_
    show bs = X.Branches
    have hlen1 : bs.length = X.Branches.length := hlen
    apply List.ext_getElem hlen1
    intro i h1 h2
    apply ih _ (List.getElem_mem h1)
    intro a n hn
    have hT : (Tree.mk nm bs ty mv val ver d).nodeAt (i :: a) = some n := by
      simp only [Tree.nodeAt, Tree.Branches, List.get?_eq_getElem?, List.getElem?_eq_getElem h1]
      exact hn
    obtain ⟨m2, hm2, hl2, hlen2⟩ := h (i :: a) n hT
    refine ⟨m2, ?_, hl2, hlen2⟩
    have hget : X.Branches[i]? = some X.Branches[i] := List.getElem?_eq_getElem h2
    simpa only [Tree.nodeAt, List.get?_eq_getElem?, hget] using hm2

theorem crawl.step_workers_length {σ : Type} (v : Vault σ) (opts : TreeOpts) (c : crawl σ)
    (i : Nat) : (crawl.step v opts c i).workers.length = c.workers.length := by
  unfold crawl.step
  split
  · unfold crawl.afterPop; split <;> simp
  · unfold crawl.afterPop; split <;> simp
  · unfold crawl.process
    split
    · rfl
    · split <;> simp
  · simp
  · rfl

theorem crawl.run_workers_length {σ : Type} (v : Vault σ) (opts : TreeOpts)
    (schedule : List Nat) (c : crawl σ) :
    (crawl.run v opts c schedule).workers.length = c.workers.length := by
  induction schedule generalizing c with
  | nil => rfl
  | cons i rest ih =>
    have := ih (crawl.step v opts c i)
    simp only [crawl.run, List.foldl_cons] at this ⊢
    rw [this, crawl.step_workers_length]

theorem Tree.getWorkType_op_congr (s t : Tree) (opts : TreeOpts) (h1 : s.Typ = t.Typ)
    (h2 : s.MountVersion = t.MountVersion) :
    (s.getWorkType opts).1 = (t.getWorkType opts).1 := by
  simp only [Tree.getWorkType, h1, h2]
  split_ifs <;> rfl

theorem crawl.start_inv (opts : TreeOpts) (X root : Tree) (numWorkers : Int)
    (hN : 1 ≤ numWorkers) (hb : root.Branches = [])
    (hl : (root.getWorkType opts).2.setBranches [] = X.setBranches []) :
    (crawl.start opts numWorkers root ()).sane ∧
      treeAgrees opts X (crawl.start opts numWorkers root ()).tree
        (crawl.start opts numWorkers root ()).pending := by
  have hrec := Tree.getWorkType_receiver root opts
  have hb2 : (root.getWorkType opts).2.Branches = [] := hrec.1.trans hb
  have hpend : (crawl.start opts numWorkers root ()).pending
      = [{ insertInto := [], operation := (root.getWorkType opts).1 }] := by
    simp [crawl.pending, crawl.start, Push, newWorkQueue, heldOrders_replicate_ready]
  refine ⟨⟨?_, ?_, ?_, ?_, ?_, ?_⟩, ?_⟩
  · simp [crawl.start, Push, newWorkQueue, List.countP_replicate, workerPhase.isActive]
    omega
  · simp [crawl.start, List.countP_replicate, workerPhase.hasSent]
  · intro e he; simp [crawl.start] at he
  · intro w hw
    simp only [crawl.start] at hw
    rw [List.eq_of_mem_replicate hw]; simp
  · intro w hw he
    simp only [crawl.start] at hw
    rw [List.eq_of_mem_replicate hw] at he; cases he
  · intro hc; simp [crawl.start, Push, newWorkQueue] at hc
  · rw [hpend]
    refine ⟨?_, ?_, by simp⟩
    · intro a n hn
      cases a with
      | nil =>
        simp only [crawl.start, Tree.nodeAt, Option.some.injEq] at hn
        subst hn
        exact ⟨X, rfl, hl, fun _ => by rw [hb2]; rfl, fun hnot => absurd (by simp) hnot⟩
      | cons i r =>
        simp only [crawl.start] at hn
        rw [Tree.nodeAt_cons_of_no_branches _ i r hb2] at hn
        cases hn
    · intro o ho
      simp only [List.mem_singleton] at ho
      subst ho
      refine ⟨(root.getWorkType opts).2, rfl, ?_⟩
      rw [Tree.getWorkType_label]
      exact Tree.getWorkType_op_congr _ _ opts hrec.2.1.symm hrec.2.2.1.symm

/-- The crawl over a backend without a store builds the expansion, whatever
the schedule: no worker ever reports an error, and once every worker has sent
its completion message the tree is the expansion. -/
theorem crawl.builds_expansion (v : Vault Unit) (opts : TreeOpts) (X root : Tree)
    (numWorkers : Int) (schedule : List Nat) (hN : 1 ≤ numWorkers) (hb : root.Branches = [])
    (hX : X.expanded v opts)
    (hl : (root.getWorkType opts).2.setBranches [] = X.setBranches []) :
    (∀ e ∈ (crawl.run v opts (crawl.start opts numWorkers root ()) schedule).errors, e = none) ∧
    ((crawl.run v opts (crawl.start opts numWorkers root ()) schedule).errors.length
        = numWorkers.toNat →
      (crawl.run v opts (crawl.start opts numWorkers root ()) schedule).tree = X) := by
  have h0 := crawl.start_inv opts X root numWorkers hN hb hl
  obtain ⟨hs, hT⟩ := crawl.inv_run v opts X schedule _ hX h0.1 h0.2
  have hlenw := crawl.run_workers_length v opts schedule (crawl.start opts numWorkers root ())
  generalize crawl.run v opts (crawl.start opts numWorkers root ()) schedule = c at hs hT hlenw
  obtain ⟨s1, s2, s3, s4, s5, s6⟩ := hs
  refine ⟨s3, fun hlen => ?_⟩
  have hwl : c.workers.length = numWorkers.toNat := by
    rw [hlenw]; simp [crawl.start]
  have hall : ∀ w ∈ c.workers, w.hasSent = true := by
    rw [← List.countP_eq_length, ← s2, hlen, hwl]
  have hex : ∀ w ∈ c.workers, w = workerPhase.exited := by
    intro w hw
    have h1 := hall w hw
    have h2 := s4 w hw
    cases w <;> simp_all [workerPhase.hasSent]
  have hheld : heldOrders c.workers = [] :=
    heldOrders_eq_nil _ (fun w hw => by rw [hex w hw]; rfl)
  have hne : c.workers ≠ [] := by
    intro h
    rw [h] at hwl
    simp at hwl
    omega
  obtain ⟨w, hw⟩ := List.exists_mem_of_ne_nil _ hne
  have hitems := (s6 (s5 w hw (hex w hw))).2
  have hp : c.pending = [] := by simp [crawl.pending, hitems, hheld]
  rw [hp] at hT
  apply Tree.eq_of_nodeAt
  intro a n hn
  obtain ⟨m, hm, hlab, _, hq⟩ := hT.1 a n hn
  exact ⟨m, hm, hlab, hq (by simp)⟩

/-! ### `ConstructTree` over a backend without a store -/

theorem numWorkersOf_cases (numCPU : Int) :
    numWorkersOf numCPU = 1 ∨ numWorkersOf numCPU = 2 ∨ numWorkersOf numCPU = 3 := by
  unfold numWorkersOf
  split_ifs <;> omega

theorem Tree.populateNodeType_Branches {σ : Type} (v : Vault σ) (t ret : Tree) (s s1 : σ)
    (e : Option vaultError) (h : t.populateNodeType v s = (e, ret, s1)) :
    ret.Branches = t.Branches := by
  have hset : ∀ ty, (t.setTyp ty).Branches = t.Branches := fun ty => by cases t; rfl
  unfold Tree.populateNodeType at h
  split at h
  · cases h; exact hset _
  · split at h
    · split at h
      · cases h; rfl
      · cases h; exact hset _
    · split at h
      · cases h; exact hset _
      · split at h
        · cases h; exact hset _
        · cases h; exact hset _

theorem drainErrors_none (msgs : List (Option vaultError)) (h : ∀ e ∈ msgs, e = none) :
    drainErrors none msgs = none := by
  unfold drainErrors
  induction msgs with
  | nil => rfl
  | cons m ms ih =>
    have hm : m = none := h m (List.mem_cons_self _ _)
    subst hm
    simpa using ih (fun e he => h e (List.mem_cons_of_mem _ he))

/-- Over a backend without a store, with the probe succeeding and `X` the
expansion of the starting node, every call of `ConstructTree` that returns,
returns the post-processed expansion and no error, whatever the number of
processors and the schedule of the workers. -/
theorem ConstructTree_of_expanded (Canonicalize : GoString → GoString) (numCPU : Int)
    (v : Vault Unit) (schedule : List Nat) (path : GoString) (opts : TreeOpts) (ret X : Tree)
    (hprobe : (Tree.mk (if Canonicalize path = [] then [slash] else Canonicalize path)
        [] 0 0 [] 0 false).populateNodeType v () = (none, ret, ()))
    (hX : X.expanded v opts)
    (hl : (ret.getWorkType opts).2.setBranches [] = X.setBranches [])
    (r : Option Tree × Option vaultError)
    (h : ConstructTree Canonicalize numCPU v schedule path opts () = some r) :
    r = (some (postProcess opts X), none) := by
  have hN : 1 ≤ numWorkersOf numCPU := by
    rcases numWorkersOf_cases numCPU with h | h | h <;> omega
  have hb : ret.Branches = [] :=
    Tree.populateNodeType_Branches v _ ret () () none hprobe
  have hc := crawl.builds_expansion v opts X ret (numWorkersOf numCPU) schedule hN hb hX hl
  unfold ConstructTree at h
  simp only [hprobe] at h
  split at h
  · next hlen =>
    simp only [Option.some.injEq] at h
    rw [← h, hc.2 hlen, drainErrors_none _ hc.1]
  · cases h

/-! ### The pruning scenario -/

theorem pruning_probe (Canonicalize : GoString → GoString) (v : Vault Unit)
    (hc : Canonicalize [97] = [97])
    (hRa : v.Read [97] 0 () = (Except.error vaultError.NotFound, ())) :
    (Tree.mk (if Canonicalize [97] = [] then [slash] else Canonicalize [97])
        [] 0 0 [] 0 false).populateNodeType v ()
      = (none, Tree.mk [97] [] TreeTypeDir 0 [] 0 false, ()) := by
  simp [hc, Tree.populateNodeType, Tree.Name, slash, hRa, IsNotFound, Tree.setTyp]

theorem pruning_expanded (v : Vault Unit) (allowDeleted : Bool)
    (hLa : v.List [97] () = (Except.ok [[98]], ()))
    (hMV : v.MountVersion [97, 47, 98] () = (Except.ok 2, ()))
    (hRab : v.Read [97, 47, 98] 0 () = (Except.error vaultError.NotFound, ())) :
    (Tree.mk [97, 47] [Tree.mk [97, 47, 98] [] TreeTypeSecret 2 [] 0 false]
      TreeTypeDir 0 [] 0 false).expanded v ⟨false, allowDeleted, false⟩ := by
  cases allowDeleted <;>
  simp [Tree.expanded, expandedAll, Tree.getWorkType, Tree.Typ, TreeTypeRoot, TreeTypeDir,
    TreeTypeSecret, TreeTypeDirAndSecret, TreeTypeKey, TreeTypeVersion, expandNode,
    collectAnswers, workList, workGet, TrimSuffixSlash, HasSuffixSlash, TrimRight, slash, hLa, hMV,
    hRab, stampMountVersions, Tree.setMountVersion, Tree.setBranches, Tree.Name,
    Tree.MountVersion, Tree.Version, Tree.Deleted, IsNotFound, opTypeList, opTypeGet,
    opTypeMounts, opTypeVersions, opTypeNone,
    (by decide : (2 : Nat) &&& 4 = 0), (by decide : (2 : Nat) &&& 8 = 0),
    (by decide : (1 : Nat) &&& 4 = 0), (by decide : (1 : Nat) &&& 8 = 0),
    (by decide : (1 : Nat) &&& 2 = 0)]

/-- C9 as stated fails: in the scenario, with `allowDeletedKeys = false` (and
one processor), `ConstructTree("a")` returns the starting node `a/` itself,
without branches, and `Paths` on the result lists `a/`. -/
theorem pruning_keeps_starting_node :
    ConstructTree id 1 softDeletedBackend [0, 0, 0, 0, 0] [97] ⟨false, false, false⟩ ()
      = some (some (Tree.mk [97, 47] [] TreeTypeDir 0 [] 0 false), none) ∧
    (Tree.mk [97, 47] [] TreeTypeDir 0 [] 0 false).Name = [97, 47] ∧
    [97, 47] ∈ (Tree.mk [97, 47] [] TreeTypeDir 0 [] 0 false).Paths := by
  refine ⟨rfl, rfl, ?_⟩
  simp [Tree.Paths]

/-- C9 (as amended).  On a backend without a store in which `a` cannot be
read, `a` lists the one entry `b`, the mount version of `a/b` is 2 and the read
of `a/b` fails with `NotFound`: every call `ConstructTree("a")` that returns,
whatever the number of processors and the schedule, returns no error and, with
`allowDeletedKeys = false`, the starting node `a/` without any branch (`a/b` is
absent, `Paths` gives `a/` alone), and with `allowDeletedKeys = true` the node
`a/` with the one branch `a/b`.  On the backend of the scenario the call does
return, under the schedule given. -/
theorem pruning_scenario (Canonicalize : GoString → GoString) (numCPU : Int) (v : Vault Unit)
    (schedule : List Nat) (hc : Canonicalize [97] = [97])
    (hRa : v.Read [97] 0 () = (Except.error vaultError.NotFound, ()))
    (hLa : v.List [97] () = (Except.ok [[98]], ()))
    (hMV : v.MountVersion [97, 47, 98] () = (Except.ok 2, ()))
    (hRab : v.Read [97, 47, 98] 0 () = (Except.error vaultError.NotFound, ())) :
    (∀ r, ConstructTree Canonicalize numCPU v schedule [97] ⟨false, false, false⟩ () = some r →
      r = (some (Tree.mk [97, 47] [] TreeTypeDir 0 [] 0 false), none)) ∧
    (∀ r, ConstructTree Canonicalize numCPU v schedule [97] ⟨false, true, false⟩ () = some r →
      r = (some (Tree.mk [97, 47] [Tree.mk [97, 47, 98] [] TreeTypeSecret 2 [] 0 false]
        TreeTypeDir 0 [] 0 false), none)) ∧
    ConstructTree Canonicalize numCPU softDeletedBackend [0, 0, 0, 0, 0, 1, 2, 0, 1] [97]
        ⟨false, false, false⟩ ()
      = some (some (Tree.mk [97, 47] [] TreeTypeDir 0 [] 0 false), none) ∧
    ConstructTree Canonicalize numCPU softDeletedBackend [0, 0, 0, 0, 0, 1, 2, 0, 1] [97]
        ⟨false, true, false⟩ ()
      = some (some (Tree.mk [97, 47] [Tree.mk [97, 47, 98] [] TreeTypeSecret 2 [] 0 false]
        TreeTypeDir 0 [] 0 false), none) ∧
    (Tree.mk [97, 47] [] TreeTypeDir 0 [] 0 false).Paths = [[97, 47]] ∧
    (Tree.mk [97, 47] [Tree.mk [97, 47, 98] [] TreeTypeSecret 2 [] 0 false]
      TreeTypeDir 0 [] 0 false).Paths = [[97, 47, 98]] := by
  have hp := pruning_probe Canonicalize v hc hRa
  refine ⟨fun r h => ?_, fun r h => ?_, ?_, ?_, rfl, rfl⟩
  · exact ConstructTree_of_expanded Canonicalize numCPU v schedule [97] _ _ _ hp
      (pruning_expanded v false hLa hMV hRab) rfl r h
  · exact ConstructTree_of_expanded Canonicalize numCPU v schedule [97] _ _ _ hp
      (pruning_expanded v true hLa hMV hRab) rfl r h
  · unfold ConstructTree
    simp only [hc]
    rcases numWorkersOf_cases numCPU with h | h | h <;> rw [h] <;> rfl
  · unfold ConstructTree
    simp only [hc]
    rcases numWorkersOf_cases numCPU with h | h | h <;> rw [h] <;> rfl

/-- Witness of `pruning_scenario`: the backend of the scenario on a machine
with two processors. -/
theorem pruning_scenario_witness :
    ConstructTree id 2 softDeletedBackend [0, 0, 0, 0, 0, 1, 2, 0, 1] [97]
        ⟨false, true, false⟩ ()
      = some (some (Tree.mk [97, 47] [Tree.mk [97, 47, 98] [] TreeTypeSecret 2 [] 0 false]
        TreeTypeDir 0 [] 0 false), none) :=
  (pruning_scenario id 2 softDeletedBackend [] rfl rfl rfl rfl rfl).2.2.2.1

/-! ### `pruneKeys` and the result of `ConstructTree` -/

theorem Tree.pruneKeys_Branches (t : Tree) :
    t.pruneKeys.Branches
      = (t.Branches.filter (fun b => decide (b.Typ ≠ TreeTypeKey))).map Tree.pruneKeys := by
  cases t
  simp only [Tree.pruneKeys, Tree.Branches, pruneKeysBranches_eq]

theorem versionedSecret_expanded :
    (Tree.mk [97, 47] [Tree.mk [97, 47, 98]
        [Tree.mk [97, 47, 98, 58, 107] [] TreeTypeKey 2 [118] 1 false] TreeTypeSecret 2 [] 0 false]
      TreeTypeDir 0 [] 0 false).expanded versionedSecretBackend ⟨false, false, false⟩ := by
  simp [Tree.expanded, expandedAll, Tree.getWorkType, Tree.Typ, TreeTypeRoot, TreeTypeDir,
    TreeTypeSecret, TreeTypeDirAndSecret, TreeTypeKey, TreeTypeVersion, expandNode,
    collectAnswers, workList, workGet, TrimSuffixSlash, HasSuffixSlash, TrimRight, slash, colon,
    versionedSecretBackend, stampMountVersions, Tree.setMountVersion, Tree.setBranches, Tree.Name,
    Tree.MountVersion, Tree.Version, Tree.Deleted, IsNotFound, opTypeList, opTypeGet,
    opTypeMounts, opTypeVersions, opTypeNone,
    (by decide : (2 : Nat) &&& 4 = 0), (by decide : (2 : Nat) &&& 8 = 0),
    (by decide : (1 : Nat) &&& 4 = 0), (by decide : (1 : Nat) &&& 8 = 0),
    (by decide : (1 : Nat) &&& 2 = 0), (by decide : (0 : Nat) &&& 2 = 0),
    (by decide : (0 : Nat) &&& 1 = 0), (by decide : (0 : Nat) &&& 4 = 0),
    (by decide : (0 : Nat) &&& 8 = 0)]

/-! ### The worker operations -/

theorem TrimRight_TrimSuffixSlash (s : GoString) :
    TrimRight (TrimSuffixSlash s) [slash] = TrimRight s [slash] := by
  unfold TrimSuffixSlash TrimRight
  cases h : s.reverse with
  | nil => simp [h]
  | cons c rest =>
    simp only
    by_cases hc : c = slash
    · subst hc
      simp [h, List.dropWhile]
    · simp [hc, h]

theorem workList_ok {σ : Type} (v : Vault σ) (t : Tree) (s s1 : σ) (ls : List GoString)
    (h : v.List (TrimSuffixSlash t.Name) s = (Except.ok ls, s1)) :
    workList v t s = (Except.ok (ls.map (fun l =>
      Tree.mk (TrimRight t.Name [slash] ++ [slash] ++ l) []
        (if HasSuffixSlash l then TreeTypeDir else TreeTypeSecret) 0 [] 0 false)), s1) := by
  simp only [workList, h, TrimRight_TrimSuffixSlash]

theorem workList_error {σ : Type} (v : Vault σ) (t : Tree) (s s1 : σ) (e : vaultError)
    (h : v.List (TrimSuffixSlash t.Name) s = (Except.error e, s1)) :
    workList v t s = if IsNotFound e then (Except.ok [], s1) else (Except.error e, s1) := by
  simp only [workList, h]

/-- C17.  List operation: when the backend lists `l1..ln` for the path of the
node (its name without one trailing slash), `workList` returns exactly `n`
children in listing order, child `i` named by the name of the node without its
trailing slashes, a slash and `li`, typed Directory when `li` ends with a slash
and Secret otherwise; when the listing fails with `NotFound` it returns no
child and no error, and any other error is returned as it is. -/
theorem workList_children {σ : Type} (v : Vault σ) (t : Tree) (s s1 : σ)
    (ls : List GoString) (e : vaultError) :
    (v.List (TrimSuffixSlash t.Name) s = (Except.ok ls, s1) →
      workList v t s = (Except.ok (ls.map (fun l =>
        Tree.mk (TrimRight t.Name [slash] ++ [slash] ++ l) []
          (if HasSuffixSlash l then TreeTypeDir else TreeTypeSecret) 0 [] 0 false)), s1) ∧
      ∀ r, (workList v t s).1 = Except.ok r → r.length = ls.length) ∧
    (v.List (TrimSuffixSlash t.Name) s = (Except.error vaultError.NotFound, s1) →
      workList v t s = (Except.ok [], s1)) ∧
    (v.List (TrimSuffixSlash t.Name) s = (Except.error e, s1) → IsNotFound e = false →
      workList v t s = (Except.error e, s1)) := by
  refine ⟨fun h => ⟨workList_ok v t s s1 ls h, fun r hr => ?_⟩, fun h => ?_, fun h hn => ?_⟩
  · rw [workList_ok v t s s1 ls h] at hr
    simp only [Except.ok.injEq] at hr
    rw [← hr, List.length_map]
  · rw [workList_error v t s s1 _ h]; rfl
  · rw [workList_error v t s s1 _ h, hn]; rfl

/-- Witness of `workList_children`: the directory `a` whose listing is `b`
gets the one Secret child `a/b`. -/
theorem workList_children_witness :
    workList versionedSecretBackend (Tree.mk [97] [] TreeTypeDir 2 [] 0 false) ()
      = (Except.ok [Tree.mk [97, 47, 98] [] TreeTypeSecret 0 [] 0 false], ()) :=
  ((workList_children versionedSecretBackend (Tree.mk [97] [] TreeTypeDir 2 [] 0 false) () ()
    [[98]] vaultError.NotFound).1 rfl).1

theorem workGet_ok {σ : Type} (v : Vault σ) (opts : TreeOpts) (t : Tree) (s s1 s2 s3 : σ)
    (mv : Nat) (secret : List (GoString × GoString))
    (hMV : v.MountVersion t.Name s = (Except.ok mv, s1))
    (hU : (if (t.Deleted && opts.FetchAllVersions) = true then v.Undelete t.Name t.Version s1
      else (none, s1)) = (none, s2))
    (hR : v.Read t.Name t.Version s2 = (Except.ok secret, s3)) :
    workGet v opts t s =
      (Except.ok (secret.map (fun kv =>
        Tree.mk (t.Name ++ [colon] ++ kv.1) [] TreeTypeKey 0 kv.2
          (if t.Version = 0 then 1 else t.Version) t.Deleted)),
       if (t.Deleted && opts.FetchAllVersions) = true then (v.Delete t.Name [t.Version] s3).2
       else s3) := by
  simp only [workGet, hMV, hU, hR]

/-- C18.  Get operation: when the mount version of the node is answered, the
undelete (issued only for a deleted node under `fetchAllVersions`) succeeds and
the read succeeds, `workGet` returns exactly one child per key of the secret,
in the order of the keys, each of type Key, named by the name of the node, a
colon and the key, carrying the value of that key, the deleted flag of the node
and the version of the node, or 1 when that version is 0. -/
theorem workGet_children {σ : Type} (v : Vault σ) (opts : TreeOpts) (t : Tree)
    (s s1 s2 s3 : σ) (mv : Nat) (secret : List (GoString × GoString))
    (hMV : v.MountVersion t.Name s = (Except.ok mv, s1))
    (hU : (if (t.Deleted && opts.FetchAllVersions) = true then v.Undelete t.Name t.Version s1
      else (none, s1)) = (none, s2))
    (hR : v.Read t.Name t.Version s2 = (Except.ok secret, s3)) :
    (workGet v opts t s).1 =
      Except.ok (secret.map (fun kv =>
        Tree.mk (t.Name ++ [colon] ++ kv.1) [] TreeTypeKey 0 kv.2
          (if t.Version = 0 then 1 else t.Version) t.Deleted)) ∧
    (∀ r, (workGet v opts t s).1 = Except.ok r →
      r.length = secret.length ∧
      r.map Tree.Typ = secret.map (fun _ => TreeTypeKey) ∧
      r.map Tree.Name = secret.map (fun kv => t.Name ++ [colon] ++ kv.1) ∧
      r.map Tree.Value = secret.map (fun kv => kv.2) ∧
      r.map Tree.Deleted = secret.map (fun _ => t.Deleted) ∧
      r.map Tree.Version = secret.map (fun _ => if t.Version = 0 then 1 else t.Version)) := by
  have h := workGet_ok v opts t s s1 s2 s3 mv secret hMV hU hR
  refine ⟨by rw [h], fun r hr => ?_⟩
  rw [h] at hr
  simp only [Except.ok.injEq] at hr
  subst hr
  simp only [List.length_map, List.map_map, true_and]
  refine ⟨?_, ?_, ?_, ?_, ?_⟩ <;> exact List.map_congr_left (fun kv _ => rfl)

/-- Witness of `workGet_children`: the secret `a/b` of version 0 with its key
`k` of value `v` gives the one Key node `a/b:k` of version 1. -/
theorem workGet_children_witness :
    (workGet versionedSecretBackend ⟨false, false, false⟩
        (Tree.mk [97, 47, 98] [] TreeTypeSecret 2 [] 0 false) ()).1
      = Except.ok [Tree.mk [97, 47, 98, 58, 107] [] TreeTypeKey 0 [118] 1 false] :=
  (workGet_children versionedSecretBackend ⟨false, false, false⟩
    (Tree.mk [97, 47, 98] [] TreeTypeSecret 2 [] 0 false) () () () () 2 [([107], [118])]
    rfl rfl rfl).1

theorem workVersions_ok {σ : Type} (v : Vault σ) (t : Tree) (s s1 : σ)
    (versions : List versionInfo) (h : v.Versions t.Name s = (Except.ok versions, s1)) :
    workVersions v t s =
      (Except.ok ((versions.filter (fun i => !i.Destroyed)).map (fun i =>
        Tree.mk t.Name [] TreeTypeVersion 0 [] i.Version i.Deleted)), s1) := by
  simp only [workVersions, h]

/-- C20.  Versions operation: when the backend answers the version list of
the name of the node, `workVersions` returns, in list order, exactly one child
per version that is not destroyed (the soft-deleted ones included), each of type
Version, named like the node and carrying the number and the deleted flag of
that version; an error of the backend is returned as it is. -/
theorem workVersions_children {σ : Type} (v : Vault σ) (t : Tree) (s s1 : σ)
    (versions : List versionInfo) (e : vaultError) :
    (v.Versions t.Name s = (Except.ok versions, s1) →
      workVersions v t s =
        (Except.ok ((versions.filter (fun i => !i.Destroyed)).map (fun i =>
          Tree.mk t.Name [] TreeTypeVersion 0 [] i.Version i.Deleted)), s1)) ∧
    (v.Versions t.Name s = (Except.error e, s1) → workVersions v t s = (Except.error e, s1)) := by
  refine ⟨workVersions_ok v t s s1 versions, fun h => ?_⟩
  simp only [workVersions, h]

/-- Witness of `workVersions_children`: the backend of the pruning scenario
holds the one soft-deleted version 1 of `a/b`. -/
theorem workVersions_children_witness :
    workVersions softDeletedBackend (Tree.mk [97, 47, 98] [] TreeTypeSecret 2 [] 0 false) ()
      = (Except.ok [Tree.mk [97, 47, 98] [] TreeTypeVersion 0 [] 1 true], ()) :=
  (workVersions_children softDeletedBackend (Tree.mk [97, 47, 98] [] TreeTypeSecret 2 [] 0 false)
    () () [{ Version := 1, Deleted := true, Destroyed := false }] vaultError.NotFound).1 rfl

/-! ### The completion messages and the result of `ConstructTree` -/

theorem drainErrors_append (err : Option vaultError) (a b : List (Option vaultError)) :
    drainErrors err (a ++ b) = drainErrors (drainErrors err a) b := by
  simp [drainErrors, List.foldl_append]

theorem drainErrors_all_none (err : Option vaultError) (msgs : List (Option vaultError))
    (h : ∀ m ∈ msgs, m = none) : drainErrors err msgs = err := by
  induction msgs generalizing err with
  | nil => rfl
  | cons m ms ih =>
    have hm : m = none := h m (List.mem_cons_self _ _)
    subst hm
    have := ih err (fun x hx => h x (List.mem_cons_of_mem _ hx))
    simpa [drainErrors] using this

theorem drainErrors_last (err : Option vaultError) (pre post : List (Option vaultError))
    (e : vaultError) (h : ∀ m ∈ post, m = none) :
    drainErrors err (pre ++ some e :: post) = some e := by
  rw [drainErrors_append]
  have : drainErrors (drainErrors err pre) (some e :: post) = drainErrors (some e) post := by
    simp [drainErrors]
  rw [this, drainErrors_all_none _ _ h]

/-- What a call of `ConstructTree` that returns has done: either the probe of
the starting node failed and the call returned that error without a tree, or
the probe succeeded, the call read one completion message per worker and
returned the post-processed tree with the error kept from the messages. -/
theorem ConstructTree_cases {σ : Type} (Canonicalize : GoString → GoString) (numCPU : Int)
    (v : Vault σ) (schedule : List Nat) (path : GoString) (opts : TreeOpts) (s : σ)
    (r : Option Tree × Option vaultError)
    (h : ConstructTree Canonicalize numCPU v schedule path opts s = some r) :
    (∃ e ret s1,
      (Tree.mk (if Canonicalize path = [] then [slash] else Canonicalize path)
        [] 0 0 [] 0 false).populateNodeType v s = (some e, ret, s1) ∧ r = (none, some e)) ∨
    (∃ ret s1,
      (Tree.mk (if Canonicalize path = [] then [slash] else Canonicalize path)
        [] 0 0 [] 0 false).populateNodeType v s = (none, ret, s1) ∧
      (crawl.run v opts (crawl.start opts (numWorkersOf numCPU) ret s1) schedule).errors.length
        = (numWorkersOf numCPU).toNat ∧
      r = (some (postProcess opts
            (crawl.run v opts (crawl.start opts (numWorkersOf numCPU) ret s1) schedule).tree),
          drainErrors none
            (crawl.run v opts (crawl.start opts (numWorkersOf numCPU) ret s1) schedule).errors)) := by
  unfold ConstructTree at h
  simp only at h
  split at h
  · next e ret s1 hp =>
    left
    simp only [Option.some.injEq] at h
    exact ⟨e, ret, s1, hp, h.symm⟩
  · next ret s1 hp =>
    right
    split at h
    · next hlen =>
      simp only [Option.some.injEq] at h
      exact ⟨ret, s1, hp, hlen, h.symm⟩
    · cases h

/-- C11 as stated fails: with two workers whose reads of `a/b` and `a/c` fail,
the messages read are the error of `a/b` and then the error of `a/c`, and
`ConstructTree` returns the later one. -/
theorem drain_returns_later_error :
    (crawl.run twoFailuresBackend ⟨true, false, false⟩
        (crawl.start ⟨true, false, false⟩ 2 (Tree.mk [97] [] TreeTypeDir 0 [] 0 false) ())
        [0, 0, 0, 1, 0, 1]).errors
      = [some (vaultError.failure 1), some (vaultError.failure 2)] ∧
    ConstructTree id 2 twoFailuresBackend [0, 0, 0, 1, 0, 1] [97] ⟨true, false, false⟩ ()
      = some (some (Tree.mk [97, 47] [Tree.mk [97, 47, 98] [] TreeTypeSecret 1 [] 0 false,
          Tree.mk [97, 47, 99] [] TreeTypeSecret 1 [] 0 false] TreeTypeDir 0 [] 0 false),
        some (vaultError.failure 2)) ∧
    drainErrors none [some (vaultError.failure 1), some (vaultError.failure 2)]
      ≠ some (vaultError.failure 1) := by
  refine ⟨rfl, rfl, by decide⟩

/-- C11 (as amended).  `ConstructTree` reads exactly one completion message per
worker and returns the last non-nil error among them: for every sequence of
messages the error kept is `nil` when all are `nil`, and otherwise the non-nil
message that no non-nil message follows; and a call that returns a tree has
read as many messages as there are workers and returns the error kept from
them. -/
theorem drain_keeps_last_error {σ : Type} (Canonicalize : GoString → GoString) (numCPU : Int)
    (v : Vault σ) (schedule : List Nat) (path : GoString) (opts : TreeOpts) (s : σ) :
    (∀ msgs : List (Option vaultError), (∀ m ∈ msgs, m = none) → drainErrors none msgs = none) ∧
    (∀ (pre post : List (Option vaultError)) (e : vaultError), (∀ m ∈ post, m = none) →
      drainErrors none (pre ++ some e :: post) = some e) ∧
    (∀ t err, ConstructTree Canonicalize numCPU v schedule path opts s = some (some t, err) →
      ∃ ret s1,
        (Tree.mk (if Canonicalize path = [] then [slash] else Canonicalize path)
          [] 0 0 [] 0 false).populateNodeType v s = (none, ret, s1) ∧
        (crawl.run v opts (crawl.start opts (numWorkersOf numCPU) ret s1) schedule).errors.length
          = (numWorkersOf numCPU).toNat ∧
        err = drainErrors none
          (crawl.run v opts (crawl.start opts (numWorkersOf numCPU) ret s1) schedule).errors) := by
  refine ⟨fun msgs h => drainErrors_all_none none msgs h,
    fun pre post e h => drainErrors_last none pre post e h, fun t err h => ?_⟩
  rcases ConstructTree_cases Canonicalize numCPU v schedule path opts s _ h with
    ⟨e, ret, s1, _, hr⟩ | ⟨ret, s1, hp, hlen, hr⟩
  · simp at hr
  · simp only [Prod.mk.injEq] at hr
    exact ⟨ret, s1, hp, hlen, hr.2⟩

/-- Witness of `drain_keeps_last_error`: of the messages error 1, `nil`,
error 2, `nil` the error kept is error 2. -/
theorem drain_keeps_last_error_witness :
    drainErrors none [some (vaultError.failure 1), none, some (vaultError.failure 2), none]
      = some (vaultError.failure 2) :=
  (drain_keeps_last_error id 1 softDeletedBackend [] [] ⟨false, false, false⟩ ()).2.1
    [some (vaultError.failure 1), none] [none] (vaultError.failure 2) (by simp)

/-- C12 as stated fails: when the probe of the starting node fails with an
error other than `NotFound`, `ConstructTree` returns that error and no tree. -/
theorem probe_error_without_tree :
    ConstructTree id 1 unreadableBackend [] [97] ⟨false, false, false⟩ ()
      = some (none, some (vaultError.failure 5)) := by
  rfl

/-- C12 (as amended).  A call of `ConstructTree` that returns either returns
the error of the failed probe of the starting node together with no tree, or
returns a tree: the tree built by the workers until each has sent its message,
pruned and sorted like a successful result, together with the error kept from
the messages.  So an error reported by a worker always comes with a tree. -/
theorem error_comes_with_tree {σ : Type} (Canonicalize : GoString → GoString) (numCPU : Int)
    (v : Vault σ) (schedule : List Nat) (path : GoString) (opts : TreeOpts) (s : σ)
    (r : Option Tree × Option vaultError)
    (h : ConstructTree Canonicalize numCPU v schedule path opts s = some r) :
    ((∃ e ret s1,
      (Tree.mk (if Canonicalize path = [] then [slash] else Canonicalize path)
        [] 0 0 [] 0 false).populateNodeType v s = (some e, ret, s1) ∧ r = (none, some e)) ∨
    (∃ ret s1,
      (Tree.mk (if Canonicalize path = [] then [slash] else Canonicalize path)
        [] 0 0 [] 0 false).populateNodeType v s = (none, ret, s1) ∧
      r = (some (postProcess opts
            (crawl.run v opts (crawl.start opts (numWorkersOf numCPU) ret s1) schedule).tree),
          drainErrors none
            (crawl.run v opts (crawl.start opts (numWorkersOf numCPU) ret s1) schedule).errors))) ∧
    (r.1 = none → ∃ e ret s1,
      (Tree.mk (if Canonicalize path = [] then [slash] else Canonicalize path)
        [] 0 0 [] 0 false).populateNodeType v s = (some e, ret, s1) ∧ r.2 = some e) := by
  rcases ConstructTree_cases Canonicalize numCPU v schedule path opts s r h with
    ⟨e, ret, s1, hp, hr⟩ | ⟨ret, s1, hp, hlen, hr⟩
  · exact ⟨Or.inl ⟨e, ret, s1, hp, hr⟩, fun _ => ⟨e, ret, s1, hp, by rw [hr]⟩⟩
  · refine ⟨Or.inr ⟨ret, s1, hp, hr⟩, fun hnone => ?_⟩
    rw [hr] at hnone
    cases hnone

/-- Witness of `error_comes_with_tree`: the two failing reads of `a/b` and
`a/c` leave the tree `a/` with the branches `a/b` and `a/c`, returned with the
error. -/
theorem error_comes_with_tree_witness :
    ConstructTree id 2 twoFailuresBackend [0, 0, 0, 1, 0, 1] [97] ⟨true, false, false⟩ ()
      = some (some (Tree.mk [97, 47] [Tree.mk [97, 47, 98] [] TreeTypeSecret 1 [] 0 false,
          Tree.mk [97, 47, 99] [] TreeTypeSecret 1 [] 0 false] TreeTypeDir 0 [] 0 false),
        some (vaultError.failure 2)) ∧
    ((∃ e ret s1,
      (Tree.mk (if id [97] = [] then [slash] else id [97])
        [] 0 0 [] 0 false).populateNodeType twoFailuresBackend () = (some e, ret, s1) ∧
        ((some (Tree.mk [97, 47] [Tree.mk [97, 47, 98] [] TreeTypeSecret 1 [] 0 false,
          Tree.mk [97, 47, 99] [] TreeTypeSecret 1 [] 0 false] TreeTypeDir 0 [] 0 false),
        some (vaultError.failure 2)) : Option Tree × Option vaultError) = (none, some e)) ∨
    (∃ ret s1,
      (Tree.mk (if id [97] = [] then [slash] else id [97])
        [] 0 0 [] 0 false).populateNodeType twoFailuresBackend () = (none, ret, s1) ∧
      ((some (Tree.mk [97, 47] [Tree.mk [97, 47, 98] [] TreeTypeSecret 1 [] 0 false,
          Tree.mk [97, 47, 99] [] TreeTypeSecret 1 [] 0 false] TreeTypeDir 0 [] 0 false),
        some (vaultError.failure 2)) : Option Tree × Option vaultError)
        = (some (postProcess ⟨true, false, false⟩
            (crawl.run twoFailuresBackend ⟨true, false, false⟩
              (crawl.start ⟨true, false, false⟩ (numWorkersOf 2) ret s1) [0, 0, 0, 1, 0, 1]).tree),
          drainErrors none
            (crawl.run twoFailuresBackend ⟨true, false, false⟩
              (crawl.start ⟨true, false, false⟩ (numWorkersOf 2) ret s1)
              [0, 0, 0, 1, 0, 1]).errors))) :=
  ⟨rfl, (error_comes_with_tree id 2 twoFailuresBackend [0, 0, 0, 1, 0, 1] [97]
    ⟨true, false, false⟩ () _ rfl).1⟩

/-! ### The transient undelete of `workGet` -/

theorem workGet_without_toggle {σ : Type} (v : Vault σ) (opts : TreeOpts) (t : Tree) (s : σ)
    (u : GoString → Nat → σ → Option vaultError × σ)
    (d : GoString → List Nat → σ → Option vaultError × σ)
    (h : (t.Deleted && opts.FetchAllVersions) = false) :
    workGet { v with Undelete := u, Delete := d } opts t s = workGet v opts t s := by
  simp only [workGet, h, Bool.false_eq_true, if_false]

/-- C19, the code at the failing inputs.  For the soft-deleted version 1 of
`a/b` expanded under `fetchAllVersions`, `workGet` calls, in this order,
`MountVersion`, `Undelete`, `Read`, `Delete`, and when all succeed it returns
the key with the version deleted again.  But when the re-delete fails,
`workGet` still returns the key and no error, leaving the version undeleted;
and when the read fails (with an error, or with `NotFound`, which is swallowed)
it returns without any `Delete`, leaving the version undeleted.  For a node that
is not deleted, or without `fetchAllVersions`, `workGet` does not depend on
`Undelete` and `Delete` at all. -/
theorem workGet_transient_undelete {σ : Type} (v : Vault σ) (opts : TreeOpts) (t : Tree) (s : σ)
    (u : GoString → Nat → σ → Option vaultError × σ)
    (d : GoString → List Nat → σ → Option vaultError × σ) :
    workGet (journalBackend none none) ⟨false, false, true⟩
        (Tree.mk [97, 47, 98] [] TreeTypeVersion 2 [] 1 true) ⟨true, []⟩
      = (Except.ok [Tree.mk [97, 47, 98, 58, 107] [] TreeTypeKey 0 [118] 1 true],
         ⟨true, [backendCall.MountVersion [97, 47, 98], backendCall.Undelete [97, 47, 98] 1,
            backendCall.Read [97, 47, 98] 1, backendCall.Delete [97, 47, 98] [1]]⟩) ∧
    workGet (journalBackend none (some (vaultError.failure 9))) ⟨false, false, true⟩
        (Tree.mk [97, 47, 98] [] TreeTypeVersion 2 [] 1 true) ⟨true, []⟩
      = (Except.ok [Tree.mk [97, 47, 98, 58, 107] [] TreeTypeKey 0 [118] 1 true],
         ⟨false, [backendCall.MountVersion [97, 47, 98], backendCall.Undelete [97, 47, 98] 1,
            backendCall.Read [97, 47, 98] 1, backendCall.Delete [97, 47, 98] [1]]⟩) ∧
    workGet (journalBackend (some (vaultError.failure 3)) none) ⟨false, false, true⟩
        (Tree.mk [97, 47, 98] [] TreeTypeVersion 2 [] 1 true) ⟨true, []⟩
      = (Except.error (vaultError.failure 3),
         ⟨false, [backendCall.MountVersion [97, 47, 98], backendCall.Undelete [97, 47, 98] 1,
            backendCall.Read [97, 47, 98] 1]⟩) ∧
    workGet (journalBackend (some vaultError.NotFound) none) ⟨false, false, true⟩
        (Tree.mk [97, 47, 98] [] TreeTypeVersion 2 [] 1 true) ⟨true, []⟩
      = (Except.ok [],
         ⟨false, [backendCall.MountVersion [97, 47, 98], backendCall.Undelete [97, 47, 98] 1,
            backendCall.Read [97, 47, 98] 1]⟩) ∧
    ((t.Deleted && opts.FetchAllVersions) = false →
      workGet { v with Undelete := u, Delete := d } opts t s = workGet v opts t s) := by
  refine ⟨rfl, rfl, rfl, rfl, workGet_without_toggle v opts t s u d⟩

/-- Witness of `workGet_transient_undelete`: without `fetchAllVersions` the
deleted version is read as it is, with no `Undelete` and no `Delete`. -/
theorem workGet_transient_undelete_witness :
    workGet (journalBackend none none) ⟨false, false, false⟩
        (Tree.mk [97, 47, 98] [] TreeTypeVersion 2 [] 1 true) ⟨true, []⟩
      = (Except.ok [],
         ⟨true, [backendCall.MountVersion [97, 47, 98], backendCall.Read [97, 47, 98] 1]⟩) ∧
    workGet { journalBackend none none with
        Undelete := fun _ _ s => (some (vaultError.failure 1), s),
        Delete := fun _ _ s => (some (vaultError.failure 1), s) } ⟨false, false, false⟩
        (Tree.mk [97, 47, 98] [] TreeTypeVersion 2 [] 1 true) ⟨true, []⟩
      = workGet (journalBackend none none) ⟨false, false, false⟩
        (Tree.mk [97, 47, 98] [] TreeTypeVersion 2 [] 1 true) ⟨true, []⟩ :=
  ⟨rfl, (workGet_transient_undelete (journalBackend none none) ⟨false, false, false⟩
    (Tree.mk [97, 47, 98] [] TreeTypeVersion 2 [] 1 true) ⟨true, []⟩ _ _).2.2.2.2 rfl⟩

/-! ### The steps of a worker -/

theorem crawl.afterPop_spec {σ : Type} (c : crawl σ) (j : Nat) (old : workerPhase)
    (res : popOutcome × workQueue)
    (h : old = workerPhase.ready ∨ old = workerPhase.waiting) :
    ∃ ph acts, workerMove old acts ph ∧
      (c.afterPop j res).workers = c.workers.set j ph ∧
      (c.afterPop j res).log = c.log ++ acts.map (fun a => (j, a)) ∧
      (c.afterPop j res).errors = c.errors ++ acts.filterMap workerAction.message ∧
      (c.afterPop j res).tree = c.tree ∧ (c.afterPop j res).q = res.2 := by
  unfold crawl.afterPop
  split
  · next o _ =>
    exact ⟨_, _, workerMove.popOrder old o h, rfl, rfl, by simp [workerAction.message], rfl, rfl⟩
  · exact ⟨_, _, workerMove.popDone old h, rfl, rfl, by simp [workerAction.message], rfl, rfl⟩
  · exact ⟨_, _, workerMove.popWait old h, rfl, rfl, by simp [workerAction.message], rfl, rfl⟩

/-- A step of worker `j` either changes nothing or is one move of that
worker: its phase changes as `workerMove` says, its actions are appended to the
log, and the messages among them to the completion channel. -/
theorem crawl.step_spec {σ : Type} (v : Vault σ) (opts : TreeOpts) (c : crawl σ) (j : Nat) :
    crawl.step v opts c j = c ∨
    ∃ old ph acts, c.workers.get? j = some old ∧ workerMove old acts ph ∧
      (crawl.step v opts c j).workers = c.workers.set j ph ∧
      (crawl.step v opts c j).log = c.log ++ acts.map (fun a => (j, a)) ∧
      (crawl.step v opts c j).errors = c.errors ++ acts.filterMap workerAction.message := by
  unfold crawl.step
  split
  · next hg =>
    obtain ⟨ph, acts, hm, h1, h2, h3, _, _⟩ :=
      crawl.afterPop_spec c j workerPhase.ready (Pop c.q) (Or.inl rfl)
    exact Or.inr ⟨_, ph, acts, hg, hm, h1, h2, h3⟩
  · next hg =>
    obtain ⟨ph, acts, hm, h1, h2, h3, _, _⟩ :=
      crawl.afterPop_spec c j workerPhase.waiting (popLoop c.q) (Or.inr rfl)
    exact Or.inr ⟨_, ph, acts, hg, hm, h1, h2, h3⟩
  · next o hg =>
    unfold crawl.process
    split
    · exact Or.inl rfl
    · split
      · next e s1 _ =>
        exact Or.inr ⟨_, _, _, hg, workerMove.fail o e, rfl, rfl, by simp [workerAction.message]⟩
      · next node _ _ answer s1 _ =>
        refine Or.inr ⟨_, _, _, hg,
          workerMove.expand o (childOrders opts o.insertInto 0 (node.Branches ++ answer)),
          rfl, ?_, ?_⟩
        · simp [List.map_map, Function.comp]
        · simp [List.filterMap_map, Function.comp, workerAction.message]
  · next hg =>
    exact Or.inr ⟨_, _, _, hg, workerMove.lastPop, rfl, rfl, by simp [workerAction.message]⟩
  · exact Or.inl rfl

theorem traceOf_append (i : Nat) (l m : List (Nat × workerAction)) :
    traceOf i (l ++ m) = traceOf i l ++ traceOf i m := by
  simp [traceOf]

theorem traceOf_map_self (i : Nat) (acts : List workerAction) :
    traceOf i (acts.map (fun a => (i, a))) = acts := by
  induction acts with
  | nil => rfl
  | cons a as ih =>
    simp only [traceOf, List.map_cons, List.filter_cons, beq_self_eq_true, if_true] at ih ⊢
    rw [ih]

theorem traceOf_map_other (i j : Nat) (acts : List workerAction) (h : i ≠ j) :
    traceOf i (acts.map (fun a => (j, a))) = [] := by
  induction acts with
  | nil => rfl
  | cons a as ih =>
    have hji : (j == i) = false := by simpa using (Ne.symm h)
    simp only [traceOf, List.map_cons, List.filter_cons, hji] at ih ⊢
    simpa using ih

theorem traceFits_move (old ph : workerPhase) (acts tr : List workerAction)
    (hm : workerMove old acts ph) (h : traceFits (some old) tr) :
    traceFits (some ph) (tr ++ acts) := by
  have hloop : ∀ old, (old = workerPhase.ready ∨ old = workerPhase.waiting) →
      traceFits (some old) tr → ∀ a ∈ tr, a.inLoop = true := by
    intro old ho hf
    rcases ho with rfl | rfl
    · exact hf
    · obtain ⟨pre, rfl, hpre⟩ := hf
      intro a ha
      rcases List.mem_append.mp ha with ha | ha
      · exact hpre a ha
      · simp only [List.mem_singleton] at ha
        subst ha; rfl
  cases hm with
  | popOrder _ o ho => exact ⟨tr, rfl, hloop old ho h⟩
  | popDone _ ho => exact ⟨tr, hloop old ho h, Or.inl rfl⟩
  | popWait _ ho => exact ⟨tr, rfl, hloop old ho h⟩
  | expand o orders =>
    obtain ⟨pre, rfl, hpre⟩ := h
    intro a ha
    rcases List.mem_append.mp ha with ha | ha
    · rcases List.mem_append.mp ha with ha | ha
      · exact hpre a ha
      · simp only [List.mem_singleton] at ha
        subst ha; rfl
    · obtain ⟨p, _, rfl⟩ := List.mem_map.mp ha
      rfl
  | fail o e =>
    obtain ⟨pre, rfl, hpre⟩ := h
    refine ⟨pre ++ [workerAction.popped o], e, rfl, ?_⟩
    intro a ha
    rcases List.mem_append.mp ha with ha | ha
    · exact hpre a ha
    · simp only [List.mem_singleton] at ha
      subst ha; rfl
  | lastPop =>
    obtain ⟨pre, e, rfl, hpre⟩ := h
    exact ⟨pre, hpre, Or.inr ⟨e, by simp⟩⟩

theorem crawl.traceFits_step {σ : Type} (v : Vault σ) (opts : TreeOpts) (c : crawl σ) (j : Nat)
    (h : ∀ i, traceFits (c.workers.get? i) (traceOf i c.log)) :
    ∀ i, traceFits ((crawl.step v opts c j).workers.get? i)
      (traceOf i (crawl.step v opts c j).log) := by
  rcases crawl.step_spec v opts c j with he | ⟨old, ph, acts, hg, hm, hw, hl, _⟩
  · rw [he]; exact h
  · intro i
    rw [hw, hl, traceOf_append]
    by_cases hij : i = j
    · subst hij
      have hlt : i < c.workers.length := by
        rw [List.get?_eq_some] at hg
        exact hg.1
      rw [traceOf_map_self, List.get?_eq_getElem?, List.getElem?_set_self hlt]
      have := h i
      rw [hg] at this
      exact traceFits_move old ph acts _ hm this
    · rw [traceOf_map_other i j acts hij, List.append_nil, List.get?_eq_getElem?,
        List.getElem?_set_ne (Ne.symm hij), ← List.get?_eq_getElem?]
      exact h i

theorem crawl.traceFits_run {σ : Type} (v : Vault σ) (opts : TreeOpts) (schedule : List Nat)
    (c : crawl σ) (h : ∀ i, traceFits (c.workers.get? i) (traceOf i c.log)) :
    ∀ i, traceFits ((crawl.run v opts c schedule).workers.get? i)
      (traceOf i (crawl.run v opts c schedule).log) := by
  induction schedule generalizing c with
  | nil => exact h
  | cons j rest ih => exact ih (crawl.step v opts c j) (crawl.traceFits_step v opts c j h)

theorem crawl.traceFits_start {σ : Type} (opts : TreeOpts) (numWorkers : Int) (root : Tree)
    (s : σ) (i : Nat) :
    traceFits ((crawl.start opts numWorkers root s).workers.get? i)
      (traceOf i (crawl.start opts numWorkers root s).log) := by
  simp only [crawl.start, traceOf, List.filter_nil, List.map_nil]
  cases hg : (List.replicate numWorkers.toNat workerPhase.ready).get? i with
  | none => rfl
  | some w =>
    rw [List.eq_of_mem_replicate (List.get?_mem hg)]
    intro a ha
    cases ha

theorem Close_closed (w : workQueue) : (Close w).closed = true := by
  unfold Close
  split
  · rfl
  · next h => simpa using h

theorem crawl.afterPop_closed {σ : Type} (c : crawl σ) (j : Nat) (res : popOutcome × workQueue) :
    (c.afterPop j res).q = res.2 := by
  unfold crawl.afterPop
  split <;> rfl

theorem crawl.step_keeps_closed {σ : Type} (v : Vault σ) (opts : TreeOpts) (c : crawl σ) (j : Nat)
    (h : c.q.closed = true) : (crawl.step v opts c j).q.closed = true := by
  unfold crawl.step
  split
  · rw [crawl.afterPop_closed, Pop_closed c.q h]; exact h
  · rw [crawl.afterPop_closed]; exact popLoop_closed_mono c.q h
  · unfold crawl.process
    split
    · exact h
    · split
      · exact Close_closed _
      · exact (foldl_Push_awake_closed _ c.q).2.trans h
  · rw [Pop_closed c.q h]; exact h
  · exact h

theorem crawl.erred_closed_step {σ : Type} (v : Vault σ) (opts : TreeOpts) (c : crawl σ)
    (j : Nat) (h : ∀ i, c.workers.get? i = some workerPhase.erred → c.q.closed = true) :
    ∀ i, (crawl.step v opts c j).workers.get? i = some workerPhase.erred →
      (crawl.step v opts c j).q.closed = true := by
  intro i hi
  by_cases hold : c.workers.get? i = some workerPhase.erred
  · exact crawl.step_keeps_closed v opts c j (h i hold)
  · -- the worker has just entered `handleError`
    rcases crawl.step_spec v opts c j with he | ⟨old, ph, acts, hg, hm, hw, _, _⟩
    · rw [he] at hi; exact absurd hi hold
    · rw [hw] at hi
      by_cases hij : i = j
      · subst hij
        have hlt : i < c.workers.length := by
          rw [List.get?_eq_some] at hg
          exact hg.1
        rw [List.get?_eq_getElem?, List.getElem?_set_self hlt] at hi
        simp only [Option.some.injEq] at hi
        subst hi
        cases hm with
        | fail o e =>
          unfold crawl.step
          rw [hg]
          simp only
          unfold crawl.process
          split
          · next hn =>
            -- without a node the step changes nothing, so the worker is still holding
            exfalso
            have : crawl.step v opts c i = c := by
              unfold crawl.step
              rw [hg]
              simp only
              unfold crawl.process
              rw [hn]
            rw [this] at hw
            have h2 := congrArg (fun l => l.get? i) hw
            simp only [hg, List.get?_eq_getElem?, List.getElem?_set_self hlt] at h2
            cases h2
          · split
            · exact Close_closed _
            · next answer s1 hx =>
              exfalso
              have : (crawl.step v opts c i).workers = c.workers.set i workerPhase.ready := by
                unfold crawl.step
                rw [hg]
                simp only
                unfold crawl.process
                simp only [*]
              rw [this] at hw
              have h2 := congrArg (fun l => l.get? i) hw
              simp only [List.get?_eq_getElem?, List.getElem?_set_self hlt] at h2
              cases h2
      · rw [List.get?_eq_getElem?, List.getElem?_set_ne (Ne.symm hij), ← List.get?_eq_getElem?]
          at hi
        exact absurd hi hold

theorem crawl.erred_closed_run {σ : Type} (v : Vault σ) (opts : TreeOpts) (schedule : List Nat)
    (c : crawl σ) (h : ∀ i, c.workers.get? i = some workerPhase.erred → c.q.closed = true) :
    ∀ i, (crawl.run v opts c schedule).workers.get? i = some workerPhase.erred →
      (crawl.run v opts c schedule).q.closed = true := by
  induction schedule generalizing c with
  | nil => exact h
  | cons j rest ih => exact ih (crawl.step v opts c j) (crawl.erred_closed_step v opts c j h)

theorem crawl.erred_closed_start {σ : Type} (opts : TreeOpts) (numWorkers : Int) (root : Tree)
    (s : σ) (i : Nat)
    (h : (crawl.start opts numWorkers root s).workers.get? i = some workerPhase.erred) :
    (crawl.start opts numWorkers root s).q.closed = true := by
  simp only [crawl.start] at h
  have := List.eq_of_mem_replicate (List.get?_mem h)
  cases this

theorem crawl.errors_eq_log_run {σ : Type} (v : Vault σ) (opts : TreeOpts) (schedule : List Nat)
    (c : crawl σ) (h : c.errors = c.log.filterMap (fun p => p.2.message)) :
    (crawl.run v opts c schedule).errors
      = (crawl.run v opts c schedule).log.filterMap (fun p => p.2.message) := by
  induction schedule generalizing c with
  | nil => exact h
  | cons j rest ih =>
    apply ih (crawl.step v opts c j)
    rcases crawl.step_spec v opts c j with he | ⟨old, ph, acts, _, _, _, hl, herr⟩
    · rw [he]; exact h
    · rw [hl, herr, h, List.filterMap_append, List.filterMap_map]
      rfl

theorem filterMap_message_inLoop (pre : List workerAction) (h : ∀ a ∈ pre, a.inLoop = true) :
    pre.filterMap workerAction.message = [] := by
  rw [List.filterMap_eq_nil_iff]
  intro a ha
  have := h a ha
  cases a <;> simp_all [workerAction.inLoop, workerAction.message]

theorem traceFits_messages (ph : Option workerPhase) (tr : List workerAction)
    (h : traceFits ph tr) :
    (tr.filterMap workerAction.message).length ≤ 1 ∧
    (ph = some workerPhase.exited → (tr.filterMap workerAction.message).length = 1) ∧
    ((ph = some workerPhase.ready ∨ ph = some workerPhase.waiting ∨
        ∃ o, ph = some (workerPhase.holding o)) → tr.filterMap workerAction.message = []) := by
  cases ph with
  | none =>
    have : tr = [] := h
    subst this
    simp
  | some w =>
    cases w with
    | ready =>
      have h0 := filterMap_message_inLoop tr h
      simp [h0]
    | holding o =>
      obtain ⟨pre, rfl, hpre⟩ := h
      have h0 := filterMap_message_inLoop pre hpre
      simp [List.filterMap_append, h0, workerAction.message]
    | waiting =>
      obtain ⟨pre, rfl, hpre⟩ := h
      have h0 := filterMap_message_inLoop pre hpre
      simp [List.filterMap_append, h0, workerAction.message]
    | erred =>
      obtain ⟨pre, e, rfl, hpre⟩ := h
      have h0 := filterMap_message_inLoop pre hpre
      simp [List.filterMap_append, h0, workerAction.message]
    | exited =>
      obtain ⟨pre, hpre, rfl | ⟨e, rfl⟩⟩ := h
      · have h0 := filterMap_message_inLoop pre hpre
        simp [List.filterMap_append, h0, workerAction.message]
      · have h0 := filterMap_message_inLoop pre hpre
        simp [List.filterMap_append, h0, workerAction.message]

theorem crawl.step_fail_trace {σ : Type} (v : Vault σ) (opts : TreeOpts) (c : crawl σ) (i : Nat)
    (o : workOrder) (node : Tree) (e : vaultError) (s1 : σ)
    (hg : c.workers.get? i = some (workerPhase.holding o))
    (hn : c.tree.nodeAt o.insertInto = some node)
    (he : expandNode v opts o.operation node c.store = (Except.error e, s1)) :
    traceOf i (crawl.step v opts c i).log
      = traceOf i c.log ++ [workerAction.closed, workerAction.sent (some e)] ∧
    (crawl.step v opts c i).errors = c.errors ++ [some e] ∧
    (crawl.step v opts c i).workers = c.workers.set i workerPhase.erred := by
  have : crawl.step v opts c i =
      { c with q := Close c.q, workers := c.workers.set i workerPhase.erred,
               errors := c.errors ++ [some e], store := s1,
               log := c.log ++ [(i, workerAction.closed), (i, workerAction.sent (some e))] } := by
    unfold crawl.step
    rw [hg]
    simp only
    unfold crawl.process
    rw [hn]
    simp only [he]
  rw [this]
  refine ⟨?_, rfl, rfl⟩
  simp only [traceOf_append]
  congr 1
  exact traceOf_map_self i [workerAction.closed, workerAction.sent (some e)]

theorem crawl.step_done_trace {σ : Type} (v : Vault σ) (opts : TreeOpts) (c : crawl σ) (i : Nat)
    (h : (c.workers.get? i = some workerPhase.ready ∧ (Pop c.q).1 = popOutcome.done) ∨
      (c.workers.get? i = some workerPhase.waiting ∧ (popLoop c.q).1 = popOutcome.done)) :
    traceOf i (crawl.step v opts c i).log
      = traceOf i c.log ++ [workerAction.poppedDone, workerAction.sent none] ∧
    (crawl.step v opts c i).errors = c.errors ++ [none] ∧
    (crawl.step v opts c i).workers = c.workers.set i workerPhase.exited := by
  have key : ∀ res : popOutcome × workQueue, res.1 = popOutcome.done →
      traceOf i (c.afterPop i res).log
        = traceOf i c.log ++ [workerAction.poppedDone, workerAction.sent none] ∧
      (c.afterPop i res).errors = c.errors ++ [none] ∧
      (c.afterPop i res).workers = c.workers.set i workerPhase.exited := by
    intro res hres
    unfold crawl.afterPop
    rw [hres]
    refine ⟨?_, rfl, rfl⟩
    simp only [traceOf_append]
    congr 1
    exact traceOf_map_self i [workerAction.poppedDone, workerAction.sent none]
  rcases h with ⟨hg, hd⟩ | ⟨hg, hd⟩
  · have : crawl.step v opts c i = c.afterPop i (Pop c.q) := by
      unfold crawl.step; rw [hg]
    rw [this]; exact key _ hd
  · have : crawl.step v opts c i = c.afterPop i (popLoop c.q) := by
      unfold crawl.step; rw [hg]
    rw [this]; exact key _ hd

/-- C13.  In every run of the workers, the trace of a worker holds at most one
send; a worker that has returned has sent exactly one message, and its trace
ends either with the `Pop` that reported "no more work" followed by the send of
`nil`, or with `Close`, the send of an error and the last `Pop`; a worker that
is still in its loop has sent nothing.  The messages on the completion channel
are the sends of the log, in order.  The error sent is the one met: a step in
which `expandNode` fails with `e` appends `Close` and the send of `e`, and a
step in which `Pop` reports "no more work" appends that `Pop` and the send of
`nil`. -/
theorem worker_sends_once {σ : Type} (v : Vault σ) (opts : TreeOpts) (numWorkers : Int)
    (root : Tree) (s : σ) (schedule : List Nat) (i : Nat) :
    ((traceOf i (crawl.run v opts (crawl.start opts numWorkers root s) schedule).log).filterMap
        workerAction.message).length ≤ 1 ∧
    ((crawl.run v opts (crawl.start opts numWorkers root s) schedule).workers.get? i
        = some workerPhase.exited →
      ((traceOf i (crawl.run v opts (crawl.start opts numWorkers root s) schedule).log).filterMap
        workerAction.message).length = 1 ∧
      ∃ pre, (∀ a ∈ pre, a.inLoop = true) ∧
        (traceOf i (crawl.run v opts (crawl.start opts numWorkers root s) schedule).log
            = pre ++ [workerAction.poppedDone, workerAction.sent none] ∨
         ∃ e, traceOf i (crawl.run v opts (crawl.start opts numWorkers root s) schedule).log
            = pre ++ [workerAction.closed, workerAction.sent (some e),
                workerAction.poppedDone])) ∧
    (((crawl.run v opts (crawl.start opts numWorkers root s) schedule).workers.get? i
          = some workerPhase.ready ∨
      (crawl.run v opts (crawl.start opts numWorkers root s) schedule).workers.get? i
          = some workerPhase.waiting ∨
      ∃ o, (crawl.run v opts (crawl.start opts numWorkers root s) schedule).workers.get? i
          = some (workerPhase.holding o)) →
      (traceOf i (crawl.run v opts (crawl.start opts numWorkers root s) schedule).log).filterMap
        workerAction.message = []) ∧
    (crawl.run v opts (crawl.start opts numWorkers root s) schedule).errors
      = (crawl.run v opts (crawl.start opts numWorkers root s) schedule).log.filterMap
          (fun p => p.2.message) ∧
    (∀ (c : crawl σ) (o : workOrder) (node : Tree) (e : vaultError) (s1 : σ),
      c.workers.get? i = some (workerPhase.holding o) →
      c.tree.nodeAt o.insertInto = some node →
      expandNode v opts o.operation node c.store = (Except.error e, s1) →
      traceOf i (crawl.step v opts c i).log
        = traceOf i c.log ++ [workerAction.closed, workerAction.sent (some e)]) ∧
    (∀ c : crawl σ,
      ((c.workers.get? i = some workerPhase.ready ∧ (Pop c.q).1 = popOutcome.done) ∨
        (c.workers.get? i = some workerPhase.waiting ∧ (popLoop c.q).1 = popOutcome.done)) →
      traceOf i (crawl.step v opts c i).log
        = traceOf i c.log ++ [workerAction.poppedDone, workerAction.sent none]) := by
  have hfit := crawl.traceFits_run v opts schedule (crawl.start opts numWorkers root s)
    (crawl.traceFits_start opts numWorkers root s) i
  have hmsg := traceFits_messages _ _ hfit
  refine ⟨hmsg.1, fun hex => ⟨hmsg.2.1 hex, ?_⟩, hmsg.2.2, ?_, ?_, ?_⟩
  · rw [hex] at hfit
    exact hfit
  · exact crawl.errors_eq_log_run v opts schedule _ rfl
  · intro c o node e s1 hg hn he
    exact (crawl.step_fail_trace v opts c i o node e s1 hg hn he).1
  · intro c h
    exact (crawl.step_done_trace v opts c i h).1

/-- Witness of `worker_sends_once`: in the run with the two failing reads,
worker 0 has returned and its trace holds exactly one send. -/
theorem worker_sends_once_witness :
    (crawl.run twoFailuresBackend ⟨true, false, false⟩
        (crawl.start ⟨true, false, false⟩ 2 (Tree.mk [97] [] TreeTypeDir 0 [] 0 false) ())
        [0, 0, 0, 1, 0, 1, 0, 1]).workers.get? 0 = some workerPhase.exited ∧
    ((traceOf 0 (crawl.run twoFailuresBackend ⟨true, false, false⟩
        (crawl.start ⟨true, false, false⟩ 2 (Tree.mk [97] [] TreeTypeDir 0 [] 0 false) ())
        [0, 0, 0, 1, 0, 1, 0, 1]).log).filterMap workerAction.message).length = 1 :=
  ⟨rfl, ((worker_sends_once twoFailuresBackend ⟨true, false, false⟩ 2
    (Tree.mk [97] [] TreeTypeDir 0 [] 0 false) () [0, 0, 0, 1, 0, 1, 0, 1] 0).2.1 rfl).1⟩

/-- C14 as stated fails: the worker whose read of `a/b` fails closes the queue,
sends its error, and only then performs its last `Pop`. -/
theorem error_sent_before_last_pop :
    traceOf 0 (crawl.run twoFailuresBackend ⟨true, false, false⟩
        (crawl.start ⟨true, false, false⟩ 2 (Tree.mk [97] [] TreeTypeDir 0 [] 0 false) ())
        [0, 0, 0, 1, 0, 1, 0, 1]).log
      = [workerAction.popped ⟨[], 1⟩, workerAction.pushed ⟨[0], 2⟩, workerAction.pushed ⟨[1], 2⟩,
         workerAction.popped ⟨[0], 2⟩, workerAction.closed,
         workerAction.sent (some (vaultError.failure 1)), workerAction.poppedDone] := by
  rfl

/-- C14 (as amended).  On a backend error the remaining actions of a worker
are, in this order: `Close`, the report of its error on the completion channel,
and then exactly one `Pop`, which returns "no more work".  In every run, a
worker inside `handleError` has a trace that ends with `Close` and the send of
its error, the queue is closed, its next step is a `Pop` that reports "no more
work" and after which it has returned; and a worker that has returned after a
`Close` has a trace that ends with `Close`, the send of its error and that one
`Pop`. -/
theorem error_path_order {σ : Type} (v : Vault σ) (opts : TreeOpts) (numWorkers : Int)
    (root : Tree) (s : σ) (schedule : List Nat) (i : Nat) :
    ((crawl.run v opts (crawl.start opts numWorkers root s) schedule).workers.get? i
        = some workerPhase.erred →
      (∃ pre e, traceOf i (crawl.run v opts (crawl.start opts numWorkers root s) schedule).log
          = pre ++ [workerAction.closed, workerAction.sent (some e)] ∧
        ∀ a ∈ pre, a.inLoop = true) ∧
      (Pop (crawl.run v opts (crawl.start opts numWorkers root s) schedule).q).1
        = popOutcome.done ∧
      (crawl.step v opts (crawl.run v opts (crawl.start opts numWorkers root s) schedule)
        i).workers.get? i = some workerPhase.exited ∧
      traceOf i (crawl.step v opts
          (crawl.run v opts (crawl.start opts numWorkers root s) schedule) i).log
        = traceOf i (crawl.run v opts (crawl.start opts numWorkers root s) schedule).log
          ++ [workerAction.poppedDone]) ∧
    ((crawl.run v opts (crawl.start opts numWorkers root s) schedule).workers.get? i
        = some workerPhase.exited →
      workerAction.closed ∈
        traceOf i (crawl.run v opts (crawl.start opts numWorkers root s) schedule).log →
      ∃ pre e, traceOf i (crawl.run v opts (crawl.start opts numWorkers root s) schedule).log
          = pre ++ [workerAction.closed, workerAction.sent (some e), workerAction.poppedDone] ∧
        ∀ a ∈ pre, a.inLoop = true) := by
  have hfit := crawl.traceFits_run v opts schedule (crawl.start opts numWorkers root s)
    (crawl.traceFits_start opts numWorkers root s) i
  have hclosed := crawl.erred_closed_run v opts schedule (crawl.start opts numWorkers root s)
    (crawl.erred_closed_start opts numWorkers root s) i
  generalize crawl.run v opts (crawl.start opts numWorkers root s) schedule = c at hfit hclosed
  refine ⟨fun herr => ?_, fun hex hmem => ?_⟩
  · have hstep : crawl.step v opts c i =
        { c with q := (Pop c.q).2, workers := c.workers.set i workerPhase.exited,
                 log := c.log ++ [(i, workerAction.poppedDone)] } := by
      unfold crawl.step; rw [herr]
    have hlt : i < c.workers.length := by
      rw [List.get?_eq_some] at herr
      exact herr.1
    rw [herr] at hfit
    refine ⟨hfit, ?_, ?_, ?_⟩
    · rw [Pop_closed c.q (hclosed herr)]
    · rw [hstep]
      simp only [List.get?_eq_getElem?, List.getElem?_set_self hlt]
    · rw [hstep]
      simp only [traceOf_append]
      congr 1
      exact traceOf_map_self i [workerAction.poppedDone]
  · rw [hex] at hfit
    obtain ⟨pre, hpre, h | ⟨e, h⟩⟩ := hfit
    · exfalso
      rw [h] at hmem
      rcases List.mem_append.mp hmem with hm | hm
      · have := hpre _ hm
        simp [workerAction.inLoop] at this
      · simp at hm
    · exact ⟨pre, e, h, hpre⟩

/-- Witness of `error_path_order`: after its failing read worker 0 is inside
`handleError`, and its next `Pop` reports "no more work". -/
theorem error_path_order_witness :
    (crawl.run twoFailuresBackend ⟨true, false, false⟩
        (crawl.start ⟨true, false, false⟩ 2 (Tree.mk [97] [] TreeTypeDir 0 [] 0 false) ())
        [0, 0, 0, 1, 0]).workers.get? 0 = some workerPhase.erred ∧
    (Pop (crawl.run twoFailuresBackend ⟨true, false, false⟩
        (crawl.start ⟨true, false, false⟩ 2 (Tree.mk [97] [] TreeTypeDir 0 [] 0 false) ())
        [0, 0, 0, 1, 0]).q).1 = popOutcome.done :=
  ⟨rfl, ((error_path_order twoFailuresBackend ⟨true, false, false⟩ 2
    (Tree.mk [97] [] TreeTypeDir 0 [] 0 false) () [0, 0, 0, 1, 0] 0).1 rfl).2.1⟩

/-! ### The answers of the operations have no branches -/

theorem collectAnswers_branches {σ : Type} (operation : Nat) (t : Tree)
    (fns : List (Nat × (Tree → σ → Except vaultError (List Tree) × σ)))
    (hf : ∀ p ∈ fns, ∀ s r s1, p.2 t s = (Except.ok r, s1) → ∀ b ∈ r, b.Branches = [])
    (s s1 : σ) (ans : List Tree) (h : collectAnswers operation t fns s = (Except.ok ans, s1)) :
    ∀ b ∈ ans, b.Branches = [] := by
  induction fns generalizing s s1 ans with
  | nil =>
    simp only [collectAnswers, Prod.mk.injEq, Except.ok.injEq] at h
    intro b hb
    rw [← h.1] at hb
    cases hb
  | cons p rest ih =>
    obtain ⟨code, fn⟩ := p
    have ihr := ih (fun q hq => hf q (List.mem_cons_of_mem _ hq))
    simp only [collectAnswers] at h
    split at h
    · exact ihr s s1 ans h
    · split at h
      · cases h
      · next toAppend s2 hfn =>
        split at h
        · cases h
        · next more s3 hrest =>
          simp only [Prod.mk.injEq, Except.ok.injEq] at h
          intro b hb
          rw [← h.1] at hb
          rcases List.mem_append.mp hb with hb | hb
          · exact hf (code, fn) (List.mem_cons_self _ _) s toAppend s2 hfn b hb
          · exact ihr s2 s3 more hrest b hb

theorem Tree.setMountVersion_Branches (t : Tree) (mv : Nat) :
    (t.setMountVersion mv).Branches = t.Branches := by
  cases t; rfl

theorem stampMountVersions_branches {σ : Type} (v : Vault σ) (answer : List Tree) (s s1 : σ)
    (stamped : List Tree) (ha : ∀ b ∈ answer, b.Branches = [])
    (h : stampMountVersions v answer s = (Except.ok stamped, s1)) :
    ∀ b ∈ stamped, b.Branches = [] := by
  induction answer generalizing s s1 stamped with
  | nil =>
    simp only [stampMountVersions, Prod.mk.injEq, Except.ok.injEq] at h
    intro b hb
    rw [← h.1] at hb
    cases hb
  | cons a rest ih =>
    simp only [stampMountVersions] at h
    split at h
    · cases h
    · next mv s2 _ =>
      split at h
      · cases h
      · next st s3 hrest =>
        simp only [Prod.mk.injEq, Except.ok.injEq] at h
        intro b hb
        rw [← h.1] at hb
        rcases List.mem_cons.mp hb with rfl | hb
        · rw [Tree.setMountVersion_Branches]
          exact ha a (List.mem_cons_self _ _)
        · exact ih s2 s3 st (fun x hx => ha x (List.mem_cons_of_mem _ hx)) hrest b hb

theorem workGet_branches {σ : Type} (v : Vault σ) (opts : TreeOpts) (t : Tree) (s s1 : σ)
    (r : List Tree) (h : workGet v opts t s = (Except.ok r, s1)) : ∀ b ∈ r, b.Branches = [] := by
  unfold workGet at h
  split at h
  · cases h
  · simp only at h
    split at h
    · cases h
    · split at h
      · split at h
        · simp only [Prod.mk.injEq, Except.ok.injEq] at h
          intro b hb
          rw [← h.1] at hb
          cases hb
        · cases h
      · simp only [Prod.mk.injEq, Except.ok.injEq] at h
        intro b hb
        rw [← h.1] at hb
        obtain ⟨kv, _, rfl⟩ := List.mem_map.mp hb
        rfl

theorem workList_branches {σ : Type} (v : Vault σ) (t : Tree) (s s1 : σ)
    (r : List Tree) (h : workList v t s = (Except.ok r, s1)) : ∀ b ∈ r, b.Branches = [] := by
  unfold workList at h
  split at h
  · split at h
    · simp only [Prod.mk.injEq, Except.ok.injEq] at h
      intro b hb
      rw [← h.1] at hb
      cases hb
    · cases h
  · simp only [Prod.mk.injEq, Except.ok.injEq] at h
    intro b hb
    rw [← h.1] at hb
    obtain ⟨l, _, rfl⟩ := List.mem_map.mp hb
    rfl

theorem workMounts_branches {σ : Type} (v : Vault σ) (t : Tree) (s s1 : σ)
    (r : List Tree) (h : workMounts v t s = (Except.ok r, s1)) : ∀ b ∈ r, b.Branches = [] := by
  unfold workMounts at h
  split at h
  · cases h
  · split at h
    · cases h
    · simp only [Prod.mk.injEq, Except.ok.injEq] at h
      intro b hb
      rw [← h.1] at hb
      obtain ⟨l, _, rfl⟩ := List.mem_map.mp hb
      rfl

theorem workVersions_branches {σ : Type} (v : Vault σ) (t : Tree) (s s1 : σ)
    (r : List Tree) (h : workVersions v t s = (Except.ok r, s1)) : ∀ b ∈ r, b.Branches = [] := by
  unfold workVersions at h
  split at h
  · cases h
  · simp only [Prod.mk.injEq, Except.ok.injEq] at h
    intro b hb
    rw [← h.1] at hb
    obtain ⟨l, _, rfl⟩ := List.mem_map.mp hb
    rfl

theorem expandNode_branches {σ : Type} (v : Vault σ) (opts : TreeOpts) (operation : Nat)
    (t : Tree) (s s1 : σ) (answer : List Tree)
    (h : expandNode v opts operation t s = (Except.ok answer, s1)) :
    ∀ b ∈ answer, b.Branches = [] := by
  unfold expandNode at h
  split at h
  · cases h
  · next ans s2 hc =>
    refine stampMountVersions_branches v ans s2 s1 answer ?_ h
    refine collectAnswers_branches operation t _ ?_ s s2 ans hc
    intro p hp s3 r s4 hr
    simp only [List.mem_cons, List.mem_singleton, List.not_mem_nil, or_false] at hp
    rcases hp with rfl | rfl | rfl | rfl
    · exact workGet_branches v opts t s3 s4 r hr
    · exact workList_branches v t s3 s4 r hr
    · exact workMounts_branches v t s3 s4 r hr
    · exact workVersions_branches v t s3 s4 r hr

theorem Tree.nodeAt_modifyAt_isSome (tree n : Tree) (a b : List Nat) (answer : List Tree)
    (hn : tree.nodeAt a = some n) (hnb : n.Branches = [])
    (hans : ∀ x ∈ answer, x.Branches = []) :
    ((Tree.modifyAt (fun n => n.setBranches (n.Branches ++ answer)) tree a).nodeAt b).isSome = true
      ↔ ((tree.nodeAt b).isSome = true ∨ ∃ i, i < answer.length ∧ b = a ++ [i]) := by
  by_cases hp : a <+: b
  · obtain ⟨r, rfl⟩ := hp
    rw [Tree.nodeAt_modifyAt_append _ tree n a r hn, Tree.nodeAt_append tree n a r hn]
    cases r with
    | nil => simp [Tree.nodeAt]
    | cons i r2 =>
      rw [Tree.nodeAt_cons_of_no_branches n i r2 hnb]
      simp only [Tree.nodeAt, Tree.setBranches_Branches, hnb, List.nil_append,
        List.get?_eq_getElem?, Option.isSome_none, Bool.false_eq_true, false_or,
        List.append_cancel_left_eq]
      cases hg : answer[i]? with
      | none =>
        simp only [Option.isSome_none, Bool.false_eq_true, false_iff, not_exists, not_and]
        intro k hk he
        simp only [List.cons.injEq] at he
        rw [← he.1] at hk
        rw [List.getElem?_eq_getElem hk] at hg
        cases hg
      | some x =>
        have hx : x.Branches = [] := hans x (List.getElem?_mem hg)
        have hlt : i < answer.length := by
          by_contra hge
          rw [List.getElem?_eq_none (by omega)] at hg
          cases hg
        cases r2 with
        | nil =>
          simp only [Tree.nodeAt, Option.isSome_some, true_iff]
          exact ⟨i, hlt, rfl⟩
        | cons k r3 =>
          simp only [Tree.nodeAt_cons_of_no_branches x k r3 hx, Option.isSome_none,
            Bool.false_eq_true, false_iff, not_exists, not_and]
          intro m _ he
          simp at he
  · have hs := Tree.nodeAt_modifyAt_other
      (fun n => n.setBranches (n.Branches ++ answer)) tree n a b hn hp
    have hiff : ((Tree.modifyAt (fun n => n.setBranches (n.Branches ++ answer)) tree a).nodeAt
        b).isSome = (tree.nodeAt b).isSome := by
      have := congrArg Option.isSome hs
      simpa using this
    rw [hiff]
    constructor
    · exact Or.inl
    · rintro (h | ⟨i, _, rfl⟩)
      · exact h
      · exact absurd (List.prefix_append _ _) hp

/-! ### The single-writer discipline -/

theorem poppedOrders_append (l m : List (Nat × workerAction)) :
    poppedOrders (l ++ m) = poppedOrders l ++ poppedOrders m := by
  simp [poppedOrders]

theorem pushedOrders_append (l m : List (Nat × workerAction)) :
    pushedOrders (l ++ m) = pushedOrders l ++ pushedOrders m := by
  simp [pushedOrders]

theorem pushedOrders_map_pushed (j : Nat) (orders : List workOrder) :
    pushedOrders (orders.map (fun p => (j, workerAction.pushed p))) = orders := by
  induction orders with
  | nil => rfl
  | cons o os ih =>
    simp only [pushedOrders, List.map_cons, List.filterMap_cons, workerAction.pushedOrder] at ih ⊢
    rw [ih]

theorem poppedOrders_map_pushed (j : Nat) (orders : List workOrder) :
    poppedOrders (orders.map (fun p => (j, workerAction.pushed p))) = [] := by
  induction orders with
  | nil => rfl
  | cons o os ih =>
    simp only [poppedOrders, List.map_cons, List.filterMap_cons, workerAction.poppedOrder] at ih ⊢
    exact ih

theorem poppedOrders_popped (l : List (Nat × workerAction)) (j : Nat) (o : workOrder) :
    poppedOrders (l ++ [(j, workerAction.popped o)]) = poppedOrders l ++ [o] := by
  rw [poppedOrders_append]
  rfl

theorem pushedOrders_popped (l : List (Nat × workerAction)) (j : Nat) (o : workOrder) :
    pushedOrders (l ++ [(j, workerAction.popped o)]) = pushedOrders l := by
  rw [pushedOrders_append]
  exact List.append_nil _

theorem crawl.singleWriter_afterPop {σ : Type} (seed : workOrder) (c : crawl σ) (j : Nat)
    (old : workerPhase) (hg : c.workers.get? j = some old)
    (hold : old = workerPhase.ready ∨ old = workerPhase.waiting)
    (q0 : workQueue) (hi : q0.items = c.q.items) (hcl : q0.closed = c.q.closed)
    (h : c.singleWriter seed) : (c.afterPop j (popLoop q0)).singleWriter seed := by
  obtain ⟨k1, k2, k3, k4, k5, k6, k7⟩ := h
  have hoh : old.held = [] := by rcases hold with rfl | rfl <;> rfl
  have hH : ∀ x, (heldOrders (c.workers.set j x)).Perm (heldOrders c.workers ++ x.held) := by
    intro x
    have := heldOrders_set c.workers j old x hg
    rw [hoh] at this
    simpa using this
  have hlt : j < c.workers.length := by
    rw [List.get?_eq_some] at hg
    exact hg.1
  have herr : ∀ (x : workerPhase) (q2 : workQueue), x ≠ workerPhase.erred →
      (c.q.closed = true → q2.closed = true) →
      ∀ i, (c.workers.set j x).get? i = some workerPhase.erred → q2.closed = true := by
    intro x q2 hx hq i hi2
    by_cases hij : i = j
    · subst hij
      rw [List.get?_eq_getElem?, List.getElem?_set_self hlt] at hi2
      simp only [Option.some.injEq] at hi2
      exact absurd hi2 hx
    · rw [List.get?_eq_getElem?, List.getElem?_set_ne (Ne.symm hij), ← List.get?_eq_getElem?]
        at hi2
      exact hq (k7 i hi2)
  rcases popLoop_cases q0 with ⟨h1, h2⟩ | ⟨h1, h2, _, h4⟩ | ⟨h1, h2, _, h4⟩ | ⟨o, rest, h1, h2, h4⟩
  · rw [h2]
    have hp := hH workerPhase.exited
    simp only [workerPhase.held, List.append_nil] at hp
    refine ⟨?_, ?_, ?_, ?_, ?_, ?_, ?_⟩
    · simpa [crawl.afterPop, pushedOrders_append, pushedOrders, workerAction.pushedOrder] using k1
    · simpa [crawl.afterPop, pushedOrders_append, pushedOrders, workerAction.pushedOrder] using k2
    · simpa [crawl.afterPop, poppedOrders_append, poppedOrders, workerAction.poppedOrder, hi]
        using k3
    · simpa [crawl.afterPop, poppedOrders_append, pushedOrders_append, poppedOrders, pushedOrders,
        workerAction.poppedOrder, workerAction.pushedOrder, hi] using k4
    · intro x
      have := k5 x
      simpa [crawl.afterPop, poppedOrders_append, poppedOrders, workerAction.poppedOrder,
        hp.count_eq x] using this
    · intro x hx
      apply k6 x
      simp only [crawl.afterPop, List.mem_append] at hx ⊢
      rcases hx with hx | hx
      · exact Or.inl (hi ▸ hx)
      · exact Or.inr (hp.mem_iff.mp hx)
    · exact herr workerPhase.exited q0 (by simp) (fun hc => hcl ▸ hc)
  · rw [h4]
    have hp := hH workerPhase.exited
    simp only [workerPhase.held, List.append_nil] at hp
    refine ⟨?_, ?_, ?_, ?_, ?_, ?_, ?_⟩
    · simpa [crawl.afterPop, pushedOrders_append, pushedOrders, workerAction.pushedOrder] using k1
    · simpa [crawl.afterPop, pushedOrders_append, pushedOrders, workerAction.pushedOrder] using k2
    · simpa [crawl.afterPop, poppedOrders_append, poppedOrders, workerAction.poppedOrder, hi]
        using k3
    · simpa [crawl.afterPop, poppedOrders_append, pushedOrders_append, poppedOrders, pushedOrders,
        workerAction.poppedOrder, workerAction.pushedOrder, hi] using k4
    · intro x
      have := k5 x
      simpa [crawl.afterPop, poppedOrders_append, poppedOrders, workerAction.poppedOrder,
        hp.count_eq x] using this
    · intro x hx
      apply k6 x
      simp only [crawl.afterPop, List.mem_append] at hx ⊢
      rcases hx with hx | hx
      · exact Or.inl (hi ▸ hx)
      · exact Or.inr (hp.mem_iff.mp hx)
    · exact herr workerPhase.exited _ (by simp) (fun _ => rfl)
  · rw [h4]
    have hp := hH workerPhase.waiting
    simp only [workerPhase.held, List.append_nil] at hp
    refine ⟨?_, ?_, ?_, ?_, ?_, ?_, ?_⟩
    · simpa [crawl.afterPop, pushedOrders_append, pushedOrders, workerAction.pushedOrder] using k1
    · simpa [crawl.afterPop, pushedOrders_append, pushedOrders, workerAction.pushedOrder] using k2
    · simpa [crawl.afterPop, poppedOrders_append, poppedOrders, workerAction.poppedOrder, hi]
        using k3
    · simpa [crawl.afterPop, poppedOrders_append, pushedOrders_append, poppedOrders, pushedOrders,
        workerAction.poppedOrder, workerAction.pushedOrder, hi] using k4
    · intro x
      have := k5 x
      simpa [crawl.afterPop, poppedOrders_append, poppedOrders, workerAction.poppedOrder,
        hp.count_eq x] using this
    · intro x hx
      apply k6 x
      simp only [crawl.afterPop, List.mem_append] at hx ⊢
      rcases hx with hx | hx
      · exact Or.inl (hi ▸ hx)
      · exact Or.inr (hp.mem_iff.mp hx)
    · exact herr workerPhase.waiting q0 (by simp) (fun hc => hcl ▸ hc)
  · rw [h4]
    have hp := hH (workerPhase.holding o)
    simp only [workerPhase.held] at hp
    have hitems : c.q.items = o :: rest := hi ▸ h2
    refine ⟨?_, ?_, ?_, ?_, ?_, ?_, ?_⟩
    · simpa [crawl.afterPop, pushedOrders_append, pushedOrders, workerAction.pushedOrder] using k1
    · simpa [crawl.afterPop, pushedOrders_append, pushedOrders, workerAction.pushedOrder] using k2
    · rw [hitems] at k3
      simpa [crawl.afterPop, poppedOrders_popped] using k3
    · rw [hitems] at k4
      intro x hx
      have hk := k4 x
      simp only [crawl.afterPop, poppedOrders_popped, pushedOrders_popped, List.mem_append,
        List.mem_singleton, List.mem_cons] at hx hk ⊢
      tauto
    · intro x
      have := k5 x
      have hc := hp.count_eq x
      simp only [crawl.afterPop, poppedOrders_popped, List.count_append] at hc ⊢
      omega
    · intro x hx
      apply k6 x
      rw [hitems]
      simp only [crawl.afterPop, List.mem_append, List.mem_cons] at hx ⊢
      rcases hx with hx | hx
      · exact Or.inl (Or.inr hx)
      · have := hp.mem_iff.mp hx
        simp only [List.mem_append, List.mem_singleton] at this
        tauto
    · exact herr (workerPhase.holding o) _ (by simp)
        (fun hc => by rw [hcl] at h1; rw [h1] at hc; cases hc)

theorem Close_items (w : workQueue) : (Close w).items = w.items := by
  unfold Close
  split <;> rfl

theorem foldl_Push_closed (os : List workOrder) (w : workQueue) (h : w.closed = true) :
    os.foldl Push w = w := by
  induction os with
  | nil => rfl
  | cons o os ih =>
    have : Push w o = w := by simp [Push, h]
    rw [List.foldl_cons, this, ih]

theorem pushedOrders_pushes (l : List (Nat × workerAction)) (j : Nat) (orders : List workOrder) :
    pushedOrders (l ++ orders.map (fun p => (j, workerAction.pushed p)))
      = pushedOrders l ++ orders := by
  rw [pushedOrders_append, pushedOrders_map_pushed]

theorem poppedOrders_pushes (l : List (Nat × workerAction)) (j : Nat) (orders : List workOrder) :
    poppedOrders (l ++ orders.map (fun p => (j, workerAction.pushed p)))
      = poppedOrders l := by
  rw [poppedOrders_append, poppedOrders_map_pushed, List.append_nil]

theorem crawl.singleWriter_held {σ : Type} (seed : workOrder) (c : crawl σ) (j : Nat)
    (o : workOrder) (hg : c.workers.get? j = some (workerPhase.holding o))
    (h : c.singleWriter seed) (x : workerPhase) (hx : x.held = []) :
    (∀ y, (heldOrders (c.workers.set j x)).count y + [o].count y
        = (heldOrders c.workers).count y) ∧
    o ∈ poppedOrders c.log ∧
    (∀ y ∈ c.q.items ++ heldOrders (c.workers.set j x),
      y ∈ c.q.items ++ heldOrders c.workers ∧ y.insertInto ≠ o.insertInto) := by
  obtain ⟨_, _, k3, _, k5, _, _⟩ := h
  have hp := heldOrders_set c.workers j (workerPhase.holding o) x hg
  rw [hx, List.append_nil] at hp
  simp only [workerPhase.held] at hp
  have hcount : ∀ y, (heldOrders (c.workers.set j x)).count y + [o].count y
      = (heldOrders c.workers).count y := by
    intro y
    have := hp.count_eq y
    rw [List.count_append] at this
    exact this
  have hoh : 1 ≤ (heldOrders c.workers).count o := by
    have := hcount o
    simp only [List.count_cons_self, List.count_nil] at this
    omega
  have hop : o ∈ poppedOrders c.log := by
    have := k5 o
    exact List.count_pos_iff.mp (by omega)
  have hpn : (poppedOrders c.log).Nodup := (List.nodup_append.mp k3).1.of_map
  refine ⟨hcount, hop, ?_⟩
  intro y hy
  rw [List.mem_append] at hy
  rcases hy with hy | hy
  · refine ⟨List.mem_append_left _ hy, ?_⟩
    intro heq
    have hd := (List.nodup_append.mp k3).2.2
    exact hd (List.mem_map_of_mem _ hop) (heq ▸ List.mem_map_of_mem _ hy)
  · have hyh : y ∈ heldOrders c.workers := by
      have : y ∈ heldOrders (c.workers.set j x) ++ [o] := List.mem_append_left _ hy
      exact hp.mem_iff.mp this
    refine ⟨List.mem_append_right _ hyh, ?_⟩
    intro heq
    have hyp : y ∈ poppedOrders c.log := by
      have h1 : 1 ≤ (heldOrders c.workers).count y := List.count_pos_iff.mpr hyh
      have := k5 y
      exact List.count_pos_iff.mp (by omega)
    have hyo : y = o :=
      List.inj_on_of_nodup_map (List.nodup_append.mp k3).1 hyp hop heq
    subst hyo
    have h1 : 1 ≤ (heldOrders (c.workers.set j x)).count y := List.count_pos_iff.mpr hy
    have h2 := hcount y
    simp only [List.count_cons_self, List.count_nil] at h2
    have h3 := k5 y
    have h4 : (poppedOrders c.log).count y ≤ 1 := List.nodup_iff_count_le_one.mp hpn y
    omega

theorem crawl.singleWriter_erred_of_set {σ : Type} (c : crawl σ) (j : Nat) (x : workerPhase)
    (hlt : j < c.workers.length) (closed closed2 : Bool)
    (k7 : ∀ i, c.workers.get? i = some workerPhase.erred → closed = true)
    (hx : x = workerPhase.erred → closed2 = true) (hq : closed = true → closed2 = true) :
    ∀ i, (c.workers.set j x).get? i = some workerPhase.erred → closed2 = true := by
  intro i hi2
  by_cases hij : i = j
  · subst hij
    rw [List.get?_eq_getElem?, List.getElem?_set_self hlt] at hi2
    simp only [Option.some.injEq] at hi2
    exact hx hi2
  · rw [List.get?_eq_getElem?, List.getElem?_set_ne (Ne.symm hij), ← List.get?_eq_getElem?]
      at hi2
    exact hq (k7 i hi2)

theorem crawl.singleWriter_process {σ : Type} (v : Vault σ) (opts : TreeOpts)
    (seed : workOrder) (c : crawl σ) (j : Nat) (o : workOrder)
    (hg : c.workers.get? j = some (workerPhase.holding o))
    (h : c.singleWriter seed) : (crawl.process v opts c j o).singleWriter seed := by
  have hlt : j < c.workers.length := by
    rw [List.get?_eq_some] at hg
    exact hg.1
  have hoheld : o ∈ heldOrders c.workers := by
    have hp := heldOrders_set c.workers j (workerPhase.holding o) workerPhase.exited hg
    exact hp.mem_iff.mp (List.mem_append_right _ (List.mem_singleton.mpr rfl))
      |> fun m => by simpa [workerPhase.held] using m
  obtain ⟨k1, k2, k3, k4, k5, k6, k7⟩ := id h
  obtain ⟨n, hn, hnb⟩ := k6 o (List.mem_append_right _ hoheld)
  unfold crawl.process
  rw [hn]
  simp only
  rcases hex : expandNode v opts o.operation n c.store with ⟨r, s1⟩
  cases r with
  | error e =>
    simp only
    obtain ⟨hcount, _, hmem⟩ :=
      crawl.singleWriter_held seed c j o hg h workerPhase.erred rfl
    refine ⟨?_, ?_, ?_, ?_, ?_, ?_, ?_⟩
    · simpa [pushedOrders_append, pushedOrders, workerAction.pushedOrder] using k1
    · simpa [pushedOrders_append, pushedOrders, workerAction.pushedOrder] using k2
    · simpa [poppedOrders_append, poppedOrders, workerAction.poppedOrder, Close_items] using k3
    · simpa [poppedOrders_append, pushedOrders_append, poppedOrders, pushedOrders,
        workerAction.poppedOrder, workerAction.pushedOrder, Close_items] using k4
    · intro y
      have h1 := hcount y
      have h2 := k5 y
      have h3 : poppedOrders (c.log ++ [(j, workerAction.closed),
          (j, workerAction.sent (some e))]) = poppedOrders c.log := by
        rw [poppedOrders_append]
        exact List.append_nil _
      simp only [h3]
      omega
    · intro y hy
      simp only [Close_items] at hy
      exact k6 y (hmem y hy).1
    · intro i _
      exact Close_closed c.q
  | ok answer =>
    simp only
    obtain ⟨hcount, hop, hmem⟩ :=
      crawl.singleWriter_held seed c j o hg h workerPhase.ready rfl
    have hans := expandNode_branches v opts o.operation n c.store s1 answer hex
    rw [hnb, List.nil_append]
    have hfresh : ∀ x ∈ (childOrders opts o.insertInto 0 answer).map workOrder.insertInto,
        (c.tree.nodeAt x).isSome = false := by
      intro x hx
      obtain ⟨i, _, rfl⟩ := (mem_childOrders_addresses opts o.insertInto x answer).mp hx
      rw [Tree.nodeAt_append c.tree n o.insertInto [i] hn,
        Tree.nodeAt_cons_of_no_branches n i [] hnb]
      rfl
    have hfresh2 : ∀ x ∈ (childOrders opts o.insertInto 0 answer).map workOrder.insertInto,
        x ∉ (seed :: pushedOrders c.log).map workOrder.insertInto := by
      intro x hx hx2
      have := hfresh x hx
      rw [(k2 x).mp hx2] at this
      cases this
    have hcreated : ∀ y ∈ poppedOrders c.log ++ c.q.items,
        y.insertInto ∉ (childOrders opts o.insertInto 0 answer).map workOrder.insertInto := by
      intro y hy hy2
      exact hfresh2 _ hy2 (List.mem_map_of_mem _ (k4 y hy))
    have hitems : ((childOrders opts o.insertInto 0 answer).foldl Push c.q).items = c.q.items ∨
        ((childOrders opts o.insertInto 0 answer).foldl Push c.q).items
          = c.q.items ++ childOrders opts o.insertInto 0 answer := by
      cases hc : c.q.closed with
      | true => left; rw [foldl_Push_closed _ _ hc]
      | false => right; rw [foldl_Push_open _ _ hc]
    refine ⟨?_, ?_, ?_, ?_, ?_, ?_, ?_⟩
    · simp only [pushedOrders_pushes]
      rw [← List.cons_append, List.map_append]
      refine List.nodup_append.mpr ⟨k1, childOrders_nodup opts o.insertInto 0 answer, ?_⟩
      intro x hx1 hx2
      exact hfresh2 x hx2 hx1
    · intro a
      simp only [pushedOrders_pushes]
      rw [← List.cons_append, List.map_append, List.mem_append, k2 a,
        mem_childOrders_addresses,
        Tree.nodeAt_modifyAt_isSome c.tree n o.insertInto a answer hn hnb hans]
    · simp only [poppedOrders_pushes]
      rcases hitems with hi | hi
      · rw [hi]; exact k3
      · rw [hi, List.map_append, ← List.append_assoc]
        refine List.nodup_append.mpr ⟨k3, childOrders_nodup opts o.insertInto 0 answer, ?_⟩
        intro x hx1 hx2
        rw [← List.map_append] at hx1
        obtain ⟨y, hy, rfl⟩ := List.mem_map.mp hx1
        exact hcreated y hy hx2
    · intro y hy
      simp only [poppedOrders_pushes, pushedOrders_pushes] at hy ⊢
      rw [← List.cons_append, List.mem_append]
      rcases hitems with hi | hi
      · rw [hi] at hy
        exact Or.inl (k4 y hy)
      · rw [hi, ← List.append_assoc, List.mem_append] at hy
        rcases hy with hy | hy
        · exact Or.inl (k4 y hy)
        · exact Or.inr hy
    · intro y
      have h1 := hcount y
      have h2 := k5 y
      simp only [poppedOrders_pushes]
      omega
    · intro y hy
      have hold : y ∈ c.q.items ++ heldOrders (c.workers.set j workerPhase.ready) ∨
          y ∈ childOrders opts o.insertInto 0 answer := by
        rw [List.mem_append] at hy
        rcases hy with hy | hy
        · rcases hitems with hi | hi
          · rw [hi] at hy
            exact Or.inl (List.mem_append_left _ hy)
          · rw [hi, List.mem_append] at hy
            rcases hy with hy | hy
            · exact Or.inl (List.mem_append_left _ hy)
            · exact Or.inr hy
        · exact Or.inl (List.mem_append_right _ hy)
      rcases hold with hy | hy
      · obtain ⟨hy1, hne⟩ := hmem y hy
        obtain ⟨m, hm, hmb⟩ := k6 y hy1
        have hnp : ¬ o.insertInto <+: y.insertInto := by
          rintro ⟨r, hr⟩
          cases r with
          | nil => exact hne (by simpa using hr.symm)
          | cons i r =>
            rw [← hr, Tree.nodeAt_append c.tree n o.insertInto (i :: r) hn,
              Tree.nodeAt_cons_of_no_branches n i r hnb] at hm
            cases hm
        have hsh := Tree.nodeAt_modifyAt_other
          (fun n => n.setBranches (n.Branches ++ answer)) c.tree n o.insertInto y.insertInto
          hn hnp
        rw [hm] at hsh
        cases hm2 : (Tree.modifyAt (fun n => n.setBranches (n.Branches ++ answer)) c.tree
            o.insertInto).nodeAt y.insertInto with
        | none => rw [hm2] at hsh; cases hsh
        | some m2 =>
          rw [hm2] at hsh
          simp only [Option.map_some', Option.some.injEq, Prod.mk.injEq] at hsh
          refine ⟨m2, rfl, ?_⟩
          have : m2.Branches.length = 0 := by rw [hsh.2, hmb]; rfl
          exact List.length_eq_zero.mp this
      · obtain ⟨i, b, hb, rfl⟩ := (mem_childOrders opts o.insertInto answer y).mp hy
        refine ⟨b, ?_, hans b (List.get?_mem hb)⟩
        simp only
        rw [Tree.nodeAt_modifyAt_append _ c.tree n o.insertInto [i] hn]
        simp only [Tree.nodeAt, Tree.setBranches_Branches, hnb, List.nil_append, hb]
    · refine crawl.singleWriter_erred_of_set c j workerPhase.ready hlt c.q.closed _ k7
        (fun hx => by cases hx) (fun hc => ?_)
      rw [(foldl_Push_awake_closed _ c.q).2]
      exact hc

theorem crawl.singleWriter_step {σ : Type} (v : Vault σ) (opts : TreeOpts)
    (seed : workOrder) (c : crawl σ) (j : Nat) (h : c.singleWriter seed) :
    (crawl.step v opts c j).singleWriter seed := by
  unfold crawl.step
  cases hg : c.workers.get? j with
  | none => exact h
  | some w =>
    cases w with
    | ready =>
      exact crawl.singleWriter_afterPop seed c j workerPhase.ready hg (Or.inl rfl)
        { c.q with awake := c.q.awake - 1 } rfl rfl h
    | waiting =>
      exact crawl.singleWriter_afterPop seed c j workerPhase.waiting hg (Or.inr rfl)
        c.q rfl rfl h
    | holding o => exact crawl.singleWriter_process v opts seed c j o hg h
    | exited => exact h
    | erred =>
      obtain ⟨k1, k2, k3, k4, k5, k6, k7⟩ := h
      have hcl := k7 j hg
      have hlt : j < c.workers.length := by
        rw [List.get?_eq_some] at hg
        exact hg.1
      have hp := heldOrders_set c.workers j workerPhase.erred workerPhase.exited hg
      simp only [workerPhase.held, List.append_nil] at hp
      simp only [Pop_closed c.q hcl]
      refine ⟨?_, ?_, ?_, ?_, ?_, ?_, ?_⟩
      · simpa [pushedOrders_append, pushedOrders, workerAction.pushedOrder] using k1
      · simpa [pushedOrders_append, pushedOrders, workerAction.pushedOrder] using k2
      · simpa [poppedOrders_append, poppedOrders, workerAction.poppedOrder] using k3
      · simpa [poppedOrders_append, pushedOrders_append, poppedOrders, pushedOrders,
          workerAction.poppedOrder, workerAction.pushedOrder] using k4
      · intro x
        have := k5 x
        simpa [poppedOrders_append, poppedOrders, workerAction.poppedOrder, hp.count_eq x]
          using this
      · intro x hx
        apply k6 x
        simp only [List.mem_append] at hx ⊢
        rcases hx with hx | hx
        · exact Or.inl hx
        · exact Or.inr (hp.mem_iff.mp hx)
      · intro i _
        exact hcl

theorem crawl.singleWriter_run {σ : Type} (v : Vault σ) (opts : TreeOpts)
    (seed : workOrder) (schedule : List Nat) (c : crawl σ) (h : c.singleWriter seed) :
    (crawl.run v opts c schedule).singleWriter seed := by
  induction schedule generalizing c with
  | nil => exact h
  | cons j js ih =>
    exact ih (crawl.step v opts c j) (crawl.singleWriter_step v opts seed c j h)

theorem crawl.singleWriter_start {σ : Type} (opts : TreeOpts) (numWorkers : Int) (root : Tree)
    (s : σ) (hb : root.Branches = []) :
    (crawl.start opts numWorkers root s : crawl σ).singleWriter
      { insertInto := [], operation := (root.getWorkType opts).1 } := by
  have hb2 : (root.getWorkType opts).2.Branches = [] :=
    (Tree.getWorkType_receiver root opts).1.trans hb
  have hq : (Push (newWorkQueue numWorkers)
      { insertInto := [], operation := (root.getWorkType opts).1 }).items
      = [{ insertInto := [], operation := (root.getWorkType opts).1 }] := rfl
  refine ⟨?_, ?_, ?_, ?_, ?_, ?_, ?_⟩
  · simp [crawl.start, pushedOrders]
  · intro a
    simp only [crawl.start, pushedOrders, List.filterMap_nil, List.map_cons, List.map_nil,
      List.mem_singleton]
    cases a with
    | nil => simp [Tree.nodeAt]
    | cons i r => simp [Tree.nodeAt_cons_of_no_branches _ i r hb2]
  · simp [crawl.start, poppedOrders, hq]
  · intro o ho
    simp only [crawl.start, poppedOrders, List.filterMap_nil, List.nil_append, hq,
      List.mem_singleton] at ho
    simp [crawl.start, pushedOrders, ho]
  · intro o
    simp [crawl.start, heldOrders_replicate_ready, poppedOrders]
  · intro o ho
    simp only [crawl.start, hq, heldOrders_replicate_ready, List.append_nil,
      List.mem_singleton] at ho
    subst ho
    exact ⟨(root.getWorkType opts).2, rfl, hb2⟩
  · intro i hi
    simp only [crawl.start] at hi
    have := List.get?_mem hi
    rw [List.mem_replicate] at this
    cases this.2

theorem crawl.executions_step_count {σ : Type} (v : Vault σ) (opts : TreeOpts) (c : crawl σ)
    (j : Nat) (y : workOrder) (seed : workOrder) (hsw : c.singleWriter seed) :
    ((match c.workers.get? j with
        | some (workerPhase.holding o) => [(j, o)]
        | _ => []).map Prod.snd).count y
      + (heldOrders (crawl.step v opts c j).workers).count y + (poppedOrders c.log).count y
    = (heldOrders c.workers).count y + (poppedOrders (crawl.step v opts c j).log).count y := by
  unfold crawl.step
  cases hg : c.workers.get? j with
  | none => simp
  | some w =>
    have hset : ∀ x : workerPhase, (heldOrders (c.workers.set j x)).count y + w.held.count y
        = (heldOrders c.workers).count y + x.held.count y := by
      intro x
      have := (heldOrders_set c.workers j w x hg).count_eq y
      simpa [List.count_append] using this
    have hpop : ∀ q0 : workQueue,
        (heldOrders (c.afterPop j (popLoop q0)).workers).count y + w.held.count y
          + (poppedOrders c.log).count y
        = (heldOrders c.workers).count y
          + (poppedOrders (c.afterPop j (popLoop q0)).log).count y := by
      intro q0
      rcases popLoop_cases q0 with ⟨_, h2⟩ | ⟨_, _, _, h4⟩ | ⟨_, _, _, h4⟩ | ⟨o, rest, _, _, h4⟩
      · rw [h2]
        have h1 := hset workerPhase.exited
        have h3 : poppedOrders (c.log ++ [(j, workerAction.poppedDone),
            (j, workerAction.sent none)]) = poppedOrders c.log := by
          rw [poppedOrders_append]; exact List.append_nil _
        simp only [crawl.afterPop, h3, workerPhase.held, List.count_nil] at h1 ⊢
        omega
      · rw [h4]
        have h1 := hset workerPhase.exited
        have h3 : poppedOrders (c.log ++ [(j, workerAction.poppedDone),
            (j, workerAction.sent none)]) = poppedOrders c.log := by
          rw [poppedOrders_append]; exact List.append_nil _
        simp only [crawl.afterPop, h3, workerPhase.held, List.count_nil] at h1 ⊢
        omega
      · rw [h4]
        have h1 := hset workerPhase.waiting
        have h3 : poppedOrders (c.log ++ [(j, workerAction.blocked)]) = poppedOrders c.log := by
          rw [poppedOrders_append]; exact List.append_nil _
        simp only [crawl.afterPop, h3, workerPhase.held, List.count_nil] at h1 ⊢
        omega
      · rw [h4]
        have h1 := hset (workerPhase.holding o)
        simp only [crawl.afterPop, poppedOrders_popped, List.count_append, workerPhase.held]
          at h1 ⊢
        omega
    cases w with
    | ready =>
      have := hpop { c.q with awake := c.q.awake - 1 }
      simpa [workerPhase.held, Pop] using this
    | waiting =>
      have := hpop c.q
      simpa [workerPhase.held] using this
    | exited => simp
    | erred =>
      have h1 := hset workerPhase.exited
      have h3 : poppedOrders (c.log ++ [(j, workerAction.poppedDone)]) = poppedOrders c.log := by
        rw [poppedOrders_append]; exact List.append_nil _
      simp only [h3, workerPhase.held, List.count_nil, List.map_nil] at h1 ⊢
      omega
    | holding o =>
      simp only [List.map_cons, List.map_nil]
      unfold crawl.process
      cases hn : c.tree.nodeAt o.insertInto with
      | none =>
        have hp := heldOrders_set c.workers j (workerPhase.holding o) workerPhase.exited hg
        have hoheld : o ∈ heldOrders c.workers :=
          hp.mem_iff.mp (List.mem_append_right _ (List.mem_singleton.mpr rfl))
            |> fun m => by simpa [workerPhase.held] using m
        obtain ⟨n, hn2, _⟩ := hsw.2.2.2.2.2.1 o (List.mem_append_right _ hoheld)
        rw [hn] at hn2
        cases hn2
      | some n =>
        simp only
        rcases hex : expandNode v opts o.operation n c.store with ⟨r, s1⟩
        cases r with
        | error e =>
          have h1 := hset workerPhase.erred
          have h3 : poppedOrders (c.log ++ [(j, workerAction.closed),
              (j, workerAction.sent (some e))]) = poppedOrders c.log := by
            rw [poppedOrders_append]; exact List.append_nil _
          simp only [h3, workerPhase.held, List.count_nil] at h1 ⊢
          omega
        | ok answer =>
          have h1 := hset workerPhase.ready
          simp only [poppedOrders_pushes, workerPhase.held, List.count_nil] at h1 ⊢
          omega

theorem crawl.executions_count {σ : Type} (v : Vault σ) (opts : TreeOpts) (seed : workOrder)
    (schedule : List Nat) (c : crawl σ) (hsw : c.singleWriter seed) (y : workOrder) :
    ((crawl.executions v opts c schedule).map Prod.snd).count y
      + (heldOrders (crawl.run v opts c schedule).workers).count y
      + (poppedOrders c.log).count y
    = (heldOrders c.workers).count y
      + (poppedOrders (crawl.run v opts c schedule).log).count y := by
  induction schedule generalizing c with
  | nil => simp [crawl.executions, crawl.run]
  | cons j js ih =>
    have h1 := crawl.executions_step_count v opts c j y seed hsw
    have h2 := ih (crawl.step v opts c j) (crawl.singleWriter_step v opts seed c j hsw)
    have h3 : crawl.run v opts c (j :: js) = crawl.run v opts (crawl.step v opts c j) js := rfl
    rw [h3]
    simp only [crawl.executions, List.map_append, List.count_append]
    omega

theorem crawl.executions_popped {σ : Type} (v : Vault σ) (opts : TreeOpts)
    (numWorkers : Int) (root : Tree) (s : σ) (schedule : List Nat) (hb : root.Branches = []) :
    ((crawl.executions v opts (crawl.start opts numWorkers root s) schedule).map
        Prod.snd).Subperm
      (poppedOrders (crawl.run v opts (crawl.start opts numWorkers root s) schedule).log) := by
  rw [List.subperm_ext_iff]
  intro y _
  have h := crawl.executions_count v opts _ schedule (crawl.start opts numWorkers root s)
    (crawl.singleWriter_start opts numWorkers root s hb) y
  have h1 : (heldOrders (crawl.start opts numWorkers root s : crawl σ).workers).count y = 0 := by
    simp [crawl.start, heldOrders_replicate_ready]
  have h2 : (poppedOrders (crawl.start opts numWorkers root s : crawl σ).log).count y = 0 := by
    simp [crawl.start, poppedOrders]
  omega

theorem nodup_map_of_subperm {α β : Type} (f : α → β) (l m : List α) (h : l.Subperm m)
    (hm : (m.map f).Nodup) : (l.map f).Nodup := by
  obtain ⟨k, hk, hs⟩ := h
  have : (k.map f).Nodup := List.Nodup.sublist (hs.map f) hm
  exact (hk.map f).nodup_iff.mp this

theorem crawl.step_writes {σ : Type} (v : Vault σ) (opts : TreeOpts) (seed : workOrder)
    (c : crawl σ) (j : Nat) (hsw : c.singleWriter seed) :
    (crawl.step v opts c j).tree = c.tree ∨
    ∃ o n answer s1, c.workers.get? j = some (workerPhase.holding o) ∧
      c.tree.nodeAt o.insertInto = some n ∧ n.Branches = [] ∧
      expandNode v opts o.operation n c.store = (Except.ok answer, s1) ∧
      (crawl.step v opts c j).tree
        = c.tree.modifyAt (fun n => n.setBranches (n.Branches ++ answer)) o.insertInto ∧
      (crawl.step v opts c j).log
        = c.log ++ (childOrders opts o.insertInto 0 answer).map
            (fun p => (j, workerAction.pushed p)) := by
  unfold crawl.step
  cases hg : c.workers.get? j with
  | none => exact Or.inl rfl
  | some w =>
    cases w with
    | ready => exact Or.inl (crawl.afterPop_tree c j _)
    | waiting => exact Or.inl (crawl.afterPop_tree c j _)
    | exited => exact Or.inl rfl
    | erred => exact Or.inl rfl
    | holding o =>
      simp only
      have hp := heldOrders_set c.workers j (workerPhase.holding o) workerPhase.exited hg
      have hoheld : o ∈ heldOrders c.workers :=
        hp.mem_iff.mp (List.mem_append_right _ (List.mem_singleton.mpr rfl))
          |> fun m => by simpa [workerPhase.held] using m
      obtain ⟨n, hn, hnb⟩ := hsw.2.2.2.2.2.1 o (List.mem_append_right _ hoheld)
      unfold crawl.process
      rw [hn]
      simp only
      rcases hex : expandNode v opts o.operation n c.store with ⟨r, s1⟩
      cases r with
      | error e => exact Or.inl rfl
      | ok answer =>
        refine Or.inr ⟨o, n, answer, s1, rfl, hn, hnb, hex, rfl, ?_⟩
        simp only [hnb, List.nil_append]

/-- C15.  Single writer per node.  In every run of the workers that
`ConstructTree` starts after a successful probe (any number of workers, any
schedule): the orders handed to `Push` (the one seeded for the starting node and
those pushed by the workers) have pairwise distinct targets, and an address is
the target of one of them exactly when it is the address of a node of the tree;
the orders returned by `Pop` have pairwise distinct targets; the executions of
the loop body are for orders returned by `Pop`, one execution at most per such
order, so that their targets are pairwise distinct and are nodes created by an
order handed to `Push`; and a step of a worker changes the tree only when that
worker holds an order, by appending the answer to the node the order targets,
which had no branches, and that same worker pushes the orders of the appended
nodes. -/
theorem single_writer_per_node {σ : Type} (v : Vault σ) (opts : TreeOpts) (numWorkers : Int)
    (path : GoString) (root : Tree) (s0 s : σ) (schedule : List Nat)
    (hprobe : (Tree.mk path [] 0 0 [] 0 false).populateNodeType v s0 = (none, root, s)) :
    ((({ insertInto := [], operation := (root.getWorkType opts).1 } : workOrder) ::
        pushedOrders (crawl.run v opts (crawl.start opts numWorkers root s) schedule).log).map
      workOrder.insertInto).Nodup ∧
    (∀ a, ((crawl.run v opts (crawl.start opts numWorkers root s) schedule).tree.nodeAt a).isSome
        = true ↔
      a ∈ (({ insertInto := [], operation := (root.getWorkType opts).1 } : workOrder) ::
        pushedOrders (crawl.run v opts (crawl.start opts numWorkers root s) schedule).log).map
          workOrder.insertInto) ∧
    ((poppedOrders (crawl.run v opts (crawl.start opts numWorkers root s) schedule).log).map
      workOrder.insertInto).Nodup ∧
    ((crawl.executions v opts (crawl.start opts numWorkers root s) schedule).map
        Prod.snd).Subperm
      (poppedOrders (crawl.run v opts (crawl.start opts numWorkers root s) schedule).log) ∧
    ((crawl.executions v opts (crawl.start opts numWorkers root s) schedule).map
      (fun p => p.2.insertInto)).Nodup ∧
    (∀ p ∈ crawl.executions v opts (crawl.start opts numWorkers root s) schedule,
      p.2 ∈ ({ insertInto := [], operation := (root.getWorkType opts).1 } : workOrder) ::
        pushedOrders (crawl.run v opts (crawl.start opts numWorkers root s) schedule).log) ∧
    (∀ j,
      (crawl.step v opts (crawl.run v opts (crawl.start opts numWorkers root s) schedule) j).tree
        = (crawl.run v opts (crawl.start opts numWorkers root s) schedule).tree ∨
      ∃ o n answer s1,
        (crawl.run v opts (crawl.start opts numWorkers root s) schedule).workers.get? j
          = some (workerPhase.holding o) ∧
        (crawl.run v opts (crawl.start opts numWorkers root s) schedule).tree.nodeAt o.insertInto
          = some n ∧
        n.Branches = [] ∧
        expandNode v opts o.operation n
          (crawl.run v opts (crawl.start opts numWorkers root s) schedule).store
          = (Except.ok answer, s1) ∧
        (crawl.step v opts (crawl.run v opts (crawl.start opts numWorkers root s) schedule)
            j).tree
          = (crawl.run v opts (crawl.start opts numWorkers root s) schedule).tree.modifyAt
              (fun n => n.setBranches (n.Branches ++ answer)) o.insertInto ∧
        (crawl.step v opts (crawl.run v opts (crawl.start opts numWorkers root s) schedule)
            j).log
          = (crawl.run v opts (crawl.start opts numWorkers root s) schedule).log ++
              (childOrders opts o.insertInto 0 answer).map
                (fun p => (j, workerAction.pushed p))) := by
  have hb : root.Branches = [] :=
    Tree.populateNodeType_Branches v _ root s0 s none hprobe
  have hsw := crawl.singleWriter_run v opts _ schedule _
    (crawl.singleWriter_start opts numWorkers root s hb)
  have hsub := crawl.executions_popped v opts numWorkers root s schedule hb
  obtain ⟨k1, k2, k3, k4, _, _, _⟩ := id hsw
  have hpn := (List.nodup_append.mp k3).1
  refine ⟨k1, fun a => (k2 a).symm, hpn, hsub, ?_, ?_, ?_⟩
  · have := nodup_map_of_subperm workOrder.insertInto _ _ hsub hpn
    rw [List.map_map] at this
    exact this
  · intro p hp
    apply k4
    exact List.mem_append_left _ (hsub.subset (List.mem_map_of_mem Prod.snd hp))
  · intro j
    exact crawl.step_writes v opts _ _ j hsw

/-- Witness of `single_writer_per_node`: with two workers on the directory `a`
that lists `b` and `c`, the executions of the loop body have pairwise distinct
targets. -/
theorem single_writer_per_node_witness :
    (Tree.mk [97] [] 0 0 [] 0 false).populateNodeType twoFailuresBackend ()
      = (none, Tree.mk [97] [] TreeTypeDir 0 [] 0 false, ()) ∧
    ((crawl.executions twoFailuresBackend ⟨true, false, false⟩
        (crawl.start ⟨true, false, false⟩ 2 (Tree.mk [97] [] TreeTypeDir 0 [] 0 false) ())
        [0, 0, 0, 1, 0, 1, 0, 1]).map (fun p => p.2.insertInto)).Nodup :=
  ⟨rfl, (single_writer_per_node twoFailuresBackend ⟨true, false, false⟩ 2 [97]
    (Tree.mk [97] [] TreeTypeDir 0 [] 0 false) () () [0, 0, 0, 1, 0, 1, 0, 1] rfl).2.2.2.2.1⟩

/-! ### The mount version of the starting node -/

theorem Tree.modifyAt_MountVersion (f : Tree → Tree)
    (hf : ∀ n, (f n).MountVersion = n.MountVersion) (t : Tree) (a : List Nat) :
    (Tree.modifyAt f t a).MountVersion = t.MountVersion := by
  cases a with
  | nil => exact hf t
  | cons i rest =>
    simp only [Tree.modifyAt]
    split
    · cases t; rfl
    · rfl

theorem crawl.step_MountVersion {σ : Type} (v : Vault σ) (opts : TreeOpts) (c : crawl σ)
    (i : Nat) : (crawl.step v opts c i).tree.MountVersion = c.tree.MountVersion := by
  unfold crawl.step
  split
  · rw [crawl.afterPop_tree]
  · rw [crawl.afterPop_tree]
  · unfold crawl.process
    split
    · rfl
    · split
      · rfl
      · exact Tree.modifyAt_MountVersion _ (fun n => by cases n; rfl) _ _
  · rfl
  · rfl

theorem crawl.run_MountVersion {σ : Type} (v : Vault σ) (opts : TreeOpts)
    (schedule : List Nat) (c : crawl σ) :
    (crawl.run v opts c schedule).tree.MountVersion = c.tree.MountVersion := by
  induction schedule generalizing c with
  | nil => rfl
  | cons i rest ih =>
    have := ih (crawl.step v opts c i)
    simp only [crawl.run, List.foldl_cons] at this ⊢
    rw [this, crawl.step_MountVersion]

theorem postProcess_MountVersion (opts : TreeOpts) (t : Tree) :
    (postProcess opts t).MountVersion = t.MountVersion := by
  have h1 : ∀ x : Tree, x.pruneEmpty.MountVersion = x.MountVersion := fun x => by
    cases x; simp [Tree.pruneEmpty, Tree.MountVersion]
  have h2 : ∀ x : Tree, x.pruneKeys.MountVersion = x.MountVersion := fun x => by
    cases x; simp [Tree.pruneKeys, Tree.MountVersion]
  have h3 : ∀ x : Tree, x.sort.MountVersion = x.MountVersion := fun x => by
    cases x; simp [Tree.sort, Tree.MountVersion]
  unfold postProcess
  simp only [h3]
  split <;> split <;> simp only [h1, h2]

theorem Tree.populateNodeType_MountVersion {σ : Type} (v : Vault σ) (t ret : Tree) (s s1 : σ)
    (e : Option vaultError) (h : t.populateNodeType v s = (e, ret, s1)) :
    ret.MountVersion = t.MountVersion := by
  have hset : ∀ ty, (t.setTyp ty).MountVersion = t.MountVersion := fun ty => by cases t; rfl
  unfold Tree.populateNodeType at h
  split at h
  · cases h; exact hset _
  · split at h
    · split at h
      · cases h; rfl
      · cases h; exact hset _
    · split at h
      · cases h; exact hset _
      · split at h
        · cases h; exact hset _
        · cases h; exact hset _

theorem ConstructTree_root_MountVersion {σ : Type} (Canonicalize : GoString → GoString)
    (numCPU : Int) (v : Vault σ) (schedule : List Nat) (path : GoString) (opts : TreeOpts)
    (s : σ) (t : Tree) (e : Option vaultError)
    (h : ConstructTree Canonicalize numCPU v schedule path opts s = some (some t, e)) :
    t.MountVersion = 0 := by
  unfold ConstructTree at h
  simp only at h
  split at h
  · cases h
  · next ret s1 hp =>
    split at h
    · simp only [Option.some.injEq, Prod.mk.injEq] at h
      rw [← h.1, postProcess_MountVersion, crawl.run_MountVersion]
      simp only [crawl.start]
      rw [(Tree.getWorkType_receiver ret opts).2.2.1,
        Tree.populateNodeType_MountVersion v _ ret s s1 none hp]
      rfl
    · cases h

/-- C16 fails at the starting node.  `ConstructTree` never stamps the starting
node: whatever the backend, the processors and the schedule, the tree it returns
has the mount version 0 at its root.  On the version-2 mount where `a/b` is a
secret, the backend answers 2 for `a/b`, the tree returned for the path `a/b`
is the secret with mount version 0, and the order seeded for it has no
operation; found as a child of `a`, the same secret carries the mount version 2
and its order is a `Get`. -/
theorem starting_node_not_stamped :
    (∀ (σ : Type) (Canonicalize : GoString → GoString) (numCPU : Int) (v : Vault σ)
      (schedule : List Nat) (path : GoString) (opts : TreeOpts) (s : σ) (t : Tree)
      (e : Option vaultError),
      ConstructTree Canonicalize numCPU v schedule path opts s = some (some t, e) →
      t.MountVersion = 0) ∧
    versionedSecretBackend.MountVersion [97, 47, 98] () = (Except.ok 2, ()) ∧
    ConstructTree id 1 versionedSecretBackend [0, 0, 0] [97, 47, 98] ⟨false, false, false⟩ ()
      = some (some (Tree.mk [97, 47, 98] [] TreeTypeSecret 0 [] 0 false), none) ∧
    (crawl.run versionedSecretBackend ⟨false, false, false⟩
        (crawl.start ⟨false, false, false⟩ 1
          (Tree.mk [97, 47, 98] [] TreeTypeSecret 0 [] 0 false) ()) [0, 0, 0]).log
      = [(0, workerAction.popped ⟨[], opTypeNone⟩), (0, workerAction.poppedDone),
         (0, workerAction.sent none)] ∧
    ConstructTree id 1 versionedSecretBackend [0, 0, 0, 0, 0, 0, 0] [97]
        ⟨false, false, false⟩ ()
      = some (some (Tree.mk [97, 47]
          [Tree.mk [97, 47, 98] [] TreeTypeSecret 2 [] 0 false] TreeTypeDir 0 [] 0 false),
          none) ∧
    (crawl.run versionedSecretBackend ⟨false, false, false⟩
        (crawl.start ⟨false, false, false⟩ 1 (Tree.mk [97] [] TreeTypeDir 0 [] 0 false) ())
        [0, 0, 0, 0, 0, 0, 0]).log
      = [(0, workerAction.popped ⟨[], opTypeList⟩), (0, workerAction.pushed ⟨[0], opTypeGet⟩),
         (0, workerAction.popped ⟨[0], opTypeGet⟩),
         (0, workerAction.pushed ⟨[0, 0], opTypeNone⟩),
         (0, workerAction.popped ⟨[0, 0], opTypeNone⟩), (0, workerAction.poppedDone),
         (0, workerAction.sent none)] := by
  refine ⟨?_, rfl, rfl, rfl, rfl, rfl⟩
  intro σ Canonicalize numCPU v schedule path opts s t e h
  exact ConstructTree_root_MountVersion Canonicalize numCPU v schedule path opts s t e h

/-- Witness of `starting_node_not_stamped`: the tree returned for the path `a`
of the soft-deleted scenario has the mount version 0 at its root, on a backend
that answers 2. -/
theorem starting_node_not_stamped_witness :
    ConstructTree id 1 softDeletedBackend [0, 0, 0, 0, 0] [97] ⟨false, true, false⟩ ()
      = some (some (Tree.mk [97, 47]
          [Tree.mk [97, 47, 98] [] TreeTypeSecret 2 [] 0 false] TreeTypeDir 0 [] 0 false),
          none) ∧
    (Tree.mk [97, 47]
      [Tree.mk [97, 47, 98] [] TreeTypeSecret 2 [] 0 false] TreeTypeDir 0 [] 0 false).MountVersion
      = 0 :=
  ⟨rfl, starting_node_not_stamped.1 Unit id 1 softDeletedBackend [0, 0, 0, 0, 0] [97]
    ⟨false, true, false⟩ () _ none rfl⟩

/-! ### Paths -/

theorem Tree.Paths_of_branches (n : GoString) (bs : List Tree) (ty : Int) (mv : Nat)
    (v : GoString) (ver : Nat) (d : Bool) (h : bs ≠ []) :
    (Tree.mk n bs ty mv v ver d).Paths = PathsOfBranches bs := by
  cases bs with
  | nil => exact absurd rfl h
  | cons b bs => simp [Tree.Paths, PathsOfBranches]

theorem leafAddressesFrom_head (i : Nat) (bs : List Tree) :
    ∀ a ∈ leafAddressesFrom i bs, ∃ j r, a = j :: r ∧ i ≤ j := by
  induction bs generalizing i with
  | nil => intro a ha; simp [leafAddressesFrom] at ha
  | cons b bs ih =>
    intro a ha
    simp only [leafAddressesFrom, List.mem_append, List.mem_map] at ha
    rcases ha with ⟨r, _, rfl⟩ | ha
    · exact ⟨i, r, rfl, le_refl _⟩
    · obtain ⟨j, r, rfl, hj⟩ := ih (i + 1) a ha
      exact ⟨j, r, rfl, by omega⟩

theorem leafAddressesFrom_spec (P : Tree → Prop)
    (hP : ∀ t, P t ↔
      (t.Paths = t.leafAddresses.filterMap (fun a => (t.nodeAt a).map Tree.Name) ∧
       t.Paths.length = t.leafAddresses.length ∧
       (∀ a, a ∈ t.leafAddresses ↔ ∃ n, t.nodeAt a = some n ∧ n.Branches = []) ∧
       t.leafAddresses.Pairwise (List.Lex (fun x y : Nat => x < y))))
    (bs : List Tree) (hb : ∀ b ∈ bs, P b) (pre : List Tree) :
    PathsOfBranches bs = (leafAddressesFrom pre.length bs).filterMap (fun a =>
        match a with
        | [] => none
        | j :: r => ((pre ++ bs).get? j).bind (fun b => (b.nodeAt r).map Tree.Name)) ∧
    (PathsOfBranches bs).length = (leafAddressesFrom pre.length bs).length ∧
    (∀ a, a ∈ leafAddressesFrom pre.length bs ↔
      ∃ j r b, a = j :: r ∧ pre.length ≤ j ∧ (pre ++ bs).get? j = some b ∧
        ∃ n, b.nodeAt r = some n ∧ n.Branches = []) ∧
    (leafAddressesFrom pre.length bs).Pairwise (List.Lex (fun x y : Nat => x < y)) := by
  induction bs generalizing pre with
  | nil =>
    refine ⟨rfl, rfl, ?_, List.Pairwise.nil⟩
    intro a
    simp only [leafAddressesFrom, List.not_mem_nil, List.append_nil, false_iff, not_exists,
      not_and]
    intro j r b _ hj hg
    rw [List.get?_eq_some] at hg
    obtain ⟨h1, _⟩ := hg
    omega
  | cons b bs ih =>
    obtain ⟨h1, h2, h3, h4⟩ := (hP b).mp (hb b (List.mem_cons_self _ _))
    have hrest := ih (fun x hx => hb x (List.mem_cons_of_mem _ hx)) (pre ++ [b])
    have hlen : (pre ++ [b]).length = pre.length + 1 := by simp
    have happ : pre ++ [b] ++ bs = pre ++ b :: bs := by simp
    rw [hlen, happ] at hrest
    obtain ⟨r1, r2, r3, r4⟩ := hrest
    have hget : (pre ++ b :: bs).get? pre.length = some b := by
      rw [List.get?_eq_getElem?, List.getElem?_append_right (le_refl _)]
      simp
    refine ⟨?_, ?_, ?_, ?_⟩
    · simp only [PathsOfBranches, leafAddressesFrom, List.filterMap_append, List.filterMap_map]
      rw [← r1, h1]
      congr 1
      apply List.filterMap_congr
      intro a _
      simp only [Function.comp_apply, hget, Option.some_bind]
    · simp only [PathsOfBranches, leafAddressesFrom, List.length_append, List.length_map]
      omega
    · intro a
      simp only [leafAddressesFrom, List.mem_append, List.mem_map]
      constructor
      · rintro (⟨r, hr, rfl⟩ | ha)
        · exact ⟨pre.length, r, b, rfl, le_refl _, hget, (h3 r).mp hr⟩
        · obtain ⟨j, r, c, rfl, hj, hg, hn⟩ := (r3 a).mp ha
          exact ⟨j, r, c, rfl, by omega, hg, hn⟩
      · rintro ⟨j, r, c, rfl, hj, hg, hn⟩
        by_cases hjp : j = pre.length
        · subst hjp
          rw [hget] at hg
          cases hg
          exact Or.inl ⟨r, (h3 r).mpr hn, rfl⟩
        · exact Or.inr ((r3 (j :: r)).mpr ⟨j, r, c, rfl, by omega, hg, hn⟩)
    · simp only [leafAddressesFrom]
      rw [List.pairwise_append]
      refine ⟨?_, r4, ?_⟩
      · rw [List.pairwise_map]
        exact h4.imp (fun h => List.Lex.cons h)
      · intro x hx y hy
        obtain ⟨r, _, rfl⟩ := List.mem_map.mp hx
        obtain ⟨j, s, rfl, hj⟩ := leafAddressesFrom_head _ _ y hy
        exact List.Lex.rel (by omega)

theorem Tree.Paths_spec (t : Tree) :
    t.Paths = t.leafAddresses.filterMap (fun a => (t.nodeAt a).map Tree.Name) ∧
    t.Paths.length = t.leafAddresses.length ∧
    (∀ a, a ∈ t.leafAddresses ↔ ∃ n, t.nodeAt a = some n ∧ n.Branches = []) ∧
    t.leafAddresses.Pairwise (List.Lex (fun x y : Nat => x < y)) := by
  induction t using Tree.induct with
  | h n bs ty mv v ver d ih =>
    cases bs with
    | nil =>
      refine ⟨by simp [Tree.Paths, Tree.leafAddresses, Tree.nodeAt, Tree.Name],
        by simp [Tree.Paths, Tree.leafAddresses], ?_, by simp [Tree.leafAddresses]⟩
      intro a
      cases a with
      | nil => simp [Tree.leafAddresses, Tree.nodeAt, Tree.Branches]
      | cons i r => simp [Tree.leafAddresses, Tree.nodeAt, Tree.Branches]
    | cons b bs =>
      have key := leafAddressesFrom_spec
        (fun t => t.Paths = t.leafAddresses.filterMap (fun a => (t.nodeAt a).map Tree.Name) ∧
          t.Paths.length = t.leafAddresses.length ∧
          (∀ a, a ∈ t.leafAddresses ↔ ∃ n, t.nodeAt a = some n ∧ n.Branches = []) ∧
          t.leafAddresses.Pairwise (List.Lex (fun x y : Nat => x < y)))
        (fun _ => Iff.rfl) (b :: bs) ih []
      simp only [List.length_nil, List.nil_append] at key
      obtain ⟨k1, k2, k3, k4⟩ := key
      have hp := Tree.Paths_of_branches n (b :: bs) ty mv v ver d (by simp)
      have hl : (Tree.mk n (b :: bs) ty mv v ver d).leafAddresses
          = leafAddressesFrom 0 (b :: bs) := by
        simp [Tree.leafAddresses]
      rw [hp, hl]
      refine ⟨?_, k2, ?_, k4⟩
      · rw [k1]
        apply List.filterMap_congr
        intro a ha
        obtain ⟨j, r, rfl, _⟩ := leafAddressesFrom_head _ _ a ha
        simp only [Tree.nodeAt, Tree.Branches]
        cases (b :: bs).get? j <;> rfl
      · intro a
        rw [k3 a]
        constructor
        · rintro ⟨j, r, c, rfl, _, hg, m, hm, hmb⟩
          exact ⟨m, by simp only [Tree.nodeAt, Tree.Branches, hg, hm], hmb⟩
        · rintro ⟨m, hm, hmb⟩
          cases a with
          | nil =>
            simp only [Tree.nodeAt, Option.some.injEq] at hm
            subst hm
            simp [Tree.Branches] at hmb
          | cons j r =>
            simp only [Tree.nodeAt, Tree.Branches] at hm
            cases hg : (b :: bs).get? j with
            | none => rw [hg] at hm; cases hm
            | some c =>
              rw [hg] at hm
              exact ⟨j, r, c, rfl, Nat.zero_le _, hg, m, hm, hmb⟩

/-- C21.  For every tree, `Paths` returns the names of exactly its leaf nodes,
each once, from left to right: it is the list of the names found at the leaf
addresses of the tree, one entry per leaf address; an address is a leaf address
exactly when it leads to a node without branches; and the leaf addresses come
in strictly increasing lexicographic order of the branch indices, which is the
depth-first order with the branches from left to right (so no address comes
twice).  For a node without branches it is the one-element list holding the
name of that node. -/
theorem Paths_leaves (t : Tree) :
    t.Paths = t.leafAddresses.filterMap (fun a => (t.nodeAt a).map Tree.Name) ∧
    t.Paths.length = t.leafAddresses.length ∧
    (∀ a, a ∈ t.leafAddresses ↔ ∃ n, t.nodeAt a = some n ∧ n.Branches = []) ∧
    t.leafAddresses.Pairwise (List.Lex (fun x y : Nat => x < y)) ∧
    (t.Branches = [] → t.Paths = [t.Name]) := by
  obtain ⟨h1, h2, h3, h4⟩ := Tree.Paths_spec t
  refine ⟨h1, h2, h3, h4, ?_⟩
  intro hb
  rcases t with ⟨n, bs, ty, mv, v, ver, d⟩
  simp only [Tree.Branches] at hb
  subst hb
  rfl

/-- Witness of `Paths_leaves`: the secret `a/b` without branches has the one
path `a/b`, and the directory `a/` with the children `a/b` and `a/c/` (the
latter holding `a/c/d`) has the paths `a/b`, `a/c/d`. -/
theorem Paths_leaves_witness :
    (Tree.mk [97, 47, 98] [] TreeTypeSecret 0 [] 0 false).Paths = [[97, 47, 98]] ∧
    (Tree.mk [97, 47]
      [Tree.mk [97, 47, 98] [] TreeTypeSecret 0 [] 0 false,
       Tree.mk [97, 47, 99, 47]
        [Tree.mk [97, 47, 99, 47, 100] [] TreeTypeSecret 0 [] 0 false] TreeTypeDir 0 [] 0 false]
      TreeTypeDir 0 [] 0 false).Paths = [[97, 47, 98], [97, 47, 99, 47, 100]] :=
  ⟨(Paths_leaves (Tree.mk [97, 47, 98] [] TreeTypeSecret 0 [] 0 false)).2.2.2.2 rfl, by
    simp [Tree.Paths, PathsOfBranches]⟩

/-! ### Basename -/

theorem lastOf_singleton (h : GoString) : lastOf [h] = h := rfl

theorem lastOf_cons_cons (a b : GoString) (l : List GoString) :
    lastOf (a :: b :: l) = lastOf (b :: l) := by
  simp [lastOf, List.getLast?_cons_cons]

theorem Split_shape (sep : Nat) (s : GoString) :
    ∃ h t, Split s sep = h :: t ∧ sep ∉ h ∧
      ((t = [] ∧ s = h) ∨
       (t ≠ [] ∧ sep ∉ lastOf t ∧ ∃ pre, s = pre ++ sep :: lastOf t)) := by
  induction s with
  | nil => exact ⟨[], [], rfl, by simp, Or.inl ⟨rfl, rfl⟩⟩
  | cons c cs ih =>
    obtain ⟨h, t, hs, hh, ht⟩ := ih
    by_cases hc : c = sep
    · subst hc
      refine ⟨[], h :: t, by simp [Split, hs], by simp, Or.inr ⟨by simp, ?_⟩⟩
      rcases ht with ⟨rfl, rfl⟩ | ⟨hne, hl, pre, hpre⟩
      · exact ⟨hh, [], rfl⟩
      · obtain ⟨b, l, rfl⟩ := List.exists_cons_of_ne_nil hne
        rw [lastOf_cons_cons]
        exact ⟨hl, c :: pre, by rw [hpre]; rfl⟩
    · refine ⟨c :: h, t, by simp [Split, hs, hc], ?_, ?_⟩
      · simp only [List.mem_cons, not_or]
        exact ⟨fun e => hc e.symm, hh⟩
      · rcases ht with ⟨rfl, rfl⟩ | ⟨hne, hl, pre, hpre⟩
        · exact Or.inl ⟨rfl, rfl⟩
        · exact Or.inr ⟨hne, hl, c :: pre, by rw [hpre]; rfl⟩

theorem lastOf_Split (sep : Nat) (s : GoString) :
    sep ∉ lastOf (Split s sep) ∧
    (s = lastOf (Split s sep) ∨ ∃ pre, s = pre ++ sep :: lastOf (Split s sep)) := by
  obtain ⟨h, t, hs, hh, ht⟩ := Split_shape sep s
  rw [hs]
  rcases ht with ⟨rfl, rfl⟩ | ⟨hne, hl, pre, hpre⟩
  · exact ⟨hh, Or.inl rfl⟩
  · obtain ⟨b, l, rfl⟩ := List.exists_cons_of_ne_nil hne
    rw [lastOf_cons_cons]
    exact ⟨hl, Or.inr ⟨pre, hpre⟩⟩

theorem TrimRight_slash_spec (s : GoString) :
    (∃ k, s = TrimRight s [slash] ++ List.replicate k slash) ∧
    ∀ pre, TrimRight s [slash] ≠ pre ++ [slash] := by
  unfold TrimRight
  constructor
  · have h := List.takeWhile_append_dropWhile (fun b => [slash].contains b) s.reverse
    refine ⟨(s.reverse.takeWhile (fun b => [slash].contains b)).length, ?_⟩
    have h2 : s.reverse.takeWhile (fun b => [slash].contains b)
        = List.replicate (s.reverse.takeWhile (fun b => [slash].contains b)).length slash := by
      rw [List.eq_replicate_iff]
      refine ⟨rfl, fun b hb => ?_⟩
      have := List.mem_takeWhile_imp hb
      simpa using this
    have h3 := congrArg List.reverse h
    rw [List.reverse_append, List.reverse_reverse] at h3
    have h4 : (s.reverse.takeWhile (fun b => [slash].contains b)).reverse
        = List.replicate (s.reverse.takeWhile (fun b => [slash].contains b)).length slash := by
      generalize s.reverse.takeWhile (fun b => [slash].contains b) = T at h2 ⊢
      rw [h2, List.reverse_replicate, List.length_replicate]
    exact h3.symm.trans (congrArg _ h4)
  · intro pre hp
    have h := congrArg List.reverse hp
    rw [List.reverse_reverse, List.reverse_append] at h
    simp only [List.reverse_cons, List.reverse_nil, List.nil_append, List.singleton_append] at h
    have hd : (List.dropWhile (fun b => [slash].contains b) s.reverse).head? = some slash := by
      rw [h]; rfl
    have := List.head?_dropWhile_not (fun b => [slash].contains b) s.reverse
    rw [hd] at this
    simp at this

theorem Tree.Basename_segment (name : GoString) :
    ∃ k, slash ∉ lastOf (Split (TrimRight name [slash]) slash) ∧
      (name = lastOf (Split (TrimRight name [slash]) slash) ++ List.replicate k slash ∨
       (lastOf (Split (TrimRight name [slash]) slash) ≠ [] ∧
        ∃ pre, name = pre ++ slash :: lastOf (Split (TrimRight name [slash]) slash)
          ++ List.replicate k slash)) := by
  obtain ⟨⟨k, hk⟩, hend⟩ := TrimRight_slash_spec name
  obtain ⟨h1, h2⟩ := lastOf_Split slash (TrimRight name [slash])
  refine ⟨k, h1, ?_⟩
  rcases h2 with h2 | ⟨pre, h2⟩
  · left
    rw [← h2]
    exact hk
  · right
    constructor
    · intro h0
      rw [h0] at h2
      exact hend pre h2
    · refine ⟨pre, ?_⟩
      rw [List.append_assoc, List.cons_append] at *
      rw [← List.cons_append, ← List.append_assoc, ← h2]
      exact hk

/-- C22 as stated fails: for the Key named `a/b:k`, `Basename` returns `k`,
without a leading colon (the colon is added by `printableTree`); for the Key
of the secret key `k:1` it returns `1`; and for a Version node named `a/b` it
returns the empty string. -/
theorem Basename_key_without_colon :
    (Tree.mk [97, 47, 98, 58, 107] [] TreeTypeKey 0 [] 0 false).Basename = [107] ∧
    (Tree.mk [97, 47, 98, 58, 107] [] TreeTypeKey 0 [] 0 false).Basename ≠ [58, 107] ∧
    (Tree.mk [97, 47, 98, 58, 107, 58, 49] [] TreeTypeKey 0 [] 0 false).Basename = [49] ∧
    (Tree.mk [97, 47, 98] [] TreeTypeVersion 0 [] 1 false).Basename = [] := by
  decide

/-- C22 (as amended).  `Basename` returns `/` for the Root.  For a Directory
it returns the last path segment of its name followed by one slash, and for a
Secret or a Directory-and-Secret that segment alone: the segment contains no
slash, and the name is the segment followed by slashes only, or something, a
slash, the non-empty segment and then slashes only.  For a Key it returns the
part of the name after its last colon, without a colon. -/
theorem Basename_table (t : Tree) :
    (t.Typ = TreeTypeRoot → t.Basename = [slash]) ∧
    (∃ seg k, slash ∉ seg ∧
      (t.Name = seg ++ List.replicate k slash ∨
       (seg ≠ [] ∧ ∃ pre, t.Name = pre ++ slash :: seg ++ List.replicate k slash)) ∧
      (t.Typ = TreeTypeDir → t.Basename = seg ++ [slash]) ∧
      (t.Typ = TreeTypeSecret ∨ t.Typ = TreeTypeDirAndSecret → t.Basename = seg)) ∧
    (∃ key, colon ∉ key ∧ (t.Name = key ∨ ∃ pre, t.Name = pre ++ colon :: key) ∧
      (t.Typ = TreeTypeKey → t.Basename = key)) := by
  refine ⟨?_, ?_, ?_⟩
  · intro h
    simp [Tree.Basename, h]
  · obtain ⟨k, h1, h2⟩ := Tree.Basename_segment t.Name
    refine ⟨_, k, h1, h2, ?_, ?_⟩
    · intro h
      simp [Tree.Basename, h, TreeTypeDir, TreeTypeRoot]
    · intro h
      rcases h with h | h <;>
        simp [Tree.Basename, h, TreeTypeDir, TreeTypeRoot, TreeTypeSecret, TreeTypeDirAndSecret]
  · obtain ⟨h1, h2⟩ := lastOf_Split colon t.Name
    refine ⟨_, h1, h2, ?_⟩
    intro h
    simp [Tree.Basename, h, TreeTypeDir, TreeTypeRoot, TreeTypeSecret, TreeTypeDirAndSecret,
      TreeTypeKey]

/-- Witness of `Basename_table`: the Root has the basename `/`. -/
theorem Basename_table_witness :
    (Tree.mk [47] [] TreeTypeRoot 0 [] 0 false).Basename = [slash] :=
  (Basename_table (Tree.mk [47] [] TreeTypeRoot 0 [] 0 false)).1 rfl

/-! ### DepthFirstMap -/

theorem Tree.descendants_eq (t : Tree) : t.descendants = descendantsOf t.Branches := by
  cases t; rfl

theorem Tree.height_eq (t : Tree) : t.height = heightOf t.Branches := by
  cases t; rfl

theorem visits_append {σ : Type} (fn : Tree → σ → Tree × σ) (l m : List Tree) (s : σ) :
    visits fn (l ++ m) s = visits fn m (visits fn l s) := by
  simp [visits, List.foldl_append]

theorem depthFirstLoop_spec {σ : Type} (fn : Tree → σ → Tree × σ)
    (hfn : ∀ n s, (fn n s).1.Branches = n.Branches)
    (descend : Tree → σ → Option (Tree × σ)) (fuel : Nat)
    (hd : ∀ t s, t.height < fuel →
      ∃ t2, descend t s = some (t2, visits fn t.descendants s) ∧
        t2.setBranches [] = t.setBranches [])
    (bs : List Tree) (s : σ) (hb : heightOf bs ≤ fuel) :
    ∃ bs2, depthFirstLoop descend fn bs s = some (bs2, visits fn (descendantsOf bs) s) ∧
      List.Forall₂ (fun b2 b => ∃ s1, b2.setBranches [] = (fn b s1).1.setBranches []) bs2 bs := by
  induction bs generalizing s with
  | nil => exact ⟨[], rfl, List.Forall₂.nil⟩
  | cons b bs ih =>
    simp only [heightOf] at hb
    have h1 : (fn b s).1.height < fuel := by
      rw [Tree.height_eq, hfn, ← Tree.height_eq]
      omega
    obtain ⟨b2, hb2, hl2⟩ := hd (fn b s).1 (fn b s).2 h1
    have h2 : (fn b s).1.descendants = b.descendants := by
      rw [Tree.descendants_eq, hfn, ← Tree.descendants_eq]
    rw [h2] at hb2
    obtain ⟨bs2, hbs2, hf⟩ := ih (visits fn b.descendants (fn b s).2) (by omega)
    refine ⟨b2 :: bs2, ?_, List.Forall₂.cons ⟨s, hl2⟩ hf⟩
    simp only [depthFirstLoop, hb2, hbs2, descendantsOf]
    rw [visits_append]
    rfl

theorem Tree.DepthFirstMap_spec {σ : Type} (fn : Tree → σ → Tree × σ)
    (hfn : ∀ n s, (fn n s).1.Branches = n.Branches) (fuel : Nat) (t : Tree) (s : σ)
    (h : t.height < fuel) :
    ∃ t2, Tree.DepthFirstMap fn fuel t s = some (t2, visits fn t.descendants s) ∧
      t2.setBranches [] = t.setBranches [] := by
  induction fuel generalizing t s with
  | zero => omega
  | succ f ih =>
    have hb : heightOf t.Branches ≤ f := by
      rw [← Tree.height_eq]
      omega
    obtain ⟨bs2, hl, _⟩ := depthFirstLoop_spec fn hfn (Tree.DepthFirstMap fn f) f
      (fun t s ht => ih t s ht) t.Branches s hb
    refine ⟨t.setBranches bs2, ?_, by cases t; rfl⟩
    simp only [Tree.DepthFirstMap, hl]
    rw [Tree.descendants_eq]

theorem visits_recordNames (l : List Tree) (log : List GoString) :
    visits recordNames l log = log ++ l.map Tree.Name := by
  induction l generalizing log with
  | nil => simp [visits]
  | cons b bs ih =>
    have : visits recordNames (b :: bs) log = visits recordNames bs (log ++ [b.Name]) := rfl
    rw [this, ih]
    simp

/-- C23 as stated fails: the visitor is not applied to the node on which
`DepthFirstMap` is called.  On the tree `r` with the children `a` (holding `b`)
and `c`, the visitor that records names sees `a`, `b`, `c` and never `r`, and on
a node without branches it sees nothing.  And a visitor that cuts the branches
of the node it visits is never applied to `b`. -/
theorem DepthFirstMap_skips_receiver :
    (Tree.DepthFirstMap recordNames 3
        (Tree.mk [114] [Tree.mk [97] [Tree.mk [98] [] 0 0 [] 0 false] 0 0 [] 0 false,
          Tree.mk [99] [] 0 0 [] 0 false] 0 0 [] 0 false) []).map Prod.snd
      = some [[97], [98], [99]] ∧
    (Tree.DepthFirstMap recordNames 1 (Tree.mk [114] [] 0 0 [] 0 false) []).map Prod.snd
      = some [] ∧
    (Tree.DepthFirstMap cutBranches 3
        (Tree.mk [114] [Tree.mk [97] [Tree.mk [98] [] 0 0 [] 0 false] 0 0 [] 0 false,
          Tree.mk [99] [] 0 0 [] 0 false] 0 0 [] 0 false) []).map Prod.snd
      = some [[97], [99]] := by
  refine ⟨rfl, rfl, rfl⟩

/-- C23 (as amended).  For every tree and every visitor that leaves the
branches of the node it visits as they are, `DepthFirstMap` returns (whenever
the bound on the depth exceeds the height of the tree) and applies the visitor
exactly once to every node below the receiver, in pre-order (a node before its
descendants, siblings in branch order), and not to the receiver, whose own
fields stay as they were: the state of the visitor at the end is the state
after visiting the descendants in pre-order, and the visitor that records names
has recorded exactly the names of the descendants in pre-order. -/
theorem DepthFirstMap_preorder {σ : Type} (fn : Tree → σ → Tree × σ) (fuel : Nat) (t : Tree)
    (s : σ) (hfn : ∀ n s, (fn n s).1.Branches = n.Branches) (h : t.height < fuel) :
    (∃ t2, Tree.DepthFirstMap fn fuel t s = some (t2, visits fn t.descendants s) ∧
      t2.setBranches [] = t.setBranches []) ∧
    (Tree.DepthFirstMap recordNames fuel t []).map Prod.snd
      = some (t.descendants.map Tree.Name) := by
  refine ⟨Tree.DepthFirstMap_spec fn hfn fuel t s h, ?_⟩
  obtain ⟨t2, h2, _⟩ := Tree.DepthFirstMap_spec recordNames (fun _ _ => rfl) fuel t [] h
  rw [h2, visits_recordNames]
  rfl

/-- Witness of `DepthFirstMap_preorder`: on the tree `r` with the children `a`
(holding `b`) and `c`, the recording visitor ends with `a`, `b`, `c`. -/
theorem DepthFirstMap_preorder_witness :
    (Tree.DepthFirstMap recordNames 3
        (Tree.mk [114] [Tree.mk [97] [Tree.mk [98] [] 0 0 [] 0 false] 0 0 [] 0 false,
          Tree.mk [99] [] 0 0 [] 0 false] 0 0 [] 0 false) []).map Prod.snd
      = some ((Tree.mk [114] [Tree.mk [97] [Tree.mk [98] [] 0 0 [] 0 false] 0 0 [] 0 false,
          Tree.mk [99] [] 0 0 [] 0 false] 0 0 [] 0 false).descendants.map Tree.Name) :=
  (DepthFirstMap_preorder recordNames 3
    (Tree.mk [114] [Tree.mk [97] [Tree.mk [98] [] 0 0 [] 0 false] 0 0 [] 0 false,
      Tree.mk [99] [] 0 0 [] 0 false] 0 0 [] 0 false) [] (fun _ _ => rfl) (by decide)).2

/-! ### The probe of the starting node -/

theorem Tree.populateNodeType_root {σ : Type} (v : Vault σ) (t : Tree) (s : σ)
    (h : t.Name = [slash]) : t.populateNodeType v s = (none, t.setTyp TreeTypeRoot, s) := by
  simp [Tree.populateNodeType, h]

theorem Tree.populateNodeType_read_error {σ : Type} (v : Vault σ) (t : Tree) (s s1 : σ)
    (e : vaultError) (h : t.Name ≠ [slash]) (hR : v.Read t.Name 0 s = (Except.error e, s1)) :
    t.populateNodeType v s
      = if IsNotFound e then (none, t.setTyp TreeTypeDir, s1) else (some e, t, s1) := by
  simp only [Tree.populateNodeType, h, hR, ↓reduceIte]
  cases IsNotFound e <;> rfl

theorem Tree.populateNodeType_read_ok {σ : Type} (v : Vault σ) (t : Tree) (s s1 : σ)
    (secret : List (GoString × GoString)) (h : t.Name ≠ [slash])
    (hR : v.Read t.Name 0 s = (Except.ok secret, s1)) :
    t.populateNodeType v s
      = match v.List t.Name s1 with
        | (Except.ok _, s2) => (none, t.setTyp TreeTypeDirAndSecret, s2)
        | (Except.error e, s2) =>
          if IsNotFound e then (none, t.setTyp TreeTypeSecret, s2)
          else (some e, t.setTyp TreeTypeSecret, s2) := by
  simp only [Tree.populateNodeType, h, hR, ↓reduceIte]
  rcases v.List t.Name s1 with ⟨r, s2⟩
  cases r with
  | ok l => rfl
  | error e => cases he : IsNotFound e <;> simp [he]

/-- C26.  Probe of the starting node.  `populateNodeType` types the node named
`/` as Root without any backend call (the store is left as it was, whatever the
backend).  Otherwise it reads the path (version 0) first.  When the read fails
with `NotFound` the node is a Directory and no list is issued (the outcome is
the same whatever `List` would answer, and the store is the one the read left);
when the read fails with another error, that error is returned.  When the read
succeeds, the path is listed: a successful list gives Directory-and-Secret, a
list failing with `NotFound` gives Secret, and a list failing with another error
returns that error. -/
theorem populateNodeType_probe {σ : Type} (v : Vault σ) (t : Tree) (s : σ) :
    (t.Name = [slash] → t.populateNodeType v s = (none, t.setTyp TreeTypeRoot, s)) ∧
    (t.Name ≠ [slash] → ∀ e s1, v.Read t.Name 0 s = (Except.error e, s1) →
      (IsNotFound e = true →
        t.populateNodeType v s = (none, t.setTyp TreeTypeDir, s1) ∧
        ∀ l, t.populateNodeType { v with List := l } s = (none, t.setTyp TreeTypeDir, s1)) ∧
      (IsNotFound e = false → (t.populateNodeType v s).1 = some e)) ∧
    (t.Name ≠ [slash] → ∀ secret s1, v.Read t.Name 0 s = (Except.ok secret, s1) →
      (∀ l s2, v.List t.Name s1 = (Except.ok l, s2) →
        t.populateNodeType v s = (none, t.setTyp TreeTypeDirAndSecret, s2)) ∧
      (∀ e s2, v.List t.Name s1 = (Except.error e, s2) → IsNotFound e = true →
        t.populateNodeType v s = (none, t.setTyp TreeTypeSecret, s2)) ∧
      (∀ e s2, v.List t.Name s1 = (Except.error e, s2) → IsNotFound e = false →
        (t.populateNodeType v s).1 = some e)) := by
  refine ⟨Tree.populateNodeType_root v t s, ?_, ?_⟩
  · intro h e s1 hR
    constructor
    · intro he
      constructor
      · rw [Tree.populateNodeType_read_error v t s s1 e h hR, he]; rfl
      · intro l
        rw [Tree.populateNodeType_read_error { v with List := l } t s s1 e h hR, he]; rfl
    · intro he
      rw [Tree.populateNodeType_read_error v t s s1 e h hR, he]; rfl
  · intro h secret s1 hR
    refine ⟨?_, ?_, ?_⟩
    · intro l s2 hL
      rw [Tree.populateNodeType_read_ok v t s s1 secret h hR, hL]
    · intro e s2 hL he
      rw [Tree.populateNodeType_read_ok v t s s1 secret h hR, hL]
      simp only [he, ↓reduceIte]
    · intro e s2 hL he
      rw [Tree.populateNodeType_read_ok v t s s1 secret h hR, hL]
      simp only [he]
      rfl

/-- Witness of `populateNodeType_probe`: on the backend where `a/b` is a
secret that cannot be listed, the probe of `a/b` gives Secret, and the probe of
`/` gives Root. -/
theorem populateNodeType_probe_witness :
    (Tree.mk [97, 47, 98] [] 0 0 [] 0 false).populateNodeType versionedSecretBackend ()
      = (none, Tree.mk [97, 47, 98] [] TreeTypeSecret 0 [] 0 false, ()) ∧
    (Tree.mk [47] [] 0 0 [] 0 false).populateNodeType versionedSecretBackend ()
      = (none, Tree.mk [47] [] TreeTypeRoot 0 [] 0 false, ()) :=
  ⟨((populateNodeType_probe versionedSecretBackend (Tree.mk [97, 47, 98] [] 0 0 [] 0 false)
      ()).2.2 (by decide) [([107], [118])] () rfl).2.1 vaultError.NotFound () rfl rfl,
   (populateNodeType_probe versionedSecretBackend (Tree.mk [47] [] 0 0 [] 0 false) ()).1 rfl⟩

/-! ### NotFound on read -/

theorem workGet_read_error {σ : Type} (v : Vault σ) (opts : TreeOpts) (t : Tree)
    (s s1 s2 s3 : σ) (mv : Nat) (e : vaultError)
    (hMV : v.MountVersion t.Name s = (Except.ok mv, s1))
    (hU : (if (t.Deleted && opts.FetchAllVersions) = true then v.Undelete t.Name t.Version s1
      else (none, s1)) = (none, s2))
    (hR : v.Read t.Name t.Version s2 = (Except.error e, s3)) :
    workGet v opts t s =
      if IsNotFound e && mv == 2 then (Except.ok [], s3) else (Except.error e, s3) := by
  simp only [workGet, hMV, hU, hR]

/-- C27.  `NotFound` on read is swallowed exactly on versioned mounts: when
the mount version of the path is answered (and the undelete, issued only for a
deleted node under `fetchAllVersions`, succeeds) and the read fails, `workGet`
returns zero children and no error if the failure is `NotFound` and the mount
version is 2, and returns the error of the read in every other case, `NotFound`
on a mount of another version included. -/
theorem workGet_NotFound {σ : Type} (v : Vault σ) (opts : TreeOpts) (t : Tree)
    (s s1 s2 s3 : σ) (mv : Nat) (e : vaultError)
    (hMV : v.MountVersion t.Name s = (Except.ok mv, s1))
    (hU : (if (t.Deleted && opts.FetchAllVersions) = true then v.Undelete t.Name t.Version s1
      else (none, s1)) = (none, s2))
    (hR : v.Read t.Name t.Version s2 = (Except.error e, s3)) :
    ((IsNotFound e = true ∧ mv = 2) → workGet v opts t s = (Except.ok [], s3)) ∧
    (¬ (IsNotFound e = true ∧ mv = 2) → workGet v opts t s = (Except.error e, s3)) ∧
    (mv = 1 → workGet v opts t s = (Except.error e, s3)) ∧
    (IsNotFound e = false → workGet v opts t s = (Except.error e, s3)) := by
  have h := workGet_read_error v opts t s s1 s2 s3 mv e hMV hU hR
  refine ⟨?_, ?_, ?_, ?_⟩
  · rintro ⟨h1, h2⟩
    rw [h, h1, h2]; rfl
  · intro hn
    rw [h]
    by_cases h1 : IsNotFound e = true
    · have h2 : mv ≠ 2 := fun h2 => hn ⟨h1, h2⟩
      simp [h1, h2]
    · simp [h1]
  · intro h1
    rw [h, h1]
    simp
  · intro h1
    rw [h, h1]
    simp

/-- Witness of `workGet_NotFound`: on the version-2 mount where the listed
secret `a/b` is soft-deleted, the `Get` of `a/b` returns no child and no
error. -/
theorem workGet_NotFound_witness :
    workGet softDeletedBackend ⟨false, false, false⟩
        (Tree.mk [97, 47, 98] [] TreeTypeSecret 2 [] 0 false) ()
      = (Except.ok [], ()) :=
  (workGet_NotFound softDeletedBackend ⟨false, false, false⟩
    (Tree.mk [97, 47, 98] [] TreeTypeSecret 2 [] 0 false) () () () () 2 vaultError.NotFound
    rfl rfl rfl).1 ⟨rfl, rfl⟩

/-! ### pruneEmpty -/

theorem Tree.pruneEmpty_MountVersion (t : Tree) : t.pruneEmpty.MountVersion = t.MountVersion := by
  cases t; rfl

theorem Tree.pruneEmpty_eq (t : Tree) :
    t.pruneEmpty = t.setBranches (pruneEmptyBranches t.Typ t.Branches) := by
  cases t; rfl

theorem pruneEmptyBranches_eq (ty : Int) (bs : List Tree) :
    pruneEmptyBranches ty bs =
      (bs.filter (fun c => !(c.MountVersion == 2 && ty != TreeTypeRoot && c.Typ != TreeTypeKey
          && c.pruneEmpty.Branches.isEmpty))).map
        (fun c => if c.MountVersion = 2 then c.pruneEmpty else c) := by
  induction bs with
  | nil => rfl
  | cons b bs ih =>
    simp only [pruneEmptyBranches, ih, Tree.pruneEmpty_Typ]
    by_cases h2 : b.MountVersion = 2
    · by_cases hr : ty = TreeTypeRoot
      · simp [h2, hr, List.filter_cons]
      · by_cases hk : b.Typ = TreeTypeKey
        · simp [h2, hr, hk, List.filter_cons]
        · cases hb : b.pruneEmpty.Branches with
          | nil => simp [h2, hr, hk, hb, List.filter_cons]
          | cons c cs => simp [h2, hr, hk, hb, List.filter_cons]
    · simp [h2, List.filter_cons]

theorem pruneEmptyBranches_idem (ty : Int) (bs : List Tree)
    (ih : ∀ b ∈ bs, b.pruneEmpty.pruneEmpty = b.pruneEmpty) :
    pruneEmptyBranches ty (pruneEmptyBranches ty bs) = pruneEmptyBranches ty bs := by
  induction bs with
  | nil => rfl
  | cons b bs ihl =>
    have hrest := ihl (fun x hx => ih x (List.mem_cons_of_mem _ hx))
    have hb := ih b (List.mem_cons_self _ _)
    simp only [pruneEmptyBranches]
    by_cases h2 : b.MountVersion = 2
    · simp only [h2, ↓reduceIte]
      by_cases hk : ty = TreeTypeRoot ∨ b.pruneEmpty.Typ = TreeTypeKey
          ∨ b.pruneEmpty.Branches.length > 0
      · simp only [hk, ↓reduceIte, pruneEmptyBranches, Tree.pruneEmpty_MountVersion, h2, hb,
          hrest]
      · simp only [hk, ↓reduceIte, hrest]
    · simp only [h2, ↓reduceIte, pruneEmptyBranches, hrest]

theorem Tree.pruneEmpty_idem (t : Tree) : t.pruneEmpty.pruneEmpty = t.pruneEmpty := by
  induction t using Tree.induct with
  | h n bs ty mv v ver d ih =>
    simp only [Tree.pruneEmpty]
    rw [pruneEmptyBranches_idem ty bs ih]

/-- C29.  The branches of `t.pruneEmpty` are the branches of `t` from which
every child `c` is removed that has mount version 2 while `t` is not the Root,
`c` is not a Key and `c` has no branches left after `c` itself was pruned, and
no other; the children that stay keep their relative order, a child of mount
version 2 pruned in turn and a child of another mount version exactly as it
was, with its subtree; the other fields of `t` are unchanged; and `pruneEmpty`
applied twice equals `pruneEmpty` applied once. -/
theorem pruneEmpty_rule (t : Tree) :
    t.pruneEmpty.Branches =
      (t.Branches.filter (fun c => !(c.MountVersion == 2 && t.Typ != TreeTypeRoot
          && c.Typ != TreeTypeKey && c.pruneEmpty.Branches.isEmpty))).map
        (fun c => if c.MountVersion = 2 then c.pruneEmpty else c) ∧
    t.pruneEmpty.setBranches [] = t.setBranches [] ∧
    t.pruneEmpty.pruneEmpty = t.pruneEmpty := by
  refine ⟨?_, ?_, Tree.pruneEmpty_idem t⟩
  · rw [Tree.pruneEmpty_eq, Tree.setBranches_Branches, pruneEmptyBranches_eq]
  · cases t; rfl

/-! ### Awake accounting -/

theorem pool.step_keeps_workers (s : pool) (m : poolMove) :
    (s.step m).workers.length = s.workers.length := by
  cases m with
  | callPop i =>
    simp only [pool.step]
    split <;> simp
  | wake i =>
    simp only [pool.step]
    split <;> simp
  | push i o =>
    simp only [pool.step]
    split <;> rfl

theorem pool.run_keeps_workers (numWorkers : Nat) (seed : List workOrder)
    (moves : List poolMove) : (pool.run numWorkers seed moves).workers.length = numWorkers := by
  unfold pool.run
  generalize hs : pool.init numWorkers seed = s
  have h : s.workers.length = numWorkers := by
    rw [← hs]; simp [pool.init]
  clear hs
  induction moves generalizing s with
  | nil => exact h
  | cons m ms ih => exact ih _ ((pool.step_keeps_workers s m).trans h)

theorem awakeCount_add_parked (ws : List workerStatus) :
    awakeCount ws + ws.countP workerStatus.isParked = ws.length := by
  induction ws with
  | nil => rfl
  | cons w ws ih =>
    unfold awakeCount at ih ⊢
    cases w <;>
      simp [List.countP_cons, workerStatus.isAwake, workerStatus.isParked] <;> omega

theorem Pop_awake (w : workQueue) :
    (∀ o, (Pop w).1 = popOutcome.order o → (Pop w).2.awake = w.awake) ∧
    ((Pop w).1 = popOutcome.done → (Pop w).2.awake = w.awake - 1) ∧
    ((Pop w).1 = popOutcome.wait → (Pop w).2.awake = w.awake - 1) := by
  unfold Pop
  rcases popLoop_cases { w with awake := w.awake - 1 } with
    ⟨_, h⟩ | ⟨_, _, _, h⟩ | ⟨_, _, _, h⟩ | ⟨o, rest, _, _, h⟩ <;> rw [h] <;> simp

theorem popLoop_awake (w : workQueue) :
    (∀ o, (popLoop w).1 = popOutcome.order o → (popLoop w).2.awake = w.awake + 1) ∧
    ((popLoop w).1 = popOutcome.done → (popLoop w).2.awake = w.awake) ∧
    ((popLoop w).1 = popOutcome.wait → (popLoop w).2.awake = w.awake) := by
  rcases popLoop_cases w with
    ⟨_, h⟩ | ⟨_, _, _, h⟩ | ⟨_, _, _, h⟩ | ⟨o, rest, _, _, h⟩ <;> rw [h] <;> simp

/-- C30.  Awake accounting.  In every state of a run of `N` workers on
`newWorkQueue(N)` (each worker alternating `Pop` with processing, pushing only
while it holds an order, and calling `Pop` no more once told "no more work"),
`0 <= awake <= N` and `awake` equals `N` minus the number of workers that are
waiting inside `Pop` or have been told "no more work".  A `Pop` that returns an
order leaves `awake` as it found it, a `Pop` that returns "no more work" or
blocks leaves it lower by one; and a `Pop` woken from its wait restores its
decrement when it returns an order and leaves `awake` as it is when it returns
"no more work". -/
theorem awake_accounting (numWorkers : Nat) (seed : List workOrder) (moves : List poolMove) :
    0 ≤ (pool.run numWorkers seed moves).q.awake ∧
    (pool.run numWorkers seed moves).q.awake ≤ (numWorkers : Int) ∧
    (pool.run numWorkers seed moves).q.awake
      = (numWorkers : Int)
        - ((pool.run numWorkers seed moves).workers.countP workerStatus.isParked : Nat) ∧
    (pool.run numWorkers seed moves).workers.length = numWorkers ∧
    (∀ w : workQueue,
      (∀ o, (Pop w).1 = popOutcome.order o → (Pop w).2.awake = w.awake) ∧
      ((Pop w).1 = popOutcome.done → (Pop w).2.awake = w.awake - 1) ∧
      ((Pop w).1 = popOutcome.wait → (Pop w).2.awake = w.awake - 1)) ∧
    (∀ w : workQueue,
      (∀ o, (popLoop w).1 = popOutcome.order o → (popLoop w).2.awake = w.awake + 1) ∧
      ((popLoop w).1 = popOutcome.done → (popLoop w).2.awake = w.awake) ∧
      ((popLoop w).1 = popOutcome.wait → (popLoop w).2.awake = w.awake)) := by
  obtain ⟨ha, _⟩ := pool.accounted_run numWorkers seed moves
  have hl := pool.run_keeps_workers numWorkers seed moves
  have hc := awakeCount_add_parked (pool.run numWorkers seed moves).workers
  rw [hl] at hc
  refine ⟨by omega, by omega, by omega, hl, Pop_awake, popLoop_awake⟩

/-- Witness of `awake_accounting`: from `newWorkQueue(3)` with one order, the
first `Pop` returns the order and leaves `awake` at 3. -/
theorem awake_accounting_witness :
    (Pop (Push (newWorkQueue 3) ⟨[], 1⟩)).1 = popOutcome.order ⟨[], 1⟩ ∧
    (Pop (Push (newWorkQueue 3) ⟨[], 1⟩)).2.awake = 3 :=
  ⟨rfl, ((awake_accounting 3 [⟨[], 1⟩] []).2.2.2.2.1 (Push (newWorkQueue 3) ⟨[], 1⟩)).1
    ⟨[], 1⟩ rfl⟩

/-! ### A path that does not exist -/

theorem TrimSuffixSlash_append_slash (x : GoString) : TrimSuffixSlash (x ++ [slash]) = x := by
  simp [TrimSuffixSlash]

theorem TrimRight_of_no_trailing_slash (s : GoString) (h : ∀ pre, s ≠ pre ++ [slash]) :
    TrimRight s [slash] = s := by
  unfold TrimRight
  cases hr : s.reverse with
  | nil => simpa using hr.symm
  | cons c rest =>
    have hs : s = rest.reverse ++ [c] := by
      have := congrArg List.reverse hr
      simpa using this
    have hc : c ≠ slash := by
      intro hc
      subst hc
      exact h _ hs
    simp [List.dropWhile, hc, hs]

theorem TrimRight_idem (s : GoString) :
    TrimRight (TrimRight s [slash] ++ [slash]) [slash] = TrimRight s [slash] := by
  have h1 := TrimRight_TrimSuffixSlash (TrimRight s [slash] ++ [slash])
  rw [TrimSuffixSlash_append_slash] at h1
  rw [← h1]
  exact TrimRight_of_no_trailing_slash _ (TrimRight_slash_spec s).2

theorem missing_path_probe (v : Vault Unit) (p : GoString) (hp0 : p ≠ []) (hp1 : p ≠ [slash])
    (hR : v.Read p 0 () = (Except.error vaultError.NotFound, ())) :
    (Tree.mk (if p = [] then [slash] else p) [] 0 0 [] 0 false).populateNodeType v ()
      = (none, Tree.mk p [] TreeTypeDir 0 [] 0 false, ()) := by
  simp [hp0, hp1, Tree.populateNodeType, Tree.Name, hR, IsNotFound, Tree.setTyp]

theorem missing_path_expandNode (v : Vault Unit) (opts : TreeOpts) (p : GoString)
    (hL : v.List (TrimRight p [slash]) () = (Except.error vaultError.NotFound, ())) :
    expandNode v opts opTypeList
        (Tree.mk (TrimRight p [slash] ++ [slash]) [] TreeTypeDir 0 [] 0 false) ()
      = (Except.ok [], ()) := by
  have hw : workList v (Tree.mk (TrimRight p [slash] ++ [slash]) [] TreeTypeDir 0 [] 0 false) ()
      = (Except.ok [], ()) := by
    simp [workList, Tree.Name, TrimSuffixSlash_append_slash, hL, IsNotFound]
  simp [expandNode, collectAnswers, hw, stampMountVersions, opTypeList, opTypeGet,
    opTypeMounts, opTypeVersions,
    (by decide : (1 : Nat) &&& 4 = 0), (by decide : (1 : Nat) &&& 8 = 0),
    (by decide : (1 : Nat) &&& 2 = 0)]

theorem missing_path_getWorkType (opts : TreeOpts) (p : GoString) :
    (Tree.mk p [] TreeTypeDir 0 [] 0 false).getWorkType opts
      = (opTypeList, Tree.mk (TrimRight p [slash] ++ [slash]) [] TreeTypeDir 0 [] 0 false) ∧
    (Tree.mk (TrimRight p [slash] ++ [slash]) [] TreeTypeDir 0 [] 0 false).getWorkType opts
      = (opTypeList, Tree.mk (TrimRight p [slash] ++ [slash]) [] TreeTypeDir 0 [] 0 false) := by
  constructor
  · simp [Tree.getWorkType, Tree.Typ, TreeTypeDir, TreeTypeRoot, Tree.setName, Tree.Name]
  · simp [Tree.getWorkType, Tree.Typ, TreeTypeDir, TreeTypeRoot, Tree.setName, Tree.Name,
      TrimRight_idem]

theorem missing_path_expanded (v : Vault Unit) (opts : TreeOpts) (p : GoString)
    (hL : v.List (TrimRight p [slash]) () = (Except.error vaultError.NotFound, ())) :
    (Tree.mk (TrimRight p [slash] ++ [slash]) [] TreeTypeDir 0 [] 0 false).expanded v opts := by
  simp only [Tree.expanded, expandedAll, (missing_path_getWorkType opts p).2,
    missing_path_expandNode v opts p hL, List.map_nil, and_true]

theorem postProcess_leaf (opts : TreeOpts) (n : GoString) (ty : Int) (mv : Nat)
    (val : GoString) (ver : Nat) (d : Bool) :
    postProcess opts (Tree.mk n [] ty mv val ver d) = Tree.mk n [] ty mv val ver d := by
  rcases opts with ⟨a, b, c⟩
  cases a <;> cases b <;> rfl

theorem missing_path_run (v : Vault Unit) (opts : TreeOpts) (p : GoString) (numCPU : Int)
    (hL : v.List (TrimRight p [slash]) () = (Except.error vaultError.NotFound, ())) :
    (crawl.run v opts (crawl.start opts (numWorkersOf numCPU)
        (Tree.mk p [] TreeTypeDir 0 [] 0 false) ()) [0, 0, 0, 1, 2, 0, 1]).errors
      = List.replicate (numWorkersOf numCPU).toNat none ∧
    (crawl.run v opts (crawl.start opts (numWorkersOf numCPU)
        (Tree.mk p [] TreeTypeDir 0 [] 0 false) ()) [0, 0, 0, 1, 2, 0, 1]).tree
      = Tree.mk (TrimRight p [slash] ++ [slash]) [] TreeTypeDir 0 [] 0 false := by
  have hE := missing_path_expandNode v opts p hL
  have hg := (missing_path_getWorkType opts p).1
  rcases numWorkersOf_cases numCPU with h | h | h <;> rw [h] <;>
    simp [crawl.run, crawl.start, hg, crawl.step, Push, newWorkQueue, Pop, popLoop,
      crawl.afterPop, crawl.process, Tree.nodeAt, hE, childOrders, Tree.modifyAt,
      Tree.setBranches, Tree.Branches, List.replicate]

/-- C28.  On a backend without a store, for a path whose canonical form `p`
is neither empty nor `/`, when the read of `p` answers `NotFound` and the list
of `p` (taken without its trailing slashes, as `workList` asks for it) answers
`NotFound`: every call of `ConstructTree` that returns, whatever the options,
the number of processors and the schedule, returns no error and the single
Directory node without branches named `p` without its trailing slashes followed
by one slash; under the schedule given the call does return; and `Paths` on that
tree returns that one name. -/
theorem missing_path_tree (Canonicalize : GoString → GoString) (numCPU : Int) (v : Vault Unit)
    (schedule : List Nat) (path : GoString) (opts : TreeOpts)
    (hp0 : Canonicalize path ≠ []) (hp1 : Canonicalize path ≠ [slash])
    (hR : v.Read (Canonicalize path) 0 () = (Except.error vaultError.NotFound, ()))
    (hL : v.List (TrimRight (Canonicalize path) [slash]) ()
      = (Except.error vaultError.NotFound, ())) :
    (∀ r, ConstructTree Canonicalize numCPU v schedule path opts () = some r →
      r = (some (Tree.mk (TrimRight (Canonicalize path) [slash] ++ [slash]) []
        TreeTypeDir 0 [] 0 false), none)) ∧
    ConstructTree Canonicalize numCPU v [0, 0, 0, 1, 2, 0, 1] path opts ()
      = some (some (Tree.mk (TrimRight (Canonicalize path) [slash] ++ [slash]) []
        TreeTypeDir 0 [] 0 false), none) ∧
    (Tree.mk (TrimRight (Canonicalize path) [slash] ++ [slash]) []
        TreeTypeDir 0 [] 0 false).Paths
      = [TrimRight (Canonicalize path) [slash] ++ [slash]] ∧
    (∀ pre, TrimRight (Canonicalize path) [slash] ≠ pre ++ [slash]) ∧
    (∃ k, Canonicalize path
      = TrimRight (Canonicalize path) [slash] ++ List.replicate k slash) := by
  have hprobe := missing_path_probe v (Canonicalize path) hp0 hp1 hR
  refine ⟨fun r h => ?_, ?_, rfl, (TrimRight_slash_spec _).2, (TrimRight_slash_spec _).1⟩
  · have := ConstructTree_of_expanded Canonicalize numCPU v schedule path opts _
      (Tree.mk (TrimRight (Canonicalize path) [slash] ++ [slash]) [] TreeTypeDir 0 [] 0 false)
      hprobe (missing_path_expanded v opts (Canonicalize path) hL)
      (by rw [(missing_path_getWorkType opts (Canonicalize path)).1]) r h
    rw [this, postProcess_leaf]
  · obtain ⟨h1, h2⟩ := missing_path_run v opts (Canonicalize path) numCPU hL
    unfold ConstructTree
    simp only [hprobe, h1, h2, List.length_replicate, ↓reduceIte, postProcess_leaf]
    rw [drainErrors_none _ (fun e he => List.eq_of_mem_replicate he)]

/-- Witness of `missing_path_tree`: on the backend of the pruning scenario the
path `x` does not exist, and `ConstructTree("x")` returns the Directory `x/`
alone. -/
theorem missing_path_tree_witness :
    ConstructTree id 1 softDeletedBackend [0, 0, 0, 1, 2, 0, 1] [120] ⟨false, false, false⟩ ()
      = some (some (Tree.mk [120, 47] [] TreeTypeDir 0 [] 0 false), none) :=
  (missing_path_tree id 1 softDeletedBackend [] [120] ⟨false, false, false⟩ (by decide)
    (by decide) rfl rfl).2.1

/-! ### The mounts scenario -/

theorem mounts_expanded (v : Vault Unit) (mv : Nat) (G K : List GoString)
    (k1 v1 k2 v2 : GoString)
    (hMg : v.Mounts genericKind () = (Except.ok G, ()))
    (hMk : v.Mounts kvKind () = (Except.ok K, ()))
    (hKG : K ++ G = [[115, 101, 99, 114, 101, 116], [99, 102]])
    (hMV : ∀ p, v.MountVersion p () = (Except.ok mv, ()))
    (hLs : v.List [115, 101, 99, 114, 101, 116] () = (Except.ok [[97, 47], [97, 47, 98]], ()))
    (hLa : v.List [115, 101, 99, 114, 101, 116, 47, 97] () = (Except.ok [[99]], ()))
    (hLc : v.List [99, 102] () = (Except.ok [], ()) ∨
      v.List [99, 102] () = (Except.error vaultError.NotFound, ()))
    (hRb : v.Read [115, 101, 99, 114, 101, 116, 47, 97, 47, 98] 0 ()
      = (Except.ok [(k1, v1)], ()))
    (hRc : v.Read [115, 101, 99, 114, 101, 116, 47, 97, 47, 99] 0 ()
      = (Except.ok [(k2, v2)], ())) :
    (Tree.mk [47]
      [Tree.mk [115, 101, 99, 114, 101, 116, 47]
        [Tree.mk [115, 101, 99, 114, 101, 116, 47, 97, 47]
          [Tree.mk [115, 101, 99, 114, 101, 116, 47, 97, 47, 99]
            [Tree.mk ([115, 101, 99, 114, 101, 116, 47, 97, 47, 99, 58] ++ k2) []
              TreeTypeKey mv v2 1 false]
            TreeTypeSecret mv [] 0 false]
          TreeTypeDir mv [] 0 false,
         Tree.mk [115, 101, 99, 114, 101, 116, 47, 97, 47, 98]
          [Tree.mk ([115, 101, 99, 114, 101, 116, 47, 97, 47, 98, 58] ++ k1) []
            TreeTypeKey mv v1 1 false]
          TreeTypeSecret mv [] 0 false]
        TreeTypeDir mv [] 0 false,
       Tree.mk [99, 102, 47] [] TreeTypeDir mv [] 0 false]
      TreeTypeRoot 0 [] 0 false).expanded v ⟨true, false, false⟩ := by
  rcases hLc with hLc | hLc <;>
  simp [Tree.expanded, expandedAll, Tree.getWorkType, Tree.Typ, TreeTypeRoot, TreeTypeDir,
    TreeTypeSecret, TreeTypeDirAndSecret, TreeTypeKey, TreeTypeVersion, expandNode,
    collectAnswers, workList, workGet, workMounts, TrimSuffixSlash, HasSuffixSlash, TrimRight,
    slash, colon, hLs, hLa, hLc, hMV, hMg, hMk, hKG, hRb, hRc,
    stampMountVersions, Tree.setMountVersion, Tree.setBranches, Tree.Name,
    Tree.MountVersion, Tree.Version, Tree.Deleted, IsNotFound, opTypeList, opTypeGet,
    opTypeMounts, opTypeVersions, opTypeNone,
    (by decide : (2 : Nat) &&& 4 = 0), (by decide : (2 : Nat) &&& 8 = 0),
    (by decide : (1 : Nat) &&& 4 = 0), (by decide : (1 : Nat) &&& 8 = 0),
    (by decide : (1 : Nat) &&& 2 = 0), (by decide : (4 : Nat) &&& 2 = 0),
    (by decide : (4 : Nat) &&& 1 = 0), (by decide : (4 : Nat) &&& 8 = 0),
    (by decide : (2 : Nat) &&& 1 = 0)]

theorem mounts_postProcess (mv : Nat) (k1 v1 k2 v2 : GoString) :
    postProcess ⟨true, false, false⟩
      (Tree.mk [47]
      [Tree.mk [115, 101, 99, 114, 101, 116, 47]
        [Tree.mk [115, 101, 99, 114, 101, 116, 47, 97, 47]
          [Tree.mk [115, 101, 99, 114, 101, 116, 47, 97, 47, 99]
            [Tree.mk ([115, 101, 99, 114, 101, 116, 47, 97, 47, 99, 58] ++ k2) []
              TreeTypeKey mv v2 1 false]
            TreeTypeSecret mv [] 0 false]
          TreeTypeDir mv [] 0 false,
         Tree.mk [115, 101, 99, 114, 101, 116, 47, 97, 47, 98]
          [Tree.mk ([115, 101, 99, 114, 101, 116, 47, 97, 47, 98, 58] ++ k1) []
            TreeTypeKey mv v1 1 false]
          TreeTypeSecret mv [] 0 false]
        TreeTypeDir mv [] 0 false,
       Tree.mk [99, 102, 47] [] TreeTypeDir mv [] 0 false]
      TreeTypeRoot 0 [] 0 false)
    = Tree.mk [47]
      [Tree.mk [99, 102, 47] [] TreeTypeDir mv [] 0 false,
       Tree.mk [115, 101, 99, 114, 101, 116, 47]
        [Tree.mk [115, 101, 99, 114, 101, 116, 47, 97, 47]
          [Tree.mk [115, 101, 99, 114, 101, 116, 47, 97, 47, 99]
            [Tree.mk ([115, 101, 99, 114, 101, 116, 47, 97, 47, 99, 58] ++ k2) []
              TreeTypeKey mv v2 1 false]
            TreeTypeSecret mv [] 0 false]
          TreeTypeDir mv [] 0 false,
         Tree.mk [115, 101, 99, 114, 101, 116, 47, 97, 47, 98]
          [Tree.mk ([115, 101, 99, 114, 101, 116, 47, 97, 47, 98, 58] ++ k1) []
            TreeTypeKey mv v1 1 false]
          TreeTypeSecret mv [] 0 false]
        TreeTypeDir mv [] 0 false]
      TreeTypeRoot 0 [] 0 false := by
  by_cases h : mv = 2
  · subst h
    rfl
  · simp [postProcess, Tree.pruneEmpty, pruneEmptyBranches, Tree.MountVersion, h, Tree.sort,
      sortBranches, sortSlice, sink, Tree.less, bytesLess, Tree.Name, Tree.Version]

theorem mounts_probe (Canonicalize : GoString → GoString) (v : Vault Unit)
    (hc : Canonicalize [47] = [47] ∨ Canonicalize [47] = []) :
    (Tree.mk (if Canonicalize [47] = [] then [slash] else Canonicalize [47])
        [] 0 0 [] 0 false).populateNodeType v ()
      = (none, Tree.mk [47] [] TreeTypeRoot 0 [] 0 false, ()) := by
  rcases hc with h | h <;> simp [h, Tree.populateNodeType, Tree.Name, slash, Tree.setTyp]

theorem mounts_returns (Canonicalize : GoString → GoString) (numCPU : Int)
    (hc : Canonicalize [47] = [47] ∨ Canonicalize [47] = []) :
    ConstructTree Canonicalize numCPU mountsBackend
        [0, 0, 0, 0, 0, 0, 0, 0, 0, 0, 0, 0, 0, 0, 0, 0, 0, 1, 2, 0, 1] [47]
        ⟨true, false, false⟩ ()
      = some (some (Tree.mk [47]
      [Tree.mk [99, 102, 47] [] TreeTypeDir 1 [] 0 false,
       Tree.mk [115, 101, 99, 114, 101, 116, 47]
        [Tree.mk [115, 101, 99, 114, 101, 116, 47, 97, 47]
          [Tree.mk [115, 101, 99, 114, 101, 116, 47, 97, 47, 99]
            [Tree.mk [115, 101, 99, 114, 101, 116, 47, 97, 47, 99, 58, 107] []
              TreeTypeKey 1 [118] 1 false]
            TreeTypeSecret 1 [] 0 false]
          TreeTypeDir 1 [] 0 false,
         Tree.mk [115, 101, 99, 114, 101, 116, 47, 97, 47, 98]
          [Tree.mk [115, 101, 99, 114, 101, 116, 47, 97, 47, 98, 58, 107] []
            TreeTypeKey 1 [118] 1 false]
          TreeTypeSecret 1 [] 0 false]
        TreeTypeDir 1 [] 0 false]
      TreeTypeRoot 0 [] 0 false), none) := by
  have hp := mounts_probe Canonicalize mountsBackend hc
  unfold ConstructTree
  simp only [hp]
  rcases numWorkersOf_cases numCPU with h | h | h <;> rw [h] <;> rfl

/-- C24.  Scenario: on a backend without a store whose mounts are `secret` and
`cf` (in the order in which `workMounts` joins the two kinds), where `secret`
lists `a/` and `a/b`, `secret/a` lists `c`, `cf` lists nothing (an empty list
or `NotFound`) and the secrets `secret/a/b` and `secret/a/c` hold one key each,
every mount version being `mv`: every call `ConstructTree("/", {fetchKeys:
true})` that returns, whatever the number of processors and the schedule,
returns no error and the tree root -> [`cf/` without branches, `secret/` ->
[`secret/a/` -> [`secret/a/c` -> [its key]], `secret/a/b` -> [its key]]], the
siblings in that order.  On the backend of the scenario the call does return,
under the schedule given. -/
theorem mounts_scenario (Canonicalize : GoString → GoString) (numCPU : Int) (v : Vault Unit)
    (schedule : List Nat) (mv : Nat) (G K : List GoString) (k1 v1 k2 v2 : GoString)
    (hc : Canonicalize [47] = [47] ∨ Canonicalize [47] = [])
    (hMg : v.Mounts genericKind () = (Except.ok G, ()))
    (hMk : v.Mounts kvKind () = (Except.ok K, ()))
    (hKG : K ++ G = [[115, 101, 99, 114, 101, 116], [99, 102]])
    (hMV : ∀ p, v.MountVersion p () = (Except.ok mv, ()))
    (hLs : v.List [115, 101, 99, 114, 101, 116] () = (Except.ok [[97, 47], [97, 47, 98]], ()))
    (hLa : v.List [115, 101, 99, 114, 101, 116, 47, 97] () = (Except.ok [[99]], ()))
    (hLc : v.List [99, 102] () = (Except.ok [], ()) ∨
      v.List [99, 102] () = (Except.error vaultError.NotFound, ()))
    (hRb : v.Read [115, 101, 99, 114, 101, 116, 47, 97, 47, 98] 0 ()
      = (Except.ok [(k1, v1)], ()))
    (hRc : v.Read [115, 101, 99, 114, 101, 116, 47, 97, 47, 99] 0 ()
      = (Except.ok [(k2, v2)], ())) :
    (∀ r, ConstructTree Canonicalize numCPU v schedule [47] ⟨true, false, false⟩ () = some r →
      r = (some (Tree.mk [47]
        [Tree.mk [99, 102, 47] [] TreeTypeDir mv [] 0 false,
         Tree.mk [115, 101, 99, 114, 101, 116, 47]
          [Tree.mk [115, 101, 99, 114, 101, 116, 47, 97, 47]
            [Tree.mk [115, 101, 99, 114, 101, 116, 47, 97, 47, 99]
              [Tree.mk ([115, 101, 99, 114, 101, 116, 47, 97, 47, 99, 58] ++ k2) []
                TreeTypeKey mv v2 1 false]
              TreeTypeSecret mv [] 0 false]
            TreeTypeDir mv [] 0 false,
           Tree.mk [115, 101, 99, 114, 101, 116, 47, 97, 47, 98]
            [Tree.mk ([115, 101, 99, 114, 101, 116, 47, 97, 47, 98, 58] ++ k1) []
              TreeTypeKey mv v1 1 false]
            TreeTypeSecret mv [] 0 false]
          TreeTypeDir mv [] 0 false]
        TreeTypeRoot 0 [] 0 false), none)) ∧
    ConstructTree Canonicalize numCPU mountsBackend
        [0, 0, 0, 0, 0, 0, 0, 0, 0, 0, 0, 0, 0, 0, 0, 0, 0, 1, 2, 0, 1] [47]
        ⟨true, false, false⟩ ()
      = some (some (Tree.mk [47]
        [Tree.mk [99, 102, 47] [] TreeTypeDir 1 [] 0 false,
         Tree.mk [115, 101, 99, 114, 101, 116, 47]
          [Tree.mk [115, 101, 99, 114, 101, 116, 47, 97, 47]
            [Tree.mk [115, 101, 99, 114, 101, 116, 47, 97, 47, 99]
              [Tree.mk [115, 101, 99, 114, 101, 116, 47, 97, 47, 99, 58, 107] []
                TreeTypeKey 1 [118] 1 false]
              TreeTypeSecret 1 [] 0 false]
            TreeTypeDir 1 [] 0 false,
           Tree.mk [115, 101, 99, 114, 101, 116, 47, 97, 47, 98]
            [Tree.mk [115, 101, 99, 114, 101, 116, 47, 97, 47, 98, 58, 107] []
              TreeTypeKey 1 [118] 1 false]
            TreeTypeSecret 1 [] 0 false]
          TreeTypeDir 1 [] 0 false]
        TreeTypeRoot 0 [] 0 false), none) := by
  refine ⟨fun r h => ?_, mounts_returns Canonicalize numCPU hc⟩
  have := ConstructTree_of_expanded Canonicalize numCPU v schedule [47] ⟨true, false, false⟩ _ _
    (mounts_probe Canonicalize v hc)
    (mounts_expanded v mv G K k1 v1 k2 v2 hMg hMk hKG hMV hLs hLa hLc hRb hRc) rfl r h
  rw [this, mounts_postProcess]

/-- Witness of `mounts_scenario`: the backend of the scenario meets the
conditions, so with three processors and the schedule in which each worker in
turn runs until it returns, the call returns the tree of the scenario. -/
theorem mounts_scenario_witness :
    ConstructTree id 3 mountsBackend
        [0, 0, 0, 0, 0, 0, 0, 0, 0, 0, 0, 0, 0, 0, 0, 0, 0, 1, 2, 0, 1] [47]
        ⟨true, false, false⟩ ()
      = some (some (Tree.mk [47]
        [Tree.mk [99, 102, 47] [] TreeTypeDir 1 [] 0 false,
         Tree.mk [115, 101, 99, 114, 101, 116, 47]
          [Tree.mk [115, 101, 99, 114, 101, 116, 47, 97, 47]
            [Tree.mk [115, 101, 99, 114, 101, 116, 47, 97, 47, 99]
              [Tree.mk [115, 101, 99, 114, 101, 116, 47, 97, 47, 99, 58, 107] []
                TreeTypeKey 1 [118] 1 false]
              TreeTypeSecret 1 [] 0 false]
            TreeTypeDir 1 [] 0 false,
           Tree.mk [115, 101, 99, 114, 101, 116, 47, 97, 47, 98]
            [Tree.mk [115, 101, 99, 114, 101, 116, 47, 97, 47, 98, 58, 107] []
              TreeTypeKey 1 [118] 1 false]
            TreeTypeSecret 1 [] 0 false]
          TreeTypeDir 1 [] 0 false]
        TreeTypeRoot 0 [] 0 false), none) :=
  (mounts_scenario id 3 mountsBackend
    [0, 0, 0, 0, 0, 0, 0, 0, 0, 0, 0, 0, 0, 0, 0, 0, 0, 1, 2, 0, 1] 1 []
    [[115, 101, 99, 114, 101, 116], [99, 102]] [107] [118] [107] [118]
    (Or.inl rfl) rfl rfl rfl (fun _ => rfl) rfl rfl (Or.inr rfl) rfl rfl).2

/-! ### Cancellation -/

theorem workerMove_hasSent (old ph : workerPhase) (acts : List workerAction)
    (h : workerMove old acts ph) :
    (acts.filterMap workerAction.message).length + (if old.hasSent then 1 else 0)
      = (if ph.hasSent then 1 else 0) := by
  cases h with
  | popOrder _ o h => rcases h with rfl | rfl <;> simp [workerAction.message, workerPhase.hasSent]
  | popDone _ h => rcases h with rfl | rfl <;> simp [workerAction.message, workerPhase.hasSent]
  | popWait _ h => rcases h with rfl | rfl <;> simp [workerAction.message, workerPhase.hasSent]
  | expand o orders =>
    have : (orders.map workerAction.pushed).filterMap workerAction.message = [] := by
      induction orders with
      | nil => rfl
      | cons a l ih => simp [workerAction.message]
    simp [this, workerPhase.hasSent]
  | fail o e => simp [workerAction.message, workerPhase.hasSent]
  | lastPop => simp [workerAction.message, workerPhase.hasSent]

theorem crawl.sent_count_step {σ : Type} (v : Vault σ) (opts : TreeOpts) (c : crawl σ) (j : Nat)
    (h : c.errors.length = c.workers.countP workerPhase.hasSent) :
    (crawl.step v opts c j).errors.length
      = (crawl.step v opts c j).workers.countP workerPhase.hasSent := by
  rcases crawl.step_spec v opts c j with he | ⟨old, ph, acts, hg, hm, hw, _, herr⟩
  · rw [he]; exact h
  · rw [hw, herr, List.length_append]
    have h1 := countP_set_of_get? workerPhase.hasSent c.workers j ph old hg
    have h2 := workerMove_hasSent old ph acts hm
    omega

theorem crawl.sent_count_run {σ : Type} (v : Vault σ) (opts : TreeOpts) (schedule : List Nat)
    (c : crawl σ) (h : c.errors.length = c.workers.countP workerPhase.hasSent) :
    (crawl.run v opts c schedule).errors.length
      = (crawl.run v opts c schedule).workers.countP workerPhase.hasSent := by
  induction schedule generalizing c with
  | nil => exact h
  | cons j rest ih => exact ih (crawl.step v opts c j) (crawl.sent_count_step v opts c j h)

theorem crawl.all_sent {σ : Type} (v : Vault σ) (opts : TreeOpts) (numWorkers : Int)
    (root : Tree) (s : σ) (schedule : List Nat)
    (hlen : (crawl.run v opts (crawl.start opts numWorkers root s) schedule).errors.length
      = numWorkers.toNat) :
    ∀ w ∈ (crawl.run v opts (crawl.start opts numWorkers root s) schedule).workers,
      w = workerPhase.exited ∨ w = workerPhase.erred := by
  have h0 : (crawl.start opts numWorkers root s : crawl σ).errors.length
      = (crawl.start opts numWorkers root s : crawl σ).workers.countP workerPhase.hasSent := by
    simp [crawl.start, List.countP_replicate, workerPhase.hasSent]
  have h1 := crawl.sent_count_run v opts schedule _ h0
  have h2 := crawl.run_workers_length v opts schedule (crawl.start opts numWorkers root s)
  have h3 : (crawl.start opts numWorkers root s : crawl σ).workers.length = numWorkers.toNat := by
    simp [crawl.start]
  generalize crawl.run v opts (crawl.start opts numWorkers root s) schedule = c at hlen h1 h2
  have hall : ∀ w ∈ c.workers, w.hasSent = true := by
    rw [← List.countP_eq_length, ← h1, hlen, h2, h3]
  intro w hw
  have := hall w hw
  cases w <;> simp_all [workerPhase.hasSent]

theorem drainErrors_some (err : Option vaultError) (msgs : List (Option vaultError))
    (h : err ≠ none ∨ ∃ e, some e ∈ msgs) :
    ∃ e, drainErrors err msgs = some e ∧ (err = some e ∨ some e ∈ msgs) := by
  induction msgs generalizing err with
  | nil =>
    rcases h with h | ⟨e, he⟩
    · cases err with
      | none => exact absurd rfl h
      | some e => exact ⟨e, rfl, Or.inl rfl⟩
    · cases he
  | cons m ms ih =>
    have hstep : drainErrors err (m :: ms) = drainErrors (if m ≠ none then m else err) ms := rfl
    rw [hstep]
    cases m with
    | none =>
      have hh : err ≠ none ∨ ∃ e, some e ∈ ms := by
        rcases h with h | ⟨e, he⟩
        · exact Or.inl h
        · right
          rcases List.mem_cons.mp he with h1 | h1
          · cases h1
          · exact ⟨e, h1⟩
      obtain ⟨e, h1, h2⟩ := ih err hh
      refine ⟨e, by simpa using h1, ?_⟩
      rcases h2 with h2 | h2
      · exact Or.inl h2
      · exact Or.inr (List.mem_cons_of_mem _ h2)
    | some e0 =>
      obtain ⟨e, h1, h2⟩ := ih (some e0) (Or.inl (by simp))
      refine ⟨e, by simpa using h1, ?_⟩
      rcases h2 with h2 | h2
      · right
        rw [← h2]
        exact List.mem_cons_self _ _
      · exact Or.inr (List.mem_cons_of_mem _ h2)

theorem expandNode_list_error {σ : Type} (v : Vault σ) (opts : TreeOpts) (node : Tree)
    (s s1 : σ) (e : vaultError)
    (hL : v.List (TrimSuffixSlash node.Name) s = (Except.error e, s1))
    (he : IsNotFound e = false) :
    expandNode v opts opTypeList node s = (Except.error e, s1) := by
  have hw : workList v node s = (Except.error e, s1) := by
    rw [workList_error v node s s1 e hL, he]
    rfl
  simp [expandNode, collectAnswers, hw, opTypeList, opTypeGet,
    (by decide : (1 : Nat) &&& 2 = 0)]

/-- C25 as stated fails: with three workers on the directory `a` whose
children `a/x/`, `a/y/`, `a/z/` are listed concurrently, the list of `a/x`
failing, `ConstructTree` returns that error as soon as it has read the three
messages, while the worker that met the error is still inside `handleError`,
before its last `Pop`. -/
theorem cancellation_before_last_pop :
    ConstructTree id 3 failingListBackend [0, 0, 0, 1, 2, 0, 1, 1, 2, 2] [97]
        ⟨false, false, false⟩ ()
      = some (some (Tree.mk [97, 47]
          [Tree.mk [97, 47, 120, 47] [] TreeTypeDir 1 [] 0 false,
           Tree.mk [97, 47, 121, 47] [] TreeTypeDir 1 [] 0 false,
           Tree.mk [97, 47, 122, 47] [] TreeTypeDir 1 [] 0 false] TreeTypeDir 0 [] 0 false),
        some (vaultError.failure 7)) ∧
    (crawl.run failingListBackend ⟨false, false, false⟩
        (crawl.start ⟨false, false, false⟩ 3 (Tree.mk [97] [] TreeTypeDir 0 [] 0 false) ())
        [0, 0, 0, 1, 2, 0, 1, 1, 2, 2]).workers
      = [workerPhase.erred, workerPhase.exited, workerPhase.exited] := by
  exact ⟨rfl, rfl⟩

/-- C25 (as amended).  Cancellation.  A worker whose list call fails with an
error other than `NotFound` closes the queue and sends that error.  When
`ConstructTree` returns a tree, every worker has sent its message and either has
returned or is inside `handleError` with only its last `Pop` left, which finds
the queue closed and returns "no more work" without blocking; no worker is in
its loop or blocked.  If a worker has sent an error, `ConstructTree` returns an
error that a worker has sent, and that very error when no other was sent. -/
theorem cancellation {σ : Type} (Canonicalize : GoString → GoString) (numCPU : Int)
    (v : Vault σ) (schedule : List Nat) (path : GoString) (opts : TreeOpts) (s : σ)
    (t : Tree) (err : Option vaultError)
    (h : ConstructTree Canonicalize numCPU v schedule path opts s = some (some t, err)) :
    (∀ (c : crawl σ) (i : Nat) (o : workOrder) (node : Tree) (e : vaultError) (s1 : σ),
      c.workers.get? i = some (workerPhase.holding o) →
      c.tree.nodeAt o.insertInto = some node → o.operation = opTypeList →
      v.List (TrimSuffixSlash node.Name) c.store = (Except.error e, s1) →
      IsNotFound e = false →
      (crawl.step v opts c i).errors = c.errors ++ [some e] ∧
      (crawl.step v opts c i).q.closed = true ∧
      (crawl.step v opts c i).workers = c.workers.set i workerPhase.erred) ∧
    ∃ ret s1 c,
      (Tree.mk (if Canonicalize path = [] then [slash] else Canonicalize path)
        [] 0 0 [] 0 false).populateNodeType v s = (none, ret, s1) ∧
      c = crawl.run v opts (crawl.start opts (numWorkersOf numCPU) ret s1) schedule ∧
      c.workers.length = (numWorkersOf numCPU).toNat ∧
      c.errors.length = (numWorkersOf numCPU).toNat ∧
      (∀ w ∈ c.workers, w = workerPhase.exited ∨ w = workerPhase.erred) ∧
      (∀ i, c.workers.get? i = some workerPhase.erred →
        c.q.closed = true ∧ (Pop c.q).1 = popOutcome.done ∧
        (crawl.step v opts c i).workers = c.workers.set i workerPhase.exited) ∧
      c.errors = c.log.filterMap (fun p => p.2.message) ∧
      ((∃ e, some e ∈ c.errors) → ∃ e, err = some e ∧ some e ∈ c.errors) ∧
      (∀ e, some e ∈ c.errors → (∀ e2, some e2 ∈ c.errors → e2 = e) → err = some e) := by
  constructor
  · intro c i o node e s1 hg hn hop hL he
    have hE : expandNode v opts o.operation node c.store = (Except.error e, s1) := by
      rw [hop]
      exact expandNode_list_error v opts node c.store s1 e hL he
    obtain ⟨_, h2, h3⟩ := crawl.step_fail_trace v opts c i o node e s1 hg hn hE
    refine ⟨h2, ?_, h3⟩
    unfold crawl.step
    rw [hg]
    simp only [crawl.process, hn, hE]
    exact Close_closed c.q
  · rcases ConstructTree_cases Canonicalize numCPU v schedule path opts s _ h with
      ⟨e, ret, s1, _, hr⟩ | ⟨ret, s1, hp, hlen, hr⟩
    · cases hr
    · simp only [Prod.mk.injEq, Option.some.injEq] at hr
      obtain ⟨_, herr⟩ := hr
      refine ⟨ret, s1, _, hp, rfl, ?_, hlen, ?_, ?_, ?_, ?_, ?_⟩
      · rw [crawl.run_workers_length]
        simp [crawl.start]
      · exact crawl.all_sent v opts (numWorkersOf numCPU) ret s1 schedule hlen
      · intro i hi
        have hcl := crawl.erred_closed_run v opts schedule
          (crawl.start opts (numWorkersOf numCPU) ret s1)
          (crawl.erred_closed_start opts (numWorkersOf numCPU) ret s1) i hi
        refine ⟨hcl, by rw [Pop_closed _ hcl], ?_⟩
        unfold crawl.step
        rw [hi]
      · exact crawl.errors_eq_log_run v opts schedule _ rfl
      · intro hex
        obtain ⟨e, h1, h2⟩ := drainErrors_some none _ (Or.inr hex)
        rcases h2 with h2 | h2
        · cases h2
        · exact ⟨e, by rw [herr, h1], h2⟩
      · intro e he huniq
        obtain ⟨e2, h1, h2⟩ := drainErrors_some none _ (Or.inr ⟨e, he⟩)
        rcases h2 with h2 | h2
        · cases h2
        · rw [herr, h1, huniq e2 h2]

/-- Witness of `cancellation`: in the run of the scenario, when `ConstructTree`
returns the error of the failing list, every worker has returned or is inside
`handleError`. -/
theorem cancellation_witness :
    ConstructTree id 3 failingListBackend [0, 0, 0, 1, 2, 0, 1, 1, 2, 2] [97]
        ⟨false, false, false⟩ ()
      = some (some (Tree.mk [97, 47]
          [Tree.mk [97, 47, 120, 47] [] TreeTypeDir 1 [] 0 false,
           Tree.mk [97, 47, 121, 47] [] TreeTypeDir 1 [] 0 false,
           Tree.mk [97, 47, 122, 47] [] TreeTypeDir 1 [] 0 false] TreeTypeDir 0 [] 0 false),
        some (vaultError.failure 7)) ∧
    ∃ ret s1 c,
      (c : crawl Unit) = crawl.run failingListBackend ⟨false, false, false⟩
        (crawl.start ⟨false, false, false⟩ (numWorkersOf 3) ret s1)
        [0, 0, 0, 1, 2, 0, 1, 1, 2, 2] ∧
      ∀ w ∈ c.workers, w = workerPhase.exited ∨ w = workerPhase.erred :=
  ⟨rfl, by
    obtain ⟨ret, s1, c, _, hc, _, _, hw, _⟩ :=
      (cancellation id 3 failingListBackend [0, 0, 0, 1, 2, 0, 1, 1, 2, 2] [97]
        ⟨false, false, false⟩ () _ _ rfl).2
    exact ⟨ret, s1, c, hc, hw⟩⟩

/-! ### Conservation of the orders in runs of the worker pool -/

theorem pool.holding_open (s : pool) (i : Nat) (o : workOrder) (h : s.accounted)
    (hg : s.workers.get? i = some (workerStatus.holding o)) : s.q.closed = false := by
  cases hc : s.q.closed with
  | false => rfl
  | true =>
    exfalso
    have h0 := h.2 hc
    have h1 := h.1
    have hz : awakeCount s.workers = 0 := by omega
    unfold awakeCount at hz
    rw [List.countP_eq_zero] at hz
    have := hz _ (List.get?_mem hg)
    simp [workerStatus.isAwake] at this

theorem popLoop_conserves (w : workQueue) (hc : w.closed = true → w.items = []) :
    w.items =
      (match (popLoop w).1 with
        | popOutcome.order o => [o]
        | _ => []) ++ (popLoop w).2.items ∧
    ((popLoop w).2.closed = true → (popLoop w).2.items = []) := by
  rcases popLoop_cases w with ⟨h1, h2⟩ | ⟨_, h2, _, h4⟩ | ⟨h1, h2, _, h4⟩ | ⟨o, rest, h1, h2, h4⟩
  · rw [h2]
    exact ⟨rfl, hc⟩
  · rw [h4]
    exact ⟨by simp, fun _ => h2⟩
  · rw [h4]
    exact ⟨rfl, hc⟩
  · rw [h4]
    refine ⟨by simp [h2], fun hcl => ?_⟩
    simp [h1] at hcl

theorem pool.conserves_step (s : pool) (m : poolMove) (h : s.accounted)
    (hc : s.q.closed = true → s.q.items = []) :
    s.q.items ++ m.pushes s = m.pops s ++ (s.step m).q.items ∧
    ((s.step m).q.closed = true → (s.step m).q.items = []) := by
  cases m with
  | callPop i =>
    have key := popLoop_conserves { s.q with awake := s.q.awake - 1 } hc
    simp only [poolMove.pushes, poolMove.pops, pool.step, List.append_nil]
    cases hg : s.workers.get? i with
    | none => exact ⟨by simp, hc⟩
    | some w =>
      cases w with
      | starting => exact key
      | holding o => exact key
      | waiting => exact ⟨by simp, hc⟩
      | finished => exact ⟨by simp, hc⟩
  | wake i =>
    have key := popLoop_conserves s.q hc
    simp only [poolMove.pushes, poolMove.pops, pool.step, List.append_nil]
    cases hg : s.workers.get? i with
    | none => exact ⟨by simp, hc⟩
    | some w =>
      cases w with
      | waiting => exact key
      | holding o => exact ⟨by simp, hc⟩
      | starting => exact ⟨by simp, hc⟩
      | finished => exact ⟨by simp, hc⟩
  | push i o =>
    simp only [poolMove.pushes, poolMove.pops, pool.step, List.nil_append]
    cases hg : s.workers.get? i with
    | none => exact ⟨by simp, hc⟩
    | some w =>
      cases w with
      | holding o2 =>
        have hopen := pool.holding_open s i o2 h hg
        simp only [Push, hopen]
        refine ⟨by simp, fun hcl => ?_⟩
        simp [hopen] at hcl
      | waiting => exact ⟨by simp, hc⟩
      | starting => exact ⟨by simp, hc⟩
      | finished => exact ⟨by simp, hc⟩

theorem pool.conserves_foldl (moves : List poolMove) (s : pool) (h : s.accounted)
    (hc : s.q.closed = true → s.q.items = []) :
    s.q.items ++ s.pushedBy moves = s.poppedBy moves ++ (moves.foldl pool.step s).q.items ∧
    ((moves.foldl pool.step s).q.closed = true → (moves.foldl pool.step s).q.items = []) := by
  induction moves generalizing s with
  | nil => exact ⟨by simp [pool.pushedBy, pool.poppedBy], hc⟩
  | cons m ms ih =>
    obtain ⟨h1, h2⟩ := pool.conserves_step s m h hc
    obtain ⟨h3, h4⟩ := ih (s.step m) (pool.accounted_step s m h) h2
    refine ⟨?_, h4⟩
    simp only [pool.pushedBy, pool.poppedBy, List.foldl_cons]
    rw [← List.append_assoc, h1, List.append_assoc, h3, List.append_assoc]

theorem pool.init_items (numWorkers : Nat) (seed : List workOrder) :
    (pool.init numWorkers seed).q.items = seed := by
  show (seed.foldl Push (newWorkQueue numWorkers)).items = seed
  rw [foldl_Push_open seed (newWorkQueue numWorkers) rfl]
  simp [newWorkQueue]

theorem pool.conserves_run (numWorkers : Nat) (seed : List workOrder) (moves : List poolMove) :
    seed ++ (pool.init numWorkers seed).pushedBy moves
      = (pool.init numWorkers seed).poppedBy moves ++ (pool.run numWorkers seed moves).q.items ∧
    ((pool.run numWorkers seed moves).q.closed = true →
      (pool.run numWorkers seed moves).q.items = []) := by
  have h := pool.conserves_foldl moves (pool.init numWorkers seed)
    (pool.accounted_init numWorkers seed)
    (fun hcl => by
      have := (foldl_Push_awake_closed seed (newWorkQueue numWorkers)).2
      simp only [pool.init] at hcl
      rw [this] at hcl
      simp [newWorkQueue] at hcl)
  rw [pool.init_items] at h
  exact h

/-- C1.  Queue safety.  In every state reachable from `newWorkQueue(N)` by
`Push` and `Pop` calls only, whoever makes them, the queue is closed only if it
holds no order, so no `Pop` (new or woken) answers "no more work" while an order
is enqueued, and the orders enqueued are the orders returned by a `Pop` followed
by those still in the queue.  In every run of `N` workers on the seeded queue
(a worker pushes only while it holds an order, as `work` does), every `Push`
meets an open queue, so every order that was pushed (the seed and the orders
pushed by the workers) is, counted with its multiplicity, either returned by a
`Pop` already or still enqueued, in the order of the pushes; and once the queue
is closed the orders returned are exactly the orders pushed: each was returned
by exactly one `Pop`. -/
theorem queue_safety (numWorkers : Nat) (seed : List workOrder) (moves : List poolMove)
    (calls : List queueCall) :
    ((queueRun.exec numWorkers calls).q.closed = true →
        (queueRun.exec numWorkers calls).q.items = []) ∧
    ((Pop (queueRun.exec numWorkers calls).q).1 = popOutcome.done →
        (queueRun.exec numWorkers calls).q.items = []) ∧
    ((popLoop (queueRun.exec numWorkers calls).q).1 = popOutcome.done →
        (queueRun.exec numWorkers calls).q.items = []) ∧
    (queueRun.exec numWorkers calls).enqueued =
        (queueRun.exec numWorkers calls).popped ++ (queueRun.exec numWorkers calls).q.items ∧
    ((pool.run numWorkers seed moves).q.closed = true →
        (pool.run numWorkers seed moves).q.items = []) ∧
    ((Pop (pool.run numWorkers seed moves).q).1 = popOutcome.done →
        (pool.run numWorkers seed moves).q.items = []) ∧
    ((popLoop (pool.run numWorkers seed moves).q).1 = popOutcome.done →
        (pool.run numWorkers seed moves).q.items = []) ∧
    (∀ i o, (pool.run numWorkers seed moves).workers.get? i = some (workerStatus.holding o) →
        (pool.run numWorkers seed moves).q.closed = false) ∧
    seed ++ (pool.init numWorkers seed).pushedBy moves
      = (pool.init numWorkers seed).poppedBy moves
        ++ (pool.run numWorkers seed moves).q.items ∧
    (∀ o, (seed ++ (pool.init numWorkers seed).pushedBy moves).count o
      = ((pool.init numWorkers seed).poppedBy moves).count o
        + (pool.run numWorkers seed moves).q.items.count o) ∧
    ((pool.run numWorkers seed moves).q.closed = true →
      (pool.init numWorkers seed).poppedBy moves
        = seed ++ (pool.init numWorkers seed).pushedBy moves) := by
  have hs := queueRun.sound_exec numWorkers calls
  obtain ⟨h1, h2⟩ := pool.conserves_run numWorkers seed moves
  have ha := pool.accounted_run numWorkers seed moves
  refine ⟨hs.1, Pop_done_items _ hs.1, popLoop_done_items _ hs.1, hs.2, h2,
    Pop_done_items _ h2, popLoop_done_items _ h2,
    fun i o hg => pool.holding_open _ i o ha hg, h1, ?_, ?_⟩
  · intro o
    rw [h1, List.count_append]
  · intro hc
    rw [h1, h2 hc, List.append_nil]

/-- Witness of `queue_safety`: one worker and one seeded order; the worker
pops the order, pushes two orders while it holds it, pops them in turn, and its
last `Pop` finds the queue empty and closes it: the orders returned are exactly
the three orders pushed. -/
theorem queue_safety_witness :
    (pool.run 1 [⟨[], 1⟩]
        [poolMove.callPop 0, poolMove.push 0 ⟨[0], 2⟩, poolMove.push 0 ⟨[1], 2⟩,
         poolMove.callPop 0, poolMove.callPop 0, poolMove.callPop 0]).q.closed = true ∧
    (pool.init 1 [⟨[], 1⟩]).poppedBy
        [poolMove.callPop 0, poolMove.push 0 ⟨[0], 2⟩, poolMove.push 0 ⟨[1], 2⟩,
         poolMove.callPop 0, poolMove.callPop 0, poolMove.callPop 0]
      = [⟨[], 1⟩] ++ (pool.init 1 [⟨[], 1⟩]).pushedBy
        [poolMove.callPop 0, poolMove.push 0 ⟨[0], 2⟩, poolMove.push 0 ⟨[1], 2⟩,
         poolMove.callPop 0, poolMove.callPop 0, poolMove.callPop 0] ∧
    (pool.init 1 [⟨[], 1⟩]).poppedBy
        [poolMove.callPop 0, poolMove.push 0 ⟨[0], 2⟩, poolMove.push 0 ⟨[1], 2⟩,
         poolMove.callPop 0, poolMove.callPop 0, poolMove.callPop 0]
      = [⟨[], 1⟩, ⟨[0], 2⟩, ⟨[1], 2⟩] :=
  ⟨by decide,
   (queue_safety 1 [⟨[], 1⟩]
      [poolMove.callPop 0, poolMove.push 0 ⟨[0], 2⟩, poolMove.push 0 ⟨[1], 2⟩,
       poolMove.callPop 0, poolMove.callPop 0, poolMove.callPop 0] []).2.2.2.2.2.2.2.2.2.2
      (by decide),
   by decide⟩

/-! ### What a step does to the tree and to the orders not yet processed -/

theorem crawl.afterPop_pending {σ : Type} (c : crawl σ) (j : Nat) (old : workerPhase)
    (hg : c.workers.get? j = some old)
    (hold : old = workerPhase.ready ∨ old = workerPhase.waiting)
    (q0 : workQueue) (hi : q0.items = c.q.items) :
    ∀ x ∈ (c.afterPop j (popLoop q0)).q.items ++ heldOrders (c.afterPop j (popLoop q0)).workers,
      x ∈ c.q.items ++ heldOrders c.workers := by
  have hoh : old.held = [] := by rcases hold with rfl | rfl <;> rfl
  have hH : ∀ x, (heldOrders (c.workers.set j x)).Perm (heldOrders c.workers ++ x.held) := by
    intro x
    have := heldOrders_set c.workers j old x hg
    rw [hoh] at this
    simpa using this
  intro x hx
  rcases popLoop_cases q0 with ⟨_, h2⟩ | ⟨_, _, _, h4⟩ | ⟨_, _, _, h4⟩ | ⟨o, rest, _, h2, h4⟩
  · rw [h2] at hx
    have hp := hH workerPhase.exited
    simp only [workerPhase.held, List.append_nil] at hp
    simp only [crawl.afterPop, List.mem_append] at hx ⊢
    rcases hx with hx | hx
    · exact Or.inl (hi ▸ hx)
    · exact Or.inr (hp.mem_iff.mp hx)
  · rw [h4] at hx
    have hp := hH workerPhase.exited
    simp only [workerPhase.held, List.append_nil] at hp
    simp only [crawl.afterPop, List.mem_append] at hx ⊢
    rcases hx with hx | hx
    · exact Or.inl (hi ▸ hx)
    · exact Or.inr (hp.mem_iff.mp hx)
  · rw [h4] at hx
    have hp := hH workerPhase.waiting
    simp only [workerPhase.held, List.append_nil] at hp
    simp only [crawl.afterPop, List.mem_append] at hx ⊢
    rcases hx with hx | hx
    · exact Or.inl (hi ▸ hx)
    · exact Or.inr (hp.mem_iff.mp hx)
  · rw [h4] at hx
    have hp := hH (workerPhase.holding o)
    simp only [workerPhase.held] at hp
    have hitems : c.q.items = o :: rest := hi ▸ h2
    rw [hitems]
    simp only [crawl.afterPop, List.mem_append, List.mem_cons] at hx ⊢
    rcases hx with hx | hx
    · exact Or.inl (Or.inr hx)
    · have := hp.mem_iff.mp hx
      simp only [List.mem_append, List.mem_singleton] at this
      tauto

/-- A step of a worker either leaves the tree as it is and adds no order to
those not yet processed (in the queue or held), or it is the body of the loop
for the order `o` held by the worker: the node that `o` targets had no branches,
the answer is appended to it, and the orders not yet processed are then orders
of the appended nodes or orders that were there before and target another
node. -/
theorem crawl.step_pending {σ : Type} (v : Vault σ) (opts : TreeOpts) (seed : workOrder)
    (c : crawl σ) (j : Nat) (hsw : c.singleWriter seed) :
    ((crawl.step v opts c j).tree = c.tree ∧
      ∀ x ∈ (crawl.step v opts c j).q.items ++ heldOrders (crawl.step v opts c j).workers,
        x ∈ c.q.items ++ heldOrders c.workers) ∨
    ∃ o n answer s1, o ∈ heldOrders c.workers ∧
      c.tree.nodeAt o.insertInto = some n ∧ n.Branches = [] ∧
      expandNode v opts o.operation n c.store = (Except.ok answer, s1) ∧
      (∀ b ∈ answer, b.Branches = []) ∧
      (crawl.step v opts c j).tree
        = c.tree.modifyAt (fun n => n.setBranches (n.Branches ++ answer)) o.insertInto ∧
      ∀ x ∈ (crawl.step v opts c j).q.items ++ heldOrders (crawl.step v opts c j).workers,
        x ∈ childOrders opts o.insertInto 0 answer ∨
        (x ∈ c.q.items ++ heldOrders c.workers ∧ x.insertInto ≠ o.insertInto) := by
  unfold crawl.step
  cases hg : c.workers.get? j with
  | none => exact Or.inl ⟨rfl, fun x hx => hx⟩
  | some w =>
    cases w with
    | ready =>
      exact Or.inl ⟨crawl.afterPop_tree c j _,
        crawl.afterPop_pending c j workerPhase.ready hg (Or.inl rfl)
          { c.q with awake := c.q.awake - 1 } rfl⟩
    | waiting =>
      exact Or.inl ⟨crawl.afterPop_tree c j _,
        crawl.afterPop_pending c j workerPhase.waiting hg (Or.inr rfl) c.q rfl⟩
    | exited => exact Or.inl ⟨rfl, fun x hx => hx⟩
    | erred =>
      left
      refine ⟨rfl, ?_⟩
      have hcl := hsw.2.2.2.2.2.2 j hg
      have hp := heldOrders_set c.workers j workerPhase.erred workerPhase.exited hg
      simp only [workerPhase.held, List.append_nil] at hp
      intro x hx
      simp only [Pop_closed c.q hcl, List.mem_append] at hx ⊢
      rcases hx with hx | hx
      · exact Or.inl hx
      · exact Or.inr (hp.mem_iff.mp hx)
    | holding o =>
      simp only
      have hp := heldOrders_set c.workers j (workerPhase.holding o) workerPhase.exited hg
      have hoheld : o ∈ heldOrders c.workers :=
        hp.mem_iff.mp (List.mem_append_right _ (List.mem_singleton.mpr rfl))
          |> fun m => by simpa [workerPhase.held] using m
      obtain ⟨n, hn, hnb⟩ := hsw.2.2.2.2.2.1 o (List.mem_append_right _ hoheld)
      unfold crawl.process
      rw [hn]
      simp only
      rcases hex : expandNode v opts o.operation n c.store with ⟨r, s1⟩
      cases r with
      | error e =>
        left
        refine ⟨rfl, ?_⟩
        obtain ⟨_, _, hmem⟩ := crawl.singleWriter_held seed c j o hg hsw workerPhase.erred rfl
        intro x hx
        simp only [Close_items] at hx
        exact (hmem x hx).1
      | ok answer =>
        right
        obtain ⟨_, _, hmem⟩ := crawl.singleWriter_held seed c j o hg hsw workerPhase.ready rfl
        refine ⟨o, n, answer, s1, hoheld, hn, hnb, hex,
          expandNode_branches v opts o.operation n c.store s1 answer hex, rfl, ?_⟩
        simp only [hnb, List.nil_append]
        intro x hx
        have hitems : ((childOrders opts o.insertInto 0 answer).foldl Push c.q).items
              = c.q.items ∨
            ((childOrders opts o.insertInto 0 answer).foldl Push c.q).items
              = c.q.items ++ childOrders opts o.insertInto 0 answer := by
          cases hc : c.q.closed with
          | true => left; rw [foldl_Push_closed _ _ hc]
          | false => right; rw [foldl_Push_open _ _ hc]
        rw [List.mem_append] at hx
        rcases hx with hx | hx
        · rcases hitems with hi | hi
          · rw [hi] at hx
            exact Or.inr (hmem x (List.mem_append_left _ hx))
          · rw [hi, List.mem_append] at hx
            rcases hx with hx | hx
            · exact Or.inr (hmem x (List.mem_append_left _ hx))
            · exact Or.inl hx
        · exact Or.inr (hmem x (List.mem_append_right _ hx))

/-! ### Keys are leaves in the trees that the workers build -/

theorem keysBareIn_iff (bs : List Tree) :
    keysBareIn bs ↔ ∀ b ∈ bs, (b.Typ = TreeTypeKey → b.Branches = []) ∧ b.keysBare := by
  induction bs with
  | nil => simp [keysBareIn]
  | cons b bs ih => simp [keysBareIn, ih]

theorem Tree.keysBare_iff (t : Tree) :
    t.keysBare ↔ ∀ b ∈ t.Branches, (b.Typ = TreeTypeKey → b.Branches = []) ∧ b.keysBare := by
  cases t
  simp only [Tree.keysBare, keysBareIn_iff, Tree.Branches]

theorem Tree.keysBare_of_nodeAt (t : Tree) :
    (∀ a n, t.nodeAt a = some n → n.Typ = TreeTypeKey → n.Branches = []) → t.keysBare := by
  induction t using Tree.induct with
  | h nm bs ty mv val ver d ih =>
    intro h
    rw [Tree.keysBare_iff]
    intro b hb
    obtain ⟨i, hi⟩ := List.get?_of_mem hb
    have hsub : ∀ a n, b.nodeAt a = some n → n.Typ = TreeTypeKey → n.Branches = [] := by
      intro a n hn hk
      apply h (i :: a) n _ hk
      simp only [Tree.Branches] at hi
      simp only [Tree.nodeAt, Tree.Branches, hi, hn]
    exact ⟨hsub [] b rfl, ih b hb hsub⟩

theorem Tree.getWorkType_Key (n : Tree) (opts : TreeOpts) (h : n.Typ = TreeTypeKey) :
    (n.getWorkType opts).1 = opTypeNone := by
  simp [Tree.getWorkType, h, TreeTypeKey, TreeTypeRoot, TreeTypeDir, TreeTypeDirAndSecret,
    TreeTypeSecret, TreeTypeVersion]

theorem expandNode_none {σ : Type} (v : Vault σ) (opts : TreeOpts) (n : Tree) (s : σ) :
    expandNode v opts opTypeNone n s = (Except.ok [], s) := by
  simp [expandNode, collectAnswers, stampMountVersions, opTypeNone, opTypeGet, opTypeList,
    opTypeMounts, opTypeVersions]

theorem crawl.classified_step {σ : Type} (v : Vault σ) (opts : TreeOpts) (seed : workOrder)
    (c : crawl σ) (j : Nat) (hsw : c.singleWriter seed) (h : c.classified opts) :
    (crawl.step v opts c j).classified opts := by
  obtain ⟨h1, h2⟩ := h
  rcases crawl.step_pending v opts seed c j hsw with ⟨ht, hp⟩ |
    ⟨o, n, answer, s1, hoh, hn, hnb, hex, hans, ht, hp⟩
  · refine ⟨?_, ?_⟩
    · rw [ht]; exact h1
    · intro x hx
      rw [ht]
      exact h2 x (hp x hx)
  · have hop : o.operation = (n.getWorkType opts).1 := by
      obtain ⟨m, hm, hmo⟩ := h2 o (List.mem_append_right _ hoh)
      rw [hn] at hm
      cases hm
      exact hmo
    refine ⟨?_, ?_⟩
    · intro a m hm hk
      rw [ht] at hm
      by_cases hpre : o.insertInto <+: a
      · obtain ⟨r, rfl⟩ := hpre
        rw [Tree.nodeAt_modifyAt_append _ c.tree n o.insertInto r hn, hnb,
          List.nil_append] at hm
        cases r with
        | nil =>
          simp only [Tree.nodeAt, Option.some.injEq] at hm
          subst hm
          have hkn : n.Typ = TreeTypeKey := by simpa using hk
          rw [hop, Tree.getWorkType_Key n opts hkn, expandNode_none] at hex
          simp only [Prod.mk.injEq, Except.ok.injEq] at hex
          rw [← hex.1]
          simp
        | cons i r =>
          simp only [Tree.nodeAt, Tree.setBranches_Branches] at hm
          cases hg : answer.get? i with
          | none => rw [hg] at hm; cases hm
          | some b =>
            rw [hg] at hm
            simp only at hm
            have hb := hans b (List.get?_mem hg)
            cases r with
            | nil =>
              simp only [Tree.nodeAt, Option.some.injEq] at hm
              subst hm
              exact hb
            | cons i2 r2 =>
              rw [Tree.nodeAt_cons_of_no_branches b i2 r2 hb] at hm
              cases hm
      · have hsh := Tree.nodeAt_modifyAt_other
          (fun n => n.setBranches (n.Branches ++ answer)) c.tree n o.insertInto a hn hpre
        rw [hm] at hsh
        cases hold : c.tree.nodeAt a with
        | none => rw [hold] at hsh; cases hsh
        | some m0 =>
          rw [hold] at hsh
          simp only [Option.map_some', Option.some.injEq, Prod.mk.injEq] at hsh
          have hty : m0.Typ = TreeTypeKey := by
            have := congrArg Tree.Typ hsh.1
            simp only [Tree.setBranches_Typ] at this
            rw [← this]; exact hk
          have := h1 a m0 hold hty
          have hl : m.Branches.length = 0 := by rw [hsh.2, this]; rfl
          exact List.length_eq_zero.mp hl
    · intro x hx
      rw [ht]
      rcases hp x hx with hx | ⟨hx, hne⟩
      · obtain ⟨i, b, hb, rfl⟩ := (mem_childOrders opts o.insertInto answer x).mp hx
        refine ⟨b, ?_, rfl⟩
        simp only
        rw [Tree.nodeAt_modifyAt_append _ c.tree n o.insertInto [i] hn]
        simp only [Tree.nodeAt, Tree.setBranches_Branches, hnb, List.nil_append, hb]
      · obtain ⟨m, hm, hmo⟩ := h2 x hx
        have hnp : ¬ o.insertInto <+: x.insertInto := by
          rintro ⟨r, hr⟩
          cases r with
          | nil => exact hne (by simpa using hr.symm)
          | cons i r =>
            rw [← hr, Tree.nodeAt_append c.tree n o.insertInto (i :: r) hn,
              Tree.nodeAt_cons_of_no_branches n i r hnb] at hm
            cases hm
        have hsh := Tree.nodeAt_modifyAt_other
          (fun n => n.setBranches (n.Branches ++ answer)) c.tree n o.insertInto x.insertInto
          hn hnp
        rw [hm] at hsh
        cases hm2 : (Tree.modifyAt (fun n => n.setBranches (n.Branches ++ answer)) c.tree
            o.insertInto).nodeAt x.insertInto with
        | none => rw [hm2] at hsh; cases hsh
        | some m2 =>
          rw [hm2] at hsh
          simp only [Option.map_some', Option.some.injEq, Prod.mk.injEq] at hsh
          refine ⟨m2, rfl, ?_⟩
          rw [hmo, ← Tree.getWorkType_label m opts, ← Tree.getWorkType_label m2 opts, hsh.1]

theorem crawl.classified_run {σ : Type} (v : Vault σ) (opts : TreeOpts) (seed : workOrder)
    (schedule : List Nat) (c : crawl σ) (hsw : c.singleWriter seed) (h : c.classified opts) :
    (crawl.run v opts c schedule).classified opts := by
  induction schedule generalizing c with
  | nil => exact h
  | cons j js ih =>
    exact ih (crawl.step v opts c j) (crawl.singleWriter_step v opts seed c j hsw)
      (crawl.classified_step v opts seed c j hsw h)

theorem crawl.classified_start {σ : Type} (opts : TreeOpts) (numWorkers : Int) (root : Tree)
    (s : σ) (hb : root.Branches = []) :
    (crawl.start opts numWorkers root s : crawl σ).classified opts := by
  have hrec := Tree.getWorkType_receiver root opts
  have hb2 : (root.getWorkType opts).2.Branches = [] := hrec.1.trans hb
  refine ⟨?_, ?_⟩
  · intro a n hn _
    simp only [crawl.start] at hn
    cases a with
    | nil =>
      simp only [Tree.nodeAt, Option.some.injEq] at hn
      rw [← hn]; exact hb2
    | cons i r =>
      rw [Tree.nodeAt_cons_of_no_branches _ i r hb2] at hn
      cases hn
  · intro o ho
    have hq : (crawl.start opts numWorkers root s : crawl σ).q.items
        = [{ insertInto := [], operation := (root.getWorkType opts).1 }] := rfl
    have hw : heldOrders (crawl.start opts numWorkers root s : crawl σ).workers = [] :=
      heldOrders_replicate_ready _
    rw [hq, hw, List.append_nil, List.mem_singleton] at ho
    subst ho
    refine ⟨(root.getWorkType opts).2, rfl, ?_⟩
    exact (Tree.getWorkType_op_congr _ _ opts hrec.2.1 hrec.2.2.1).symm

theorem crawl.keysBare_run {σ : Type} (v : Vault σ) (opts : TreeOpts) (numWorkers : Int)
    (root : Tree) (s : σ) (schedule : List Nat) (hb : root.Branches = []) :
    (crawl.run v opts (crawl.start opts numWorkers root s) schedule).tree.keysBare :=
  Tree.keysBare_of_nodeAt _
    (crawl.classified_run v opts _ schedule _ (crawl.singleWriter_start opts numWorkers root s hb)
      (crawl.classified_start opts numWorkers root s hb)).1

theorem Tree.pruneEmpty_keysBare (t : Tree) (h : t.keysBare) : t.pruneEmpty.keysBare := by
  induction t using Tree.induct with
  | h n bs ty mv v ver d ih =>
    rw [Tree.keysBare_iff] at h
    replace h : ∀ b ∈ bs, (b.Typ = TreeTypeKey → b.Branches = []) ∧ b.keysBare := h
    rw [Tree.keysBare_iff, Tree.pruneEmpty_eq, Tree.setBranches_Branches, pruneEmptyBranches_eq]
    intro c hc
    obtain ⟨b, hb, rfl⟩ := List.mem_map.mp hc
    have hbm := (List.mem_filter.mp hb).1
    obtain ⟨h1, h2⟩ := h b hbm
    by_cases hmv : b.MountVersion = 2
    · simp only [hmv, ↓reduceIte]
      refine ⟨fun hk => ?_, ih b hbm h2⟩
      rw [Tree.pruneEmpty_Typ] at hk
      rw [Tree.pruneEmpty_eq, Tree.setBranches_Branches, h1 hk]
      rfl
    · simp only [hmv, ↓reduceIte]
      exact ⟨h1, h2⟩

theorem Tree.nodesOutsideKeys_of_keysBare (t : Tree) (h : t.keysBare) :
    t.nodesOutsideKeys = t.nodesBelow.filter (fun n => decide (n.Typ ≠ TreeTypeKey)) := by
  induction t using Tree.induct with
  | h n bs ty mv v ver d ih =>
    rw [Tree.keysBare_iff] at h
    replace h : ∀ b ∈ bs, (b.Typ = TreeTypeKey → b.Branches = []) ∧ b.keysBare := h
    simp only [Tree.nodesOutsideKeys, Tree.nodesBelow]
    induction bs with
    | nil => rfl
    | cons b bs ih2 =>
      have hrest := ih2 (fun x hx => ih x (List.mem_cons_of_mem _ hx))
        (fun x hx => h x (List.mem_cons_of_mem _ hx))
      obtain ⟨h1, h2⟩ := h b (List.mem_cons_self _ _)
      have hb := ih b (List.mem_cons_self _ _) h2
      simp only [nodesOutsideKeysIn, nodesIn, List.filter_append, hrest]
      congr 1
      by_cases hk : b.Typ = TreeTypeKey
      · have hnb : b.nodesBelow = [] := by
          have := h1 hk
          cases b
          simp only [Tree.Branches] at this
          subst this
          rfl
        simp [hk, hnb, List.filter_cons]
      · simp [hk, List.filter_cons, hb]

theorem ConstructTree_pruned_keys {σ : Type} (Canonicalize : GoString → GoString)
    (numCPU : Int) (v : Vault σ) (schedule : List Nat) (path : GoString) (opts : TreeOpts)
    (s : σ) (r : Tree) (e : Option vaultError) (hk : opts.FetchKeys = false)
    (h : ConstructTree Canonicalize numCPU v schedule path opts s = some (some r, e)) :
    ∃ t1 : Tree, t1.keysBare ∧
      t1.pruneKeys.nodesBelow = t1.nodesBelow.filter (fun n => decide (n.Typ ≠ TreeTypeKey)) ∧
      r = t1.pruneKeys.sort := by
  rcases ConstructTree_cases Canonicalize numCPU v schedule path opts s _ h with
    ⟨e1, ret, s1, _, hr⟩ | ⟨ret, s1, hp, _, hr⟩
  · cases hr
  · simp only [Prod.mk.injEq, Option.some.injEq] at hr
    have hb : ret.Branches = [] := Tree.populateNodeType_Branches v _ ret s s1 none hp
    have hT := crawl.keysBare_run v opts (numWorkersOf numCPU) ret s1 schedule hb
    generalize (crawl.run v opts (crawl.start opts (numWorkersOf numCPU) ret s1) schedule).tree
      = T at hT hr
    refine ⟨if !opts.AllowDeletedKeys then T.pruneEmpty else T, ?_, ?_, ?_⟩
    · cases opts.AllowDeletedKeys
      · exact Tree.pruneEmpty_keysBare T hT
      · exact hT
    · rw [Tree.nodesBelow_pruneKeys]
      apply Tree.nodesOutsideKeys_of_keysBare
      cases opts.AllowDeletedKeys
      · exact Tree.pruneEmpty_keysBare T hT
      · exact hT
    · rw [hr.1]
      simp [postProcess, hk]

/-- C10.  After `pruneKeys` no node below the root has type Key, the fields of
the root are unchanged, and the branches kept are the branches that are not
Keys, in their previous order, each pruned in the same way; in a tree whose Key
nodes have no branches every node that is not a Key is kept, the nodes below the
root after `pruneKeys` being the previous ones without the Keys, in their
previous pre-order; a tree without a Key below the root is left as it is.  The
trees that the workers build are such trees (a Key gets no operation from
`getWorkType`, so nothing is ever appended to it), whatever the backend, the
number of workers and the schedule.  So the tree that `ConstructTree` returns
when `fetchKeys` is false contains no Key node and is the sorted `pruneKeys` of
a tree whose Key nodes have no branches; in particular for a version-2 secret
`a/b` whose key was read only to detect deletion, `ConstructTree("a")` returns
`a/` with the branch `a/b`, which has no branch. -/
theorem pruneKeys_result {σ : Type} (t : Tree) (Canonicalize : GoString → GoString)
    (numCPU : Int) (v : Vault σ) (schedule : List Nat) (path : GoString) (opts : TreeOpts)
    (s : σ) (hc : Canonicalize [97] = [97]) (hk : opts.FetchKeys = false) :
    t.pruneKeys.noKeyBelow ∧
    t.pruneKeys.setBranches [] = t.setBranches [] ∧
    t.pruneKeys.Branches
      = (t.Branches.filter (fun b => decide (b.Typ ≠ TreeTypeKey))).map Tree.pruneKeys ∧
    (t.keysBare →
      t.pruneKeys.nodesBelow = t.nodesBelow.filter (fun n => decide (n.Typ ≠ TreeTypeKey))) ∧
    (t.noKeyBelow → t.pruneKeys = t) ∧
    (∀ (numWorkers : Int) (root : Tree) (s1 : σ), root.Branches = [] →
      (crawl.run v opts (crawl.start opts numWorkers root s1) schedule).tree.keysBare) ∧
    (∀ r e, ConstructTree Canonicalize numCPU v schedule path opts s = some (some r, e) →
      r.Typ ≠ TreeTypeKey ∧ r.noKeyBelow ∧
      ∃ t1 : Tree, t1.keysBare ∧
        t1.pruneKeys.nodesBelow
          = t1.nodesBelow.filter (fun n => decide (n.Typ ≠ TreeTypeKey)) ∧
        r = t1.pruneKeys.sort) ∧
    (∀ r, ConstructTree Canonicalize numCPU versionedSecretBackend schedule [97]
        ⟨false, false, false⟩ () = some r →
      r = (some (Tree.mk [97, 47] [Tree.mk [97, 47, 98] [] TreeTypeSecret 2 [] 0 false]
        TreeTypeDir 0 [] 0 false), none)) ∧
    ConstructTree Canonicalize numCPU versionedSecretBackend [0, 0, 0, 0, 0, 0, 0, 1, 2, 0, 1] [97]
        ⟨false, false, false⟩ ()
      = some (some (Tree.mk [97, 47] [Tree.mk [97, 47, 98] [] TreeTypeSecret 2 [] 0 false]
        TreeTypeDir 0 [] 0 false), none) := by
  refine ⟨Tree.noKeyBelow_pruneKeys t, Tree.pruneKeys_setBranches_nil t, Tree.pruneKeys_Branches t,
    fun hb => ?_, Tree.pruneKeys_of_noKeyBelow t, fun numWorkers root s1 hb => ?_,
    fun r e h => ?_, fun r h => ?_, ?_⟩
  · rw [Tree.nodesBelow_pruneKeys]
    exact Tree.nodesOutsideKeys_of_keysBare t hb
  · exact crawl.keysBare_run v opts numWorkers root s1 schedule hb
  · obtain ⟨h1, h2⟩ := ConstructTree_noKey Canonicalize numCPU v schedule path opts s r e hk h
    exact ⟨h1, h2, ConstructTree_pruned_keys Canonicalize numCPU v schedule path opts s r e hk h⟩
  · exact ConstructTree_of_expanded Canonicalize numCPU versionedSecretBackend schedule [97] _ _ _
      (pruning_probe Canonicalize versionedSecretBackend hc rfl) versionedSecret_expanded rfl r h
  · unfold ConstructTree
    simp only [hc]
    rcases numWorkersOf_cases numCPU with h | h | h <;> rw [h] <;> rfl

/-- Witness of `pruneKeys_result`: in the tree that the workers build for the
version-2 secret `a/b` the Key has no branches, and `pruneKeys` keeps `a/b` and
drops its key; on a machine with three processors `ConstructTree("a")` returns
`a/` with the branch `a/b`, without a Key. -/
theorem pruneKeys_result_witness :
    (Tree.mk [97, 47] [Tree.mk [97, 47, 98]
        [Tree.mk [97, 47, 98, 58, 107] [] TreeTypeKey 2 [118] 1 false] TreeTypeSecret 2 [] 0 false]
      TreeTypeDir 0 [] 0 false).pruneKeys.nodesBelow
      = (Tree.mk [97, 47] [Tree.mk [97, 47, 98]
          [Tree.mk [97, 47, 98, 58, 107] [] TreeTypeKey 2 [118] 1 false]
          TreeTypeSecret 2 [] 0 false]
        TreeTypeDir 0 [] 0 false).nodesBelow.filter (fun n => decide (n.Typ ≠ TreeTypeKey)) ∧
    ConstructTree id 3 versionedSecretBackend [0, 0, 0, 0, 0, 0, 0, 1, 2, 0, 1] [97]
        ⟨false, false, false⟩ ()
      = some (some (Tree.mk [97, 47] [Tree.mk [97, 47, 98] [] TreeTypeSecret 2 [] 0 false]
        TreeTypeDir 0 [] 0 false), none) ∧
    (Tree.mk [97, 47] [Tree.mk [97, 47, 98] [] TreeTypeSecret 2 [] 0 false]
        TreeTypeDir 0 [] 0 false).noKeyBelow :=
  ⟨(pruneKeys_result (Tree.mk [97, 47] [Tree.mk [97, 47, 98]
        [Tree.mk [97, 47, 98, 58, 107] [] TreeTypeKey 2 [118] 1 false] TreeTypeSecret 2 [] 0 false]
      TreeTypeDir 0 [] 0 false) id 3 versionedSecretBackend [] [97]
      ⟨false, false, false⟩ () rfl rfl).2.2.2.1
      (by simp [Tree.keysBare, keysBareIn, Tree.Typ, Tree.Branches, TreeTypeKey,
        TreeTypeSecret]),
   (pruneKeys_result (Tree.mk [47] [] 0 0 [] 0 false) id 3 versionedSecretBackend [] [97]
      ⟨false, false, false⟩ () rfl rfl).2.2.2.2.2.2.2.2,
   ((pruneKeys_result (Tree.mk [47] [] 0 0 [] 0 false) id 3 versionedSecretBackend
      [0, 0, 0, 0, 0, 0, 0, 1, 2, 0, 1] [97] ⟨false, false, false⟩ () rfl rfl).2.2.2.2.2.2.1 _ _
      rfl).2.1⟩

/-! ### Distinct sibling keys in the trees that the workers build -/

theorem failingListBackend_answers (opts : TreeOpts) (operation : Nat) (node : Tree)
    (s s1 : Unit) (answer : List Tree)
    (h : expandNode failingListBackend opts operation node s = (Except.ok answer, s1)) :
    answer = [] ∨
    answer = [Tree.mk [97, 47, 120, 47] [] TreeTypeDir 1 [] 0 false,
      Tree.mk [97, 47, 121, 47] [] TreeTypeDir 1 [] 0 false,
      Tree.mk [97, 47, 122, 47] [] TreeTypeDir 1 [] 0 false] := by
  have hG : workGet failingListBackend opts node s = (Except.error vaultError.NotFound, s) := by
    cases hd : (node.Deleted && opts.FetchAllVersions) <;>
      simp [workGet, failingListBackend, hd, IsNotFound]
  have hV : workVersions failingListBackend node s = (Except.error vaultError.NotFound, s) := by
    simp [workVersions, failingListBackend]
  have hM : workMounts failingListBackend node s = (Except.ok [], s) := by
    simp [workMounts, failingListBackend]
  have hL : workList failingListBackend node s = (Except.ok [], s) ∨
      workList failingListBackend node s = (Except.error (vaultError.failure 7), s) ∨
      workList failingListBackend node s
        = (Except.ok [Tree.mk [97, 47, 120, 47] [] TreeTypeDir 0 [] 0 false,
            Tree.mk [97, 47, 121, 47] [] TreeTypeDir 0 [] 0 false,
            Tree.mk [97, 47, 122, 47] [] TreeTypeDir 0 [] 0 false], s) := by
    by_cases h1 : TrimSuffixSlash node.Name = [97]
    · right; right
      simp [workList, failingListBackend, h1, TrimRight, slash, HasSuffixSlash, TreeTypeDir]
    · by_cases h2 : TrimSuffixSlash node.Name = [97, 47, 120]
      · right; left
        simp [workList, failingListBackend, h2, IsNotFound]
      · left
        simp [workList, failingListBackend, h1, h2, IsNotFound]
  have hC : ∀ answer0 s0, collectAnswers operation node
        [(opTypeGet, workGet failingListBackend opts), (opTypeList, workList failingListBackend),
         (opTypeMounts, workMounts failingListBackend),
         (opTypeVersions, workVersions failingListBackend)] s = (Except.ok answer0, s0) →
      answer0 = [] ∨
      answer0 = [Tree.mk [97, 47, 120, 47] [] TreeTypeDir 0 [] 0 false,
            Tree.mk [97, 47, 121, 47] [] TreeTypeDir 0 [] 0 false,
            Tree.mk [97, 47, 122, 47] [] TreeTypeDir 0 [] 0 false] := by
    intro answer0 s0 h0
    by_cases b1 : operation &&& opTypeGet = 0
    · by_cases b4 : operation &&& opTypeVersions = 0
      · by_cases b2 : operation &&& opTypeList = 0
        · left
          by_cases b3 : operation &&& opTypeMounts = 0 <;>
            simp [collectAnswers, hM, b1, b2, b3, b4] at h0 <;>
              exact h0
        · rcases hL with hL | hL | hL
          · left
            by_cases b3 : operation &&& opTypeMounts = 0 <;>
              simp [collectAnswers, hM, hL, b1, b2, b3, b4] at h0 <;>
              exact h0
          · simp [collectAnswers, hL, b1, b2] at h0
          · right
            by_cases b3 : operation &&& opTypeMounts = 0 <;>
              simp [collectAnswers, hM, hL, b1, b2, b3, b4] at h0 <;>
              first | exact h0 | exact h0.symm
      · exfalso
        by_cases b2 : operation &&& opTypeList = 0
        · by_cases b3 : operation &&& opTypeMounts = 0 <;>
            simp [collectAnswers, hM, hV, b1, b2, b3, b4] at h0
        · rcases hL with hL | hL | hL <;> by_cases b3 : operation &&& opTypeMounts = 0 <;>
            simp [collectAnswers, hM, hV, hL, b1, b2, b3, b4] at h0
    · simp [collectAnswers, hG, b1] at h0
  unfold expandNode at h
  rcases hc : collectAnswers operation node
        [(opTypeGet, workGet failingListBackend opts), (opTypeList, workList failingListBackend),
         (opTypeMounts, workMounts failingListBackend),
         (opTypeVersions, workVersions failingListBackend)] s with ⟨r, s0⟩
  rw [hc] at h
  cases r with
  | error e => simp at h
  | ok answer0 =>
    rcases hC answer0 s0 hc with rfl | rfl
    · simp only [stampMountVersions, Prod.mk.injEq, Except.ok.injEq] at h
      exact Or.inl h.1.symm
    · simp only [stampMountVersions, failingListBackend, Tree.setMountVersion, Prod.mk.injEq,
        Except.ok.injEq] at h
      exact Or.inr h.1.symm

theorem failingListBackend_distinct (opts : TreeOpts) :
    distinctAnswers failingListBackend opts := by
  intro operation node s s1 answer h
  rcases failingListBackend_answers opts operation node s s1 answer h with rfl | rfl
  · exact List.Pairwise.nil
  · simp [Tree.sameKey, Tree.Name]

/-! ### Siblings with different sort keys in the trees that the workers build -/

theorem pairwise_sameKey_iff (l : List Tree) :
    l.Pairwise (fun a b => ¬ Tree.sameKey a b)
      ↔ (l.map (fun t : Tree => (t.Name, t.Version))).Nodup := by
  unfold List.Nodup
  rw [List.pairwise_map]
  constructor <;> intro h <;> refine h.imp ?_ <;> intro a b hab <;>
    simpa [Tree.sameKey] using hab

theorem map_key_set (l : List Tree) (i : Nat) (b c : Tree) (h : l.get? i = some b)
    (hn : c.Name = b.Name) (hv : c.Version = b.Version) :
    (l.set i c).map (fun t : Tree => (t.Name, t.Version))
      = l.map (fun t : Tree => (t.Name, t.Version)) := by
  induction l generalizing i with
  | nil => rfl
  | cons x xs ih =>
    cases i with
    | zero =>
      simp only [List.get?_cons_zero, Option.some.injEq] at h
      subst h
      simp [hn, hv]
    | succ i =>
      simp only [List.get?_cons_succ] at h
      simp [ih i h]

theorem Tree.distinctKeys_iff (t : Tree) :
    t.distinctKeys ↔ t.Branches.Pairwise (fun a b => ¬ Tree.sameKey a b) ∧
      ∀ b ∈ t.Branches, b.distinctKeys := by
  cases t
  simp only [Tree.distinctKeys, distinctKeysBranches_iff, Tree.Branches]

@[simp] theorem Tree.setBranches_Name (t : Tree) (bs : List Tree) :
    (t.setBranches bs).Name = t.Name := by
  cases t; rfl

@[simp] theorem Tree.setBranches_Version (t : Tree) (bs : List Tree) :
    (t.setBranches bs).Version = t.Version := by
  cases t; rfl

@[simp] theorem Tree.pruneEmpty_Name (t : Tree) : t.pruneEmpty.Name = t.Name := by
  cases t; rfl

@[simp] theorem Tree.pruneEmpty_Version (t : Tree) : t.pruneEmpty.Version = t.Version := by
  cases t; rfl

@[simp] theorem Tree.pruneKeys_Name (t : Tree) : t.pruneKeys.Name = t.Name := by
  cases t; rfl

@[simp] theorem Tree.pruneKeys_Version (t : Tree) : t.pruneKeys.Version = t.Version := by
  cases t; rfl

theorem Tree.distinctKeys_modifyAt (f : Tree → Tree) (a : List Nat) :
    ∀ (t n : Tree), t.nodeAt a = some n → t.distinctKeys → (f n).distinctKeys →
      (f n).Name = n.Name → (f n).Version = n.Version →
      (Tree.modifyAt f t a).distinctKeys ∧ (Tree.modifyAt f t a).Name = t.Name ∧
        (Tree.modifyAt f t a).Version = t.Version := by
  induction a with
  | nil =>
    intro t n hn _ hf h1 h2
    simp only [Tree.nodeAt, Option.some.injEq] at hn
    subst hn
    exact ⟨hf, h1, h2⟩
  | cons i rest ih =>
    intro t n hn ht hf h1 h2
    simp only [Tree.nodeAt] at hn
    cases hg : t.Branches.get? i with
    | none => rw [hg] at hn; cases hn
    | some b =>
      rw [hg] at hn
      simp only at hn
      rw [Tree.distinctKeys_iff] at ht
      obtain ⟨ih1, ih2, ih3⟩ := ih b n hn (ht.2 b (List.get?_mem hg)) hf h1 h2
      simp only [Tree.modifyAt, hg]
      refine ⟨?_, by simp, by simp⟩
      rw [Tree.distinctKeys_iff, Tree.setBranches_Branches]
      refine ⟨?_, ?_⟩
      · rw [pairwise_sameKey_iff, map_key_set _ i b _ hg ih2 ih3, ← pairwise_sameKey_iff]
        exact ht.1
      · intro c hc
        rcases List.mem_or_eq_of_mem_set hc with hc | rfl
        · exact ht.2 c hc
        · exact ih1

theorem Tree.distinctKeys_of_no_branches (b : Tree) (h : b.Branches = []) : b.distinctKeys := by
  rw [Tree.distinctKeys_iff, h]
  simp

theorem crawl.distinctKeys_step {σ : Type} (v : Vault σ) (opts : TreeOpts) (seed : workOrder)
    (c : crawl σ) (j : Nat) (hd : distinctAnswers v opts) (hsw : c.singleWriter seed)
    (h : c.tree.distinctKeys) : (crawl.step v opts c j).tree.distinctKeys := by
  rcases crawl.step_pending v opts seed c j hsw with ⟨ht, _⟩ |
    ⟨o, n, answer, s1, _, hn, hnb, hex, hans, ht, _⟩
  · rw [ht]; exact h
  · rw [ht]
    refine (Tree.distinctKeys_modifyAt _ o.insertInto c.tree n hn h ?_ (by simp) (by simp)).1
    rw [Tree.distinctKeys_iff, Tree.setBranches_Branches, hnb, List.nil_append]
    exact ⟨hd _ _ _ _ _ hex, fun b hb => Tree.distinctKeys_of_no_branches b (hans b hb)⟩

theorem crawl.distinctKeys_run {σ : Type} (v : Vault σ) (opts : TreeOpts)
    (numWorkers : Int) (root : Tree) (s : σ) (schedule : List Nat)
    (hd : distinctAnswers v opts) (hb : root.Branches = []) :
    (crawl.run v opts (crawl.start opts numWorkers root s) schedule).tree.distinctKeys := by
  have hstart : (crawl.start opts numWorkers root s : crawl σ).tree.distinctKeys :=
    Tree.distinctKeys_of_no_branches _ ((Tree.getWorkType_receiver root opts).1.trans hb)
  have hsw := crawl.singleWriter_start opts numWorkers root s hb
  generalize (crawl.start opts numWorkers root s : crawl σ) = c at hstart hsw
  induction schedule generalizing c with
  | nil => exact hstart
  | cons j js ih =>
    exact ih (crawl.step v opts c j) (crawl.distinctKeys_step v opts _ c j hd hsw hstart)
      (crawl.singleWriter_step v opts _ c j hsw)

theorem Tree.pruneEmpty_distinctKeys (t : Tree) (h : t.distinctKeys) :
    t.pruneEmpty.distinctKeys := by
  induction t using Tree.induct with
  | h n bs ty mv v ver d ih =>
    rw [Tree.distinctKeys_iff] at h
    replace h : bs.Pairwise (fun a b => ¬ Tree.sameKey a b) ∧ ∀ b ∈ bs, b.distinctKeys := h
    rw [Tree.distinctKeys_iff, Tree.pruneEmpty_eq, Tree.setBranches_Branches,
      pruneEmptyBranches_eq]
    refine ⟨?_, ?_⟩
    · rw [pairwise_sameKey_iff, List.map_map]
      have hk : ((fun t : Tree => (t.Name, t.Version)) ∘
          fun c : Tree => if c.MountVersion = 2 then c.pruneEmpty else c)
          = fun t : Tree => (t.Name, t.Version) := by
        funext c
        by_cases hc : c.MountVersion = 2 <;> simp [hc]
      rw [hk]
      exact ((pairwise_sameKey_iff bs).mp h.1).sublist
        (List.Sublist.map _ (List.filter_sublist _))
    · intro c hc
      obtain ⟨b, hb, rfl⟩ := List.mem_map.mp hc
      have hbm := (List.mem_filter.mp hb).1
      by_cases hmv : b.MountVersion = 2
      · simp only [hmv, ↓reduceIte]
        exact ih b hbm (h.2 b hbm)
      · simp only [hmv, ↓reduceIte]
        exact h.2 b hbm

theorem Tree.pruneKeys_distinctKeys (t : Tree) (h : t.distinctKeys) :
    t.pruneKeys.distinctKeys := by
  induction t using Tree.induct with
  | h n bs ty mv v ver d ih =>
    rw [Tree.distinctKeys_iff] at h
    replace h : bs.Pairwise (fun a b => ¬ Tree.sameKey a b) ∧ ∀ b ∈ bs, b.distinctKeys := h
    rw [Tree.distinctKeys_iff, Tree.pruneKeys_Branches]
    simp only [Tree.Branches]
    refine ⟨?_, ?_⟩
    · rw [pairwise_sameKey_iff, List.map_map]
      have hk : ((fun t : Tree => (t.Name, t.Version)) ∘ Tree.pruneKeys)
          = fun t : Tree => (t.Name, t.Version) := by
        funext c
        simp
      rw [hk]
      exact ((pairwise_sameKey_iff bs).mp h.1).sublist
        (List.Sublist.map _ (List.filter_sublist _))
    · intro c hc
      obtain ⟨b, hb, rfl⟩ := List.mem_map.mp hc
      have hbm := (List.mem_filter.mp hb).1
      exact ih b hbm (h.2 b hbm)

theorem ConstructTree_sorted_distinct {σ : Type} (Canonicalize : GoString → GoString)
    (numCPU : Int) (v : Vault σ) (schedule : List Nat) (path : GoString) (opts : TreeOpts)
    (s : σ) (r : Tree) (e : Option vaultError) (hd : distinctAnswers v opts)
    (h : ConstructTree Canonicalize numCPU v schedule path opts s = some (some r, e)) :
    ∃ t : Tree, t.distinctKeys ∧ r = t.sort := by
  rcases ConstructTree_cases Canonicalize numCPU v schedule path opts s _ h with
    ⟨e1, ret, s1, _, hr⟩ | ⟨ret, s1, hp, _, hr⟩
  · cases hr
  · simp only [Prod.mk.injEq, Option.some.injEq] at hr
    have hb : ret.Branches = [] := Tree.populateNodeType_Branches v _ ret s s1 none hp
    have hT := crawl.distinctKeys_run v opts (numWorkersOf numCPU) ret s1 schedule hd hb
    generalize (crawl.run v opts (crawl.start opts (numWorkersOf numCPU) ret s1) schedule).tree
      = T at hT hr
    rw [hr.1]
    unfold postProcess
    cases opts.AllowDeletedKeys <;> cases opts.FetchKeys
    · exact ⟨T.pruneEmpty.pruneKeys,
        Tree.pruneKeys_distinctKeys _ (Tree.pruneEmpty_distinctKeys T hT), rfl⟩
    · exact ⟨T.pruneEmpty, Tree.pruneEmpty_distinctKeys T hT, rfl⟩
    · exact ⟨T.pruneKeys, Tree.pruneKeys_distinctKeys T hT, rfl⟩
    · exact ⟨T, hT, rfl⟩

/-- C8.  Canonical order.  `sort` gives the same tree for every two trees that
differ only in the order of siblings, at any depth, when no two siblings carry
the same name and version.  The trees that the workers build are such trees when
no answer of the backend names the same child twice: every tree under
construction has siblings with different keys, whatever the number of workers
and the schedule, and the tree that `ConstructTree` returns is the sorted form
of such a tree, so every reordering of that tree sorts to the tree returned.
Two calls of `ConstructTree` against an unchanged backend (one without a store,
on which the probe succeeds and the starting node has an expansion), with any
two numbers of processors and any two schedules of the workers, return the same
tree and the same error whenever both return. -/
theorem sort_canonical {σ : Type} (t₁ t₂ : Tree) (Canonicalize : GoString → GoString)
    (numCPU numCPU2 : Int) (v : Vault σ) (v0 : Vault Unit) (schedule schedule2 : List Nat)
    (path : GoString) (opts : TreeOpts) (s : σ) :
    (t₁.shuffled t₂ → t₁.distinctKeys → t₁.sort = t₂.sort) ∧
    (distinctAnswers v opts →
      (∀ (numWorkers : Int) (root : Tree) (s1 : σ), root.Branches = [] →
        (crawl.run v opts (crawl.start opts numWorkers root s1) schedule).tree.distinctKeys) ∧
      ∀ r e, ConstructTree Canonicalize numCPU v schedule path opts s = some (some r, e) →
        ∃ t : Tree, t.distinctKeys ∧ r = t.sort ∧ ∀ t3, t.shuffled t3 → t3.sort = r) ∧
    (∀ ret X r r2,
      (Tree.mk (if Canonicalize path = [] then [slash] else Canonicalize path)
        [] 0 0 [] 0 false).populateNodeType v0 () = (none, ret, ()) →
      X.expanded v0 opts →
      (ret.getWorkType opts).2.setBranches [] = X.setBranches [] →
      ConstructTree Canonicalize numCPU v0 schedule path opts () = some r →
      ConstructTree Canonicalize numCPU2 v0 schedule2 path opts () = some r2 →
      r = r2 ∧ r = (some (postProcess opts X), none)) := by
  refine ⟨Tree.sort_eq_of_shuffled t₁ t₂, fun hd => ⟨fun numWorkers root s1 hb => ?_,
    fun r e h => ?_⟩, fun ret X r r2 hp hX hl h1 h2 => ?_⟩
  · exact crawl.distinctKeys_run v opts numWorkers root s1 schedule hd hb
  · obtain ⟨t, ht, hr⟩ :=
      ConstructTree_sorted_distinct Canonicalize numCPU v schedule path opts s r e hd h
    exact ⟨t, ht, hr, fun t3 h3 => by rw [hr]; exact (Tree.sort_eq_of_shuffled t t3 h3 ht).symm⟩
  · have e1 := ConstructTree_of_expanded Canonicalize numCPU v0 schedule path opts ret X hp hX hl
      r h1
    have e2 := ConstructTree_of_expanded Canonicalize numCPU2 v0 schedule2 path opts ret X hp hX hl
      r2 h2
    exact ⟨e1.trans e2.symm, e1⟩

/-- Witness of `sort_canonical`: the siblings `x/y`, `x/` in either order sort
to the same tree; the tree that three workers have built over the backend with
the failing listing after three steps has siblings with different keys; and
against the backend of the version-2 secret `a/b` the call on three processors
in which the workers 1 and 2 do the work and the call on one processor return
the same result. -/
theorem sort_canonical_witness :
    (Tree.mk [47] [Tree.mk [120, 47, 121] [] 2 1 [] 0 false,
        Tree.mk [120, 47] [] 1 1 [] 0 false] 0 0 [] 0 false).sort
      = (Tree.mk [47] [Tree.mk [120, 47] [] 1 1 [] 0 false,
          Tree.mk [120, 47, 121] [] 2 1 [] 0 false] 0 0 [] 0 false).sort ∧
    (crawl.run failingListBackend ⟨false, false, false⟩
      (crawl.start ⟨false, false, false⟩ 3 (Tree.mk [97] [] TreeTypeDir 0 [] 0 false) ())
      [0, 0, 1]).tree.distinctKeys ∧
    ConstructTree id 3 versionedSecretBackend [1, 2, 0, 1, 2, 1, 2, 1, 2, 1, 2, 1, 2, 0] [97]
        ⟨false, false, false⟩ ()
      = ConstructTree id 1 versionedSecretBackend [0, 0, 0, 0, 0, 0, 0] [97]
        ⟨false, false, false⟩ () :=
  ⟨(sort_canonical
      (Tree.mk [47] [Tree.mk [120, 47, 121] [] 2 1 [] 0 false,
        Tree.mk [120, 47] [] 1 1 [] 0 false] 0 0 [] 0 false)
      (Tree.mk [47] [Tree.mk [120, 47] [] 1 1 [] 0 false,
        Tree.mk [120, 47, 121] [] 2 1 [] 0 false] 0 0 [] 0 false)
      id 3 1 versionedSecretBackend versionedSecretBackend [] [] [97]
      ⟨false, false, false⟩ ()).1
    (by
      simp only [Tree.shuffled, Tree.Name, Tree.Typ, Tree.MountVersion, Tree.Value, Tree.Version,
        Tree.Deleted, Tree.Branches, true_and]
      refine ⟨Tree.mk [120, 47, 121] [] 2 1 [] 0 false, [Tree.mk [120, 47] [] 1 1 [] 0 false],
        List.Perm.swap _ _ _, ?_, ?_⟩
      · simp [Tree.shuffled, Tree.Name, Tree.Typ, Tree.MountVersion, Tree.Value, Tree.Version,
          Tree.Deleted, Tree.Branches, shuffledBranches]
      · refine ⟨Tree.mk [120, 47] [] 1 1 [] 0 false, [], List.Perm.refl _, ?_, rfl⟩
        simp [Tree.shuffled, Tree.Name, Tree.Typ, Tree.MountVersion, Tree.Value, Tree.Version,
          Tree.Deleted, Tree.Branches, shuffledBranches])
    (by
      simp [Tree.distinctKeys, distinctKeysBranches, Tree.sameKey, Tree.Name]),
   ((sort_canonical (Tree.mk [47] [] 0 0 [] 0 false) (Tree.mk [47] [] 0 0 [] 0 false)
      id 3 1 failingListBackend versionedSecretBackend [0, 0, 1] [] [97]
      ⟨false, false, false⟩ ()).2.1
      (failingListBackend_distinct ⟨false, false, false⟩)).1 3
      (Tree.mk [97] [] TreeTypeDir 0 [] 0 false) () rfl,
   by
    have h := (sort_canonical (Tree.mk [47] [] 0 0 [] 0 false) (Tree.mk [47] [] 0 0 [] 0 false)
      id 3 1 versionedSecretBackend versionedSecretBackend
      [1, 2, 0, 1, 2, 1, 2, 1, 2, 1, 2, 1, 2, 0] [0, 0, 0, 0, 0, 0, 0] [97]
      ⟨false, false, false⟩ ()).2.2 _ _ _ _
      (pruning_probe id versionedSecretBackend rfl rfl) versionedSecret_expanded rfl rfl rfl
    exact congrArg some h.1⟩

end Safe
